import Mathlib

/-!
# HttpMessageParser: a shallow embedding of `HttpParser::parseFragment`

The development embeds `src/HttpMessageParser.cpp` and `src/HttpMessageParser.h`.

Conventions of the embedding.

* A `char` is represented by its octet value, a natural number `0..255`.  Every test the
  source makes on a character (`isChar`, `isControl`, range tests, `<cctype>` predicates in
  the "C" locale) gives the same answer for a signed and for an unsigned `char` under this
  reading: octets `128..255` are never controls, digits, printable or 7-bit characters.
* Memory is a list of octets `mem`; a `std::string_view` is a `View` (address and size) and
  its content is read from `mem` when a listener hook is invoked (the mock listener of the
  test-suite copies the bytes at that moment).
* `ssize_t` and `int` fields are unbounded integers: signed overflow is undefined in C++, so the
  embedding describes every execution in which it does not occur.  `size_t` counters are
  unbounded naturals.
* The loop pointers `i` and `e` of `parseFragment` are addresses into `mem`.  The source keeps
  `i == chunk.data() + *nparsed` (the lambda `nextChar` advances both by the same amount), hence
  `chunk.substr(*nparsed - initialOutOffset, k)` is the view at `i` of size `min k (e - i)` and the
  value returned is `i - chunk.data()`.
* The listener is modelled by the list of hook invocations (`Event`) in call order.
-/

namespace HttpMessageParser

/-! ## Helpers of the anonymous namespace -/

abbrev CR : Nat := 0x0D
abbrev LF : Nat := 0x0A
abbrev SP : Nat := 0x20
abbrev HT : Nat := 0x09

/-- The `std::isdigit` predicate of the "C" locale. -/
def isdigit (c : Nat) : Bool := 48 ≤ c && c ≤ 57

/-- The `std::isxdigit` predicate of the "C" locale. -/
def isxdigit (c : Nat) : Bool :=
  (48 ≤ c && c ≤ 57) || (97 ≤ c && c ≤ 102) || (65 ≤ c && c ≤ 70)

/-- The `std::isprint` predicate of the "C" locale: SP up to the tilde. -/
def isprint (c : Nat) : Bool := 32 ≤ c && c ≤ 126

/-- The `std::tolower` function of the "C" locale. -/
def tolower (c : Nat) : Nat := if 65 ≤ c ∧ c ≤ 90 then c + 32 else c

/-- The `for` loop of `iequals`, run on the remaining characters of both views. -/
def iequalsLoop : List Nat → List Nat → Bool
  | x :: xs, y :: ys => if tolower x ≠ tolower y then false else iequalsLoop xs ys
  | _, _ => true

def iequals (a b : List Nat) : Bool :=
  if a.length ≠ b.length then false else iequalsLoop a b

/-- The `for` loop of `parseInt` with its accumulator `result`. -/
def parseIntLoop : Int → List Nat → Int
  | result, [] => result
  | result, c :: cs =>
    if isdigit c then parseIntLoop (result * 10 + (c : Int) - 48) cs else -1

def parseInt (value : List Nat) : Int := parseIntLoop 0 value

def isChar (value : Nat) : Bool := value ≤ 127

def isControl (value : Nat) : Bool := value ≤ 31 || value == 127

def isSeparator (value : Nat) : Bool :=
  value == 40 || value == 41 || value == 60 || value == 62 || value == 64 ||   -- ( ) < > @
  value == 44 || value == 59 || value == 58 || value == 92 || value == 34 ||   -- , ; : \ "
  value == 47 || value == 91 || value == 93 || value == 63 || value == 61 ||   -- / [ ] ? =
  value == 123 || value == 125 || value == SP || value == HT                   -- { } SP HT

def isToken (value : Nat) : Bool :=
  isChar value && !(isControl value || isSeparator value)

def isText (value : Nat) : Bool :=
  !isControl value || value == SP || value == HT

inductive HttpVersion where
  | UNKNOWN
  | VERSION_0_9
  | VERSION_1_0
  | VERSION_1_1
  deriving DecidableEq, Repr

def makeHttpVersion (versionMajor versionMinor : Int) : HttpVersion :=
  if versionMajor = 0 then
    if versionMinor = 9 then HttpVersion.VERSION_0_9 else HttpVersion.UNKNOWN
  else if versionMajor = 1 then
    if versionMinor = 0 then HttpVersion.VERSION_1_0
    else if versionMinor = 1 then HttpVersion.VERSION_1_1
    else HttpVersion.UNKNOWN
  else HttpVersion.UNKNOWN

/-! ## Data model of `HttpMessageParser.h` -/

inductive HttpParserState where
  | PROTOCOL_ERROR
  | MESSAGE_BEGIN
  | REQUEST_LINE_BEGIN
  | REQUEST_METHOD
  | REQUEST_ENTITY_BEGIN
  | REQUEST_ENTITY
  | REQUEST_PROTOCOL_BEGIN
  | REQUEST_PROTOCOL_T1
  | REQUEST_PROTOCOL_T2
  | REQUEST_PROTOCOL_P
  | REQUEST_PROTOCOL_SLASH
  | REQUEST_PROTOCOL_VERSION_MAJOR
  | REQUEST_PROTOCOL_VERSION_MINOR
  | REQUEST_LINE_LF
  | REQUEST_0_9_LF
  | STATUS_LINE_BEGIN
  | STATUS_PROTOCOL_BEGIN
  | STATUS_PROTOCOL_T1
  | STATUS_PROTOCOL_T2
  | STATUS_PROTOCOL_P
  | STATUS_PROTOCOL_SLASH
  | STATUS_PROTOCOL_VERSION_MAJOR
  | STATUS_PROTOCOL_VERSION_MINOR
  | STATUS_CODE_BEGIN
  | STATUS_CODE
  | STATUS_MESSAGE_BEGIN
  | STATUS_MESSAGE
  | STATUS_MESSAGE_LF
  | HEADER_NAME_BEGIN
  | HEADER_NAME
  | HEADER_COLON
  | HEADER_VALUE_BEGIN
  | HEADER_VALUE
  | HEADER_VALUE_LF
  | HEADER_VALUE_END
  | HEADER_END_LF
  | LWS_BEGIN
  | LWS_LF
  | LWS_SP_HT_BEGIN
  | LWS_SP_HT
  | CONTENT_BEGIN
  | CONTENT
  | CONTENT_ENDLESS
  | CONTENT_CHUNK_SIZE_BEGIN
  | CONTENT_CHUNK_SIZE
  | CONTENT_CHUNK_LF1
  | CONTENT_CHUNK_BODY
  | CONTENT_CHUNK_LF2
  | CONTENT_CHUNK_CR3
  | CONTENT_CHUNK_LF3
  deriving DecidableEq, Repr

inductive HttpParseMode where
  | MESSAGE
  | REQUEST
  | RESPONSE
  deriving DecidableEq, Repr

/-- A `std::string_view`: the address of its first byte and its size. -/
structure View where
  data : Nat
  size : Nat
  deriving DecidableEq, Repr

/-- The bytes a view denotes in memory `mem`. -/
def View.read (mem : List Nat) (v : View) : List Nat := (mem.drop v.data).take v.size

/-- The `empty()` test of a string view. -/
def View.empty (v : View) : Bool := v.size == 0

/-- The hooks of `HttpListener`, one constructor per virtual method, with the copied
arguments.  The three overloads of `onMessageBegin` get three constructors. -/
inductive Event where
  | onMessageBeginRequest (method entity : List Nat) (version : HttpVersion)
  | onMessageBeginResponse (version : HttpVersion) (code : Int) (text : List Nat)
  | onMessageBegin
  | onMessageHeader (name value : List Nat)
  | onMessageHeaderEnd
  | onMessageContent (chunk : List Nat)
  | onMessageEnd
  | onProtocolError
  deriving DecidableEq, Repr

/-- The data members of `HttpParser` (the listener pointer is the event log). -/
structure HttpParser where
  _mode : HttpParseMode
  _state : HttpParserState
  _bytesReceived : Nat
  _lwsNext : HttpParserState
  _lwsNull : HttpParserState
  _method : View
  _entity : View
  _versionMajor : Int
  _versionMinor : Int
  _code : Int
  _message : View
  _name : View
  _value : View
  _chunked : Bool
  _contentLength : Int
  deriving DecidableEq, Repr

/-- The constructor `HttpParser(mode, listener)` with the default member initialisers.
`_lwsNext` and `_lwsNull` have no initialiser in the source; they are written before they
are read, and the embedding starts them at `PROTOCOL_ERROR`. -/
def HttpParser.new (mode : HttpParseMode) : HttpParser :=
  { _mode := mode
    _state := HttpParserState.MESSAGE_BEGIN
    _bytesReceived := 0
    _lwsNext := HttpParserState.PROTOCOL_ERROR
    _lwsNull := HttpParserState.PROTOCOL_ERROR
    _method := ⟨0, 0⟩
    _entity := ⟨0, 0⟩
    _versionMajor := 0
    _versionMinor := 0
    _code := 0
    _message := ⟨0, 0⟩
    _name := ⟨0, 0⟩
    _value := ⟨0, 0⟩
    _chunked := false
    _contentLength := -1 }

def HttpParser.isContentExpected (p : HttpParser) : Bool :=
  p._contentLength > 0 || p._chunked || (p._contentLength < 0 && p._mode ≠ HttpParseMode.REQUEST)

def HttpParser.reset (p : HttpParser) : HttpParser :=
  { p with _state := HttpParserState.MESSAGE_BEGIN, _bytesReceived := 0 }

/-! ## `HttpParser::parseFragment` -/

/-- `static_cast<size_t>` of an `ssize_t` (64-bit two's complement). -/
def toSizeT (x : Int) : Nat := if 0 ≤ x then x.toNat else (x + 2 ^ 64).toNat

/-- The view `chunk.substr(*nparsed - initialOutOffset, count)`, for the chunk that ends at
address `e` and the scan position `i`. -/
def substr (e i count : Nat) : View := ⟨i, min count (e - i)⟩

/-- The view `chunk.substr(*nparsed - initialOutOffset)`. -/
def substrFrom (e i : Nat) : View := ⟨i, e - i⟩

/-- The `_bytesReceived += n` part of the lambda `nextChar`; the pointer `i` (and with it
`*nparsed`) is advanced in `Cursor.i`. -/
def HttpParser.nextChar (p : HttpParser) (n : Nat) : HttpParser :=
  { p with _bytesReceived := p._bytesReceived + n }

/-- What one iteration of the `while` loop leaves behind: the parser, the pointer `i` and the
hooks invoked during the iteration. -/
structure Cursor where
  p : HttpParser
  i : Nat
  out : List Event
  deriving DecidableEq, Repr

/-- The error branch: `_listener->onProtocolError(); _state = PROTOCOL_ERROR; break;`. -/
def protocolError (p : HttpParser) (i : Nat) : Cursor × Bool :=
  (⟨{ p with _state := HttpParserState.PROTOCOL_ERROR }, i, [Event.onProtocolError]⟩, false)

/-- The branch ending with `nextChar(); break;` after the member updates that gave `p`. -/
def advance (p : HttpParser) (i : Nat) : Cursor × Bool :=
  (⟨p.nextChar 1, i + 1, []⟩, false)

/-- The branch `if (*i != expected) error else { _state = next; nextChar(); }`. -/
def expectChar (p : HttpParser) (i c expected : Nat) (next : HttpParserState) : Cursor × Bool :=
  if c ≠ expected then protocolError p i
  else advance { p with _state := next } i

/-- Body of `case STATUS_CODE` (also reached by falling through from `STATUS_CODE_BEGIN`). -/
def caseStatusCode (p : HttpParser) (i c : Nat) : Cursor × Bool :=
  if isdigit c then
    advance { p with _code := p._code * 10 + (c : Int) - 48 } i
  else if c = SP then
    advance { p with _state := HttpParserState.STATUS_MESSAGE_BEGIN } i
  else if c = CR then
    advance { p with _state := HttpParserState.STATUS_MESSAGE_LF } i
  else
    protocolError p i

/-- Body of `case CONTENT_CHUNK_SIZE` (also reached by falling through from
`CONTENT_CHUNK_SIZE_BEGIN`). -/
def caseContentChunkSize (p : HttpParser) (i c : Nat) : Cursor × Bool :=
  if c = CR then
    advance { p with _state := HttpParserState.CONTENT_CHUNK_LF1 } i
  else if 48 ≤ c ∧ c ≤ 57 then
    advance { p with _contentLength := p._contentLength * 16 + (c : Int) - 48 } i
  else if 97 ≤ c ∧ c ≤ 102 then
    advance { p with _contentLength := p._contentLength * 16 + 10 + (c : Int) - 97 } i
  else if 65 ≤ c ∧ c ≤ 70 then
    advance { p with _contentLength := p._contentLength * 16 + 10 + (c : Int) - 65 } i
  else
    protocolError p i

/-- The literal `"Content-Length"`. -/
def strContentLength : List Nat :=
  [67, 111, 110, 116, 101, 110, 116, 45, 76, 101, 110, 103, 116, 104]

/-- The literal `"Transfer-Encoding"`. -/
def strTransferEncoding : List Nat :=
  [84, 114, 97, 110, 115, 102, 101, 114, 45, 69, 110, 99, 111, 100, 105, 110, 103]

/-- The literal `"chunked"`. -/
def strChunked : List Nat := [99, 104, 117, 110, 107, 101, 100]

/-- Body of `case HEADER_VALUE_END`. -/
def caseHeaderValueEnd (mem : List Nat) (p : HttpParser) (i : Nat) : Cursor × Bool :=
  let name := p._name.read mem
  let value := p._value.read mem
  let p1 : HttpParser :=
    if iequals name strContentLength then { p with _contentLength := parseInt value }
    else if iequals name strTransferEncoding then
      (if iequals value strChunked then { p with _chunked := true } else p)
    else p
  let out : List Event :=
    if iequals name strContentLength then [Event.onMessageHeader name value]
    else if iequals name strTransferEncoding then
      (if iequals value strChunked then [] else [Event.onMessageHeader name value])
    else [Event.onMessageHeader name value]
  (⟨{ p1 with _name := ⟨0, 0⟩, _value := ⟨0, 0⟩, _state := HttpParserState.HEADER_NAME_BEGIN }, i, out⟩,
    false)

/-- One iteration of `while (i != e) switch (_state) ...`, entered with `i != e`.  The
Boolean is `true` when the iteration leaves through `goto done`. -/
def step (mem : List Nat) (e : Nat) (p : HttpParser) (i : Nat) : Cursor × Bool :=
  let c : Nat := mem.getD i 0
  match p._state with
  | HttpParserState.MESSAGE_BEGIN =>
    let p := { p with _contentLength := -1 }
    match p._mode with
    | HttpParseMode.REQUEST =>
      (⟨{ p with _state := HttpParserState.REQUEST_LINE_BEGIN, _versionMajor := 0,
                 _versionMinor := 0 }, i, []⟩, false)
    | HttpParseMode.RESPONSE =>
      (⟨{ p with _state := HttpParserState.STATUS_LINE_BEGIN, _code := 0, _versionMajor := 0,
                 _versionMinor := 0 }, i, []⟩, false)
    | HttpParseMode.MESSAGE =>
      (⟨{ p with _state := HttpParserState.HEADER_NAME_BEGIN }, i, [Event.onMessageBegin]⟩, false)
  | HttpParserState.REQUEST_LINE_BEGIN =>
    if isToken c then
      advance { p with _state := HttpParserState.REQUEST_METHOD, _method := substr e i 1 } i
    else protocolError p i
  | HttpParserState.REQUEST_METHOD =>
    if c = SP then
      advance { p with _state := HttpParserState.REQUEST_ENTITY_BEGIN } i
    else if isToken c then
      advance { p with _method := ⟨p._method.data, p._method.size + 1⟩ } i
    else protocolError p i
  | HttpParserState.REQUEST_ENTITY_BEGIN =>
    if isprint c then
      advance { p with _entity := substr e i 1, _state := HttpParserState.REQUEST_ENTITY } i
    else protocolError p i
  | HttpParserState.REQUEST_ENTITY =>
    if c = SP then
      advance { p with _state := HttpParserState.REQUEST_PROTOCOL_BEGIN } i
    else if isprint c then
      advance { p with _entity := ⟨p._entity.data, p._entity.size + 1⟩ } i
    else if c = CR then
      advance { p with _state := HttpParserState.REQUEST_0_9_LF } i
    else protocolError p i
  | HttpParserState.REQUEST_0_9_LF =>
    if c = LF then
      (⟨p, i, [Event.onMessageBeginRequest (p._method.read mem) (p._entity.read mem)
                 HttpVersion.VERSION_0_9,
               Event.onMessageHeaderEnd, Event.onMessageEnd]⟩, true)
    else protocolError p i
  | HttpParserState.REQUEST_PROTOCOL_BEGIN =>
    expectChar p i c 72 HttpParserState.REQUEST_PROTOCOL_T1          -- H
  | HttpParserState.REQUEST_PROTOCOL_T1 =>
    expectChar p i c 84 HttpParserState.REQUEST_PROTOCOL_T2          -- T
  | HttpParserState.REQUEST_PROTOCOL_T2 =>
    expectChar p i c 84 HttpParserState.REQUEST_PROTOCOL_P           -- T
  | HttpParserState.REQUEST_PROTOCOL_P =>
    expectChar p i c 80 HttpParserState.REQUEST_PROTOCOL_SLASH       -- P
  | HttpParserState.REQUEST_PROTOCOL_SLASH =>
    expectChar p i c 47 HttpParserState.REQUEST_PROTOCOL_VERSION_MAJOR  -- /
  | HttpParserState.REQUEST_PROTOCOL_VERSION_MAJOR =>
    if c = 46 then                                                   -- .
      advance { p with _state := HttpParserState.REQUEST_PROTOCOL_VERSION_MINOR } i
    else if !isdigit c then protocolError p i
    else advance { p with _versionMajor := p._versionMajor * 10 + (c : Int) - 48 } i
  | HttpParserState.REQUEST_PROTOCOL_VERSION_MINOR =>
    if c = CR then
      advance { p with _state := HttpParserState.REQUEST_LINE_LF } i
    else if !isdigit c then protocolError p i
    else advance { p with _versionMinor := p._versionMinor * 10 + (c : Int) - 48 } i
  | HttpParserState.REQUEST_LINE_LF =>
    if c = LF then
      let p := p.nextChar 1
      let httpVersion := makeHttpVersion p._versionMajor p._versionMinor
      if httpVersion ≠ HttpVersion.UNKNOWN then
        (⟨{ p with _state := HttpParserState.HEADER_NAME_BEGIN }, i + 1,
          [Event.onMessageBeginRequest (p._method.read mem) (p._entity.read mem) httpVersion]⟩,
         false)
      else
        (⟨{ p with _state := HttpParserState.PROTOCOL_ERROR }, i + 1, [Event.onProtocolError]⟩,
         false)
    else protocolError p i
  | HttpParserState.STATUS_LINE_BEGIN =>
    expectChar p i c 72 HttpParserState.STATUS_PROTOCOL_T1
  | HttpParserState.STATUS_PROTOCOL_BEGIN =>
    expectChar p i c 72 HttpParserState.STATUS_PROTOCOL_T1
  | HttpParserState.STATUS_PROTOCOL_T1 =>
    expectChar p i c 84 HttpParserState.STATUS_PROTOCOL_T2
  | HttpParserState.STATUS_PROTOCOL_T2 =>
    expectChar p i c 84 HttpParserState.STATUS_PROTOCOL_P
  | HttpParserState.STATUS_PROTOCOL_P =>
    expectChar p i c 80 HttpParserState.STATUS_PROTOCOL_SLASH
  | HttpParserState.STATUS_PROTOCOL_SLASH =>
    expectChar p i c 47 HttpParserState.STATUS_PROTOCOL_VERSION_MAJOR
  | HttpParserState.STATUS_PROTOCOL_VERSION_MAJOR =>
    if c = 46 then
      advance { p with _state := HttpParserState.STATUS_PROTOCOL_VERSION_MINOR } i
    else if !isdigit c then protocolError p i
    else advance { p with _versionMajor := p._versionMajor * 10 + (c : Int) - 48 } i
  | HttpParserState.STATUS_PROTOCOL_VERSION_MINOR =>
    if c = SP then
      advance { p with _state := HttpParserState.STATUS_CODE_BEGIN } i
    else if !isdigit c then protocolError p i
    else advance { p with _versionMinor := p._versionMinor * 10 + (c : Int) - 48 } i
  | HttpParserState.STATUS_CODE_BEGIN =>
    if !isdigit c then protocolError p i
    else caseStatusCode { p with _state := HttpParserState.STATUS_CODE } i c
  | HttpParserState.STATUS_CODE => caseStatusCode p i c
  | HttpParserState.STATUS_MESSAGE_BEGIN =>
    if isText c then
      advance { p with _state := HttpParserState.STATUS_MESSAGE, _message := substr e i 1 } i
    else protocolError p i
  | HttpParserState.STATUS_MESSAGE =>
    if isText c ∧ c ≠ CR ∧ c ≠ LF then
      advance { p with _message := ⟨p._message.data, p._message.size + 1⟩ } i
    else if c = CR then
      advance { p with _state := HttpParserState.STATUS_MESSAGE_LF } i
    else protocolError p i
  | HttpParserState.STATUS_MESSAGE_LF =>
    if c = LF then
      let p := p.nextChar 1
      let httpVersion := makeHttpVersion p._versionMajor p._versionMinor
      if httpVersion ≠ HttpVersion.UNKNOWN then
        (⟨{ p with _state := HttpParserState.HEADER_NAME_BEGIN }, i + 1,
          [Event.onMessageBeginResponse httpVersion p._code (p._message.read mem)]⟩, false)
      else
        (⟨{ p with _state := HttpParserState.PROTOCOL_ERROR }, i + 1, [Event.onProtocolError]⟩,
         false)
    else protocolError p i
  | HttpParserState.HEADER_NAME_BEGIN =>
    if isToken c then
      advance { p with _name := substr e i 1, _state := HttpParserState.HEADER_NAME } i
    else if c = CR then
      advance { p with _state := HttpParserState.HEADER_END_LF } i
    else protocolError p i
  | HttpParserState.HEADER_NAME =>
    if isToken c then
      advance { p with _name := ⟨p._name.data, p._name.size + 1⟩ } i
    else if c = 58 then                                              -- :
      advance { p with _state := HttpParserState.LWS_BEGIN,
                       _lwsNext := HttpParserState.HEADER_VALUE_BEGIN,
                       _lwsNull := HttpParserState.HEADER_VALUE_END } i
    else if c = CR then
      advance { p with _state := HttpParserState.LWS_LF,
                       _lwsNext := HttpParserState.HEADER_COLON,
                       _lwsNull := HttpParserState.PROTOCOL_ERROR } i
    else protocolError p i
  | HttpParserState.HEADER_COLON =>
    if c = 58 then
      advance { p with _state := HttpParserState.LWS_BEGIN,
                       _lwsNext := HttpParserState.HEADER_VALUE_BEGIN,
                       _lwsNull := HttpParserState.HEADER_VALUE_END } i
    else protocolError p i
  | HttpParserState.LWS_BEGIN =>
    if c = CR then
      advance { p with _state := HttpParserState.LWS_LF } i
    else if c = SP ∨ c = HT then
      advance { p with _state := HttpParserState.LWS_SP_HT } i
    else if isprint c then
      (⟨{ p with _state := p._lwsNext }, i, []⟩, false)
    else protocolError p i
  | HttpParserState.LWS_LF =>
    if c = LF then
      advance { p with _state := HttpParserState.LWS_SP_HT_BEGIN } i
    else protocolError p i
  | HttpParserState.LWS_SP_HT_BEGIN =>
    if c = SP ∨ c = HT then
      let p := if !p._value.empty then { p with _value := ⟨p._value.data, p._value.size + 3⟩ }
               else p
      advance { p with _state := HttpParserState.LWS_SP_HT } i
    else
      (⟨{ p with _state := p._lwsNull }, i,
        if p._lwsNull = HttpParserState.PROTOCOL_ERROR then [Event.onProtocolError] else []⟩,
       false)
  | HttpParserState.LWS_SP_HT =>
    if c = SP ∨ c = HT then
      let p := if !p._value.empty then { p with _value := ⟨p._value.data, p._value.size + 1⟩ }
               else p
      advance p i
    else
      (⟨{ p with _state := p._lwsNext }, i, []⟩, false)
  | HttpParserState.HEADER_VALUE_BEGIN =>
    if isText c then
      advance { p with _value := substr e i 1, _state := HttpParserState.HEADER_VALUE } i
    else if c = CR then
      advance { p with _state := HttpParserState.HEADER_VALUE_LF } i
    else protocolError p i
  | HttpParserState.HEADER_VALUE =>
    if c = CR then
      advance { p with _state := HttpParserState.LWS_LF,
                       _lwsNext := HttpParserState.HEADER_VALUE,
                       _lwsNull := HttpParserState.HEADER_VALUE_END } i
    else if isText c then
      advance { p with _value := ⟨p._value.data, p._value.size + 1⟩ } i
    else protocolError p i
  | HttpParserState.HEADER_VALUE_LF =>
    if c = LF then
      advance { p with _state := HttpParserState.HEADER_VALUE_END } i
    else protocolError p i
  | HttpParserState.HEADER_VALUE_END => caseHeaderValueEnd mem p i
  | HttpParserState.HEADER_END_LF =>
    if c = LF then
      let p := if p.isContentExpected then { p with _state := HttpParserState.CONTENT_BEGIN }
               else { p with _state := HttpParserState.MESSAGE_BEGIN }
      let p := p.nextChar 1
      if !p.isContentExpected then
        (⟨p, i + 1, [Event.onMessageHeaderEnd, Event.onMessageEnd]⟩, true)
      else
        (⟨p, i + 1, [Event.onMessageHeaderEnd]⟩, false)
    else protocolError p i
  | HttpParserState.CONTENT_BEGIN =>
    if p._chunked then
      (⟨{ p with _state := HttpParserState.CONTENT_CHUNK_SIZE_BEGIN }, i, []⟩, false)
    else if p._contentLength ≥ 0 then
      (⟨{ p with _state := HttpParserState.CONTENT }, i, []⟩, false)
    else
      (⟨{ p with _state := HttpParserState.CONTENT_ENDLESS }, i, []⟩, false)
  | HttpParserState.CONTENT_ENDLESS =>
    let c := substrFrom e i
    (⟨p.nextChar c.size, i + c.size, [Event.onMessageContent (c.read mem)]⟩, false)
  | HttpParserState.CONTENT =>
    let chunkSize := min (toSizeT p._contentLength) (e - i)
    let p := { p with _contentLength := p._contentLength - (chunkSize : Int) }
    let p := p.nextChar chunkSize
    let content := Event.onMessageContent ((substr e i chunkSize).read mem)
    let p := if p._contentLength = 0 then { p with _state := HttpParserState.MESSAGE_BEGIN } else p
    if p._state = HttpParserState.MESSAGE_BEGIN then
      (⟨p, i + chunkSize, [content, Event.onMessageEnd]⟩, true)
    else
      (⟨p, i + chunkSize, [content]⟩, false)
  | HttpParserState.CONTENT_CHUNK_SIZE_BEGIN =>
    if !isxdigit c then protocolError p i
    else
      caseContentChunkSize
        { p with _state := HttpParserState.CONTENT_CHUNK_SIZE, _contentLength := 0 } i c
  | HttpParserState.CONTENT_CHUNK_SIZE => caseContentChunkSize p i c
  | HttpParserState.CONTENT_CHUNK_LF1 =>
    if c ≠ LF then protocolError p i
    else
      let p := if p._contentLength ≠ 0 then { p with _state := HttpParserState.CONTENT_CHUNK_BODY }
               else { p with _state := HttpParserState.CONTENT_CHUNK_CR3 }
      advance p i
  | HttpParserState.CONTENT_CHUNK_BODY =>
    if p._contentLength ≠ 0 then
      let chunkSize := min (toSizeT p._contentLength) (e - i)
      let p := { p with _contentLength := p._contentLength - (chunkSize : Int) }
      let p := p.nextChar chunkSize
      (⟨p, i + chunkSize, [Event.onMessageContent ((substr e i chunkSize).read mem)]⟩, false)
    else if c = CR then
      advance { p with _state := HttpParserState.CONTENT_CHUNK_LF2 } i
    else protocolError p i
  | HttpParserState.CONTENT_CHUNK_LF2 =>
    expectChar p i c LF HttpParserState.CONTENT_CHUNK_SIZE
  | HttpParserState.CONTENT_CHUNK_CR3 =>
    expectChar p i c CR HttpParserState.CONTENT_CHUNK_LF3
  | HttpParserState.CONTENT_CHUNK_LF3 =>
    if c ≠ LF then protocolError p i
    else
      let p := p.nextChar 1
      (⟨{ p with _state := HttpParserState.MESSAGE_BEGIN }, i + 1, [Event.onMessageEnd]⟩, true)
  | HttpParserState.PROTOCOL_ERROR => (⟨p, i, []⟩, true)

/-- The `while (i != e)` loop started at pointer `i`, with a bound on the number of
iterations; `none` when the bound is used up.  The result holds the parser, the final pointer,
the hooks invoked, and whether the loop was left through `goto done`. -/
def loop (mem : List Nat) (e : Nat) : Nat → HttpParser → Nat → Option (Cursor × Bool)
  | 0, _, _ => none
  | fuel + 1, p, i =>
    if i = e then some (⟨p, i, []⟩, false)
    else
      match step mem e p i with
      | (l, true) => some (l, true)
      | (l, false) =>
        match loop mem e fuel l.p l.i with
        | none => none
        | some (l', d) => some (⟨l'.p, l'.i, l.out ++ l'.out⟩, d)

/-- What a call of `parseFragment` yields: the parser afterwards, the hooks invoked in call
order, and the returned number of bytes. -/
structure ParseResult where
  p : HttpParser
  events : List Event
  n : Nat
  deriving DecidableEq, Repr

/-- The code after the loop ("we've reached the end of the chunk") up to `done:`. -/
def afterLoop (p : HttpParser) : HttpParser × List Event :=
  if p._state = HttpParserState.CONTENT_BEGIN then
    if p._contentLength < 0 ∧ !p._chunked ∧ p._mode ≠ HttpParseMode.MESSAGE then
      ({ p with _state := HttpParserState.MESSAGE_BEGIN }, [Event.onMessageEnd])
    else (p, [])
  else (p, [])

/-- The iteration bound given to `loop`: four iterations per byte of the chunk and four more
(every state reachable from a new parser needs fewer, see `loop_total`). -/
def loopFuel (chunk : View) : Nat := 4 * chunk.size + 4

/-- The method `HttpParser::parseFragment(chunk)`, for a chunk lying in memory `mem`. -/
def parseFragment (mem : List Nat) (chunk : View) (p : HttpParser) : Option ParseResult :=
  match loop mem (chunk.data + chunk.size) (loopFuel chunk) p chunk.data with
  | none => none
  | some (l, true) => some ⟨l.p, l.out, l.i - chunk.data⟩
  | some (l, false) =>
    let r := afterLoop l.p
    some ⟨r.1, l.out ++ r.2, l.i - chunk.data⟩

/-- The octets of a string literal (ASCII). -/
def bytes (s : String) : List Nat := s.toList.map Char.toNat

/-! ## Executions of the loop, invariants -/

/-- The test made after the loop: the parser sits at `CONTENT_BEGIN`, no length is known, the
body is not chunked and the mode is not `MESSAGE`; the end of the chunk then ends the message. -/
def shortcut (p : HttpParser) : Prop :=
  p._state = HttpParserState.CONTENT_BEGIN ∧ p._contentLength < 0 ∧ p._chunked = false ∧
    p._mode ≠ HttpParseMode.MESSAGE

/-- Iterations of the loop of a chunk ending at `e`, none of them leaving through `goto done`:
from parser `p` at pointer `i` to parser `q` at pointer `j`, invoking the hooks `E`.  Every
parser met at the head of an iteration satisfies `S`. -/
inductive Walk (S : HttpParser → Prop) (mem : List Nat) (e : Nat) :
    HttpParser → Nat → List Event → HttpParser → Nat → Prop where
  | refl (p : HttpParser) (i : Nat) : Walk S mem e p i [] p i
  | next {p : HttpParser} {i : Nat} {l : Cursor} {E : List Event} {q : HttpParser} {j : Nat} :
      i ≠ e → S p → step mem e p i = (l, false) → Walk S mem e l.p l.i E q j →
      Walk S mem e p i (l.out ++ E) q j

/-- A complete execution of the loop of a chunk ending at `e`, started with parser `p` at
pointer `i`: it stops because `i = e` (flag `false`) or through `goto done` (flag `true`).
Every parser met at the head of the loop satisfies `S`. -/
inductive Run (S : HttpParser → Prop) (mem : List Nat) (e : Nat) :
    HttpParser → Nat → Cursor → Bool → Prop where
  | exit (p : HttpParser) : S p → Run S mem e p e ⟨p, e, []⟩ false
  | done {p : HttpParser} {i : Nat} {l : Cursor} :
      i ≠ e → S p → step mem e p i = (l, true) → Run S mem e p i l true
  | next {p : HttpParser} {i : Nat} {l l' : Cursor} {d : Bool} :
      i ≠ e → S p → step mem e p i = (l, false) → Run S mem e l.p l.i l' d →
      Run S mem e p i ⟨l'.p, l'.i, l.out ++ l'.out⟩ d

/-- An upper bound on the number of iterations a state can make in a row without moving `i`. -/
def rank (p : HttpParser) : Nat :=
  match p._state with
  | HttpParserState.PROTOCOL_ERROR => 0
  | HttpParserState.MESSAGE_BEGIN => 2
  | HttpParserState.HEADER_VALUE_END => 2
  | HttpParserState.CONTENT_BEGIN => 2
  | HttpParserState.LWS_BEGIN => 2
  | HttpParserState.LWS_SP_HT => 2
  | HttpParserState.LWS_SP_HT_BEGIN => 3
  | _ => 1

/-- The continuations the header states store before they enter an `LWS_*` state. -/
def lwsOk (p : HttpParser) : Prop :=
  (p._lwsNext = HttpParserState.HEADER_VALUE_BEGIN ∨ p._lwsNext = HttpParserState.HEADER_COLON ∨
    p._lwsNext = HttpParserState.HEADER_VALUE) ∧
  (p._lwsNull = HttpParserState.HEADER_VALUE_END ∨ p._lwsNull = HttpParserState.PROTOCOL_ERROR)

def inLws (s : HttpParserState) : Bool :=
  s == HttpParserState.LWS_BEGIN || s == HttpParserState.LWS_LF ||
  s == HttpParserState.LWS_SP_HT_BEGIN || s == HttpParserState.LWS_SP_HT

/-- The states in which `_contentLength` counts bytes of a body or of a chunk. -/
def inCounted (s : HttpParserState) : Bool :=
  s == HttpParserState.CONTENT || s == HttpParserState.CONTENT_CHUNK_SIZE ||
  s == HttpParserState.CONTENT_CHUNK_LF1 || s == HttpParserState.CONTENT_CHUNK_BODY ||
  s == HttpParserState.CONTENT_CHUNK_LF2

/-- The states that hand bytes of the chunk to `onMessageContent`. -/
def contentState (s : HttpParserState) : Prop :=
  s = HttpParserState.CONTENT ∨ s = HttpParserState.CONTENT_ENDLESS ∨
    s = HttpParserState.CONTENT_CHUNK_BODY

/-- The invariant of the parser: inside the `LWS_*` states the stored continuations are the
ones the header states write, and a byte count in progress is not negative. -/
def WF (p : HttpParser) : Prop :=
  (inLws p._state = true → lwsOk p) ∧ (inCounted p._state = true → 0 ≤ p._contentLength)

/-- What `parseFragment` returns for a chunk starting at address `b` when its loop ends with
cursor `l` and flag `d`: the code after the loop runs unless the loop left through `goto done`. -/
def resultOf (b : Nat) (l : Cursor) (d : Bool) : ParseResult :=
  if d then ⟨l.p, l.out, l.i - b⟩
  else ⟨(afterLoop l.p).1, l.out ++ (afterLoop l.p).2, l.i - b⟩

/-- Puts one hook invocation in front of a log, merging an `onMessageContent` with an
`onMessageContent` that directly follows it. -/
def consEv (ev : Event) (acc : List Event) : List Event :=
  match ev, acc with
  | Event.onMessageContent a, Event.onMessageContent b :: rest =>
    Event.onMessageContent (a ++ b) :: rest
  | ev, acc => ev :: acc

/-- The log with every run of adjacent `onMessageContent` invocations merged into one. -/
def coalesce (E : List Event) : List Event := E.foldr consEv []

/-- Two logs that stay equal after merging adjacent `onMessageContent` invocations, whatever
follows them. -/
def SameEvents (E E' : List Event) : Prop :=
  ∀ acc : List Event, E.foldr consEv acc = E'.foldr consEv acc

/-- Feeding consecutive fragments of one buffer: the first starts at address `b`, `sizes` are
the fragment sizes in order, each call continues with the parser the previous call left.  The
result collects the hooks of all calls in order and the sum of the returned counts. -/
def feed (mem : List Nat) : Nat → List Nat → HttpParser → Option ParseResult
  | _, [], p => some ⟨p, [], 0⟩
  | b, s :: ss, p =>
    match parseFragment mem ⟨b, s⟩ p with
    | none => none
    | some r1 =>
      match feed mem (b + s) ss r1.p with
      | none => none
      | some r2 => some ⟨r2.p, r1.events ++ r2.events, r1.n + r2.n⟩

/-- No call but the last one emits `onMessageEnd` when the fragments are fed in order. -/
def quietBeforeLast (mem : List Nat) : Nat → List Nat → HttpParser → Bool
  | _, [], _ => true
  | _, [_], _ => true
  | b, s :: s' :: ss, p =>
    match parseFragment mem ⟨b, s⟩ p with
    | none => false
    | some r => decide (Event.onMessageEnd ∉ r.events) && quietBeforeLast mem (b + s) (s' :: ss) r.p

/-- The parsers a caller can obtain: a new one, the one a `parseFragment` call leaves (on
any memory and chunk), and the one `reset()` leaves. -/
inductive Reachable : HttpParser → Prop where
  | new (mode : HttpParseMode) : Reachable (HttpParser.new mode)
  | parse {p : HttpParser} (mem : List Nat) (chunk : View) (r : ParseResult) :
      Reachable p → parseFragment mem chunk p = some r → Reachable r.p
  | reset {p : HttpParser} : Reachable p → Reachable p.reset

/-- A sequence of `parseFragment` calls with no `reset()` in between; every call has its own
memory content and chunk.  The result collects the hooks of all calls in order. -/
def parseAll : List (List Nat × View) → HttpParser → Option ParseResult
  | [], p => some ⟨p, [], 0⟩
  | (mem, chunk) :: rest, p =>
    match parseFragment mem chunk p with
    | none => none
    | some r1 =>
      match parseAll rest r1.p with
      | none => none
      | some r2 => some ⟨r2.p, r1.events ++ r2.events, r1.n + r2.n⟩

/-- The log `E` of an execution from parser `p` to parser `q` either has no `onProtocolError`,
and then `q` is in `PROTOCOL_ERROR` only if `p` was, or it ends with the only `onProtocolError`
it has and `q` is in `PROTOCOL_ERROR`. -/
def ErrorLast (p : HttpParser) (E : List Event) (q : HttpParser) : Prop :=
  (Event.onProtocolError ∉ E ∧
    (q._state = HttpParserState.PROTOCOL_ERROR → p._state = HttpParserState.PROTOCOL_ERROR)) ∨
  (∃ pre, E = pre ++ [Event.onProtocolError] ∧ Event.onProtocolError ∉ pre ∧
    q._state = HttpParserState.PROTOCOL_ERROR)

/-! ## Well-formed inputs -/

/-- A parser at which the shortcut after the loop does not apply. -/
def Safe (p : HttpParser) : Prop := ¬ shortcut p

/-- The bytes `xs` stand in the buffer at address `i`. -/
def At (mem : List Nat) (i : Nat) (xs : List Nat) : Prop := ∃ rest, mem.drop i = xs ++ rest

/-- The value the version and status code states accumulate over a run of digits:
`acc = acc * 10 + c - 48` for each digit `c`. -/
def digitsVal : Int → List Nat → Int
  | acc, [] => acc
  | acc, c :: cs => digitsVal (acc * 10 + (c : Int) - 48) cs

/-- The text `HTTP/`. -/
def strHTTP : List Nat := [72, 84, 84, 80, 47]

/-- A non-empty string of token characters. -/
def TokenStr (xs : List Nat) : Prop := xs ≠ [] ∧ ∀ c ∈ xs, isToken c = true

instance (xs : List Nat) : Decidable (TokenStr xs) := by unfold TokenStr; infer_instance

/-- A non-empty string of printable characters without a space. -/
def EntityStr (xs : List Nat) : Prop := xs ≠ [] ∧ ∀ c ∈ xs, isprint c = true ∧ c ≠ SP

instance (xs : List Nat) : Decidable (EntityStr xs) := by unfold EntityStr; infer_instance

/-- A string of decimal digits. -/
def DigitStr (xs : List Nat) : Prop := ∀ c ∈ xs, isdigit c = true

instance (xs : List Nat) : Decidable (DigitStr xs) := by unfold DigitStr; infer_instance

/-- The states that accept exactly one character and move on (`expectChar`). -/
def protoNext : HttpParserState → Option (Nat × HttpParserState)
  | HttpParserState.REQUEST_PROTOCOL_BEGIN => some (72, HttpParserState.REQUEST_PROTOCOL_T1)
  | HttpParserState.REQUEST_PROTOCOL_T1 => some (84, HttpParserState.REQUEST_PROTOCOL_T2)
  | HttpParserState.REQUEST_PROTOCOL_T2 => some (84, HttpParserState.REQUEST_PROTOCOL_P)
  | HttpParserState.REQUEST_PROTOCOL_P => some (80, HttpParserState.REQUEST_PROTOCOL_SLASH)
  | HttpParserState.REQUEST_PROTOCOL_SLASH =>
    some (47, HttpParserState.REQUEST_PROTOCOL_VERSION_MAJOR)
  | HttpParserState.STATUS_LINE_BEGIN => some (72, HttpParserState.STATUS_PROTOCOL_T1)
  | HttpParserState.STATUS_PROTOCOL_BEGIN => some (72, HttpParserState.STATUS_PROTOCOL_T1)
  | HttpParserState.STATUS_PROTOCOL_T1 => some (84, HttpParserState.STATUS_PROTOCOL_T2)
  | HttpParserState.STATUS_PROTOCOL_T2 => some (84, HttpParserState.STATUS_PROTOCOL_P)
  | HttpParserState.STATUS_PROTOCOL_P => some (80, HttpParserState.STATUS_PROTOCOL_SLASH)
  | HttpParserState.STATUS_PROTOCOL_SLASH =>
    some (47, HttpParserState.STATUS_PROTOCOL_VERSION_MAJOR)
  | HttpParserState.CONTENT_CHUNK_LF2 => some (10, HttpParserState.CONTENT_CHUNK_SIZE)
  | HttpParserState.CONTENT_CHUNK_CR3 => some (13, HttpParserState.CONTENT_CHUNK_LF3)
  | _ => none

/-- The state reached from `s` by accepting the characters `xs` one by one. -/
def protoPath : HttpParserState → List Nat → Option HttpParserState
  | s, [] => some s
  | s, c :: cs =>
    match protoNext s with
    | some (c', s') => if c = c' then protoPath s' cs else none
    | none => none

/-- The simple request `m SP e CR LF`. -/
def simpleRequest (m en : List Nat) : List Nat := m ++ SP :: (en ++ [CR, LF])

/-- The request line `m SP e SP "HTTP/" maj "." min CR LF`. -/
def requestLine (m en maj min : List Nat) : List Nat :=
  m ++ SP :: (en ++ SP :: (strHTTP ++ (maj ++ 46 :: (min ++ [CR, LF]))))

/-- A non-empty header value of text characters that does not begin with a space or a tab. -/
def ValueStr (v : List Nat) : Prop :=
  v ≠ [] ∧ (∀ c ∈ v, isText c = true) ∧ v.head? ≠ some SP ∧ v.head? ≠ some HT

instance (v : List Nat) : Decidable (ValueStr v) := by unfold ValueStr; infer_instance

/-- The header line `name ": " value CR LF`. -/
def headerLine (n v : List Nat) : List Nat := n ++ 58 :: SP :: (v ++ [CR, LF])

/-- What `HEADER_VALUE_END` does to `_chunked` and `_contentLength` for a header. -/
def headerFraming (n v : List Nat) (chunked : Bool) (len : Int) : Bool × Int :=
  if iequals n strContentLength then (chunked, parseInt v)
  else if iequals n strTransferEncoding then
    (if iequals v strChunked then (true, len) else (chunked, len))
  else (chunked, len)

/-- The hooks `HEADER_VALUE_END` invokes for a header. -/
def headerEvents (n v : List Nat) : List Event :=
  if iequals n strContentLength then [Event.onMessageHeader n v]
  else if iequals n strTransferEncoding then
    (if iequals v strChunked then [] else [Event.onMessageHeader n v])
  else [Event.onMessageHeader n v]

/-- The header lines of a list of (name, value) pairs, one after the other. -/
def headerBlock : List (List Nat × List Nat) → List Nat
  | [] => []
  | h :: hs => headerLine h.1 h.2 ++ headerBlock hs

/-- What the header lines of a block do to `_chunked` and `_contentLength`, in order. -/
def blockFraming : List (List Nat × List Nat) → Bool → Int → Bool × Int
  | [], chunked, len => (chunked, len)
  | h :: hs, chunked, len =>
    blockFraming hs (headerFraming h.1 h.2 chunked len).1 (headerFraming h.1 h.2 chunked len).2

/-- The hooks invoked for the header lines of a block, in order. -/
def blockEvents : List (List Nat × List Nat) → List Event
  | [] => []
  | h :: hs => headerEvents h.1 h.2 ++ blockEvents hs

/-- A header whose name is neither `Content-Length` nor `Transfer-Encoding`. -/
def PlainHeader (h : List Nat × List Nat) : Prop :=
  TokenStr h.1 ∧ ValueStr h.2 ∧ iequals h.1 strContentLength = false ∧
    iequals h.1 strTransferEncoding = false

instance (h : List Nat × List Nat) : Decidable (PlainHeader h) := by
  unfold PlainHeader; infer_instance

/-- The major and minor digits a version is written with (`UNKNOWN` stands for an
unsupported `2.0`). -/
def versionDigits : HttpVersion → List Nat × List Nat
  | HttpVersion.VERSION_0_9 => ([48], [57])
  | HttpVersion.VERSION_1_0 => ([49], [48])
  | HttpVersion.VERSION_1_1 => ([49], [49])
  | HttpVersion.UNKNOWN => ([50], [48])

/-- A request without a body: request line with version, header lines, blank line. -/
def requestMessage (m en : List Nat) (v : HttpVersion) (hs : List (List Nat × List Nat)) :
    List Nat :=
  requestLine m en (versionDigits v).1 (versionDigits v).2 ++ (headerBlock hs ++ [CR, LF])

/-- The bytes handed to `onMessageContent`, in the order of the invocations. -/
def payload : List Event → List Nat
  | [] => []
  | Event.onMessageContent c :: E => c ++ payload E
  | _ :: E => payload E

/-- The hook is not `onMessageContent`. -/
def notContent : Event → Bool
  | Event.onMessageContent _ => false
  | _ => true

/-- A non-empty reason phrase of text characters. -/
def ReasonStr (xs : List Nat) : Prop := xs ≠ [] ∧ ∀ c ∈ xs, isText c = true

instance (xs : List Nat) : Decidable (ReasonStr xs) := by unfold ReasonStr; infer_instance

/-- The status line `"HTTP/" maj "." min SP code SP reason CR LF`. -/
def statusLine (maj min code reason : List Nat) : List Nat :=
  strHTTP ++ (maj ++ 46 :: (min ++ SP :: (code ++ SP :: (reason ++ [CR, LF]))))

/-- The first line of a message: a request line, a status line, or none (generic message). -/
inductive StartLine where
  | request (m en : List Nat) (v : HttpVersion)
  | response (v : HttpVersion) (code reason : List Nat)
  | message

/-- The mode of the parser that reads a message with this first line. -/
def StartLine.mode : StartLine → HttpParseMode
  | StartLine.request _ _ _ => HttpParseMode.REQUEST
  | StartLine.response _ _ _ => HttpParseMode.RESPONSE
  | StartLine.message => HttpParseMode.MESSAGE

/-- The bytes of the first line. -/
def StartLine.text : StartLine → List Nat
  | StartLine.request m en v => requestLine m en (versionDigits v).1 (versionDigits v).2
  | StartLine.response v code reason =>
    statusLine (versionDigits v).1 (versionDigits v).2 code reason
  | StartLine.message => []

/-- The hook that announces the message. -/
def StartLine.events : StartLine → List Event
  | StartLine.request m en v => [Event.onMessageBeginRequest m en v]
  | StartLine.response v code reason =>
    [Event.onMessageBeginResponse v (digitsVal 0 code) reason]
  | StartLine.message => [Event.onMessageBegin]

/-- The first line is well formed: method token, printable entity without space, supported
version; status code of one to nine digits, non-empty reason phrase. -/
def StartLine.Valid : StartLine → Prop
  | StartLine.request m en v => TokenStr m ∧ EntityStr en ∧ v ≠ HttpVersion.UNKNOWN
  | StartLine.response v code reason =>
    v ≠ HttpVersion.UNKNOWN ∧ code ≠ [] ∧ DigitStr code ∧ code.length ≤ 9 ∧ ReasonStr reason
  | StartLine.message => True

instance (st : StartLine) : Decidable st.Valid := by
  cases st <;> unfold StartLine.Valid <;> infer_instance

/-- The head of a message: first line, header lines, blank line. -/
def messageHead (st : StartLine) (hs : List (List Nat × List Nat)) : List Nat :=
  st.text ++ (headerBlock hs ++ [CR, LF])

/-- The hooks invoked for the head of a message with a body. -/
def headEvents (st : StartLine) (hs : List (List Nat × List Nat)) : List Event :=
  st.events ++ (blockEvents hs ++ [Event.onMessageHeaderEnd])

/-- A header other than `Content-Length` and other than `Transfer-Encoding: chunked`. -/
def OtherHeader (h : List Nat × List Nat) : Prop :=
  TokenStr h.1 ∧ ValueStr h.2 ∧ iequals h.1 strContentLength = false ∧
    (iequals h.1 strTransferEncoding = false ∨ iequals h.2 strChunked = false)

instance (h : List Nat × List Nat) : Decidable (OtherHeader h) := by
  unfold OtherHeader; infer_instance

/-- A message with a body of fixed length: first line, the headers `pre`, the header `n: v`
that gives the length, the headers `post`, blank line, body. -/
def fixedMessage (st : StartLine) (pre : List (List Nat × List Nat)) (n v : List Nat)
    (post : List (List Nat × List Nat)) (body : List Nat) : List Nat :=
  messageHead st (pre ++ (n, v) :: post) ++ body

/-- The value `CONTENT_CHUNK_SIZE` adds for one hexadecimal digit. -/
def hexDigit (c : Nat) : Int :=
  if 48 ≤ c ∧ c ≤ 57 then (c : Int) - 48
  else if 97 ≤ c ∧ c ≤ 102 then 10 + (c : Int) - 97
  else 10 + (c : Int) - 65

/-- The value `CONTENT_CHUNK_SIZE` accumulates over a run of hexadecimal digits:
`acc = acc * 16 + digit` for each one. -/
def hexVal : Int → List Nat → Int
  | acc, [] => acc
  | acc, c :: cs => hexVal (acc * 16 + hexDigit c) cs

/-- A non-empty string of hexadecimal digits, in upper or lower case. -/
def HexStr (xs : List Nat) : Prop := xs ≠ [] ∧ ∀ c ∈ xs, isxdigit c = true

instance (xs : List Nat) : Decidable (HexStr xs) := by unfold HexStr; infer_instance

/-- The parser is about to read a chunk size: it is in `CONTENT_CHUNK_SIZE_BEGIN`, or in
`CONTENT_CHUNK_SIZE` with the count at zero (where `CONTENT_CHUNK_LF2` leaves it). -/
def ChunkReady (p : HttpParser) : Prop :=
  p._state = HttpParserState.CONTENT_CHUNK_SIZE_BEGIN ∨
    (p._state = HttpParserState.CONTENT_CHUNK_SIZE ∧ p._contentLength = 0)

/-- A chunk: its size in hexadecimal digits and its data; the size is the number of data
bytes and is not zero. -/
def ChunkOk (c : List Nat × List Nat) : Prop :=
  HexStr c.1 ∧ hexVal 0 c.1 = (c.2.length : Int) ∧ c.2 ≠ []

instance (c : List Nat × List Nat) : Decidable (ChunkOk c) := by
  unfold ChunkOk; infer_instance

/-- The bytes of a chunk: size CR LF data CR LF. -/
def chunkText (c : List Nat × List Nat) : List Nat := c.1 ++ CR :: LF :: (c.2 ++ [CR, LF])

/-- The bytes of the chunks, one after the other. -/
def chunksText : List (List Nat × List Nat) → List Nat
  | [] => []
  | c :: cs => chunkText c ++ chunksText cs

/-- The terminal chunk `"0" CR LF CR LF`. -/
def lastChunk : List Nat := [48, CR, LF, CR, LF]

/-- The body of a chunked message: the chunks, then the terminal chunk. -/
def chunkedBody (chunks : List (List Nat × List Nat)) : List Nat :=
  chunksText chunks ++ lastChunk

/-- A request with a chunked body: request line, the headers `pre`, the header `n: v` that
announces the chunked encoding, the headers `post`, blank line, chunked body. -/
def chunkedRequest (m en : List Nat) (ver : HttpVersion) (pre : List (List Nat × List Nat))
    (n v : List Nat) (post : List (List Nat × List Nat))
    (chunks : List (List Nat × List Nat)) : List Nat :=
  messageHead (StartLine.request m en ver) (pre ++ (n, v) :: post) ++ chunkedBody chunks

/-- The data bytes of the chunks, one after the other. -/
def chunksData : List (List Nat × List Nat) → List Nat
  | [] => []
  | c :: cs => c.2 ++ chunksData cs

/-! ## First lines: raw form, states, log -/

/-- The states in which the first line of a request or of a response is read, with
`MESSAGE_BEGIN` before it. -/
def inStartLine (s : HttpParserState) : Bool :=
  match s with
  | HttpParserState.MESSAGE_BEGIN => true
  | HttpParserState.REQUEST_LINE_BEGIN => true
  | HttpParserState.REQUEST_METHOD => true
  | HttpParserState.REQUEST_ENTITY_BEGIN => true
  | HttpParserState.REQUEST_ENTITY => true
  | HttpParserState.REQUEST_PROTOCOL_BEGIN => true
  | HttpParserState.REQUEST_PROTOCOL_T1 => true
  | HttpParserState.REQUEST_PROTOCOL_T2 => true
  | HttpParserState.REQUEST_PROTOCOL_P => true
  | HttpParserState.REQUEST_PROTOCOL_SLASH => true
  | HttpParserState.REQUEST_PROTOCOL_VERSION_MAJOR => true
  | HttpParserState.REQUEST_PROTOCOL_VERSION_MINOR => true
  | HttpParserState.REQUEST_LINE_LF => true
  | HttpParserState.REQUEST_0_9_LF => true
  | HttpParserState.STATUS_LINE_BEGIN => true
  | HttpParserState.STATUS_PROTOCOL_BEGIN => true
  | HttpParserState.STATUS_PROTOCOL_T1 => true
  | HttpParserState.STATUS_PROTOCOL_T2 => true
  | HttpParserState.STATUS_PROTOCOL_P => true
  | HttpParserState.STATUS_PROTOCOL_SLASH => true
  | HttpParserState.STATUS_PROTOCOL_VERSION_MAJOR => true
  | HttpParserState.STATUS_PROTOCOL_VERSION_MINOR => true
  | HttpParserState.STATUS_CODE_BEGIN => true
  | HttpParserState.STATUS_CODE => true
  | HttpParserState.STATUS_MESSAGE_BEGIN => true
  | HttpParserState.STATUS_MESSAGE => true
  | HttpParserState.STATUS_MESSAGE_LF => true
  | _ => false

/-- The hook announces a request or a response: one of the two `onMessageBegin` overloads
with arguments. -/
def isStartEvent : Event → Bool
  | Event.onMessageBeginRequest _ _ _ => true
  | Event.onMessageBeginResponse _ _ _ => true
  | _ => false

/-- What a log can look like while or after the first line is read: it is empty and the parser
is still in the first line, or it holds `onProtocolError` alone and the parser is in
`PROTOCOL_ERROR`, or it begins with the announcement of the message. -/
def StartLog (E : List Event) (q : HttpParser) : Prop :=
  (E = [] ∧ inStartLine q._state = true ∧ q._mode ≠ HttpParseMode.MESSAGE) ∨
  (E = [Event.onProtocolError] ∧ q._state = HttpParserState.PROTOCOL_ERROR) ∨
  (∃ ev rest, E = ev :: rest ∧ isStartEvent ev = true)

/-- The version as written after `"HTTP/"`: the major digits alone, or the major digits, a
dot and the minor digits. -/
def versionText (maj : List Nat) (min : Option (List Nat)) : List Nat :=
  match min with
  | none => maj
  | some mn => maj ++ 46 :: mn

/-- A first line as written, before its version is resolved: a request line with method,
entity, major and minor digits, or a status line with major and minor digits, code and reason
phrase. -/
inductive RawLine where
  | request (m en maj min : List Nat)
  | response (maj min code reason : List Nat)

/-- The mode of the parser that reads this line. -/
def RawLine.mode : RawLine → HttpParseMode
  | RawLine.request _ _ _ _ => HttpParseMode.REQUEST
  | RawLine.response _ _ _ _ => HttpParseMode.RESPONSE

/-- The bytes of the line, CR LF included. -/
def RawLine.text : RawLine → List Nat
  | RawLine.request m en maj min => requestLine m en maj min
  | RawLine.response maj min code reason => statusLine maj min code reason

/-- The version `makeHttpVersion` gives for the numbers the version states accumulate over
the major and minor digits. -/
def RawLine.version : RawLine → HttpVersion
  | RawLine.request _ _ maj min => makeHttpVersion (digitsVal 0 maj) (digitsVal 0 min)
  | RawLine.response maj min _ _ => makeHttpVersion (digitsVal 0 maj) (digitsVal 0 min)

/-- The line follows the grammar the states accept: method token, printable entity without
space, digits for the version numbers (at most nine, so that no `int` overflows), a status
code of one to nine digits, a non-empty reason phrase of text octets. -/
def RawLine.WellFormed : RawLine → Prop
  | RawLine.request m en maj min =>
    TokenStr m ∧ EntityStr en ∧ DigitStr maj ∧ maj.length ≤ 9 ∧ DigitStr min ∧ min.length ≤ 9
  | RawLine.response maj min code reason =>
    DigitStr maj ∧ maj.length ≤ 9 ∧ DigitStr min ∧ min.length ≤ 9 ∧
      code ≠ [] ∧ DigitStr code ∧ code.length ≤ 9 ∧ ReasonStr reason

instance (l : RawLine) : Decidable l.WellFormed := by
  cases l <;> unfold RawLine.WellFormed <;> infer_instance

/-- Two byte strings are equal ignoring ASCII case: they are equal once every upper-case letter
is replaced by its lower-case letter. -/
def sameIgnoringCase (a b : List Nat) : Prop := a.map tolower = b.map tolower

instance (a b : List Nat) : Decidable (sameIgnoringCase a b) := by
  unfold sameIgnoringCase; infer_instance

/-- The number a string of decimal digits denotes. -/
def decimalValue (v : List Nat) : Int :=
  v.foldl (fun (acc : Int) (c : Nat) => acc * 10 + ((c : Int) - 48)) 0

/-- Where a message stands, as far as the hooks are concerned: before its announcement, in
its header block, in its body, or after a protocol error. -/
inductive Phase where
  | idle
  | headers
  | body
  | dead
  deriving DecidableEq, Repr

/-- The phase a parser state belongs to: the states of the first line (and `MESSAGE_BEGIN`)
come before the announcement, the `HEADER_*` and `LWS_*` states read the header block, the
`CONTENT*` states read the body. -/
def phaseOf (s : HttpParserState) : Phase :=
  match s with
  | HttpParserState.PROTOCOL_ERROR => Phase.dead
  | HttpParserState.HEADER_NAME_BEGIN => Phase.headers
  | HttpParserState.HEADER_NAME => Phase.headers
  | HttpParserState.HEADER_COLON => Phase.headers
  | HttpParserState.HEADER_VALUE_BEGIN => Phase.headers
  | HttpParserState.HEADER_VALUE => Phase.headers
  | HttpParserState.HEADER_VALUE_LF => Phase.headers
  | HttpParserState.HEADER_VALUE_END => Phase.headers
  | HttpParserState.HEADER_END_LF => Phase.headers
  | HttpParserState.LWS_BEGIN => Phase.headers
  | HttpParserState.LWS_LF => Phase.headers
  | HttpParserState.LWS_SP_HT_BEGIN => Phase.headers
  | HttpParserState.LWS_SP_HT => Phase.headers
  | HttpParserState.CONTENT_BEGIN => Phase.body
  | HttpParserState.CONTENT => Phase.body
  | HttpParserState.CONTENT_ENDLESS => Phase.body
  | HttpParserState.CONTENT_CHUNK_SIZE_BEGIN => Phase.body
  | HttpParserState.CONTENT_CHUNK_SIZE => Phase.body
  | HttpParserState.CONTENT_CHUNK_LF1 => Phase.body
  | HttpParserState.CONTENT_CHUNK_BODY => Phase.body
  | HttpParserState.CONTENT_CHUNK_LF2 => Phase.body
  | HttpParserState.CONTENT_CHUNK_CR3 => Phase.body
  | HttpParserState.CONTENT_CHUNK_LF3 => Phase.body
  | _ => Phase.idle

/-- The hook is a start event: one of the three `onMessageBegin` overloads. -/
def isBegin : Event → Bool
  | Event.onMessageBeginRequest _ _ _ => true
  | Event.onMessageBeginResponse _ _ _ => true
  | Event.onMessageBegin => true
  | _ => false

/-- The hook is `onMessageHeader`. -/
def isHeader : Event → Bool
  | Event.onMessageHeader _ _ => true
  | _ => false

/-- The hook is `onMessageContent`. -/
def isContent : Event → Bool
  | Event.onMessageContent _ => true
  | _ => false

/-- The hooks a phase admits and the phase each leads to; `none` for a hook that is out of
order. -/
def phaseStep : Phase → Event → Option Phase
  | Phase.dead, _ => none
  | _, Event.onProtocolError => some Phase.dead
  | Phase.idle, Event.onMessageBeginRequest _ _ _ => some Phase.headers
  | Phase.idle, Event.onMessageBeginResponse _ _ _ => some Phase.headers
  | Phase.idle, Event.onMessageBegin => some Phase.headers
  | Phase.headers, Event.onMessageHeader _ _ => some Phase.headers
  | Phase.headers, Event.onMessageHeaderEnd => some Phase.body
  | Phase.body, Event.onMessageContent _ => some Phase.body
  | Phase.body, Event.onMessageEnd => some Phase.idle
  | _, _ => none

/-- Reads a log from a phase: the phase after the last hook, `none` when a hook is out of
order. -/
def phaseRun : Phase → List Event → Option Phase
  | ph, [] => some ph
  | ph, ev :: E =>
    match phaseStep ph ev with
    | none => none
    | some ph' => phaseRun ph' E

/-- The hooks of one complete message: one start event, header events, one
`onMessageHeaderEnd`, content events, one `onMessageEnd`. -/
def CompleteGroup (g : List Event) : Prop :=
  ∃ (s : Event) (hs cs : List Event), isBegin s = true ∧ (∀ h ∈ hs, isHeader h = true) ∧
    (∀ c ∈ cs, isContent c = true) ∧
    g = s :: (hs ++ Event.onMessageHeaderEnd :: (cs ++ [Event.onMessageEnd]))

/-- A group cut short at some point: a prefix of a complete group (the empty one and the
whole one included). -/
def CutGroup (g : List Event) : Prop := ∃ g', CompleteGroup g' ∧ g <+: g'

/-- The log is a concatenation of complete groups followed by one last group that may be cut
short and that alone may end with `onProtocolError`. -/
def GroupedLog (E : List Event) : Prop :=
  ∃ (gs : List (List Event)) (last : List Event) (err : Bool),
    (∀ g ∈ gs, CompleteGroup g) ∧ CutGroup last ∧
    E = gs.flatten ++ (last ++ (if err then [Event.onProtocolError] else []))

/-- The shape of a log that `phaseRun` reads from `idle` into phase `ph`. -/
def Shape (ph : Phase) (E : List Event) : Prop :=
  ∃ gs : List (List Event), (∀ g ∈ gs, CompleteGroup g) ∧
    match ph with
    | Phase.idle => E = gs.flatten
    | Phase.headers =>
      ∃ (s : Event) (hs : List Event), isBegin s = true ∧ (∀ h ∈ hs, isHeader h = true) ∧
        E = gs.flatten ++ s :: hs
    | Phase.body =>
      ∃ (s : Event) (hs cs : List Event), isBegin s = true ∧ (∀ h ∈ hs, isHeader h = true) ∧
        (∀ c ∈ cs, isContent c = true) ∧
        E = gs.flatten ++ s :: (hs ++ Event.onMessageHeaderEnd :: cs)
    | Phase.dead => ∃ last, CutGroup last ∧ E = gs.flatten ++ (last ++ [Event.onProtocolError])

/-- The hooks that follow `onMessageHeaderEnd` in the call that reads the blank line at `j`
of a message without `Content-Length` and without chunked encoding, for a fragment ending
at `e`: a request ends at once; otherwise the rest of the fragment is handed over as content,
and when there is no rest the code after the loop ends the message unless the mode is
`MESSAGE`. -/
def bodyTail (mode : HttpParseMode) (mem : List Nat) (j e : Nat) : List Event :=
  if mode = HttpParseMode.REQUEST then [Event.onMessageEnd]
  else if j = e then (if mode = HttpParseMode.MESSAGE then [] else [Event.onMessageEnd])
  else [Event.onMessageContent (View.read mem ⟨j, e - j⟩)]

/-- The (name, value) pairs of the `onMessageHeader` hooks of a log, in order. -/
def headersOf : List Event → List (List Nat × List Nat)
  | [] => []
  | Event.onMessageHeader n v :: E => (n, v) :: headersOf E
  | _ :: E => headersOf E

/-- A non-empty run of text octets. -/
def TextStr (xs : List Nat) : Prop := xs ≠ [] ∧ ∀ c ∈ xs, isText c = true

instance (xs : List Nat) : Decidable (TextStr xs) := by unfold TextStr; infer_instance

/-- One or more SP or HT bytes. -/
def BlankStr (w : List Nat) : Prop := w ≠ [] ∧ ∀ c ∈ w, c = SP ∨ c = HT

instance (w : List Nat) : Decidable (BlankStr w) := by unfold BlankStr; infer_instance

/-- The folded header line `name ": " a CR LF w b CR LF`. -/
def foldedLine (n a w b : List Nat) : List Nat :=
  n ++ 58 :: SP :: (a ++ CR :: LF :: (w ++ (b ++ [CR, LF])))

/-- The raw bytes of a folded value: `a CR LF w b`. -/
def foldedValue (a w b : List Nat) : List Nat := a ++ CR :: LF :: (w ++ b)

/-- The 19 separators of the claim: `( ) < > @ , ; : \ " / [ ] ? = { }`, SP and HT. -/
def separators : List Nat :=
  [40, 41, 60, 62, 64, 44, 59, 58, 92, 34, 47, 91, 93, 63, 61, 123, 125, 32, 9]

/-- Every `onMessageContent` payload of the log is the content of a range of `mem` that lies
between the addresses `lo` and `hi`. -/
def ContentWithin (mem : List Nat) (lo hi : Nat) (E : List Event) : Prop :=
  ∀ c, Event.onMessageContent c ∈ E →
    ∃ j k, lo ≤ j ∧ j + k ≤ hi ∧ c = View.read mem ⟨j, k⟩

/-- The first `n` iterations of the loop from parser `p` at pointer `i`, when the loop makes
that many without leaving through `goto done`: the parser and the pointer after them. -/
def iterate (mem : List Nat) (e : Nat) : Nat → HttpParser → Nat → Option (HttpParser × Nat)
  | 0, p, i => some (p, i)
  | n + 1, p, i =>
    if i = e then none
    else
      match step mem e p i with
      | (l, false) => iterate mem e n l.p l.i
      | (_, true) => none

/-- The states that wait for the LF of the CR LF ending the first line. -/
def lfState (s : HttpParserState) : Bool :=
  s == HttpParserState.REQUEST_LINE_LF || s == HttpParserState.STATUS_MESSAGE_LF ||
    s == HttpParserState.REQUEST_0_9_LF

/-- The first line of the input that starts at address `b` ends at address `k`: the byte at
`k` is LF, the byte before it is CR, and no CR and no LF lies before that CR. -/
def FirstLineEnds (mem : List Nat) (b k : Nat) : Prop :=
  b < k ∧ mem.getD (k - 1) 0 = CR ∧ mem.getD k 0 = LF ∧
    ∀ j, b ≤ j → j + 1 < k → mem.getD j 0 ≠ CR ∧ mem.getD j 0 ≠ LF

/-- The parser at pointer `i` is still reading the first line of the input that starts at
`b`: it is in a state of the first line, the bytes read so far hold no LF, and they hold a CR
only as the last byte read, exactly when the parser waits for the LF. -/
def InFirstLine (mem : List Nat) (b : Nat) (p : HttpParser) (i : Nat) : Prop :=
  b ≤ i ∧ inStartLine p._state = true ∧ p._mode ≠ HttpParseMode.MESSAGE ∧
    (∀ j, b ≤ j → j + 1 < i → mem.getD j 0 ≠ CR ∧ mem.getD j 0 ≠ LF) ∧
    (b < i → mem.getD (i - 1) 0 ≠ LF ∧
      (mem.getD (i - 1) 0 = CR ↔ lfState p._state = true)) ∧
    (lfState p._state = true → b < i)

/-! ## Inputs of the claims -/

/-- The buffer `"Content-Length: 2\r\n\r\nab"`. -/
def bufLength2 : List Nat := bytes "Content-Length: 2\r\n\r\nab"

/-- The buffer `"HTTP/1.0 200 OK\r\n\r\nhello"`. -/
def bufResponseHello : List Nat := bytes "HTTP/1.0 200 OK\r\n\r\nhello"

/-- The buffer `"GET /\r\n"`. -/
def bufSimpleGet : List Nat := bytes "GET /\r\n"

/-- The buffer holding a chunked request with an empty body (51 bytes) followed by a bodyless
request (18 bytes). -/
def bufChunkedThenPlain : List Nat :=
  bytes "GET / HTTP/1.1\r\nTransfer-Encoding: chunked\r\n\r\n0\r\n\r\nGET / HTTP/1.1\r\n\r\n"

/-- The buffer holding a response with a reason phrase (45 bytes) followed by a response
without one (35 bytes). -/
def bufTwoResponses : List Nat :=
  bytes "HTTP/1.1 404 Not Found\r\nContent-Length: 0\r\n\r\nHTTP/1.1 200\r\nContent-Length: 0\r\n\r\n"

/-- The result of `parseFragment` on the chunk `c` of `mem`, after `reset()` when `r` is set,
on the parser left by an earlier result. -/
def thenParse (mem : List Nat) (c : View) (r : Bool) (prev : Option ParseResult) :
    Option ParseResult :=
  prev.bind (fun x => parseFragment mem c (if r then x.p.reset else x.p))

/-- The status line data of `"HTTP/1.1 200 OK"`. -/
def exResponse : StartLine :=
  StartLine.response HttpVersion.VERSION_1_1 (bytes "200") (bytes "OK")

/-- The header `Foo: the foo`. -/
def exFoo : List (List Nat × List Nat) := [(bytes "Foo", bytes "the foo")]

/-- The chunks `6 CR LF 123456 CR LF` and `a CR LF 0123456789 CR LF`. -/
def exChunks : List (List Nat × List Nat) :=
  [(bytes "6", bytes "123456"), (bytes "a", bytes "0123456789")]

/-- The buffer `"GET / HTTP/0.9\r\n\r\n"`. -/
def bufGetVersion09 : List Nat := bytes "GET / HTTP/0.9\r\n\r\n"

/-- The buffer holding the response `500 Oops` without a body (40 bytes) followed by the
status line `"HTTP/1.0 200\r\n"` (14 bytes). -/
def bufReasonThenNone : List Nat :=
  bytes "HTTP/1.0 500 Oops\r\nContent-Length: 0\r\n\r\nHTTP/1.0 200\r\n"

/-- The status lines `"HTTP/1.1 20 OK\r\n"` (16 bytes) and `"HTTP/1.1 2000 OK\r\n"`
(18 bytes), one after the other. -/
def bufShortLongCode : List Nat := bytes "HTTP/1.1 20 OK\r\nHTTP/1.1 2000 OK\r\n"

/-- The header line `"TRANSFER-encoding: Chunked"` with its CR LF and the first byte of the
next line (29 bytes). -/
def bufTransferChunked : List Nat := bytes "TRANSFER-encoding: Chunked\r\nX"

/-- A `REQUEST` parser in `HEADER_VALUE_END` whose name view covers the first 17 bytes of the
buffer and whose value view covers the 7 bytes from offset 19. -/
def exAtValueEnd : HttpParser :=
  { HttpParser.new HttpParseMode.REQUEST with
    _state := HttpParserState.HEADER_VALUE_END, _name := ⟨0, 17⟩, _value := ⟨19, 7⟩ }

/-- The header line `"content-LENGTH: 42"` with its CR LF and the first byte of the next line
(21 bytes). -/
def bufLength42 : List Nat := bytes "content-LENGTH: 42\r\nX"

/-- A `MESSAGE` parser in `HEADER_VALUE_END` whose name view covers the first 14 bytes of the
buffer and whose value view covers the 2 bytes from offset 16. -/
def exAtLengthEnd : HttpParser :=
  { HttpParser.new HttpParseMode.MESSAGE with
    _state := HttpParserState.HEADER_VALUE_END, _name := ⟨0, 14⟩, _value := ⟨16, 2⟩ }

/-- The response `"HTTP/1.1 200 OK\r\n\r\nbody"`: a head of 19 bytes without `Content-Length`
and without chunked encoding, then 4 bytes of body. -/
def bufResponseBody : List Nat := bytes "HTTP/1.1 200 OK\r\n\r\nbody"

/-- The generic message `"Foo: bar\r\n\r\nbody"`: a head of 12 bytes without `Content-Length`
and without chunked encoding, then 4 bytes of body. -/
def bufMessageBody : List Nat := bytes "Foo: bar\r\n\r\nbody"

/-- The request `"GET  / HTTP/1.1\r\n\r\n"` with two spaces after the method (19 bytes). -/
def bufTwoSpaces : List Nat := bytes "GET  / HTTP/1.1\r\n\r\n"

/-- The request `"GET   HTTP/1.1\r\n\r\n"` with three spaces after the method (18 bytes). -/
def bufThreeSpaces : List Nat := bytes "GET   HTTP/1.1\r\n\r\n"

/-- The requests `"GET / HTTP/1.\r\n\r\n"` (no minor digit) and `"GET / HTTP/.9\r\n\r\n"` (no
major digit), 17 bytes each, one after the other. -/
def bufEmptyVersionPart : List Nat := bytes "GET / HTTP/1.\r\n\r\nGET / HTTP/.9\r\n\r\n"

/-- A chunked request whose first chunk `6 CR LF 123456 CR LF` is followed by an empty
chunk-size line: `CR LF CR LF` (head of 46 bytes, 61 bytes in all). -/
def bufEmptySizeLater : List Nat :=
  bytes "GET / HTTP/1.1\r\nTransfer-Encoding: chunked\r\n\r\n6\r\n123456\r\n\r\n\r\n"

/-- A chunked request whose body starts with an empty chunk-size line (head of 46 bytes,
50 bytes in all). -/
def bufEmptySizeFirst : List Nat :=
  bytes "GET / HTTP/1.1\r\nTransfer-Encoding: chunked\r\n\r\n\r\n\r\n"

/-- The parser a `MESSAGE` parser becomes after the 12 bytes of the head of
`"Foo: bar\r\n\r\nbody"`: it rests in `CONTENT_BEGIN` with no length known. -/
def exRestingAtBody : HttpParser :=
  ((parseFragment bufMessageBody ⟨0, 12⟩ (HttpParser.new HttpParseMode.MESSAGE)).map
    (fun r => r.p)).getD (HttpParser.new HttpParseMode.MESSAGE)

/-- A `MESSAGE` parser in `LWS_SP_HT_BEGIN` after the CR LF of a header value (continuations
`HEADER_VALUE` and `HEADER_VALUE_END`). -/
def exAtFoldStart : HttpParser :=
  { HttpParser.new HttpParseMode.MESSAGE with
    _state := HttpParserState.LWS_SP_HT_BEGIN, _lwsNext := HttpParserState.HEADER_VALUE,
    _lwsNull := HttpParserState.HEADER_VALUE_END }

/-! # Theorems -/

/-! ## Basic facts on executions -/

theorem Walk.concat {S : HttpParser → Prop} {mem : List Nat} {e : Nat} {p q r : HttpParser}
    {i j k : Nat} {E1 E2 : List Event}
    (h1 : Walk S mem e p i E1 q j) (h2 : Walk S mem e q j E2 r k) :
    Walk S mem e p i (E1 ++ E2) r k := by
  induction h1 with
  | refl p i => simpa using h2
  | next hi hS hstep _ ih =>
    rw [List.append_assoc]
    exact Walk.next hi hS hstep (ih h2)

theorem Walk.run {S : HttpParser → Prop} {mem : List Nat} {e : Nat} {p q : HttpParser}
    {i j : Nat} {E : List Event} {l : Cursor} {d : Bool}
    (h1 : Walk S mem e p i E q j) (h2 : Run S mem e q j l d) :
    Run S mem e p i ⟨l.p, l.i, E ++ l.out⟩ d := by
  induction h1 with
  | refl p i => simpa using h2
  | next hi hS hstep _ ih =>
    rw [List.append_assoc]
    exact Run.next hi hS hstep (ih h2)

theorem Run.weaken {S T : HttpParser → Prop} {mem : List Nat} {e : Nat} {p : HttpParser}
    {i : Nat} {l : Cursor} {d : Bool} (hST : ∀ q, S q → T q)
    (h : Run S mem e p i l d) : Run T mem e p i l d := by
  induction h with
  | exit p hS => exact Run.exit p (hST _ hS)
  | done hi hS hstep => exact Run.done hi (hST _ hS) hstep
  | next hi hS hstep _ ih => exact Run.next hi (hST _ hS) hstep ih

/-- A complete execution is what `loop` computes, for every bound that is large enough. -/
theorem Run.loop_eq {S : HttpParser → Prop} {mem : List Nat} {e : Nat} {p : HttpParser}
    {i : Nat} {l : Cursor} {d : Bool} (h : Run S mem e p i l d) :
    ∃ f, ∀ f', f ≤ f' → loop mem e f' p i = some (l, d) := by
  induction h with
  | exit p _ =>
    refine ⟨1, fun f' hf => ?_⟩
    obtain ⟨g, rfl⟩ : ∃ g, f' = g + 1 := ⟨f' - 1, by omega⟩
    simp [HttpMessageParser.loop]
  | done hi _ hstep =>
    refine ⟨1, fun f' hf => ?_⟩
    obtain ⟨g, rfl⟩ : ∃ g, f' = g + 1 := ⟨f' - 1, by omega⟩
    simp [HttpMessageParser.loop, hi, hstep]
  | next hi _ hstep _ ih =>
    obtain ⟨f, hf⟩ := ih
    refine ⟨f + 1, fun f' hf' => ?_⟩
    obtain ⟨g, rfl⟩ : ∃ g, f' = g + 1 := ⟨f' - 1, by omega⟩
    simp [HttpMessageParser.loop, hi, hstep, hf g (by omega)]

theorem loop_run {mem : List Nat} {e : Nat} : ∀ (f : Nat) (p : HttpParser) (i : Nat)
    (l : Cursor) (d : Bool), loop mem e f p i = some (l, d) →
    Run (fun _ => True) mem e p i l d := by
  intro f
  induction f with
  | zero => intro p i l d h; simp [HttpMessageParser.loop] at h
  | succ f ih =>
    intro p i l d h
    unfold HttpMessageParser.loop at h
    by_cases hi : i = e
    · simp [hi] at h
      obtain ⟨rfl, rfl⟩ := h
      subst hi
      exact Run.exit p trivial
    · simp only [hi, if_false] at h
      rcases hstep : step mem e p i with ⟨l1, d1⟩
      rw [hstep] at h
      cases d1 with
      | true =>
        simp at h
        obtain ⟨rfl, rfl⟩ := h
        exact Run.done hi trivial hstep
      | false =>
        simp only at h
        rcases hrec : HttpMessageParser.loop mem e f l1.p l1.i with _ | ⟨l2, d2⟩
        · rw [hrec] at h; simp at h
        · rw [hrec] at h
          simp at h
          obtain ⟨rfl, rfl⟩ := h
          exact Run.next hi trivial hstep (ih _ _ _ _ hrec)

theorem Run.det {S T : HttpParser → Prop} {mem : List Nat} {e : Nat} {p : HttpParser}
    {i : Nat} {l l' : Cursor} {d d' : Bool}
    (h : Run S mem e p i l d) (h' : Run T mem e p i l' d') : l = l' ∧ d = d' := by
  obtain ⟨f, hf⟩ := h.loop_eq
  obtain ⟨f', hf'⟩ := h'.loop_eq
  have h1 := hf (max f f') (le_max_left _ _)
  have h2 := hf' (max f f') (le_max_right _ _)
  rw [h1] at h2
  simpa using h2

/-! ## The invariant and termination -/

theorem toSizeT_of_nonneg {x : Int} (h : 0 ≤ x) : ((toSizeT x : Nat) : Int) = x := by
  simp [toSizeT, h]

set_option maxHeartbeats 4000000 in
theorem step_WF {mem : List Nat} {e : Nat} {p : HttpParser} {i : Nat} {l : Cursor} {d : Bool}
    (h : WF p) (hstep : step mem e p i = (l, d)) : WF l.p := by
  obtain ⟨h1, h2⟩ := h
  unfold step at hstep
  simp only [protocolError, advance, expectChar, caseStatusCode, caseContentChunkSize,
    caseHeaderValueEnd] at hstep
  repeat' split at hstep
  all_goals
    simp only [Prod.mk.injEq] at hstep
    obtain ⟨rfl, rfl⟩ := hstep
    simp_all [WF, inLws, inCounted, lwsOk, HttpParser.nextChar]
  all_goals first
    | omega
    | (obtain ⟨h1a | h1a | h1a, _⟩ := h1 <;> simp [h1a])
    | (have hts := toSizeT_of_nonneg h2; omega)

set_option maxHeartbeats 4000000 in
theorem step_progress {mem : List Nat} {e : Nat} {p : HttpParser} {i : Nat} {l : Cursor}
    {d : Bool} (h : WF p) (hi : i ≠ e) (hie : i ≤ e) (hstep : step mem e p i = (l, d)) :
    i ≤ l.i ∧ l.i ≤ e ∧ (d = false → 4 * (e - l.i) + rank l.p < 4 * (e - i) + rank p) := by
  obtain ⟨h1, h2⟩ := h
  have hlt : i < e := lt_of_le_of_ne hie hi
  unfold step at hstep
  simp only [protocolError, advance, expectChar, caseStatusCode, caseContentChunkSize,
    caseHeaderValueEnd] at hstep
  repeat' split at hstep
  all_goals
    simp only [Prod.mk.injEq] at hstep
    obtain ⟨rfl, rfl⟩ := hstep
    simp_all [rank, inLws, inCounted, lwsOk, HttpParser.nextChar, substrFrom]
  all_goals first
    | omega
    | (obtain ⟨h1a | h1a | h1a, _⟩ := h1 <;> simp [h1a])
    | (have hts := toSizeT_of_nonneg h2; omega)

/-! ## Cutting an execution at a fragment boundary -/

theorem rank_le (p : HttpParser) : rank p ≤ 3 := by
  unfold rank; split <;> omega

theorem loop_total (mem : List Nat) {e : Nat} : ∀ (f : Nat) (p : HttpParser) (i : Nat),
    WF p → i ≤ e → 4 * (e - i) + rank p < f → ∃ r, loop mem e f p i = some r := by
  intro f
  induction f with
  | zero => intro p i _ _ h; omega
  | succ f ih =>
    intro p i hwf hie hlt
    unfold loop
    by_cases hi : i = e
    · simp [hi]
    · simp only [hi, if_false]
      rcases hstep : step mem e p i with ⟨l, d⟩
      cases d with
      | true => simp
      | false =>
        obtain ⟨h1, h2, h3⟩ := step_progress hwf hi hie hstep
        obtain ⟨r, hr⟩ := ih l.p l.i (step_WF hwf hstep) h2 (by have := h3 rfl; omega)
        simp only [hr]
        exact ⟨_, rfl⟩

theorem run_exists (mem : List Nat) {e : Nat} {p : HttpParser} {i : Nat}
    (hwf : WF p) (hie : i ≤ e) : ∃ l d, Run (fun _ => True) mem e p i l d := by
  obtain ⟨⟨l, d⟩, hr⟩ := loop_total mem (4 * (e - i) + rank p + 1) p i hwf hie (by omega)
  exact ⟨l, d, loop_run _ _ _ _ _ hr⟩

theorem parseFragment_of_run {S : HttpParser → Prop} {mem : List Nat} {b s : Nat}
    {p : HttpParser} {l : Cursor} {d : Bool} (hwf : WF p)
    (h : Run S mem (b + s) p b l d) :
    parseFragment mem ⟨b, s⟩ p = some (resultOf b l d) := by
  obtain ⟨⟨l', d'⟩, hr⟩ := loop_total mem (e := b + s) (loopFuel ⟨b, s⟩) p b hwf
    (by omega) (by have := rank_le p; simp [loopFuel]; omega)
  obtain ⟨rfl, rfl⟩ := (loop_run _ _ _ _ _ hr).det h
  unfold parseFragment
  simp only [hr, resultOf]
  cases d' <;> simp

theorem parseFragment_run (mem : List Nat) {b s : Nat} {p : HttpParser} (hwf : WF p) :
    ∃ l d, Run (fun _ => True) mem (b + s) p b l d ∧
      parseFragment mem ⟨b, s⟩ p = some (resultOf b l d) := by
  obtain ⟨l, d, h⟩ := run_exists mem (e := b + s) (i := b) hwf (by omega)
  exact ⟨l, d, h, parseFragment_of_run hwf h⟩

theorem read_add (mem : List Nat) (i k1 k2 : Nat) :
    View.read mem ⟨i, k1 + k2⟩ = View.read mem ⟨i, k1⟩ ++ View.read mem ⟨i + k1, k2⟩ := by
  simp [View.read, List.take_add, List.drop_drop, Nat.add_comm]

theorem step_indep {mem : List Nat} {e m : Nat} {p : HttpParser} {i : Nat}
    (hc : ¬ contentState p._state) (him : i < m) (hme : m ≤ e) :
    step mem m p i = step mem e p i := by
  have hsub : substr m i 1 = substr e i 1 := by
    simp only [substr, View.mk.injEq, true_and]; omega
  unfold contentState at hc
  cases hs : p._state <;> simp only [step, hs, hsub] <;> simp [hs] at hc


theorem step_i_le (mem : List Nat) {e : Nat} {p : HttpParser} {i : Nat}
    (hc : ¬ contentState p._state) : (step mem e p i).1.i ≤ i + 1 := by
  unfold contentState at hc
  cases hs : p._state <;> simp only [hs] at hc <;>
    simp only [step, hs, protocolError, advance, expectChar, caseStatusCode,
      caseContentChunkSize, caseHeaderValueEnd] <;>
    (repeat' split) <;> simp at hc ⊢

theorem SameEvents.refl (E : List Event) : SameEvents E E := fun _ => rfl

theorem SameEvents.trans {E1 E2 E3 : List Event} (h1 : SameEvents E1 E2)
    (h2 : SameEvents E2 E3) : SameEvents E1 E3 := fun acc => (h1 acc).trans (h2 acc)

theorem SameEvents.append {E1 E2 F1 F2 : List Event} (h1 : SameEvents E1 E2)
    (h2 : SameEvents F1 F2) : SameEvents (E1 ++ F1) (E2 ++ F2) := by
  intro acc
  rw [List.foldr_append, List.foldr_append, h2 acc, h1]

theorem SameEvents.coalesce_eq {E1 E2 : List Event} (h : SameEvents E1 E2) :
    coalesce E1 = coalesce E2 := h []

theorem sameEvents_merge (a b : List Nat) (tail : List Event) :
    SameEvents (Event.onMessageContent a :: Event.onMessageContent b :: tail)
      (Event.onMessageContent (a ++ b) :: tail) := by
  intro acc
  simp only [List.foldr_cons]
  generalize List.foldr consEv acc tail = t
  cases t with
  | nil => simp [consEv]
  | cons x t => cases x <;> simp [consEv]

theorem step_CONTENT {mem : List Nat} {e : Nat} {p : HttpParser} {i : Nat}
    (hs : p._state = HttpParserState.CONTENT) (k : Nat)
    (hk : k = min (toSizeT p._contentLength) (e - i)) :
    step mem e p i =
      if p._contentLength - (k : Int) = 0 then
        (⟨{ p with _contentLength := p._contentLength - (k : Int),
                   _bytesReceived := p._bytesReceived + k,
                   _state := HttpParserState.MESSAGE_BEGIN }, i + k,
          [Event.onMessageContent (View.read mem ⟨i, k⟩), Event.onMessageEnd]⟩, true)
      else
        (⟨{ p with _contentLength := p._contentLength - (k : Int),
                   _bytesReceived := p._bytesReceived + k }, i + k,
          [Event.onMessageContent (View.read mem ⟨i, k⟩)]⟩, false) := by
  have hmin : min k (e - i) = k := by omega
  subst hk
  simp only [step, hs, HttpParser.nextChar, substr, hmin]
  split <;> simp_all

theorem step_CHUNK_BODY {mem : List Nat} {e : Nat} {p : HttpParser} {i : Nat}
    (hs : p._state = HttpParserState.CONTENT_CHUNK_BODY) (hL : p._contentLength ≠ 0) (k : Nat)
    (hk : k = min (toSizeT p._contentLength) (e - i)) :
    step mem e p i =
        (⟨{ p with _contentLength := p._contentLength - (k : Int),
                   _bytesReceived := p._bytesReceived + k }, i + k,
          [Event.onMessageContent (View.read mem ⟨i, k⟩)]⟩, false) := by
  have hmin : min k (e - i) = k := by omega
  subst hk
  simp only [step, hs, HttpParser.nextChar, substr, hmin]
  simp [hL]

theorem step_ENDLESS {mem : List Nat} {e : Nat} {p : HttpParser} {i : Nat}
    (hs : p._state = HttpParserState.CONTENT_ENDLESS) :
    step mem e p i =
        (⟨{ p with _bytesReceived := p._bytesReceived + (e - i) }, i + (e - i),
          [Event.onMessageContent (View.read mem ⟨i, e - i⟩)]⟩, false) := by
  simp only [step, hs, HttpParser.nextChar, substrFrom]

theorem toSizeT_sub {L : Int} (hL : 0 ≤ L) (x : Nat) (hx : x ≤ toSizeT L) :
    toSizeT (L - (x : Int)) = toSizeT L - x := by
  have h := toSizeT_of_nonneg hL
  have h2 : 0 ≤ L - (x : Int) := by omega
  have h3 := toSizeT_of_nonneg h2
  omega

theorem step_cut {mem : List Nat} {e m : Nat} {p : HttpParser} {i : Nat} {l : Cursor}
    {d : Bool} (hwf : WF p) (him : i < m) (hme : m ≤ e) (hstep : step mem e p i = (l, d)) :
    (step mem m p i = (l, d) ∧ l.i ≤ m) ∨
    (m < e ∧ ∃ pt a b tail, step mem m p i = (⟨pt, m, [Event.onMessageContent a]⟩, false) ∧
      contentState pt._state ∧ l.out = Event.onMessageContent (a ++ b) :: tail ∧
      step mem e pt m = (⟨l.p, l.i, Event.onMessageContent b :: tail⟩, d)) := by
  by_cases hc : contentState p._state
  · obtain ⟨_, hL⟩ := hwf
    rcases hc with hc | hc | hc
    · -- CONTENT
      have hL0 : 0 ≤ p._contentLength := hL (by simp [inCounted, hc])
      have hT := toSizeT_of_nonneg hL0
      by_cases hcase : toSizeT p._contentLength ≤ m - i ∨ m = e
      · left
        rw [step_CONTENT hc _ rfl] at hstep
        rw [step_CONTENT hc (min (toSizeT p._contentLength) (e - i)) (by omega), hstep]
        refine ⟨rfl, ?_⟩
        split at hstep <;>
          (simp only [Prod.mk.injEq] at hstep; obtain ⟨rfl, rfl⟩ := hstep; simp only; omega)
      · right
        have h1 : m - i < toSizeT p._contentLength := by omega
        have h2 : m < e := by omega
        refine ⟨h2, ?_⟩
        generalize hk : min (toSizeT p._contentLength) (e - i) = k at hstep
        have hkm : m - i ≤ k := by omega
        have hr := read_add mem i (m - i) (k - (m - i))
        rw [show m - i + (k - (m - i)) = k by omega, show i + (m - i) = m by omega] at hr
        have hpt : ({ p with _contentLength := p._contentLength - ((m - i : Nat) : Int),
                             _bytesReceived := p._bytesReceived + (m - i) } : HttpParser)._state =
            HttpParserState.CONTENT := hc
        have hts := toSizeT_sub hL0 (m - i) (by omega)
        rw [step_CONTENT hc k hk.symm] at hstep
        rw [step_CONTENT (e := m) hc (m - i) (by omega)]
        rw [if_neg (by omega)]
        by_cases hz : p._contentLength - (k : Int) = 0
        · rw [if_pos hz] at hstep
          simp only [Prod.mk.injEq] at hstep; obtain ⟨rfl, rfl⟩ := hstep
          refine ⟨({ p with _contentLength := p._contentLength - ((m - i : Nat) : Int),
                                  _bytesReceived := p._bytesReceived + (m - i) } : HttpParser),
            View.read mem ⟨i, m - i⟩, View.read mem ⟨m, k - (m - i)⟩, [Event.onMessageEnd], ?_,
            Or.inl hpt, ?_, ?_⟩
          · rw [show i + (m - i) = m by omega]
          · simp only [hr]
          · rw [step_CONTENT (e := e) (i := m) hpt (k - (m - i)) (by simp only [hts]; omega)]
            rw [if_pos (by simp only; omega)]
            simp only [Prod.mk.injEq, Cursor.mk.injEq, HttpParser.mk.injEq, and_true, true_and]
            omega
        · rw [if_neg hz] at hstep
          simp only [Prod.mk.injEq] at hstep; obtain ⟨rfl, rfl⟩ := hstep
          refine ⟨({ p with _contentLength := p._contentLength - ((m - i : Nat) : Int),
                                  _bytesReceived := p._bytesReceived + (m - i) } : HttpParser),
            View.read mem ⟨i, m - i⟩, View.read mem ⟨m, k - (m - i)⟩, [], ?_, Or.inl hpt, ?_, ?_⟩
          · rw [show i + (m - i) = m by omega]
          · simp only [hr]
          · rw [step_CONTENT (e := e) (i := m) hpt (k - (m - i)) (by simp only [hts]; omega)]
            rw [if_neg (by simp only; omega)]
            simp only [Prod.mk.injEq, Cursor.mk.injEq, HttpParser.mk.injEq, and_true, true_and]
            omega
    · -- CONTENT_ENDLESS
      rw [step_ENDLESS hc] at hstep
      simp only [Prod.mk.injEq] at hstep; obtain ⟨rfl, rfl⟩ := hstep
      by_cases hcase : m = e
      · left
        subst hcase
        exact ⟨step_ENDLESS hc, by simp only; omega⟩
      · right
        have h2 : m < e := by omega
        have hr := read_add mem i (m - i) (e - m)
        rw [show m - i + (e - m) = e - i by omega, show i + (m - i) = m by omega] at hr
        have hpt : ({ p with _bytesReceived := p._bytesReceived + (m - i) } : HttpParser)._state =
            HttpParserState.CONTENT_ENDLESS := hc
        refine ⟨h2, ({ p with _bytesReceived := p._bytesReceived + (m - i) } : HttpParser),
          View.read mem ⟨i, m - i⟩, View.read mem ⟨m, e - m⟩, [], ?_, Or.inr (Or.inl hpt), ?_, ?_⟩
        · rw [step_ENDLESS hc, show i + (m - i) = m by omega]
        · simp only [hr]
        · rw [step_ENDLESS hpt]
          simp only [Prod.mk.injEq, Cursor.mk.injEq, HttpParser.mk.injEq, and_true, true_and]
          omega
    · -- CONTENT_CHUNK_BODY
      have hL0 : 0 ≤ p._contentLength := hL (by simp [inCounted, hc])
      have hT := toSizeT_of_nonneg hL0
      by_cases hz : p._contentLength = 0
      · left
        have : step mem m p i = step mem e p i := by
          simp only [step, hc, hz]
          simp
        rw [this, hstep]
        refine ⟨rfl, ?_⟩
        simp only [step, hc, hz, protocolError, advance] at hstep
        simp only [ne_eq, not_true_eq_false, if_false] at hstep
        split at hstep <;>
          (simp only [Prod.mk.injEq] at hstep; obtain ⟨rfl, rfl⟩ := hstep; simp only; omega)
      by_cases hcase : toSizeT p._contentLength ≤ m - i ∨ m = e
      · left
        rw [step_CHUNK_BODY hc hz _ rfl] at hstep
        rw [step_CHUNK_BODY hc hz (min (toSizeT p._contentLength) (e - i)) (by omega), hstep]
        refine ⟨rfl, ?_⟩
        simp only [Prod.mk.injEq] at hstep; obtain ⟨rfl, rfl⟩ := hstep; simp only; omega
      · right
        have h1 : m - i < toSizeT p._contentLength := by omega
        have h2 : m < e := by omega
        refine ⟨h2, ?_⟩
        generalize hk : min (toSizeT p._contentLength) (e - i) = k at hstep
        have hkm : m - i ≤ k := by omega
        have hr := read_add mem i (m - i) (k - (m - i))
        rw [show m - i + (k - (m - i)) = k by omega, show i + (m - i) = m by omega] at hr
        have hpt : ({ p with _contentLength := p._contentLength - ((m - i : Nat) : Int),
                             _bytesReceived := p._bytesReceived + (m - i) } : HttpParser)._state =
            HttpParserState.CONTENT_CHUNK_BODY := hc
        have hts := toSizeT_sub hL0 (m - i) (by omega)
        rw [step_CHUNK_BODY hc hz k (by omega)] at hstep
        rw [step_CHUNK_BODY (e := m) hc hz (m - i) (by omega)]
        simp only [Prod.mk.injEq] at hstep; obtain ⟨rfl, rfl⟩ := hstep
        refine ⟨({ p with _contentLength := p._contentLength - ((m - i : Nat) : Int),
                                  _bytesReceived := p._bytesReceived + (m - i) } : HttpParser),
            View.read mem ⟨i, m - i⟩, View.read mem ⟨m, k - (m - i)⟩, [], ?_, Or.inr (Or.inr hpt), ?_, ?_⟩
        · rw [show i + (m - i) = m by omega]
        · simp only [hr]
        · rw [step_CHUNK_BODY (e := e) (i := m) hpt (by simp only; omega) (k - (m - i))
            (by simp only [hts]; omega)]
          simp only [Prod.mk.injEq, Cursor.mk.injEq, HttpParser.mk.injEq, and_true, true_and]
          omega
  · left
    rw [step_indep hc him hme, hstep]
    refine ⟨rfl, ?_⟩
    have := step_i_le mem (e := e) (i := i) hc
    rw [hstep] at this
    simp at this
    omega


theorem Run.exit_i {S : HttpParser → Prop} {mem : List Nat} {e : Nat} {p : HttpParser}
    {i : Nat} {l : Cursor} {d : Bool} (h : Run S mem e p i l d) (hd : d = false) :
    l.i = e ∧ S l.p := by
  induction h with
  | exit p hS => exact ⟨rfl, hS⟩
  | done _ _ _ => cases hd
  | next _ _ _ _ ih => exact ih hd

theorem Run.cut {S : HttpParser → Prop} (hS : ∀ q, contentState q._state → S q)
    {mem : List Nat} {e m : Nat} {p : HttpParser} {i : Nat} {l : Cursor} {d : Bool}
    (h : Run S mem e p i l d) (hwf : WF p) (him : i ≤ m) (hme : m ≤ e) :
    (Run S mem m p i l true ∧ d = true) ∨
    (∃ l1 l2, Run S mem m p i l1 false ∧ Run S mem e l1.p m l2 d ∧ l2.p = l.p ∧ l2.i = l.i ∧
      SameEvents (l1.out ++ l2.out) l.out) := by
  induction h with
  | exit p hSp =>
    have : m = e := by omega
    subst this
    exact Or.inr ⟨⟨p, m, []⟩, ⟨p, m, []⟩, Run.exit p hSp, Run.exit p hSp, rfl, rfl,
      SameEvents.refl _⟩
  | @done p i l hi hSp hstep =>
    by_cases hmi : m = i
    · subst hmi
      exact Or.inr ⟨⟨p, m, []⟩, l, Run.exit p hSp, Run.done hi hSp hstep, rfl, rfl,
        SameEvents.refl _⟩
    · have hlt : i < m := by omega
      rcases step_cut hwf hlt hme hstep with ⟨h1, _⟩ | ⟨hm, pt, a, b, tail, h1, h2, h3, h4⟩
      · exact Or.inl ⟨Run.done (by omega) hSp h1, rfl⟩
      · refine Or.inr ⟨_, _, Run.next (by omega) hSp h1 (Run.exit pt (hS pt h2)),
          Run.done (by omega) (hS pt h2) h4, rfl, rfl, ?_⟩
        simp only [List.append_nil, h3]
        exact sameEvents_merge a b tail
  | @next p i l l' d hi hSp hstep hrest ih =>
    by_cases hmi : m = i
    · subst hmi
      exact Or.inr ⟨⟨p, m, []⟩, _, Run.exit p hSp, Run.next hi hSp hstep hrest, rfl, rfl,
        SameEvents.refl _⟩
    · have hlt : i < m := by omega
      rcases step_cut hwf hlt hme hstep with ⟨h1, hle⟩ | ⟨hm, pt, a, b, tail, h1, h2, h3, h4⟩
      · rcases ih (step_WF hwf hstep) hle with ⟨hr, hd⟩ | ⟨l1, l2, hr1, hr2, hp, hi2, hev⟩
        · exact Or.inl ⟨Run.next (by omega) hSp h1 hr, hd⟩
        · refine Or.inr ⟨_, l2, Run.next (by omega) hSp h1 hr1, hr2, hp, hi2, ?_⟩
          simp only [List.append_assoc]
          exact SameEvents.append (SameEvents.refl _) hev
      · refine Or.inr ⟨_, _, Run.next (by omega) hSp h1 (Run.exit pt (hS pt h2)),
          Run.next (by omega) (hS pt h2) h4 hrest, rfl, rfl, ?_⟩
        simp only [List.append_nil, h3]
        show SameEvents ((Event.onMessageContent a :: Event.onMessageContent b :: tail) ++ l'.out)
          ((Event.onMessageContent (a ++ b) :: tail) ++ l'.out)
        exact SameEvents.append (sameEvents_merge a b tail) (SameEvents.refl l'.out)

/-! ## Hooks of a step, fragment sequences -/

theorem step_PROTOCOL_ERROR {mem : List Nat} {e : Nat} {p : HttpParser} {i : Nat}
    (hs : p._state = HttpParserState.PROTOCOL_ERROR) : step mem e p i = (⟨p, i, []⟩, true) := by
  simp only [step, hs]

set_option maxHeartbeats 4000000 in
theorem step_events {mem : List Nat} {e : Nat} {p : HttpParser} {i : Nat} {l : Cursor}
    {d : Bool} (hwf : WF p) (hstep : step mem e p i = (l, d)) :
    (d = true → Event.onMessageEnd ∈ l.out ∨ p._state = HttpParserState.PROTOCOL_ERROR) ∧
    (d = false → Event.onMessageEnd ∉ l.out) ∧
    (Event.onProtocolError ∈ l.out →
      l.out = [Event.onProtocolError] ∧ l.p._state = HttpParserState.PROTOCOL_ERROR ∧ d = false) ∧
    (l.p._state = HttpParserState.PROTOCOL_ERROR → p._state ≠ HttpParserState.PROTOCOL_ERROR →
      Event.onProtocolError ∈ l.out) := by
  obtain ⟨h1, _⟩ := hwf
  have hl : l = (step mem e p i).1 := by rw [hstep]
  have hd : d = (step mem e p i).2 := by rw [hstep]
  subst hl hd
  clear hstep
  cases hs : p._state <;> simp only [hs, inLws] at h1 <;>
    simp only [step, hs, protocolError, advance, expectChar, caseStatusCode,
      caseContentChunkSize, caseHeaderValueEnd] <;>
    (repeat' split) <;> simp_all [HttpParser.nextChar, lwsOk]
  all_goals (obtain ⟨h | h | h, _⟩ := h1 <;> simp [h])


theorem Run.wf_final {S : HttpParser → Prop} {mem : List Nat} {e : Nat} {p : HttpParser}
    {i : Nat} {l : Cursor} {d : Bool} (h : Run S mem e p i l d) (hwf : WF p) : WF l.p := by
  induction h with
  | exit p _ => exact hwf
  | done _ _ hstep => exact step_WF hwf hstep
  | next _ _ hstep _ ih => exact ih (step_WF hwf hstep)

theorem Run.bounds {S : HttpParser → Prop} {mem : List Nat} {e : Nat} {p : HttpParser}
    {i : Nat} {l : Cursor} {d : Bool} (h : Run S mem e p i l d) (hwf : WF p) (hie : i ≤ e) :
    i ≤ l.i ∧ l.i ≤ e := by
  induction h with
  | exit p _ => exact ⟨le_refl _, le_refl _⟩
  | done hi _ hstep =>
    obtain ⟨h1, h2, _⟩ := step_progress hwf hi hie hstep
    exact ⟨h1, h2⟩
  | next hi _ hstep _ ih =>
    obtain ⟨h1, h2, _⟩ := step_progress hwf hi hie hstep
    obtain ⟨h3, h4⟩ := ih (step_WF hwf hstep) h2
    exact ⟨le_trans h1 h3, h4⟩

theorem afterLoop_WF {p : HttpParser} (hwf : WF p) : WF (afterLoop p).1 := by
  unfold afterLoop
  split
  · split
    · simp [WF, inLws, inCounted]
    · exact hwf
  · exact hwf

theorem resultOf_WF {b : Nat} {l : Cursor} {d : Bool} (hwf : WF l.p) : WF (resultOf b l d).p := by
  unfold resultOf
  split
  · exact hwf
  · exact afterLoop_WF hwf

theorem Run.done_quiet {S : HttpParser → Prop} {mem : List Nat} {e : Nat} {p : HttpParser}
    {i : Nat} {l : Cursor} {d : Bool} (h : Run S mem e p i l d) (hwf : WF p) (hd : d = true)
    (hq : Event.onMessageEnd ∉ l.out) : l.p._state = HttpParserState.PROTOCOL_ERROR := by
  induction h with
  | exit p _ => cases hd
  | @done p i l _ _ hstep =>
    rcases (step_events hwf hstep).1 rfl with h | h
    · exact absurd h hq
    · rw [step_PROTOCOL_ERROR h] at hstep
      simp only [Prod.mk.injEq, and_true] at hstep
      rw [← hstep]; exact h
  | next _ _ hstep _ ih =>
    simp only [List.mem_append, not_or] at hq
    exact ih (step_WF hwf hstep) hd hq.2

theorem parseFragment_PROTOCOL_ERROR (mem : List Nat) (chunk : View) (p : HttpParser)
    (h : p._state = HttpParserState.PROTOCOL_ERROR) :
    parseFragment mem chunk p = some ⟨p, [], 0⟩ := by
  unfold parseFragment loopFuel
  rw [show 4 * chunk.size + 4 = (4 * chunk.size + 3) + 1 from rfl]
  unfold loop
  by_cases hz : chunk.data = chunk.data + chunk.size
  · simp [hz.symm, afterLoop, h]
  · simp [hz, step, h]

theorem afterLoop_quiet {p : HttpParser} (h : Event.onMessageEnd ∉ (afterLoop p).2) :
    afterLoop p = (p, []) := by
  unfold afterLoop at h ⊢
  split
  · split
    · rename_i h1 h2
      simp [h1, h2] at h
    · rfl
  · rfl

/-- A chunk cut in two: unless the first call invokes `onMessageEnd`, the two calls together
leave the same parser and consume the same bytes as the single call, and their logs agree up
to the merging of adjacent `onMessageContent` invocations. -/
theorem parseFragment_split (mem : List Nat) (b s1 s2 : Nat) {p : HttpParser} (hwf : WF p) :
    ∃ r1, parseFragment mem ⟨b, s1⟩ p = some r1 ∧ WF r1.p ∧
      (Event.onMessageEnd ∉ r1.events →
        ∃ r2 r, parseFragment mem ⟨b + s1, s2⟩ r1.p = some r2 ∧
          parseFragment mem ⟨b, s1 + s2⟩ p = some r ∧
          r.p = r2.p ∧ r.n = r1.n + r2.n ∧ SameEvents (r1.events ++ r2.events) r.events) := by
  obtain ⟨l, d, hrun, hpf⟩ := parseFragment_run mem (b := b) (s := s1 + s2) hwf
  have hT : ∀ q : HttpParser, contentState q._state → (fun _ : HttpParser => True) q :=
    fun _ _ => trivial
  rw [← Nat.add_assoc] at hrun
  rcases hrun.cut hT hwf (m := b + s1) (by omega) (by omega) with
    ⟨hr1, hd⟩ | ⟨l1, l2, hr1, hr2, hp, hi, hev⟩
  · subst hd
    refine ⟨_, parseFragment_of_run hwf hr1, resultOf_WF (hr1.wf_final hwf), fun hq => ?_⟩
    have hst : l.p._state = HttpParserState.PROTOCOL_ERROR :=
      hr1.done_quiet hwf rfl (by simpa [resultOf] using hq)
    refine ⟨_, _, parseFragment_PROTOCOL_ERROR mem _ _ (by simpa [resultOf] using hst), hpf,
      rfl, by simp, ?_⟩
    simp only [List.append_nil]
    exact SameEvents.refl _
  · refine ⟨_, parseFragment_of_run hwf hr1, resultOf_WF (hr1.wf_final hwf), fun hq => ?_⟩
    have hq' : Event.onMessageEnd ∉ (afterLoop l1.p).2 := by
      simp only [resultOf, Bool.false_eq_true, if_false, List.mem_append, not_or] at hq
      exact hq.2
    have hal := afterLoop_quiet hq'
    have hwf1 : WF l1.p := hr1.wf_final hwf
    have hm := (hr1.exit_i rfl).1
    have hres1 : resultOf b l1 false = ⟨l1.p, l1.out, s1⟩ := by
      simp only [resultOf, Bool.false_eq_true, if_false, hal, List.append_nil, hm]
      simp
    rw [hres1]
    have hpf2 := parseFragment_of_run (b := b + s1) (s := s2) hwf1 hr2
    refine ⟨_, _, hpf2, hpf, ?_, ?_, ?_⟩
    · simp only [resultOf, hp]
      split <;> rfl
    · have hb := hr2.bounds hwf1 (by omega)
      simp only [resultOf, hi.symm]
      split <;> simp only <;> omega
    · simp only [resultOf, hp]
      split
      · exact hev
      · simp only [← List.append_assoc]
        exact SameEvents.append hev (SameEvents.refl _)


theorem feed_eq_single {mem : List Nat} : ∀ (sizes : List Nat) (b : Nat) (p : HttpParser),
    WF p → sizes ≠ [] → quietBeforeLast mem b sizes p = true →
    ∃ r r', parseFragment mem ⟨b, sizes.sum⟩ p = some r ∧ feed mem b sizes p = some r' ∧
      r'.p = r.p ∧ r'.n = r.n ∧ SameEvents r'.events r.events := by
  intro sizes
  induction sizes with
  | nil => intro b p _ h; exact absurd rfl h
  | cons s ss ih =>
    intro b p hwf _ hq
    cases ss with
    | nil =>
      obtain ⟨l, d, _, hpf⟩ := parseFragment_run mem (b := b) (s := s) hwf
      have hf : feed mem b [s] p = some (resultOf b l d) := by
        rw [feed]; simp only [hpf, feed, List.append_nil, Nat.add_zero]
      exact ⟨_, _, by simpa using hpf, hf, rfl, rfl, SameEvents.refl _⟩
    | cons s' ss =>
      obtain ⟨r1, hr1, hwf1, hsplit⟩ :=
        parseFragment_split mem b s (s' :: ss).sum hwf
      simp only [quietBeforeLast, hr1, Bool.and_eq_true, decide_eq_true_eq] at hq
      obtain ⟨r2, r, hr2, hr, hp, hn, hev⟩ := hsplit hq.1
      obtain ⟨r2s, r2', hr2s, hfeed, hp', hn', hev'⟩ := ih (b + s) r1.p hwf1 (by simp) hq.2
      rw [hr2] at hr2s
      cases hr2s
      have hf : feed mem b (s :: s' :: ss) p =
          some ⟨r2'.p, r1.events ++ r2'.events, r1.n + r2'.n⟩ := by
        rw [feed]; simp only [hr1, hfeed]
      refine ⟨r, _, by simpa using hr, hf, ?_, ?_, ?_⟩
      · simp only [hp, hp']
      · simp only [hn, hn']
      · exact SameEvents.trans (SameEvents.append (SameEvents.refl _) hev') hev

theorem parseFragment_WF {mem : List Nat} {chunk : View} {p : HttpParser} {r : ParseResult}
    (hwf : WF p) (h : parseFragment mem chunk p = some r) : WF r.p := by
  obtain ⟨l, d, hrun, hpf⟩ := parseFragment_run mem (b := chunk.data) (s := chunk.size) hwf
  rw [h] at hpf
  cases hpf
  exact resultOf_WF (hrun.wf_final hwf)

theorem new_WF (mode : HttpParseMode) : WF (HttpParser.new mode) := by
  simp [WF, HttpParser.new, inLws, inCounted]

theorem Reachable.invariant {p : HttpParser} (h : Reachable p) : WF p := by
  induction h with
  | new mode => exact new_WF mode
  | parse mem chunk r _ hpf ih => exact parseFragment_WF ih hpf
  | reset _ ih => simp [WF, HttpParser.reset, inLws, inCounted]

theorem sameEvents_mem_end : ∀ (E : List Event) (acc : List Event),
    (Event.onMessageEnd ∈ E.foldr consEv acc ↔ Event.onMessageEnd ∈ E ∨ Event.onMessageEnd ∈ acc) := by
  intro E
  induction E with
  | nil => intro acc; simp
  | cons x E ih =>
    intro acc
    simp only [List.foldr_cons, List.mem_cons]
    have := ih acc
    generalize List.foldr consEv acc E = t at this
    cases x <;> cases t with
    | nil => simp_all [consEv]
    | cons y t => cases y <;> simp_all [consEv]

/-! ## The protocol error is reported once -/

theorem Run.of_PROTOCOL_ERROR {S : HttpParser → Prop} {mem : List Nat} {e : Nat}
    {p : HttpParser} {i : Nat} {l : Cursor} {d : Bool} (h : Run S mem e p i l d)
    (hs : p._state = HttpParserState.PROTOCOL_ERROR) : l.out = [] ∧ l.p = p := by
  cases h with
  | exit p _ => exact ⟨rfl, rfl⟩
  | done _ _ hstep =>
    rw [step_PROTOCOL_ERROR hs] at hstep
    cases hstep
    exact ⟨rfl, rfl⟩
  | next _ _ hstep _ =>
    rw [step_PROTOCOL_ERROR hs] at hstep
    cases hstep

theorem Run.errorLast {S : HttpParser → Prop} {mem : List Nat} {e : Nat} {p : HttpParser}
    {i : Nat} {l : Cursor} {d : Bool} (h : Run S mem e p i l d) (hwf : WF p) :
    ErrorLast p l.out l.p := by
  induction h with
  | exit p _ => exact Or.inl ⟨by simp, id⟩
  | @done p i l _ _ hstep =>
    obtain ⟨_, _, h3, h4⟩ := step_events hwf hstep
    have hno : Event.onProtocolError ∉ l.out := fun h => by simpa using (h3 h).2.2
    refine Or.inl ⟨hno, fun hq => ?_⟩
    by_contra hne
    exact hno (h4 hq hne)
  | @next p i l l' d _ _ hstep hrest ih =>
    obtain ⟨_, _, h3, h4⟩ := step_events hwf hstep
    by_cases herr : Event.onProtocolError ∈ l.out
    · obtain ⟨ho, hst, _⟩ := h3 herr
      obtain ⟨ho', hp'⟩ := hrest.of_PROTOCOL_ERROR hst
      refine Or.inr ⟨[], ?_, by simp, ?_⟩
      · simp [ho, ho']
      · simp only [hp', hst]
    · have hne : p._state ≠ HttpParserState.PROTOCOL_ERROR := by
        intro hs
        rw [step_PROTOCOL_ERROR hs] at hstep
        cases hstep
      have hl : l.p._state ≠ HttpParserState.PROTOCOL_ERROR := fun hq => herr (h4 hq hne)
      rcases ih (step_WF hwf hstep) with ⟨h5, h6⟩ | ⟨pre, h5, h6, h7⟩
      · refine Or.inl ⟨by simp [herr, h5], fun hq => absurd (h6 hq) hl⟩
      · refine Or.inr ⟨l.out ++ pre, by simp [h5], by simp [herr, h6], h7⟩

theorem parseFragment_errorLast (mem : List Nat) (chunk : View) {p : HttpParser}
    (hwf : WF p) : ∃ r, parseFragment mem chunk p = some r ∧ WF r.p ∧ ErrorLast p r.events r.p := by
  obtain ⟨l, d, hrun, hpf⟩ :=
    parseFragment_run mem (b := chunk.data) (s := chunk.size) hwf
  refine ⟨_, hpf, resultOf_WF (hrun.wf_final hwf), ?_⟩
  have h := hrun.errorLast hwf
  unfold resultOf
  cases d with
  | true => simpa using h
  | false =>
    simp only [Bool.false_eq_true, if_false]
    unfold afterLoop
    split
    · rename_i hcb
      split
      · rcases h with ⟨h1, _⟩ | ⟨pre, _, _, h3⟩
        · exact Or.inl ⟨by simp [h1], fun hq => by simp at hq⟩
        · rw [hcb] at h3; cases h3
      · simpa using h
    · simpa using h

theorem ErrorLast.compose {p q r : HttpParser} {E F : List Event} (h1 : ErrorLast p E q)
    (h2 : ErrorLast q F r) (habs : q._state = HttpParserState.PROTOCOL_ERROR → F = [] ∧ r = q) :
    ErrorLast p (E ++ F) r := by
  rcases h1 with ⟨h1, h1'⟩ | ⟨pre, h1, h1', h1''⟩
  · rcases h2 with ⟨h2, h2'⟩ | ⟨pre2, h2, h2', h2''⟩
    · exact Or.inl ⟨by simp [h1, h2], fun hq => h1' (h2' hq)⟩
    · exact Or.inr ⟨E ++ pre2, by simp [h2], by simp [h1, h2'], h2''⟩
  · obtain ⟨hF, hr⟩ := habs h1''
    exact Or.inr ⟨pre, by simp [h1, hF], h1', by rw [hr]; exact h1''⟩

theorem parseAll_errorLast : ∀ (calls : List (List Nat × View)) (p : HttpParser), WF p →
    ∃ r, parseAll calls p = some r ∧ ErrorLast p r.events r.p := by
  intro calls
  induction calls with
  | nil => intro p _; exact ⟨_, rfl, Or.inl ⟨by simp, id⟩⟩
  | cons c rest ih =>
    intro p hwf
    obtain ⟨mem, chunk⟩ := c
    obtain ⟨r1, hr1, hwf1, h1⟩ := parseFragment_errorLast mem chunk hwf
    obtain ⟨r2, hr2, h2⟩ := ih r1.p hwf1
    refine ⟨⟨r2.p, r1.events ++ r2.events, r1.n + r2.n⟩, by simp only [parseAll, hr1, hr2], ?_⟩
    refine ErrorLast.compose h1 h2 (fun hq => ?_)
    clear ih h2
    induction rest generalizing r2 with
    | nil => simp only [parseAll] at hr2; cases hr2; exact ⟨rfl, rfl⟩
    | cons c' rest' ih' =>
      obtain ⟨mem', chunk'⟩ := c'
      simp only [parseAll, parseFragment_PROTOCOL_ERROR mem' chunk' r1.p hq] at hr2
      rcases hrest : parseAll rest' r1.p with _ | r3
      · rw [hrest] at hr2; cases hr2
      · rw [hrest] at hr2
        cases hr2
        obtain ⟨h3, h4⟩ := ih' r3 hrest
        exact ⟨by simp [h3], h4⟩

theorem ErrorLast.count_last {p q : HttpParser} {E : List Event} (h : ErrorLast p E q) :
    E.count Event.onProtocolError ≤ 1 ∧
    (Event.onProtocolError ∈ E → E.getLast? = some Event.onProtocolError) := by
  rcases h with ⟨h1, _⟩ | ⟨pre, h1, h2, _⟩
  · exact ⟨by simp [List.count_eq_zero_of_not_mem h1], fun h => absurd h h1⟩
  · subst h1
    exact ⟨by simp [List.count_eq_zero_of_not_mem h2], fun _ => by simp⟩

theorem ErrorLast.state_iff {p q : HttpParser} {E : List Event} (h : ErrorLast p E q)
    (habs : p._state = HttpParserState.PROTOCOL_ERROR → q._state = HttpParserState.PROTOCOL_ERROR) :
    (q._state = HttpParserState.PROTOCOL_ERROR ↔
      (Event.onProtocolError ∈ E ∨ p._state = HttpParserState.PROTOCOL_ERROR)) := by
  rcases h with ⟨h1, h2⟩ | ⟨pre, h1, _, h3⟩
  · constructor
    · exact fun hq => Or.inr (h2 hq)
    · rintro (h | h)
      · exact absurd h h1
      · exact habs h
  · subst h1
    simp [h3]

/-! ## Walking the states over well-formed input -/

theorem At.head {mem : List Nat} {i c : Nat} {xs : List Nat} (h : At mem i (c :: xs)) :
    mem.getD i 0 = c ∧ At mem (i + 1) xs := by
  obtain ⟨rest, h⟩ := h
  constructor
  · have := congrArg (fun l => l.getD 0 0) h
    simpa [List.getD_eq_getElem?_getD, List.getElem?_drop] using this
  · refine ⟨rest, ?_⟩
    have := congrArg (fun l => l.drop 1) h
    simpa [List.drop_drop, Nat.add_comm] using this

theorem At.split {mem : List Nat} {i : Nat} {xs ys : List Nat} (h : At mem i (xs ++ ys)) :
    At mem i xs ∧ At mem (i + xs.length) ys := by
  obtain ⟨rest, h⟩ := h
  constructor
  · exact ⟨ys ++ rest, by simpa using h⟩
  · refine ⟨rest, ?_⟩
    have := congrArg (fun l => l.drop xs.length) h
    simpa [List.drop_drop, Nat.add_comm] using this

theorem At.read_eq {mem : List Nat} {i : Nat} {xs : List Nat} (h : At mem i xs) :
    View.read mem ⟨i, xs.length⟩ = xs := by
  obtain ⟨rest, h⟩ := h
  simp [View.read, h]

theorem At.zero (xs rest : List Nat) : At (xs ++ rest) 0 xs := ⟨rest, by simp⟩

theorem safe_of_state {p : HttpParser} (h : p._state ≠ HttpParserState.CONTENT_BEGIN) :
    Safe p := fun hs => h hs.1

theorem walk_one {mem : List Nat} {e : Nat} {p q : HttpParser} {i j : Nat} {E : List Event}
    (hi : i ≠ e) (hS : Safe p) (hstep : step mem e p i = (⟨q, j, E⟩, false)) :
    Walk Safe mem e p i E q j := by
  have := Walk.next hi hS hstep (Walk.refl _ _)
  simpa using this

theorem isToken_facts {c : Nat} (h : isToken c = true) :
    c ≠ 32 ∧ c ≠ 9 ∧ c ≠ 13 ∧ c ≠ 10 ∧ c ≠ 58 ∧ isprint c = true ∧ isText c = true := by
  simp [isToken, isChar, isControl, isSeparator, isprint, isText, SP, HT] at h ⊢
  omega

theorem isText_facts {c : Nat} (h : isText c = true) : c ≠ 13 ∧ c ≠ 10 := by
  simp [isText, isControl, SP, HT] at h ⊢
  omega

theorem Walk.cast {S : HttpParser → Prop} {mem : List Nat} {e : Nat} {p q q' : HttpParser}
    {i j j' : Nat} {E E' : List Event} (h : Walk S mem e p i E q j) (hq : q = q') (hj : j = j')
    (hE : E = E') : Walk S mem e p i E' q' j' := by
  subst hq hj hE; exact h

theorem walk_REQUEST_METHOD (mem : List Nat) (e : Nat) : ∀ (xs : List Nat) (p : HttpParser)
    (i : Nat), p._state = HttpParserState.REQUEST_METHOD → At mem i xs →
    (∀ c ∈ xs, isToken c = true) → i + xs.length ≤ e →
    Walk Safe mem e p i []
      { p with _method := ⟨p._method.data, p._method.size + xs.length⟩,
               _bytesReceived := p._bytesReceived + xs.length } (i + xs.length) := by
  intro xs
  induction xs with
  | nil => intro p i _ _ _ _; exact Walk.refl _ _
  | cons c xs ih =>
    intro p i hs hat htok hle
    obtain ⟨hc, hat'⟩ := hat.head
    have hct := htok c (by simp)
    obtain ⟨h1, _⟩ := isToken_facts hct
    simp only [List.length_cons] at hle ⊢
    have hstep : step mem e p i =
        (⟨{ p with _method := ⟨p._method.data, p._method.size + 1⟩,
                   _bytesReceived := p._bytesReceived + 1 }, i + 1, []⟩, false) := by
      simp only [step, hs, hc, advance, HttpParser.nextChar, SP, h1, hct, if_false, if_true]
    have hw := Walk.next (by omega) (safe_of_state (by simp [hs])) hstep
      (ih _ (i + 1) hs hat' (fun c hc => htok c (by simp [hc])) (by omega))
    refine Walk.cast hw ?_ (by omega) rfl
    simp only [HttpParser.mk.injEq, View.mk.injEq, true_and, and_true]
    omega

theorem walk_REQUEST_ENTITY (mem : List Nat) (e : Nat) : ∀ (xs : List Nat) (p : HttpParser)
    (i : Nat), p._state = HttpParserState.REQUEST_ENTITY → At mem i xs →
    (∀ c ∈ xs, isprint c = true ∧ c ≠ SP) → i + xs.length ≤ e →
    Walk Safe mem e p i []
      { p with _entity := ⟨p._entity.data, p._entity.size + xs.length⟩,
               _bytesReceived := p._bytesReceived + xs.length } (i + xs.length) := by
  intro xs
  induction xs with
  | nil => intro p i _ _ _ _; exact Walk.refl _ _
  | cons c xs ih =>
    intro p i hs hat hok hle
    obtain ⟨hc, hat'⟩ := hat.head
    obtain ⟨h1, h2⟩ := hok c (by simp)
    simp only [List.length_cons] at hle ⊢
    have hstep : step mem e p i =
        (⟨{ p with _entity := ⟨p._entity.data, p._entity.size + 1⟩,
                   _bytesReceived := p._bytesReceived + 1 }, i + 1, []⟩, false) := by
      simp only [step, hs, hc, advance, HttpParser.nextChar, h1, h2, if_false, if_true]
    have hw := Walk.next (by omega) (safe_of_state (by simp [hs])) hstep
      (ih _ (i + 1) hs hat' (fun c hc => hok c (by simp [hc])) (by omega))
    refine hw.cast ?_ (by omega) rfl
    simp only [HttpParser.mk.injEq, View.mk.injEq, true_and, and_true]
    omega

theorem walk_REQUEST_VERSION_MAJOR (mem : List Nat) (e : Nat) : ∀ (xs : List Nat)
    (p : HttpParser) (i : Nat), p._state = HttpParserState.REQUEST_PROTOCOL_VERSION_MAJOR →
    At mem i xs → (∀ c ∈ xs, isdigit c = true) → i + xs.length ≤ e →
    Walk Safe mem e p i []
      { p with _versionMajor := digitsVal p._versionMajor xs,
               _bytesReceived := p._bytesReceived + xs.length } (i + xs.length) := by
  intro xs
  induction xs with
  | nil => intro p i _ _ _ _; exact Walk.refl _ _
  | cons c xs ih =>
    intro p i hs hat hok hle
    obtain ⟨hc, hat'⟩ := hat.head
    have h1 := hok c (by simp)
    have h2 : c ≠ 46 := by simp [isdigit] at h1; omega
    simp only [List.length_cons] at hle ⊢
    have hstep : step mem e p i =
        (⟨{ p with _versionMajor := p._versionMajor * 10 + (c : Int) - 48,
                   _bytesReceived := p._bytesReceived + 1 }, i + 1, []⟩, false) := by
      simp only [step, hs, hc, advance, HttpParser.nextChar, h1, h2, CR, if_false, Bool.not_true,
        Bool.false_eq_true]
    have hw := Walk.next (by omega) (safe_of_state (by simp [hs])) hstep
      (ih _ (i + 1) hs hat' (fun c hc => hok c (by simp [hc])) (by omega))
    refine hw.cast ?_ (by omega) rfl
    simp only [HttpParser.mk.injEq, View.mk.injEq, true_and, and_true, digitsVal]
    omega

theorem walk_REQUEST_VERSION_MINOR (mem : List Nat) (e : Nat) : ∀ (xs : List Nat)
    (p : HttpParser) (i : Nat), p._state = HttpParserState.REQUEST_PROTOCOL_VERSION_MINOR →
    At mem i xs → (∀ c ∈ xs, isdigit c = true) → i + xs.length ≤ e →
    Walk Safe mem e p i []
      { p with _versionMinor := digitsVal p._versionMinor xs,
               _bytesReceived := p._bytesReceived + xs.length } (i + xs.length) := by
  intro xs
  induction xs with
  | nil => intro p i _ _ _ _; exact Walk.refl _ _
  | cons c xs ih =>
    intro p i hs hat hok hle
    obtain ⟨hc, hat'⟩ := hat.head
    have h1 := hok c (by simp)
    have h2 : c ≠ 13 := by simp [isdigit] at h1; omega
    simp only [List.length_cons] at hle ⊢
    have hstep : step mem e p i =
        (⟨{ p with _versionMinor := p._versionMinor * 10 + (c : Int) - 48,
                   _bytesReceived := p._bytesReceived + 1 }, i + 1, []⟩, false) := by
      simp only [step, hs, hc, advance, HttpParser.nextChar, h1, h2, CR, if_false, Bool.not_true,
        Bool.false_eq_true]
    have hw := Walk.next (by omega) (safe_of_state (by simp [hs])) hstep
      (ih _ (i + 1) hs hat' (fun c hc => hok c (by simp [hc])) (by omega))
    refine hw.cast ?_ (by omega) rfl
    simp only [HttpParser.mk.injEq, View.mk.injEq, true_and, and_true, digitsVal]
    omega

theorem walk_HEADER_NAME (mem : List Nat) (e : Nat) : ∀ (xs : List Nat) (p : HttpParser)
    (i : Nat), p._state = HttpParserState.HEADER_NAME → At mem i xs →
    (∀ c ∈ xs, isToken c = true) → i + xs.length ≤ e →
    Walk Safe mem e p i []
      { p with _name := ⟨p._name.data, p._name.size + xs.length⟩,
               _bytesReceived := p._bytesReceived + xs.length } (i + xs.length) := by
  intro xs
  induction xs with
  | nil => intro p i _ _ _ _; exact Walk.refl _ _
  | cons c xs ih =>
    intro p i hs hat htok hle
    obtain ⟨hc, hat'⟩ := hat.head
    have hct := htok c (by simp)
    simp only [List.length_cons] at hle ⊢
    have hstep : step mem e p i =
        (⟨{ p with _name := ⟨p._name.data, p._name.size + 1⟩,
                   _bytesReceived := p._bytesReceived + 1 }, i + 1, []⟩, false) := by
      simp only [step, hs, hc, advance, HttpParser.nextChar, hct, if_true]
    have hw := Walk.next (by omega) (safe_of_state (by simp [hs])) hstep
      (ih _ (i + 1) hs hat' (fun c hc => htok c (by simp [hc])) (by omega))
    refine hw.cast ?_ (by omega) rfl
    simp only [HttpParser.mk.injEq, View.mk.injEq, true_and, and_true]
    omega

theorem walk_HEADER_VALUE (mem : List Nat) (e : Nat) : ∀ (xs : List Nat) (p : HttpParser)
    (i : Nat), p._state = HttpParserState.HEADER_VALUE → At mem i xs →
    (∀ c ∈ xs, isText c = true) → i + xs.length ≤ e →
    Walk Safe mem e p i []
      { p with _value := ⟨p._value.data, p._value.size + xs.length⟩,
               _bytesReceived := p._bytesReceived + xs.length } (i + xs.length) := by
  intro xs
  induction xs with
  | nil => intro p i _ _ _ _; exact Walk.refl _ _
  | cons c xs ih =>
    intro p i hs hat htok hle
    obtain ⟨hc, hat'⟩ := hat.head
    have hct := htok c (by simp)
    obtain ⟨h1, _⟩ := isText_facts hct
    simp only [List.length_cons] at hle ⊢
    have hstep : step mem e p i =
        (⟨{ p with _value := ⟨p._value.data, p._value.size + 1⟩,
                   _bytesReceived := p._bytesReceived + 1 }, i + 1, []⟩, false) := by
      simp only [step, hs, hc, advance, HttpParser.nextChar, hct, CR, h1, if_true, if_false]
    have hw := Walk.next (by omega) (safe_of_state (by simp [hs])) hstep
      (ih _ (i + 1) hs hat' (fun c hc => htok c (by simp [hc])) (by omega))
    refine hw.cast ?_ (by omega) rfl
    simp only [HttpParser.mk.injEq, View.mk.injEq, true_and, and_true]
    omega

theorem walk_MESSAGE_BEGIN_request (mem : List Nat) (e : Nat) {p : HttpParser} {i : Nat}
    (hs : p._state = HttpParserState.MESSAGE_BEGIN)
    (hm : p._mode = HttpParseMode.REQUEST) (hlt : i < e) :
    Walk Safe mem e p i []
      { p with _contentLength := -1, _state := HttpParserState.REQUEST_LINE_BEGIN, _versionMajor := 0,
               _versionMinor := 0 } i := by
  have hsub : min 1 (e - i) = 1 := by omega
  refine walk_one (by omega) (safe_of_state (by simp [hs])) ?_
  simp only [step, hs, advance, HttpParser.nextChar, substr, hsub, protocolError]
  simp [SP, HT, CR, LF, hm]

theorem walk_MESSAGE_BEGIN_response (mem : List Nat) (e : Nat) {p : HttpParser} {i : Nat}
    (hs : p._state = HttpParserState.MESSAGE_BEGIN)
    (hm : p._mode = HttpParseMode.RESPONSE) (hlt : i < e) :
    Walk Safe mem e p i []
      { p with _contentLength := -1, _state := HttpParserState.STATUS_LINE_BEGIN, _code := 0,
               _versionMajor := 0, _versionMinor := 0 } i := by
  have hsub : min 1 (e - i) = 1 := by omega
  refine walk_one (by omega) (safe_of_state (by simp [hs])) ?_
  simp only [step, hs, advance, HttpParser.nextChar, substr, hsub, protocolError]
  simp [SP, HT, CR, LF, hm]

theorem walk_MESSAGE_BEGIN_message (mem : List Nat) (e : Nat) {p : HttpParser} {i : Nat}
    (hs : p._state = HttpParserState.MESSAGE_BEGIN)
    (hm : p._mode = HttpParseMode.MESSAGE) (hlt : i < e) :
    Walk Safe mem e p i [Event.onMessageBegin]
      { p with _contentLength := -1, _state := HttpParserState.HEADER_NAME_BEGIN } i := by
  have hsub : min 1 (e - i) = 1 := by omega
  refine walk_one (by omega) (safe_of_state (by simp [hs])) ?_
  simp only [step, hs, advance, HttpParser.nextChar, substr, hsub, protocolError]
  simp [SP, HT, CR, LF, hm]

theorem walk_REQUEST_LINE_BEGIN (mem : List Nat) (e : Nat) {p : HttpParser} {i : Nat} {c : Nat}
    (hs : p._state = HttpParserState.REQUEST_LINE_BEGIN)
    (hc : mem.getD i 0 = c)
    (ht : isToken c = true) (hlt : i < e) :
    Walk Safe mem e p i []
      { p with _state := HttpParserState.REQUEST_METHOD, _method := ⟨i, 1⟩,
               _bytesReceived := p._bytesReceived + 1 } (i + 1) := by
  have hsub : min 1 (e - i) = 1 := by omega
  refine walk_one (by omega) (safe_of_state (by simp [hs])) ?_
  simp only [step, hs, hc, advance, HttpParser.nextChar, substr, hsub, protocolError]
  simp [SP, HT, CR, LF, ht]

theorem walk_REQUEST_METHOD_sp (mem : List Nat) (e : Nat) {p : HttpParser} {i : Nat}
    (hs : p._state = HttpParserState.REQUEST_METHOD)
    (hc : mem.getD i 0 = 32) (hlt : i < e) :
    Walk Safe mem e p i []
      { p with _state := HttpParserState.REQUEST_ENTITY_BEGIN,
               _bytesReceived := p._bytesReceived + 1 } (i + 1) := by
  have hsub : min 1 (e - i) = 1 := by omega
  refine walk_one (by omega) (safe_of_state (by simp [hs])) ?_
  simp only [step, hs, hc, advance, HttpParser.nextChar, substr, hsub, protocolError]
  simp [SP, HT, CR, LF]

theorem walk_REQUEST_ENTITY_BEGIN (mem : List Nat) (e : Nat) {p : HttpParser} {i : Nat} {c : Nat}
    (hs : p._state = HttpParserState.REQUEST_ENTITY_BEGIN)
    (hc : mem.getD i 0 = c)
    (ht : isprint c = true) (hlt : i < e) :
    Walk Safe mem e p i []
      { p with _entity := ⟨i, 1⟩, _state := HttpParserState.REQUEST_ENTITY,
               _bytesReceived := p._bytesReceived + 1 } (i + 1) := by
  have hsub : min 1 (e - i) = 1 := by omega
  refine walk_one (by omega) (safe_of_state (by simp [hs])) ?_
  simp only [step, hs, hc, advance, HttpParser.nextChar, substr, hsub, protocolError]
  simp [SP, HT, CR, LF, ht]

theorem walk_REQUEST_ENTITY_sp (mem : List Nat) (e : Nat) {p : HttpParser} {i : Nat}
    (hs : p._state = HttpParserState.REQUEST_ENTITY)
    (hc : mem.getD i 0 = 32) (hlt : i < e) :
    Walk Safe mem e p i []
      { p with _state := HttpParserState.REQUEST_PROTOCOL_BEGIN,
               _bytesReceived := p._bytesReceived + 1 } (i + 1) := by
  have hsub : min 1 (e - i) = 1 := by omega
  refine walk_one (by omega) (safe_of_state (by simp [hs])) ?_
  simp only [step, hs, hc, advance, HttpParser.nextChar, substr, hsub, protocolError]
  simp [SP, HT, CR, LF]

theorem walk_REQUEST_ENTITY_cr (mem : List Nat) (e : Nat) {p : HttpParser} {i : Nat}
    (hs : p._state = HttpParserState.REQUEST_ENTITY)
    (hc : mem.getD i 0 = 13) (hlt : i < e) :
    Walk Safe mem e p i []
      { p with _state := HttpParserState.REQUEST_0_9_LF, _bytesReceived := p._bytesReceived + 1 } (i + 1) := by
  have hsub : min 1 (e - i) = 1 := by omega
  refine walk_one (by omega) (safe_of_state (by simp [hs])) ?_
  simp only [step, hs, hc, advance, HttpParser.nextChar, substr, hsub, protocolError]
  simp [SP, HT, CR, LF, isprint]

theorem walk_REQUEST_VERSION_MAJOR_dot (mem : List Nat) (e : Nat) {p : HttpParser} {i : Nat}
    (hs : p._state = HttpParserState.REQUEST_PROTOCOL_VERSION_MAJOR)
    (hc : mem.getD i 0 = 46) (hlt : i < e) :
    Walk Safe mem e p i []
      { p with _state := HttpParserState.REQUEST_PROTOCOL_VERSION_MINOR,
               _bytesReceived := p._bytesReceived + 1 } (i + 1) := by
  have hsub : min 1 (e - i) = 1 := by omega
  refine walk_one (by omega) (safe_of_state (by simp [hs])) ?_
  simp only [step, hs, hc, advance, HttpParser.nextChar, substr, hsub, protocolError]
  simp [SP, HT, CR, LF]

theorem walk_REQUEST_VERSION_MINOR_cr (mem : List Nat) (e : Nat) {p : HttpParser} {i : Nat}
    (hs : p._state = HttpParserState.REQUEST_PROTOCOL_VERSION_MINOR)
    (hc : mem.getD i 0 = 13) (hlt : i < e) :
    Walk Safe mem e p i []
      { p with _state := HttpParserState.REQUEST_LINE_LF, _bytesReceived := p._bytesReceived + 1 } (i + 1) := by
  have hsub : min 1 (e - i) = 1 := by omega
  refine walk_one (by omega) (safe_of_state (by simp [hs])) ?_
  simp only [step, hs, hc, advance, HttpParser.nextChar, substr, hsub, protocolError]
  simp [SP, HT, CR, LF]

theorem walk_HEADER_NAME_BEGIN (mem : List Nat) (e : Nat) {p : HttpParser} {i : Nat} {c : Nat}
    (hs : p._state = HttpParserState.HEADER_NAME_BEGIN)
    (hc : mem.getD i 0 = c)
    (ht : isToken c = true) (hlt : i < e) :
    Walk Safe mem e p i []
      { p with _name := ⟨i, 1⟩, _state := HttpParserState.HEADER_NAME,
               _bytesReceived := p._bytesReceived + 1 } (i + 1) := by
  have hsub : min 1 (e - i) = 1 := by omega
  refine walk_one (by omega) (safe_of_state (by simp [hs])) ?_
  simp only [step, hs, hc, advance, HttpParser.nextChar, substr, hsub, protocolError]
  simp [SP, HT, CR, LF, ht]

theorem walk_HEADER_NAME_BEGIN_cr (mem : List Nat) (e : Nat) {p : HttpParser} {i : Nat}
    (hs : p._state = HttpParserState.HEADER_NAME_BEGIN)
    (hc : mem.getD i 0 = 13) (hlt : i < e) :
    Walk Safe mem e p i []
      { p with _state := HttpParserState.HEADER_END_LF, _bytesReceived := p._bytesReceived + 1 } (i + 1) := by
  have hsub : min 1 (e - i) = 1 := by omega
  refine walk_one (by omega) (safe_of_state (by simp [hs])) ?_
  simp only [step, hs, hc, advance, HttpParser.nextChar, substr, hsub, protocolError]
  simp [SP, HT, CR, LF, isToken, isChar, isControl, isSeparator]

theorem walk_HEADER_NAME_colon (mem : List Nat) (e : Nat) {p : HttpParser} {i : Nat}
    (hs : p._state = HttpParserState.HEADER_NAME)
    (hc : mem.getD i 0 = 58) (hlt : i < e) :
    Walk Safe mem e p i []
      { p with _state := HttpParserState.LWS_BEGIN, _lwsNext := HttpParserState.HEADER_VALUE_BEGIN,
               _lwsNull := HttpParserState.HEADER_VALUE_END,
               _bytesReceived := p._bytesReceived + 1 } (i + 1) := by
  have hsub : min 1 (e - i) = 1 := by omega
  refine walk_one (by omega) (safe_of_state (by simp [hs])) ?_
  simp only [step, hs, hc, advance, HttpParser.nextChar, substr, hsub, protocolError]
  simp [SP, HT, CR, LF, isToken, isChar, isControl, isSeparator]

theorem walk_LWS_BEGIN_sp (mem : List Nat) (e : Nat) {p : HttpParser} {i : Nat}
    (hs : p._state = HttpParserState.LWS_BEGIN)
    (hc : mem.getD i 0 = 32) (hlt : i < e) :
    Walk Safe mem e p i []
      { p with _state := HttpParserState.LWS_SP_HT, _bytesReceived := p._bytesReceived + 1 } (i + 1) := by
  have hsub : min 1 (e - i) = 1 := by omega
  refine walk_one (by omega) (safe_of_state (by simp [hs])) ?_
  simp only [step, hs, hc, advance, HttpParser.nextChar, substr, hsub, protocolError]
  simp [SP, HT, CR, LF]

theorem walk_LWS_SP_HT_next (mem : List Nat) (e : Nat) {p : HttpParser} {i : Nat} {c : Nat}
    (hs : p._state = HttpParserState.LWS_SP_HT)
    (hc : mem.getD i 0 = c)
    (h1 : c ≠ 32)
    (h2 : c ≠ 9) (hlt : i < e) :
    Walk Safe mem e p i []
      { p with _state := p._lwsNext } i := by
  have hsub : min 1 (e - i) = 1 := by omega
  refine walk_one (by omega) (safe_of_state (by simp [hs])) ?_
  simp only [step, hs, hc, advance, HttpParser.nextChar, substr, hsub, protocolError]
  simp [SP, HT, CR, LF, h1, h2]

theorem walk_HEADER_VALUE_BEGIN (mem : List Nat) (e : Nat) {p : HttpParser} {i : Nat} {c : Nat}
    (hs : p._state = HttpParserState.HEADER_VALUE_BEGIN)
    (hc : mem.getD i 0 = c)
    (ht : isText c = true) (hlt : i < e) :
    Walk Safe mem e p i []
      { p with _value := ⟨i, 1⟩, _state := HttpParserState.HEADER_VALUE,
               _bytesReceived := p._bytesReceived + 1 } (i + 1) := by
  have hsub : min 1 (e - i) = 1 := by omega
  refine walk_one (by omega) (safe_of_state (by simp [hs])) ?_
  simp only [step, hs, hc, advance, HttpParser.nextChar, substr, hsub, protocolError]
  simp [SP, HT, CR, LF, ht]

theorem walk_HEADER_VALUE_cr (mem : List Nat) (e : Nat) {p : HttpParser} {i : Nat}
    (hs : p._state = HttpParserState.HEADER_VALUE)
    (hc : mem.getD i 0 = 13) (hlt : i < e) :
    Walk Safe mem e p i []
      { p with _state := HttpParserState.LWS_LF, _lwsNext := HttpParserState.HEADER_VALUE,
               _lwsNull := HttpParserState.HEADER_VALUE_END,
               _bytesReceived := p._bytesReceived + 1 } (i + 1) := by
  have hsub : min 1 (e - i) = 1 := by omega
  refine walk_one (by omega) (safe_of_state (by simp [hs])) ?_
  simp only [step, hs, hc, advance, HttpParser.nextChar, substr, hsub, protocolError]
  simp [SP, HT, CR, LF]

theorem walk_LWS_LF (mem : List Nat) (e : Nat) {p : HttpParser} {i : Nat}
    (hs : p._state = HttpParserState.LWS_LF)
    (hc : mem.getD i 0 = 10) (hlt : i < e) :
    Walk Safe mem e p i []
      { p with _state := HttpParserState.LWS_SP_HT_BEGIN, _bytesReceived := p._bytesReceived + 1 } (i + 1) := by
  have hsub : min 1 (e - i) = 1 := by omega
  refine walk_one (by omega) (safe_of_state (by simp [hs])) ?_
  simp only [step, hs, hc, advance, HttpParser.nextChar, substr, hsub, protocolError]
  simp [SP, HT, CR, LF]

theorem walk_LWS_SP_HT_BEGIN_null (mem : List Nat) (e : Nat) {p : HttpParser} {i : Nat} {c : Nat}
    (hs : p._state = HttpParserState.LWS_SP_HT_BEGIN)
    (hc : mem.getD i 0 = c)
    (h1 : c ≠ 32)
    (h2 : c ≠ 9)
    (hn : p._lwsNull = HttpParserState.HEADER_VALUE_END) (hlt : i < e) :
    Walk Safe mem e p i []
      { p with _state := HttpParserState.HEADER_VALUE_END } i := by
  have hsub : min 1 (e - i) = 1 := by omega
  refine walk_one (by omega) (safe_of_state (by simp [hs])) ?_
  simp only [step, hs, hc, advance, HttpParser.nextChar, substr, hsub, protocolError]
  simp [SP, HT, CR, LF, h1, h2, hn]

theorem walk_CONTENT_BEGIN_fixed (mem : List Nat) (e : Nat) {p : HttpParser} {i : Nat}
    (hs : p._state = HttpParserState.CONTENT_BEGIN)
    (hch : p._chunked = false)
    (hl : 0 ≤ p._contentLength) (hsafe : Safe p) (hlt : i < e) :
    Walk Safe mem e p i []
      { p with _state := HttpParserState.CONTENT } i := by
  have hsub : min 1 (e - i) = 1 := by omega
  refine walk_one (by omega) hsafe ?_
  simp only [step, hs, advance, HttpParser.nextChar, substr, hsub, protocolError]
  simp [SP, HT, CR, LF, hch, hl]

theorem walk_CONTENT_BEGIN_chunked (mem : List Nat) (e : Nat) {p : HttpParser} {i : Nat}
    (hs : p._state = HttpParserState.CONTENT_BEGIN)
    (hch : p._chunked = true) (hsafe : Safe p) (hlt : i < e) :
    Walk Safe mem e p i []
      { p with _state := HttpParserState.CONTENT_CHUNK_SIZE_BEGIN } i := by
  have hsub : min 1 (e - i) = 1 := by omega
  refine walk_one (by omega) hsafe ?_
  simp only [step, hs, advance, HttpParser.nextChar, substr, hsub, protocolError]
  simp [SP, HT, CR, LF, hch]

theorem walk_proto_char (mem : List Nat) (e : Nat) {p : HttpParser} {i c : Nat}
    {s' : HttpParserState} (hn : protoNext p._state = some (c, s')) (hc : mem.getD i 0 = c)
    (hlt : i < e) :
    Walk Safe mem e p i [] { p with _state := s', _bytesReceived := p._bytesReceived + 1 }
      (i + 1) := by
  have hcb : p._state ≠ HttpParserState.CONTENT_BEGIN := by
    intro h; rw [h] at hn; simp [protoNext] at hn
  refine walk_one (by omega) (safe_of_state hcb) ?_
  cases hs : p._state <;> rw [hs] at hn <;> simp only [protoNext] at hn <;>
    cases hn <;>
    simp only [step, hs, hc, expectChar, advance, HttpParser.nextChar] <;>
    simp [CR, LF]

theorem walk_proto (mem : List Nat) (e : Nat) : ∀ (xs : List Nat) (p : HttpParser) (i : Nat)
    (s' : HttpParserState), protoPath p._state xs = some s' → At mem i xs →
    i + xs.length ≤ e →
    Walk Safe mem e p i []
      { p with _state := s', _bytesReceived := p._bytesReceived + xs.length }
      (i + xs.length) := by
  intro xs
  induction xs with
  | nil =>
    intro p i s' hp _ _
    simp only [protoPath, Option.some.injEq] at hp
    subst hp
    exact Walk.refl _ _
  | cons c xs ih =>
    intro p i s' hp hat hle
    obtain ⟨hc, hat'⟩ := hat.head
    simp only [List.length_cons] at hle ⊢
    simp only [protoPath] at hp
    rcases hn : protoNext p._state with _ | ⟨c', s1⟩
    · rw [hn] at hp; cases hp
    · rw [hn] at hp
      simp only at hp
      by_cases hcc : c = c'
      · subst hcc
        simp only [if_true] at hp
        have w1 := walk_proto_char mem e hn hc (by omega)
        have w2 := ih { p with _state := s1, _bytesReceived := p._bytesReceived + 1 } (i + 1) s'
          hp hat' (by omega)
        refine (Walk.concat w1 w2).cast ?_ (by omega) rfl
        simp only [HttpParser.mk.injEq, true_and, and_true]
        omega
      · simp only [hcc, if_false] at hp
        cases hp

theorem At.at_pos {mem : List Nat} {i j : Nat} {xs : List Nat} (h : At mem i xs) (hi : i = j) :
    At mem j xs := hi ▸ h

theorem getD_cast {mem : List Nat} {i j c : Nat} (h : mem.getD i 0 = c) (hi : i = j) :
    mem.getD j 0 = c := hi ▸ h

theorem walk_request_start (mem : List Nat) (e : Nat) {p : HttpParser} {i : Nat}
    {m en rest : List Nat} (hs : p._state = HttpParserState.MESSAGE_BEGIN)
    (hm : p._mode = HttpParseMode.REQUEST) (hmt : TokenStr m) (het : EntityStr en)
    (hat : At mem i (m ++ SP :: (en ++ rest))) (hle : i + m.length + 1 + en.length ≤ e) :
    ∃ q, Walk Safe mem e p i [] q (i + m.length + 1 + en.length) ∧
      q._state = HttpParserState.REQUEST_ENTITY ∧ q._mode = p._mode ∧ q._chunked = p._chunked ∧
      q._contentLength = -1 ∧ q._versionMajor = 0 ∧ q._versionMinor = 0 ∧
      q._method = ⟨i, m.length⟩ ∧ q._entity = ⟨i + m.length + 1, en.length⟩ ∧
      At mem (i + m.length + 1 + en.length) rest := by
  obtain ⟨hmne, hmtok⟩ := hmt
  obtain ⟨hene, hetok⟩ := het
  obtain ⟨m0, mt, rfl⟩ := List.exists_cons_of_ne_nil hmne
  obtain ⟨e0, et, rfl⟩ := List.exists_cons_of_ne_nil hene
  simp only [List.length_cons] at hle ⊢
  obtain ⟨hatm, hat1⟩ := hat.split
  obtain ⟨hc0, hatmt⟩ := hatm.head
  obtain ⟨hcsp, hat2⟩ := hat1.head
  obtain ⟨hate, hat3⟩ := hat2.split
  obtain ⟨hce0, hatet⟩ := hate.head
  simp only [List.length_cons] at hat1 hat2 hat3 hcsp hce0 hatet
  have hm0 := hmtok m0 (by simp)
  have he0 := hetok e0 (by simp)
  have w :=
    (walk_MESSAGE_BEGIN_request mem e hs hm (by omega)).concat <|
    (walk_REQUEST_LINE_BEGIN mem e (by rfl) hc0 hm0 (by omega)).concat <|
    (walk_REQUEST_METHOD mem e mt _ (i + 1) (by rfl) hatmt
      (fun c hc => hmtok c (by simp [hc])) (by omega)).concat <|
    (walk_REQUEST_METHOD_sp mem e (by rfl) (getD_cast hcsp (by omega)) (by omega)).concat <|
    (walk_REQUEST_ENTITY_BEGIN mem e (by rfl) (getD_cast hce0 (by omega)) he0.1 (by omega)).concat <|
    (walk_REQUEST_ENTITY mem e et _ (i + 1 + mt.length + 1 + 1) (by rfl)
      (hatet.at_pos (by omega)) (fun c hc => hetok c (by simp [hc])) (by omega))
  refine ⟨_, w.cast rfl (by omega) (by simp), rfl, rfl, rfl, rfl, rfl, rfl, ?_, ?_,
    hat3.at_pos (by omega)⟩
  · simp only [View.mk.injEq, true_and]; omega
  · simp only [View.mk.injEq]; omega

theorem step_REQUEST_0_9_LF (mem : List Nat) (e : Nat) {p : HttpParser} {i : Nat}
    (hs : p._state = HttpParserState.REQUEST_0_9_LF) (hc : mem.getD i 0 = 10) :
    step mem e p i =
      (⟨p, i, [Event.onMessageBeginRequest (p._method.read mem) (p._entity.read mem)
                 HttpVersion.VERSION_0_9, Event.onMessageHeaderEnd, Event.onMessageEnd]⟩,
        true) := by
  simp only [step, hs, hc]
  simp [LF]

theorem run_simple_request (mem : List Nat) (e : Nat) {p : HttpParser} {i : Nat}
    {m en rest : List Nat} (hs : p._state = HttpParserState.MESSAGE_BEGIN)
    (hm : p._mode = HttpParseMode.REQUEST) (hmt : TokenStr m) (het : EntityStr en)
    (hat : At mem i (simpleRequest m en ++ rest))
    (hle : i + m.length + 1 + en.length + 2 ≤ e) :
    ∃ q, Run Safe mem e p i
      ⟨q, i + m.length + 1 + en.length + 1,
        [Event.onMessageBeginRequest m en HttpVersion.VERSION_0_9, Event.onMessageHeaderEnd,
          Event.onMessageEnd]⟩ true ∧ q._state = HttpParserState.REQUEST_0_9_LF := by
  have hat' : At mem i (m ++ SP :: (en ++ CR :: LF :: rest)) := by
    simpa [simpleRequest] using hat
  obtain ⟨hatm, hat1⟩ := hat'.split
  obtain ⟨_, hat2⟩ := hat1.head
  obtain ⟨haten, _⟩ := hat2.split
  obtain ⟨q, w, hq, _, _, _, _, _, hqm, hqe, hat3⟩ :=
    walk_request_start mem e hs hm hmt het hat' (by omega)
  obtain ⟨hcr, hat4⟩ := hat3.head
  obtain ⟨hlf, _⟩ := hat4.head
  have w2 := w.concat (walk_REQUEST_ENTITY_cr mem e hq hcr (by omega))
  have hd := step_REQUEST_0_9_LF mem e
    (p := { q with _state := HttpParserState.REQUEST_0_9_LF,
                   _bytesReceived := q._bytesReceived + 1 })
    (i := i + m.length + 1 + en.length + 1) rfl hlf
  have hr := w2.run (Run.done (by omega) (safe_of_state (by simp)) hd)
  simp only [hqm, hqe, hatm.read_eq, haten.read_eq, List.append_nil, List.nil_append] at hr
  exact ⟨_, hr, rfl⟩

theorem walk_REQUEST_LINE_LF (mem : List Nat) (e : Nat) {p : HttpParser} {i : Nat}
    (hs : p._state = HttpParserState.REQUEST_LINE_LF) (hc : mem.getD i 0 = 10)
    (hv : makeHttpVersion p._versionMajor p._versionMinor ≠ HttpVersion.UNKNOWN) (hlt : i < e) :
    Walk Safe mem e p i
      [Event.onMessageBeginRequest (p._method.read mem) (p._entity.read mem)
        (makeHttpVersion p._versionMajor p._versionMinor)]
      { p with _state := HttpParserState.HEADER_NAME_BEGIN,
               _bytesReceived := p._bytesReceived + 1 } (i + 1) := by
  refine walk_one (by omega) (safe_of_state (by simp [hs])) ?_
  simp only [step, hs, hc, HttpParser.nextChar]
  simp [LF, hv]

theorem requestLine_length (m en maj min : List Nat) :
    (requestLine m en maj min).length =
      m.length + 1 + en.length + 1 + 5 + maj.length + 1 + min.length + 2 := by
  simp [requestLine, strHTTP]; omega

theorem walk_request_line (mem : List Nat) (e : Nat) {p : HttpParser} {i : Nat}
    {m en maj min rest : List Nat} (hs : p._state = HttpParserState.MESSAGE_BEGIN)
    (hm : p._mode = HttpParseMode.REQUEST) (hmt : TokenStr m) (het : EntityStr en)
    (hmaj : DigitStr maj) (hmin : DigitStr min)
    (hv : makeHttpVersion (digitsVal 0 maj) (digitsVal 0 min) ≠ HttpVersion.UNKNOWN)
    (hat : At mem i (requestLine m en maj min ++ rest))
    (hle : i + (requestLine m en maj min).length ≤ e) :
    ∃ q, Walk Safe mem e p i
        [Event.onMessageBeginRequest m en (makeHttpVersion (digitsVal 0 maj) (digitsVal 0 min))]
        q (i + (requestLine m en maj min).length) ∧
      q._state = HttpParserState.HEADER_NAME_BEGIN ∧ q._mode = p._mode ∧
      q._chunked = p._chunked ∧ q._contentLength = -1 ∧
      At mem (i + (requestLine m en maj min).length) rest := by
  rw [requestLine_length] at hle ⊢
  have hat' : At mem i (m ++ SP :: (en ++ SP :: (strHTTP ++ (maj ++ 46 :: (min ++
      CR :: LF :: rest))))) := by
    simpa [requestLine] using hat
  obtain ⟨hatm, hat1⟩ := hat'.split
  obtain ⟨_, hat2⟩ := hat1.head
  obtain ⟨haten, _⟩ := hat2.split
  obtain ⟨q, w, hq, hqmode, hqch, hqcl, hqmaj, hqmin, hqm, hqe, hat3⟩ :=
    walk_request_start mem e hs hm hmt het hat' (by omega)
  obtain ⟨hsp, hat4⟩ := hat3.head
  obtain ⟨hathttp, hat5⟩ := hat4.split
  obtain ⟨hatmaj, hat6⟩ := hat5.split
  obtain ⟨hdot, hat7⟩ := hat6.head
  obtain ⟨hatmin, hat8⟩ := hat7.split
  obtain ⟨hcr, hat9⟩ := hat8.head
  obtain ⟨hlf, hat10⟩ := hat9.head
  have h5 : strHTTP.length = 5 := rfl
  rw [h5] at hat5 hat6 hat7 hat8 hat9 hat10
  have w2 :=
    w.concat <|
    (walk_REQUEST_ENTITY_sp mem e hq hsp (by omega)).concat <|
    (walk_proto mem e strHTTP _ _ HttpParserState.REQUEST_PROTOCOL_VERSION_MAJOR (by rfl)
      hathttp (by rw [h5]; omega)).concat <|
    (walk_REQUEST_VERSION_MAJOR mem e maj _ _ (by rfl) (hatmaj.at_pos (by rw [h5]))
      hmaj (by rw [h5]; omega)).concat <|
    (walk_REQUEST_VERSION_MAJOR_dot mem e (by rfl) (getD_cast hdot (by rw [h5]))
      (by rw [h5]; omega)).concat <|
    (walk_REQUEST_VERSION_MINOR mem e min _ _ (by rfl) (hatmin.at_pos (by rw [h5]))
      hmin (by rw [h5]; omega)).concat <|
    (walk_REQUEST_VERSION_MINOR_cr mem e (by rfl) (getD_cast hcr (by rw [h5]))
      (by rw [h5]; omega)).concat <|
    (walk_REQUEST_LINE_LF mem e (by rfl) (getD_cast hlf (by rw [h5]))
      (by simpa [hqmaj, hqmin] using hv) (by rw [h5]; omega))
  simp only [hqm, hqe, hqmaj, hqmin, hatm.read_eq, haten.read_eq, List.append_nil,
    List.nil_append] at w2
  refine ⟨_, w2.cast rfl (by rw [h5]; omega) rfl, rfl, hqmode, hqch, hqcl,
    hat10.at_pos (by omega)⟩

theorem walk_HEADER_VALUE_END (mem : List Nat) (e : Nat) {p : HttpParser} {i : Nat}
    {n v : List Nat} (hs : p._state = HttpParserState.HEADER_VALUE_END)
    (hn : p._name.read mem = n) (hv : p._value.read mem = v) (hlt : i < e) :
    Walk Safe mem e p i (headerEvents n v)
      { p with _chunked := (headerFraming n v p._chunked p._contentLength).1,
               _contentLength := (headerFraming n v p._chunked p._contentLength).2,
               _name := ⟨0, 0⟩, _value := ⟨0, 0⟩,
               _state := HttpParserState.HEADER_NAME_BEGIN } i := by
  refine walk_one (by omega) (safe_of_state (by simp [hs])) ?_
  simp only [step, hs, caseHeaderValueEnd, hn, hv, headerEvents, headerFraming]
  split_ifs <;> rfl

theorem walk_header_line (mem : List Nat) (e : Nat) {p : HttpParser} {i : Nat}
    {n v rest : List Nat} {c' : Nat} (hs : p._state = HttpParserState.HEADER_NAME_BEGIN)
    (hn : TokenStr n) (hv : ValueStr v) (hat : At mem i (headerLine n v ++ c' :: rest))
    (hc1 : c' ≠ 32) (hc2 : c' ≠ 9) (hle : i + (headerLine n v).length < e) :
    ∃ q, Walk Safe mem e p i (headerEvents n v) q (i + (headerLine n v).length) ∧
      q._state = HttpParserState.HEADER_NAME_BEGIN ∧ q._mode = p._mode ∧
      q._chunked = (headerFraming n v p._chunked p._contentLength).1 ∧
      q._contentLength = (headerFraming n v p._chunked p._contentLength).2 ∧
      At mem (i + (headerLine n v).length) (c' :: rest) := by
  have hlen : (headerLine n v).length = n.length + 1 + 1 + v.length + 1 + 1 := by
    simp [headerLine]; omega
  rw [hlen] at hle ⊢
  have hat' : At mem i (n ++ 58 :: SP :: (v ++ CR :: LF :: c' :: rest)) := by
    simpa [headerLine] using hat
  obtain ⟨hnne, hntok⟩ := hn
  obtain ⟨hvne, hvtext, hv1, hv2⟩ := hv
  obtain ⟨n0, nt, rfl⟩ := List.exists_cons_of_ne_nil hnne
  obtain ⟨v0, vt, rfl⟩ := List.exists_cons_of_ne_nil hvne
  simp only [List.head?_cons, ne_eq, Option.some.injEq, SP, HT] at hv1 hv2
  obtain ⟨hatn, hat1⟩ := hat'.split
  obtain ⟨hn0, hatnt⟩ := hatn.head
  obtain ⟨hcolon, hat2⟩ := hat1.head
  obtain ⟨hsp, hat3⟩ := hat2.head
  obtain ⟨hatv, hat4⟩ := hat3.split
  obtain ⟨hv0, hatvt⟩ := hatv.head
  obtain ⟨hcr, hat5⟩ := hat4.head
  obtain ⟨hlf, hat6⟩ := hat5.head
  obtain ⟨hnext, _⟩ := hat6.head
  simp only [List.length_cons] at *
  have w1 := walk_HEADER_NAME_BEGIN mem e hs hn0 (hntok n0 (by simp)) (by omega)
  have w2 := w1.concat (walk_HEADER_NAME mem e nt _ _ (by rfl) hatnt
    (fun c hc => hntok c (by simp [hc])) (by omega))
  dsimp only at w2
  have w3 := w2.concat (walk_HEADER_NAME_colon mem e (by rfl) (getD_cast hcolon (by omega))
    (by omega))
  dsimp only at w3
  have w4 := w3.concat (walk_LWS_BEGIN_sp mem e (by rfl) (getD_cast hsp (by omega)) (by omega))
  dsimp only at w4
  have w5 := w4.concat (walk_LWS_SP_HT_next mem e (by rfl) (getD_cast hv0 (by omega)) hv1 hv2
    (by omega))
  dsimp only at w5
  have w6 := w5.concat (walk_HEADER_VALUE_BEGIN mem e (by rfl) (getD_cast hv0 (by omega))
    (hvtext v0 (by simp)) (by omega))
  dsimp only at w6
  have w7 := w6.concat (walk_HEADER_VALUE mem e vt _ _ (by rfl) (hatvt.at_pos (by omega))
    (fun c hc => hvtext c (by simp [hc])) (by omega))
  dsimp only at w7
  have w8 := w7.concat (walk_HEADER_VALUE_cr mem e (by rfl) (getD_cast hcr (by omega))
    (by omega))
  dsimp only at w8
  have w9 := w8.concat (walk_LWS_LF mem e (by rfl) (getD_cast hlf (by omega)) (by omega))
  dsimp only at w9
  have w10 := w9.concat (walk_LWS_SP_HT_BEGIN_null mem e (by rfl) (getD_cast hnext (by omega))
    hc1 hc2 (by rfl) (by omega))
  dsimp only at w10
  have hrn : View.read mem ⟨i, 1 + nt.length⟩ = n0 :: nt := by
    have := hatn.read_eq
    simp only [List.length_cons] at this
    rw [← this]; congr 1; simp only [View.mk.injEq, true_and]; omega
  have hrv : View.read mem ⟨i + 1 + nt.length + 1 + 1, 1 + vt.length⟩ = v0 :: vt := by
    have := hatv.read_eq
    simp only [List.length_cons] at this
    rw [← this]; congr 1; simp only [View.mk.injEq]; omega
  have w := w10.concat (walk_HEADER_VALUE_END mem e (n := n0 :: nt) (v := v0 :: vt) (by rfl)
    hrn hrv (by omega))
  dsimp only at w
  refine ⟨_, w.cast rfl (by omega) (by simp), rfl, rfl, rfl, rfl, hat6.at_pos (by omega)⟩

theorem headerBlock_head (hs : List (List Nat × List Nat)) {c' : Nat} (rest : List Nat)
    (hv : ∀ h ∈ hs, TokenStr h.1 ∧ ValueStr h.2) (hc1 : c' ≠ 32) (hc2 : c' ≠ 9) :
    ∃ c0 rest0, headerBlock hs ++ c' :: rest = c0 :: rest0 ∧ c0 ≠ 32 ∧ c0 ≠ 9 := by
  cases hs with
  | nil => exact ⟨c', rest, rfl, hc1, hc2⟩
  | cons h hs =>
    obtain ⟨⟨hne, htok⟩, _⟩ := hv h (by simp)
    obtain ⟨n0, nt, hn⟩ := List.exists_cons_of_ne_nil hne
    have h0 := isToken_facts (htok n0 (by simp [hn]))
    refine ⟨n0, nt ++ 58 :: SP :: (h.2 ++ [CR, LF]) ++ headerBlock hs ++ c' :: rest, ?_, h0.1,
      h0.2.1⟩
    simp [headerBlock, headerLine, hn]

theorem walk_header_block (mem : List Nat) (e : Nat) : ∀ (hs : List (List Nat × List Nat))
    (p : HttpParser) (i : Nat) (c' : Nat) (rest : List Nat),
    p._state = HttpParserState.HEADER_NAME_BEGIN → (∀ h ∈ hs, TokenStr h.1 ∧ ValueStr h.2) →
    At mem i (headerBlock hs ++ c' :: rest) → c' ≠ 32 → c' ≠ 9 →
    i + (headerBlock hs).length < e →
    ∃ q, Walk Safe mem e p i (blockEvents hs) q (i + (headerBlock hs).length) ∧
      q._state = HttpParserState.HEADER_NAME_BEGIN ∧ q._mode = p._mode ∧
      q._chunked = (blockFraming hs p._chunked p._contentLength).1 ∧
      q._contentLength = (blockFraming hs p._chunked p._contentLength).2 ∧
      At mem (i + (headerBlock hs).length) (c' :: rest) := by
  intro hs
  induction hs with
  | nil =>
    intro p i c' rest hs _ hat _ _ _
    exact ⟨p, Walk.refl _ _, hs, rfl, rfl, rfl, by simpa [headerBlock] using hat⟩
  | cons h hs ih =>
    intro p i c' rest hst hv hat hc1 hc2 hle
    obtain ⟨c0, rest0, hhead, h01, h02⟩ :=
      headerBlock_head hs rest (fun h' hh => hv h' (by simp [hh])) hc1 hc2
    simp only [headerBlock, List.length_append] at hle hat ⊢
    have hat1 : At mem i (headerLine h.1 h.2 ++ c0 :: rest0) := by
      rw [← hhead]; simpa using hat
    obtain ⟨q1, w1, hq1, hm1, hch1, hcl1, hat2⟩ :=
      walk_header_line mem e hst (hv h (by simp)).1 (hv h (by simp)).2 hat1 h01 h02 (by omega)
    rw [← hhead] at hat2
    obtain ⟨q2, w2, hq2, hm2, hch2, hcl2, hat3⟩ :=
      ih q1 _ c' rest hq1 (fun h' hh => hv h' (by simp [hh])) hat2 hc1 hc2 (by omega)
    refine ⟨q2, (w1.concat w2).cast rfl (by omega) rfl, hq2, hm2.trans hm1, ?_, ?_,
      hat3.at_pos (by omega)⟩
    · rw [hch2, hch1, hcl1]; rfl
    · rw [hcl2, hch1, hcl1]; rfl

theorem step_HEADER_END_LF (mem : List Nat) (e : Nat) {p : HttpParser} {i : Nat}
    (hs : p._state = HttpParserState.HEADER_END_LF) (hc : mem.getD i 0 = 10) :
    step mem e p i =
      if p.isContentExpected then
        (⟨{ p with _state := HttpParserState.CONTENT_BEGIN,
                   _bytesReceived := p._bytesReceived + 1 }, i + 1,
          [Event.onMessageHeaderEnd]⟩, false)
      else
        (⟨{ p with _state := HttpParserState.MESSAGE_BEGIN,
                   _bytesReceived := p._bytesReceived + 1 }, i + 1,
          [Event.onMessageHeaderEnd, Event.onMessageEnd]⟩, true) := by
  simp only [step, hs, hc]
  by_cases h1 : p._contentLength > 0 <;> by_cases h2 : p._chunked = true <;>
    by_cases h3 : p._contentLength < 0 <;> by_cases h4 : p._mode = HttpParseMode.REQUEST <;>
    simp [LF, HttpParser.isContentExpected, HttpParser.nextChar, h1, h2, h3, h4]

theorem walk_blank_line (mem : List Nat) (e : Nat) {p : HttpParser} {i : Nat}
    {rest : List Nat} (hs : p._state = HttpParserState.HEADER_NAME_BEGIN)
    (hat : At mem i (CR :: LF :: rest)) (hle : i + 2 ≤ e) :
    (p.isContentExpected = false →
      Run Safe mem e p i
        ⟨{ p with _state := HttpParserState.MESSAGE_BEGIN,
                  _bytesReceived := p._bytesReceived + 1 + 1 }, i + 1 + 1,
          [Event.onMessageHeaderEnd, Event.onMessageEnd]⟩ true) ∧
    (p.isContentExpected = true →
      Walk Safe mem e p i [Event.onMessageHeaderEnd]
        { p with _state := HttpParserState.CONTENT_BEGIN,
                 _bytesReceived := p._bytesReceived + 1 + 1 } (i + 1 + 1)) := by
  obtain ⟨hcr, hat1⟩ := hat.head
  obtain ⟨hlf, _⟩ := hat1.head
  have w1 := walk_HEADER_NAME_BEGIN_cr mem e hs hcr (by omega)
  have hstep := step_HEADER_END_LF mem e
    (p := ({ p with _state := HttpParserState.HEADER_END_LF,
                    _bytesReceived := p._bytesReceived + 1 } : HttpParser)) (i := i + 1) rfl hlf
  have hce0 : ({ p with _state := HttpParserState.HEADER_END_LF,
                        _bytesReceived := p._bytesReceived + 1 } : HttpParser).isContentExpected =
      p.isContentExpected := rfl
  rw [hce0] at hstep
  constructor
  · intro hce
    rw [hce] at hstep
    have hr := w1.run (Run.done (by omega) (safe_of_state (by simp)) hstep)
    simpa using hr
  · intro hce
    rw [hce] at hstep
    have hw := w1.concat (walk_one (by omega) (safe_of_state (by simp)) hstep)
    simpa using hw

theorem blockFraming_plain : ∀ (hs : List (List Nat × List Nat)) (chunked : Bool) (len : Int),
    (∀ h ∈ hs, PlainHeader h) → blockFraming hs chunked len = (chunked, len) := by
  intro hs
  induction hs with
  | nil => intro _ _ _; rfl
  | cons h hs ih =>
    intro chunked len hp
    obtain ⟨_, _, h1, h2⟩ := hp h (by simp)
    simp only [blockFraming, headerFraming, h1, h2]
    exact ih _ _ (fun h' hh => hp h' (by simp [hh]))

theorem blockEvents_plain : ∀ (hs : List (List Nat × List Nat)),
    (∀ h ∈ hs, PlainHeader h) →
    blockEvents hs = hs.map (fun h => Event.onMessageHeader h.1 h.2) := by
  intro hs
  induction hs with
  | nil => intro _; rfl
  | cons h hs ih =>
    intro hp
    obtain ⟨_, _, h1, h2⟩ := hp h (by simp)
    simp only [blockEvents, headerEvents, h1, h2, List.map_cons]
    rw [ih (fun h' hh => hp h' (by simp [hh]))]
    rfl

theorem versionDigits_ok {v : HttpVersion} (hv : v ≠ HttpVersion.UNKNOWN) :
    DigitStr (versionDigits v).1 ∧ DigitStr (versionDigits v).2 ∧
    makeHttpVersion (digitsVal 0 (versionDigits v).1) (digitsVal 0 (versionDigits v).2) = v := by
  cases v <;> first | exact absurd rfl hv | (simp [versionDigits, DigitStr, isdigit, digitsVal, makeHttpVersion])

theorem run_request_message (mem : List Nat) (e : Nat) {p : HttpParser} {i : Nat}
    {m en rest : List Nat} {v : HttpVersion} {hs : List (List Nat × List Nat)}
    (hst : p._state = HttpParserState.MESSAGE_BEGIN) (hm : p._mode = HttpParseMode.REQUEST)
    (hch : p._chunked = false) (hmt : TokenStr m) (het : EntityStr en)
    (hv : v ≠ HttpVersion.UNKNOWN) (hp : ∀ h ∈ hs, PlainHeader h)
    (hat : At mem i (requestMessage m en v hs ++ rest))
    (hle : i + (requestMessage m en v hs).length ≤ e) :
    ∃ q, Run Safe mem e p i
        ⟨q, i + (requestMessage m en v hs).length,
          Event.onMessageBeginRequest m en v ::
            (hs.map (fun h => Event.onMessageHeader h.1 h.2) ++
              [Event.onMessageHeaderEnd, Event.onMessageEnd])⟩ true ∧
      q._state = HttpParserState.MESSAGE_BEGIN ∧ q._mode = HttpParseMode.REQUEST ∧
      q._chunked = false := by
  obtain ⟨hd1, hd2, hmk⟩ := versionDigits_ok hv
  have hlen : (requestMessage m en v hs).length =
      (requestLine m en (versionDigits v).1 (versionDigits v).2).length +
        (headerBlock hs).length + 2 := by
    simp [requestMessage]; omega
  rw [hlen] at hle ⊢
  have hat1 : At mem i (requestLine m en (versionDigits v).1 (versionDigits v).2 ++
      (headerBlock hs ++ CR :: LF :: rest)) := by
    simpa [requestMessage] using hat
  obtain ⟨q1, w1, hq1, hm1, hch1, hcl1, hat2⟩ :=
    walk_request_line mem e hst hm hmt het hd1 hd2 (by rw [hmk]; exact hv) hat1 (by omega)
  rw [hmk] at w1
  obtain ⟨q2, w2, hq2, hm2, hch2, hcl2, hat3⟩ :=
    walk_header_block mem e hs q1 _ CR (LF :: rest) hq1
      (fun h hh => ⟨(hp h hh).1, (hp h hh).2.1⟩) hat2 (by decide) (by decide) (by omega)
  rw [blockEvents_plain hs hp] at w2
  rw [blockFraming_plain hs _ _ hp] at hch2 hcl2
  simp only at hch2 hcl2
  have hce : q2.isContentExpected = false := by
    simp [HttpParser.isContentExpected, hch2, hcl2, hch1, hcl1, hch, hm2, hm1, hm]
  have hr := (walk_blank_line mem e hq2 hat3 (by omega)).1 hce
  have hrun := (w1.concat w2).run hr
  refine ⟨{ q2 with _state := HttpParserState.MESSAGE_BEGIN,
                    _bytesReceived := q2._bytesReceived + 1 + 1 }, ?_, ?_, ?_, ?_⟩
  · simpa [Nat.add_assoc] using hrun
  · rfl
  · simp only [hm2, hm1, hm]
  · simp only [hch2, hch1, hch]

theorem parse_request_message (mem : List Nat) (p : HttpParser) (i s : Nat)
    (m en rest : List Nat) (v : HttpVersion) (hs : List (List Nat × List Nat)) (hwf : WF p)
    (hst : p._state = HttpParserState.MESSAGE_BEGIN) (hm : p._mode = HttpParseMode.REQUEST)
    (hch : p._chunked = false) (hmt : TokenStr m) (het : EntityStr en)
    (hv : v ≠ HttpVersion.UNKNOWN) (hp : ∀ h ∈ hs, PlainHeader h)
    (hat : At mem i (requestMessage m en v hs ++ rest))
    (hle : (requestMessage m en v hs).length ≤ s) :
    ∃ q, parseFragment mem ⟨i, s⟩ p =
        some ⟨q, Event.onMessageBeginRequest m en v ::
            (hs.map (fun h => Event.onMessageHeader h.1 h.2) ++
              [Event.onMessageHeaderEnd, Event.onMessageEnd]),
          (requestMessage m en v hs).length⟩ ∧
      WF q ∧ q._state = HttpParserState.MESSAGE_BEGIN ∧ q._mode = HttpParseMode.REQUEST ∧
      q._chunked = false := by
  obtain ⟨q, hrun, hq, hqm, hqc⟩ :=
    run_request_message mem (i + s) hst hm hch hmt het hv hp hat (by omega)
  have hpf := parseFragment_of_run hwf hrun
  refine ⟨q, ?_, hrun.wf_final hwf, hq, hqm, hqc⟩
  rw [hpf]
  simp [resultOf]

/-! ## Fragments of a complete message, status line, bodies -/

theorem afterLoop_of_safe {p : HttpParser} (h : Safe p) : afterLoop p = (p, []) := by
  unfold afterLoop
  split
  · split
    · rename_i h1 h2
      exfalso
      apply h
      refine ⟨h1, h2.1, ?_, h2.2.2⟩
      have := h2.2.1
      simpa using this
    · rfl
  · rfl

theorem safe_of_contentState (q : HttpParser) (h : contentState q._state) : Safe q := by
  intro hs
  rcases h with h | h | h <;> rw [hs.1] at h <;> cases h

theorem feed_of_run {mem : List Nat} : ∀ (sizes : List Nat) (b : Nat) (p : HttpParser)
    (l : Cursor), WF p → Run Safe mem (b + sizes.sum) p b l true → sizes ≠ [] →
    b + sizes.dropLast.sum < l.i →
    ∃ r, feed mem b sizes p = some r ∧ r.p = l.p ∧ r.n = l.i - b ∧
      SameEvents r.events l.out := by
  intro sizes
  induction sizes with
  | nil => intro b p l _ _ h; exact absurd rfl h
  | cons s ss ih =>
    intro b p l hwf hrun _ hlast
    cases ss with
    | nil =>
      have hrun' : Run Safe mem (b + s) p b l true := by simpa using hrun
      have hpf := parseFragment_of_run hwf hrun'
      refine ⟨⟨l.p, l.out, l.i - b⟩, ?_, rfl, rfl, SameEvents.refl _⟩
      simp [feed, hpf, resultOf]
    | cons s' ss' =>
      have hsum : b + (s :: s' :: ss').sum = (b + s) + (s' :: ss').sum := by
        simp only [List.sum_cons]; omega
      have hdl : (s :: s' :: ss').dropLast.sum = s + (s' :: ss').dropLast.sum := by
        simp [List.dropLast]
      rw [hdl] at hlast
      rcases hrun.cut safe_of_contentState hwf (Nat.le_add_right b s)
          (by simp only [List.sum_cons]; omega) with ⟨h1, _⟩ | ⟨l1, l2, h1, h2, hp, hi, hev⟩
      · have := (h1.bounds hwf (Nat.le_add_right b s)).2
        omega
      · obtain ⟨hl1i, hl1s⟩ := h1.exit_i rfl
        have hpf := parseFragment_of_run hwf h1
        have hwf1 := h1.wf_final hwf
        rw [hsum] at h2
        obtain ⟨r2, hf2, hr2p, hr2n, hr2e⟩ := ih (b + s) l1.p l2 hwf1 h2 (by simp)
          (by rw [hi]; omega)
        have hb2 := h2.bounds hwf1 (Nat.le_add_right _ _)
        refine ⟨⟨r2.p, l1.out ++ r2.events, s + r2.n⟩, ?_, by rw [hr2p, hp], ?_, ?_⟩
        · have hpf' : parseFragment mem ⟨b, s⟩ p = some ⟨l1.p, l1.out, s⟩ := by
            rw [hpf]; simp [resultOf, afterLoop_of_safe hl1s, hl1i]
          rw [feed]
          simp only [hpf', hf2]
        · simp only [hr2n]; omega
        · exact ((SameEvents.refl l1.out).append hr2e).trans hev

theorem payload_foldr : ∀ (E acc : List Event),
    payload (E.foldr consEv acc) = payload E ++ payload acc := by
  intro E
  induction E with
  | nil => intro acc; rfl
  | cons ev E ih =>
    intro acc
    simp only [List.foldr_cons]
    have hih := ih acc
    cases ev <;> simp only [consEv, payload] <;> try exact hih
    · rename_i c
      split
      · next a b rest heq1 heq2 =>
        cases heq1
        rw [heq2] at hih
        simp only [payload] at hih ⊢
        rw [List.append_assoc, hih, List.append_assoc]
      · next hne =>
        simp only [payload, hih, List.append_assoc]

theorem SameEvents.payload_eq {E1 E2 : List Event} (h : SameEvents E1 E2) :
    payload E1 = payload E2 := by
  have h1 := payload_foldr E1 []
  have h2 := payload_foldr E2 []
  rw [h []] at h1
  simpa [payload] using h1.symm.trans h2

theorem foldr_consEv_notContent : ∀ (E acc : List Event), (∀ ev ∈ E, notContent ev = true) →
    E.foldr consEv acc = E ++ acc := by
  intro E
  induction E with
  | nil => intro acc _; rfl
  | cons ev E ih =>
    intro acc h
    simp only [List.foldr_cons, List.cons_append]
    rw [ih acc (fun ev' h' => h ev' (by simp [h']))]
    have := h ev (by simp)
    cases ev <;> first | rfl | (simp [notContent] at this)

theorem walk_STATUS_VERSION_MAJOR_dot (mem : List Nat) (e : Nat) {p : HttpParser} {i : Nat}
    (hs : p._state = HttpParserState.STATUS_PROTOCOL_VERSION_MAJOR)
    (hc : mem.getD i 0 = 46) (hlt : i < e) :
    Walk Safe mem e p i []
      { p with _state := HttpParserState.STATUS_PROTOCOL_VERSION_MINOR,
               _bytesReceived := p._bytesReceived + 1 } (i + 1) := by
  have hsub : min 1 (e - i) = 1 := by omega
  refine walk_one (by omega) (safe_of_state (by simp [hs])) ?_
  simp only [step, hs, hc, advance, HttpParser.nextChar, substr, hsub, protocolError,
    caseStatusCode, caseContentChunkSize, expectChar]
  simp [SP, HT, CR, LF]

theorem walk_STATUS_VERSION_MINOR_sp (mem : List Nat) (e : Nat) {p : HttpParser} {i : Nat}
    (hs : p._state = HttpParserState.STATUS_PROTOCOL_VERSION_MINOR)
    (hc : mem.getD i 0 = 32) (hlt : i < e) :
    Walk Safe mem e p i []
      { p with _state := HttpParserState.STATUS_CODE_BEGIN,
               _bytesReceived := p._bytesReceived + 1 } (i + 1) := by
  have hsub : min 1 (e - i) = 1 := by omega
  refine walk_one (by omega) (safe_of_state (by simp [hs])) ?_
  simp only [step, hs, hc, advance, HttpParser.nextChar, substr, hsub, protocolError,
    caseStatusCode, caseContentChunkSize, expectChar]
  simp [SP, HT, CR, LF]

theorem walk_STATUS_CODE_BEGIN (mem : List Nat) (e : Nat) {p : HttpParser} {i : Nat} {c : Nat}
    (hs : p._state = HttpParserState.STATUS_CODE_BEGIN)
    (hc : mem.getD i 0 = c)
    (ht : isdigit c = true) (hlt : i < e) :
    Walk Safe mem e p i []
      { p with _state := HttpParserState.STATUS_CODE, _code := p._code * 10 + (c : Int) - 48,
               _bytesReceived := p._bytesReceived + 1 } (i + 1) := by
  have hsub : min 1 (e - i) = 1 := by omega
  refine walk_one (by omega) (safe_of_state (by simp [hs])) ?_
  simp only [step, hs, hc, advance, HttpParser.nextChar, substr, hsub, protocolError,
    caseStatusCode, caseContentChunkSize, expectChar]
  simp [SP, HT, CR, LF, ht]

theorem walk_STATUS_CODE_sp (mem : List Nat) (e : Nat) {p : HttpParser} {i : Nat}
    (hs : p._state = HttpParserState.STATUS_CODE)
    (hc : mem.getD i 0 = 32) (hlt : i < e) :
    Walk Safe mem e p i []
      { p with _state := HttpParserState.STATUS_MESSAGE_BEGIN,
               _bytesReceived := p._bytesReceived + 1 } (i + 1) := by
  have hsub : min 1 (e - i) = 1 := by omega
  refine walk_one (by omega) (safe_of_state (by simp [hs])) ?_
  simp only [step, hs, hc, advance, HttpParser.nextChar, substr, hsub, protocolError,
    caseStatusCode, caseContentChunkSize, expectChar]
  simp [SP, HT, CR, LF, isdigit]

theorem walk_STATUS_MESSAGE_BEGIN (mem : List Nat) (e : Nat) {p : HttpParser} {i : Nat} {c : Nat}
    (hs : p._state = HttpParserState.STATUS_MESSAGE_BEGIN)
    (hc : mem.getD i 0 = c)
    (ht : isText c = true) (hlt : i < e) :
    Walk Safe mem e p i []
      { p with _state := HttpParserState.STATUS_MESSAGE, _message := ⟨i, 1⟩,
               _bytesReceived := p._bytesReceived + 1 } (i + 1) := by
  have hsub : min 1 (e - i) = 1 := by omega
  refine walk_one (by omega) (safe_of_state (by simp [hs])) ?_
  simp only [step, hs, hc, advance, HttpParser.nextChar, substr, hsub, protocolError,
    caseStatusCode, caseContentChunkSize, expectChar]
  simp [SP, HT, CR, LF, ht]

theorem walk_STATUS_MESSAGE_cr (mem : List Nat) (e : Nat) {p : HttpParser} {i : Nat}
    (hs : p._state = HttpParserState.STATUS_MESSAGE)
    (hc : mem.getD i 0 = 13) (hlt : i < e) :
    Walk Safe mem e p i []
      { p with _state := HttpParserState.STATUS_MESSAGE_LF,
               _bytesReceived := p._bytesReceived + 1 } (i + 1) := by
  have hsub : min 1 (e - i) = 1 := by omega
  refine walk_one (by omega) (safe_of_state (by simp [hs])) ?_
  simp only [step, hs, hc, advance, HttpParser.nextChar, substr, hsub, protocolError,
    caseStatusCode, caseContentChunkSize, expectChar]
  simp [SP, HT, CR, LF]

theorem walk_CHUNK_SIZE_cr (mem : List Nat) (e : Nat) {p : HttpParser} {i : Nat}
    (hs : p._state = HttpParserState.CONTENT_CHUNK_SIZE)
    (hc : mem.getD i 0 = 13) (hlt : i < e) :
    Walk Safe mem e p i []
      { p with _state := HttpParserState.CONTENT_CHUNK_LF1,
               _bytesReceived := p._bytesReceived + 1 } (i + 1) := by
  have hsub : min 1 (e - i) = 1 := by omega
  refine walk_one (by omega) (safe_of_state (by simp [hs])) ?_
  simp only [step, hs, hc, advance, HttpParser.nextChar, substr, hsub, protocolError,
    caseStatusCode, caseContentChunkSize, expectChar]
  simp [SP, HT, CR, LF]

theorem walk_CHUNK_LF1_body (mem : List Nat) (e : Nat) {p : HttpParser} {i : Nat}
    (hs : p._state = HttpParserState.CONTENT_CHUNK_LF1)
    (hc : mem.getD i 0 = 10)
    (hl : p._contentLength ≠ 0) (hlt : i < e) :
    Walk Safe mem e p i []
      { p with _state := HttpParserState.CONTENT_CHUNK_BODY,
               _bytesReceived := p._bytesReceived + 1 } (i + 1) := by
  have hsub : min 1 (e - i) = 1 := by omega
  refine walk_one (by omega) (safe_of_state (by simp [hs])) ?_
  simp only [step, hs, hc, advance, HttpParser.nextChar, substr, hsub, protocolError,
    caseStatusCode, caseContentChunkSize, expectChar]
  simp [SP, HT, CR, LF, hl]

theorem walk_CHUNK_LF1_last (mem : List Nat) (e : Nat) {p : HttpParser} {i : Nat}
    (hs : p._state = HttpParserState.CONTENT_CHUNK_LF1)
    (hc : mem.getD i 0 = 10)
    (hl : p._contentLength = 0) (hlt : i < e) :
    Walk Safe mem e p i []
      { p with _state := HttpParserState.CONTENT_CHUNK_CR3,
               _bytesReceived := p._bytesReceived + 1 } (i + 1) := by
  have hsub : min 1 (e - i) = 1 := by omega
  refine walk_one (by omega) (safe_of_state (by simp [hs])) ?_
  simp only [step, hs, hc, advance, HttpParser.nextChar, substr, hsub, protocolError,
    caseStatusCode, caseContentChunkSize, expectChar]
  simp [SP, HT, CR, LF, hl]

theorem walk_CHUNK_BODY_cr (mem : List Nat) (e : Nat) {p : HttpParser} {i : Nat}
    (hs : p._state = HttpParserState.CONTENT_CHUNK_BODY)
    (hc : mem.getD i 0 = 13)
    (hl : p._contentLength = 0) (hlt : i < e) :
    Walk Safe mem e p i []
      { p with _state := HttpParserState.CONTENT_CHUNK_LF2,
               _bytesReceived := p._bytesReceived + 1 } (i + 1) := by
  have hsub : min 1 (e - i) = 1 := by omega
  refine walk_one (by omega) (safe_of_state (by simp [hs])) ?_
  simp only [step, hs, hc, advance, HttpParser.nextChar, substr, hsub, protocolError,
    caseStatusCode, caseContentChunkSize, expectChar]
  simp [SP, HT, CR, LF, hl]

theorem walk_STATUS_VERSION_MAJOR (mem : List Nat) (e : Nat) : ∀ (xs : List Nat)
    (p : HttpParser) (i : Nat), p._state = HttpParserState.STATUS_PROTOCOL_VERSION_MAJOR →
    At mem i xs → (∀ c ∈ xs, isdigit c = true) → i + xs.length ≤ e →
    Walk Safe mem e p i []
      { p with _versionMajor := digitsVal p._versionMajor xs,
               _bytesReceived := p._bytesReceived + xs.length } (i + xs.length) := by
  intro xs
  induction xs with
  | nil => intro p i _ _ _ _; exact Walk.refl _ _
  | cons c xs ih =>
    intro p i hs hat hok hle
    obtain ⟨hc, hat'⟩ := hat.head
    have h1 := hok c (by simp)
    have h2 : c ≠ 46 := by simp [isdigit] at h1; omega
    simp only [List.length_cons] at hle ⊢
    have hstep : step mem e p i =
        (⟨{ p with _versionMajor := p._versionMajor * 10 + (c : Int) - 48,
                   _bytesReceived := p._bytesReceived + 1 }, i + 1, []⟩, false) := by
      simp only [step, hs, hc, advance, HttpParser.nextChar, h1, h2, if_false, Bool.not_true,
        Bool.false_eq_true]
    have hw := Walk.next (by omega) (safe_of_state (by simp [hs])) hstep
      (ih _ (i + 1) hs hat' (fun c hc => hok c (by simp [hc])) (by omega))
    refine hw.cast ?_ (by omega) rfl
    simp only [HttpParser.mk.injEq, View.mk.injEq, true_and, and_true, digitsVal]
    omega

theorem walk_STATUS_VERSION_MINOR (mem : List Nat) (e : Nat) : ∀ (xs : List Nat)
    (p : HttpParser) (i : Nat), p._state = HttpParserState.STATUS_PROTOCOL_VERSION_MINOR →
    At mem i xs → (∀ c ∈ xs, isdigit c = true) → i + xs.length ≤ e →
    Walk Safe mem e p i []
      { p with _versionMinor := digitsVal p._versionMinor xs,
               _bytesReceived := p._bytesReceived + xs.length } (i + xs.length) := by
  intro xs
  induction xs with
  | nil => intro p i _ _ _ _; exact Walk.refl _ _
  | cons c xs ih =>
    intro p i hs hat hok hle
    obtain ⟨hc, hat'⟩ := hat.head
    have h1 := hok c (by simp)
    have h2 : c ≠ 32 := by simp [isdigit] at h1; omega
    simp only [List.length_cons] at hle ⊢
    have hstep : step mem e p i =
        (⟨{ p with _versionMinor := p._versionMinor * 10 + (c : Int) - 48,
                   _bytesReceived := p._bytesReceived + 1 }, i + 1, []⟩, false) := by
      simp only [step, hs, hc, advance, HttpParser.nextChar, h1, h2, SP, if_false, Bool.not_true,
        Bool.false_eq_true]
    have hw := Walk.next (by omega) (safe_of_state (by simp [hs])) hstep
      (ih _ (i + 1) hs hat' (fun c hc => hok c (by simp [hc])) (by omega))
    refine hw.cast ?_ (by omega) rfl
    simp only [HttpParser.mk.injEq, View.mk.injEq, true_and, and_true, digitsVal]
    omega

theorem walk_STATUS_CODE (mem : List Nat) (e : Nat) : ∀ (xs : List Nat)
    (p : HttpParser) (i : Nat), p._state = HttpParserState.STATUS_CODE →
    At mem i xs → (∀ c ∈ xs, isdigit c = true) → i + xs.length ≤ e →
    Walk Safe mem e p i []
      { p with _code := digitsVal p._code xs,
               _bytesReceived := p._bytesReceived + xs.length } (i + xs.length) := by
  intro xs
  induction xs with
  | nil => intro p i _ _ _ _; exact Walk.refl _ _
  | cons c xs ih =>
    intro p i hs hat hok hle
    obtain ⟨hc, hat'⟩ := hat.head
    have h1 := hok c (by simp)
    simp only [List.length_cons] at hle ⊢
    have hstep : step mem e p i =
        (⟨{ p with _code := p._code * 10 + (c : Int) - 48,
                   _bytesReceived := p._bytesReceived + 1 }, i + 1, []⟩, false) := by
      simp only [step, hs, hc, caseStatusCode, advance, HttpParser.nextChar, h1, if_true]
    have hw := Walk.next (by omega) (safe_of_state (by simp [hs])) hstep
      (ih _ (i + 1) hs hat' (fun c hc => hok c (by simp [hc])) (by omega))
    refine hw.cast ?_ (by omega) rfl
    simp only [HttpParser.mk.injEq, View.mk.injEq, true_and, and_true, digitsVal]
    omega

theorem walk_STATUS_MESSAGE (mem : List Nat) (e : Nat) : ∀ (xs : List Nat) (p : HttpParser)
    (i : Nat), p._state = HttpParserState.STATUS_MESSAGE → At mem i xs →
    (∀ c ∈ xs, isText c = true) → i + xs.length ≤ e →
    Walk Safe mem e p i []
      { p with _message := ⟨p._message.data, p._message.size + xs.length⟩,
               _bytesReceived := p._bytesReceived + xs.length } (i + xs.length) := by
  intro xs
  induction xs with
  | nil => intro p i _ _ _ _; exact Walk.refl _ _
  | cons c xs ih =>
    intro p i hs hat htok hle
    obtain ⟨hc, hat'⟩ := hat.head
    have hct := htok c (by simp)
    obtain ⟨h1, h2⟩ := isText_facts hct
    simp only [List.length_cons] at hle ⊢
    have hstep : step mem e p i =
        (⟨{ p with _message := ⟨p._message.data, p._message.size + 1⟩,
                   _bytesReceived := p._bytesReceived + 1 }, i + 1, []⟩, false) := by
      simp only [step, hs, hc, advance, HttpParser.nextChar, hct, CR, LF, h1, h2, ne_eq,
        not_false_eq_true, and_self, if_true]
    have hw := Walk.next (by omega) (safe_of_state (by simp [hs])) hstep
      (ih _ (i + 1) hs hat' (fun c hc => htok c (by simp [hc])) (by omega))
    refine hw.cast ?_ (by omega) rfl
    simp only [HttpParser.mk.injEq, View.mk.injEq, true_and, and_true]
    omega

theorem walk_STATUS_MESSAGE_LF (mem : List Nat) (e : Nat) {p : HttpParser} {i : Nat}
    (hs : p._state = HttpParserState.STATUS_MESSAGE_LF) (hc : mem.getD i 0 = 10)
    (hv : makeHttpVersion p._versionMajor p._versionMinor ≠ HttpVersion.UNKNOWN) (hlt : i < e) :
    Walk Safe mem e p i
      [Event.onMessageBeginResponse (makeHttpVersion p._versionMajor p._versionMinor) p._code
        (p._message.read mem)]
      { p with _state := HttpParserState.HEADER_NAME_BEGIN,
               _bytesReceived := p._bytesReceived + 1 } (i + 1) := by
  refine walk_one (by omega) (safe_of_state (by simp [hs])) ?_
  simp only [step, hs, hc, HttpParser.nextChar]
  simp [LF, hv]

theorem statusLine_length (maj min code reason : List Nat) :
    (statusLine maj min code reason).length =
      5 + maj.length + 1 + min.length + 1 + code.length + 1 + reason.length + 2 := by
  simp [statusLine, strHTTP]; omega

theorem walk_status_line (mem : List Nat) (e : Nat) {p : HttpParser} {i : Nat}
    {maj min code reason rest : List Nat} (hs : p._state = HttpParserState.MESSAGE_BEGIN)
    (hm : p._mode = HttpParseMode.RESPONSE) (hmaj : DigitStr maj) (hmin : DigitStr min)
    (hcode : code ≠ [] ∧ DigitStr code) (hreason : ReasonStr reason)
    (hv : makeHttpVersion (digitsVal 0 maj) (digitsVal 0 min) ≠ HttpVersion.UNKNOWN)
    (hat : At mem i (statusLine maj min code reason ++ rest))
    (hle : i + (statusLine maj min code reason).length ≤ e) :
    ∃ q, Walk Safe mem e p i
        [Event.onMessageBeginResponse (makeHttpVersion (digitsVal 0 maj) (digitsVal 0 min))
          (digitsVal 0 code) reason]
        q (i + (statusLine maj min code reason).length) ∧
      q._state = HttpParserState.HEADER_NAME_BEGIN ∧ q._mode = p._mode ∧
      q._chunked = p._chunked ∧ q._contentLength = -1 ∧
      At mem (i + (statusLine maj min code reason).length) rest := by
  rw [statusLine_length] at hle ⊢
  have hat' : At mem i (strHTTP ++ (maj ++ 46 :: (min ++ SP :: (code ++ SP :: (reason ++
      CR :: LF :: rest))))) := by
    simpa [statusLine] using hat
  obtain ⟨hcne, hcdig⟩ := hcode
  obtain ⟨hrne, hrtext⟩ := hreason
  obtain ⟨c0, ct, rfl⟩ := List.exists_cons_of_ne_nil hcne
  obtain ⟨r0, rt, rfl⟩ := List.exists_cons_of_ne_nil hrne
  obtain ⟨hathttp, hat1⟩ := hat'.split
  obtain ⟨hatmaj, hat2⟩ := hat1.split
  obtain ⟨hdot, hat3⟩ := hat2.head
  obtain ⟨hatmin, hat4⟩ := hat3.split
  obtain ⟨hsp, hat5⟩ := hat4.head
  obtain ⟨hatcode, hat6⟩ := hat5.split
  obtain ⟨hc0, hatct⟩ := hatcode.head
  obtain ⟨hsp2, hat7⟩ := hat6.head
  obtain ⟨hatr, hat8⟩ := hat7.split
  obtain ⟨hr0, hatrt⟩ := hatr.head
  obtain ⟨hcr, hat9⟩ := hat8.head
  obtain ⟨hlf, hat10⟩ := hat9.head
  simp only [List.length_cons, show strHTTP.length = 5 from rfl] at *
  have h5 : strHTTP.length = 5 := rfl
  have w1 := walk_MESSAGE_BEGIN_response mem e (i := i) hs hm (by omega)
  have w2 := w1.concat (walk_proto mem e strHTTP _ _
    HttpParserState.STATUS_PROTOCOL_VERSION_MAJOR (by rfl) hathttp (by rw [h5]; omega))
  dsimp only at w2
  rw [h5] at w2
  have w3 := w2.concat (walk_STATUS_VERSION_MAJOR mem e maj _ _ (by rfl) hatmaj hmaj (by omega))
  dsimp only at w3
  have w4 := w3.concat (walk_STATUS_VERSION_MAJOR_dot mem e (by rfl) hdot (by omega))
  dsimp only at w4
  have w5 := w4.concat (walk_STATUS_VERSION_MINOR mem e min _ _ (by rfl) hatmin hmin (by omega))
  dsimp only at w5
  have w6 := w5.concat (walk_STATUS_VERSION_MINOR_sp mem e (by rfl) hsp (by omega))
  dsimp only at w6
  have w7 := w6.concat (walk_STATUS_CODE_BEGIN mem e (by rfl) hc0 (hcdig c0 (by simp))
    (by omega))
  dsimp only at w7
  have w8 := w7.concat (walk_STATUS_CODE mem e ct _ _ (by rfl) hatct
    (fun c hc => hcdig c (by simp [hc])) (by omega))
  dsimp only at w8
  have w9 := w8.concat (walk_STATUS_CODE_sp mem e (by rfl) (getD_cast hsp2 (by omega))
    (by omega))
  dsimp only at w9
  have w10 := w9.concat (walk_STATUS_MESSAGE_BEGIN mem e (by rfl) (getD_cast hr0 (by omega))
    (hrtext r0 (by simp)) (by omega))
  dsimp only at w10
  have w11 := w10.concat (walk_STATUS_MESSAGE mem e rt _ _ (by rfl) (hatrt.at_pos (by omega))
    (fun c hc => hrtext c (by simp [hc])) (by omega))
  dsimp only at w11
  have w12 := w11.concat (walk_STATUS_MESSAGE_cr mem e (by rfl) (getD_cast hcr (by omega))
    (by omega))
  dsimp only at w12
  have hrr : View.read mem ⟨i + 5 + maj.length + 1 + min.length + 1 + 1 + ct.length + 1,
      1 + rt.length⟩ = r0 :: rt := by
    have := hatr.read_eq
    simp only [List.length_cons] at this
    rw [← this]; congr 1; simp only [View.mk.injEq]; omega
  have w13 := w12.concat (walk_STATUS_MESSAGE_LF mem e (by rfl) (getD_cast hlf (by omega))
    (by simpa using hv) (by omega))
  dsimp only at w13
  rw [hrr] at w13
  refine ⟨_, w13.cast rfl (by omega) (by simp [digitsVal]), rfl, rfl, rfl, rfl,
    hat10.at_pos (by omega)⟩

theorem walk_start_line (mem : List Nat) (e : Nat) {p : HttpParser} {i : Nat} (st : StartLine)
    {rest : List Nat} (hs : p._state = HttpParserState.MESSAGE_BEGIN) (hm : p._mode = st.mode)
    (hv : st.Valid) (hat : At mem i (st.text ++ rest)) (hle : i + st.text.length < e) :
    ∃ q, Walk Safe mem e p i st.events q (i + st.text.length) ∧
      q._state = HttpParserState.HEADER_NAME_BEGIN ∧ q._mode = p._mode ∧
      q._chunked = p._chunked ∧ q._contentLength = -1 ∧
      At mem (i + st.text.length) rest := by
  cases st with
  | request m en v =>
    obtain ⟨hmt, het, hvv⟩ := hv
    obtain ⟨hd1, hd2, hmk⟩ := versionDigits_ok hvv
    have h := walk_request_line mem e hs hm hmt het hd1 hd2 (by rw [hmk]; exact hvv) hat
      (Nat.le_of_lt hle)
    rw [hmk] at h
    exact h
  | response v code reason =>
    obtain ⟨hvv, hcne, hcd, _, hr⟩ := hv
    obtain ⟨hd1, hd2, hmk⟩ := versionDigits_ok hvv
    have h := walk_status_line mem e hs hm hd1 hd2 ⟨hcne, hcd⟩ hr (by rw [hmk]; exact hvv) hat
      (Nat.le_of_lt hle)
    rw [hmk] at h
    exact h
  | message =>
    simp only [StartLine.text, List.length_nil, Nat.add_zero, List.nil_append] at hat hle ⊢
    exact ⟨_, walk_MESSAGE_BEGIN_message mem e hs hm hle, rfl, rfl, rfl, rfl, hat⟩

theorem walk_head (mem : List Nat) (e : Nat) {p : HttpParser} {i : Nat} (st : StartLine)
    (hs : List (List Nat × List Nat)) {rest : List Nat}
    (hst : p._state = HttpParserState.MESSAGE_BEGIN) (hm : p._mode = st.mode)
    (hv : st.Valid) (hh : ∀ h ∈ hs, TokenStr h.1 ∧ ValueStr h.2)
    (hce : 0 < (blockFraming hs p._chunked (-1)).2 ∨ (blockFraming hs p._chunked (-1)).1 = true)
    (hat : At mem i (messageHead st hs ++ rest))
    (hle : i + (messageHead st hs).length ≤ e) :
    ∃ q, Walk Safe mem e p i (headEvents st hs) q (i + (messageHead st hs).length) ∧
      q._state = HttpParserState.CONTENT_BEGIN ∧ q._mode = p._mode ∧
      q._chunked = (blockFraming hs p._chunked (-1)).1 ∧
      q._contentLength = (blockFraming hs p._chunked (-1)).2 ∧
      At mem (i + (messageHead st hs).length) rest := by
  have hlen : (messageHead st hs).length = st.text.length + (headerBlock hs).length + 2 := by
    simp [messageHead]; omega
  rw [hlen] at hle ⊢
  have hat1 : At mem i (st.text ++ (headerBlock hs ++ CR :: LF :: rest)) := by
    simpa [messageHead] using hat
  obtain ⟨q1, w1, hq1, hm1, hch1, hcl1, hat2⟩ :=
    walk_start_line mem e st hst hm hv hat1 (by omega)
  obtain ⟨q2, w2, hq2, hm2, hch2, hcl2, hat3⟩ :=
    walk_header_block mem e hs q1 _ CR (LF :: rest) hq1 hh hat2 (by decide) (by decide)
      (by omega)
  rw [hch1, hcl1] at hch2 hcl2
  have hce2 : q2.isContentExpected = true := by
    simp only [HttpParser.isContentExpected, hch2, hcl2]
    rcases hce with h | h
    · simp [h]
    · simp [h]
  have w3 := (walk_blank_line mem e hq2 hat3 (by omega)).2 hce2
  have hat4 := @At.split mem _ [CR, LF] rest hat3
  refine ⟨_, ((w1.concat w2).concat w3).cast rfl (by omega) (by simp [headEvents]), rfl,
    hm2.trans hm1, hch2, hcl2, ?_⟩
  exact hat4.2.at_pos (by simp; omega)

theorem blockFraming_append : ∀ (hs hs' : List (List Nat × List Nat)) (c : Bool) (l : Int),
    blockFraming (hs ++ hs') c l =
      blockFraming hs' (blockFraming hs c l).1 (blockFraming hs c l).2 := by
  intro hs
  induction hs with
  | nil => intro _ _ _; rfl
  | cons h hs ih => intro hs' c l; simp only [List.cons_append, blockFraming]; exact ih _ _ _

theorem blockEvents_append : ∀ (hs hs' : List (List Nat × List Nat)),
    blockEvents (hs ++ hs') = blockEvents hs ++ blockEvents hs' := by
  intro hs
  induction hs with
  | nil => intro _; rfl
  | cons h hs ih =>
    intro hs'
    have := ih hs'
    simp only [List.cons_append, blockEvents, List.append_assoc]
    exact congrArg _ this

theorem blockFraming_other : ∀ (hs : List (List Nat × List Nat)) (chunked : Bool) (len : Int),
    (∀ h ∈ hs, OtherHeader h) → blockFraming hs chunked len = (chunked, len) := by
  intro hs
  induction hs with
  | nil => intro _ _ _; rfl
  | cons h hs ih =>
    intro chunked len hp
    obtain ⟨_, _, h1, h2⟩ := hp h (by simp)
    have hf : headerFraming h.1 h.2 chunked len = (chunked, len) := by
      simp only [headerFraming, h1]
      rcases h2 with h2 | h2 <;> simp [h2]
    simp only [blockFraming, hf]
    exact ih _ _ (fun h' hh => hp h' (by simp [hh]))

theorem blockEvents_other : ∀ (hs : List (List Nat × List Nat)),
    (∀ h ∈ hs, OtherHeader h) →
    blockEvents hs = hs.map (fun h => Event.onMessageHeader h.1 h.2) := by
  intro hs
  induction hs with
  | nil => intro _; rfl
  | cons h hs ih =>
    intro hp
    obtain ⟨_, _, h1, h2⟩ := hp h (by simp)
    have hf : headerEvents h.1 h.2 = [Event.onMessageHeader h.1 h.2] := by
      simp only [headerEvents, h1]
      rcases h2 with h2 | h2 <;> simp [h2]
    simp only [blockEvents, hf, List.map_cons]
    rw [ih (fun h' hh => hp h' (by simp [hh]))]
    rfl

theorem valueStr_of_digits {v : List Nat} (hne : v ≠ []) (hd : DigitStr v) : ValueStr v := by
  refine ⟨hne, fun c hc => ?_, ?_, ?_⟩
  · have := hd c hc
    simp [isdigit] at this
    simp [isText, isControl, SP, HT]
    omega
  · obtain ⟨c, cs, rfl⟩ := List.exists_cons_of_ne_nil hne
    have := hd c (by simp)
    simp [isdigit, SP] at this ⊢
    omega
  · obtain ⟨c, cs, rfl⟩ := List.exists_cons_of_ne_nil hne
    have := hd c (by simp)
    simp [isdigit, HT] at this ⊢
    omega

theorem Run.recast {S : HttpParser → Prop} {mem : List Nat} {e : Nat} {p q : HttpParser}
    {i j j' : Nat} {E E' : List Event} {d : Bool} (h : Run S mem e p i ⟨q, j, E⟩ d)
    (hj : j = j') (hE : E = E') : Run S mem e p i ⟨q, j', E'⟩ d := by
  subst hj hE; exact h

theorem blockFraming_length (pre post : List (List Nat × List Nat)) (n v : List Nat)
    (c : Bool) (l : Int) (hpre : ∀ h ∈ pre, OtherHeader h) (hpost : ∀ h ∈ post, OtherHeader h)
    (hn : iequals n strContentLength = true) :
    blockFraming (pre ++ (n, v) :: post) c l = (c, parseInt v) := by
  rw [blockFraming_append, blockFraming_other pre c l hpre]
  simp only [blockFraming, headerFraming, hn, if_true]
  exact blockFraming_other post _ _ hpost

theorem blockEvents_length (pre post : List (List Nat × List Nat)) (n v : List Nat)
    (hpre : ∀ h ∈ pre, OtherHeader h) (hpost : ∀ h ∈ post, OtherHeader h)
    (hn : iequals n strContentLength = true) :
    blockEvents (pre ++ (n, v) :: post) =
      (pre ++ (n, v) :: post).map (fun h => Event.onMessageHeader h.1 h.2) := by
  rw [blockEvents_append, blockEvents_other pre hpre]
  simp only [blockEvents, headerEvents, hn, if_true, blockEvents_other post hpost,
    List.map_append, List.map_cons, List.singleton_append]

theorem run_fixed_message (mem : List Nat) (e : Nat) {p : HttpParser} {i : Nat} (st : StartLine)
    (pre post : List (List Nat × List Nat)) (n v body rest : List Nat)
    (hst : p._state = HttpParserState.MESSAGE_BEGIN) (hm : p._mode = st.mode)
    (hch : p._chunked = false) (hv : st.Valid)
    (hpre : ∀ h ∈ pre, OtherHeader h) (hpost : ∀ h ∈ post, OtherHeader h)
    (hn : TokenStr n ∧ iequals n strContentLength = true) (hd : v ≠ [] ∧ DigitStr v)
    (hL : 0 < parseInt v) (hbody : (body.length : Int) = parseInt v)
    (hat : At mem i (messageHead st (pre ++ (n, v) :: post) ++ (body ++ rest)))
    (hle : i + (messageHead st (pre ++ (n, v) :: post)).length + body.length ≤ e) :
    ∃ q, Run Safe mem e p i
        ⟨q, i + (messageHead st (pre ++ (n, v) :: post)).length + body.length,
          st.events ++ ((pre ++ (n, v) :: post).map (fun h => Event.onMessageHeader h.1 h.2) ++
            [Event.onMessageHeaderEnd, Event.onMessageContent body, Event.onMessageEnd])⟩
        true ∧
      q._state = HttpParserState.MESSAGE_BEGIN := by
  have hh : ∀ h ∈ pre ++ (n, v) :: post, TokenStr h.1 ∧ ValueStr h.2 := by
    intro h hmem
    simp only [List.mem_append, List.mem_cons] at hmem
    rcases hmem with h1 | h1 | h1
    · exact ⟨(hpre h h1).1, (hpre h h1).2.1⟩
    · subst h1; exact ⟨hn.1, valueStr_of_digits hd.1 hd.2⟩
    · exact ⟨(hpost h h1).1, (hpost h h1).2.1⟩
  have hfr := blockFraming_length pre post n v p._chunked (-1) hpre hpost hn.2
  obtain ⟨q1, w1, hq1, hm1, hch1, hcl1, hat1⟩ :=
    walk_head mem e st (pre ++ (n, v) :: post) hst hm hv hh (by rw [hfr]; exact Or.inl hL) hat
      (by omega)
  rw [hfr] at hch1 hcl1
  simp only at hch1 hcl1
  rw [hch] at hch1
  have hbne : 0 < body.length := by omega
  have hsafe : Safe q1 := by
    intro hsc
    have := hsc.2.1
    omega
  have w2 := w1.concat (walk_CONTENT_BEGIN_fixed mem e hq1 hch1 (by omega) hsafe (by omega))
  have hts := toSizeT_of_nonneg (x := parseInt v) (by omega)
  have hk : body.length = min (toSizeT ({ q1 with _state := HttpParserState.CONTENT } :
      HttpParser)._contentLength)
      (e - (i + (messageHead st (pre ++ (n, v) :: post)).length)) := by
    simp only [hcl1]
    omega
  have hstep := @step_CONTENT mem e { q1 with _state := HttpParserState.CONTENT }
    (i + (messageHead st (pre ++ (n, v) :: post)).length) rfl body.length hk
  have hz : ({ q1 with _state := HttpParserState.CONTENT } : HttpParser)._contentLength -
      (body.length : Int) = 0 := by
    simp only [hcl1]; omega
  rw [if_pos hz] at hstep
  have hread : View.read mem ⟨i + (messageHead st (pre ++ (n, v) :: post)).length,
      body.length⟩ = body := hat1.split.1.read_eq
  rw [hread] at hstep
  have hr := w2.run (Run.done (by omega) (safe_of_state (by simp)) hstep)
  simp only [headEvents, blockEvents_length pre post n v hpre hpost hn.2] at hr
  exact ⟨_, hr.recast rfl (by simp), rfl⟩

theorem payload_append : ∀ (A B : List Event), payload (A ++ B) = payload A ++ payload B := by
  intro A
  induction A with
  | nil => intro B; rfl
  | cons ev A ih =>
    intro B
    cases ev <;> simp only [List.cons_append, payload, List.append_assoc] <;>
      first | exact ih B | exact congrArg _ (ih B)

theorem payload_notContent : ∀ (A : List Event), (∀ ev ∈ A, notContent ev = true) →
    payload A = [] := by
  intro A
  induction A with
  | nil => intro _; rfl
  | cons ev A ih =>
    intro h
    have h1 := h ev (by simp)
    have h2 := ih (fun ev' h' => h ev' (by simp [h']))
    cases ev <;> first | exact h2 | (simp [notContent] at h1)

theorem notContent_start (st : StartLine) : ∀ ev ∈ st.events, notContent ev = true := by
  cases st <;> simp [StartLine.events, notContent]

theorem notContent_headers (hs : List (List Nat × List Nat)) :
    ∀ ev ∈ hs.map (fun h => Event.onMessageHeader h.1 h.2), notContent ev = true := by
  intro ev hev
  simp only [List.mem_map] at hev
  obtain ⟨h, _, rfl⟩ := hev
  rfl

theorem coalesce_last_aux : ∀ (E : List Event),
    ((coalesce E).getLast? = some Event.onMessageEnd ↔ E.getLast? = some Event.onMessageEnd) ∧
      (coalesce E = [] ↔ E = []) := by
  intro E
  induction E with
  | nil => simp [coalesce]
  | cons ev E ih =>
    obtain ⟨ih1, ih2⟩ := ih
    have hc : coalesce (ev :: E) = consEv ev (coalesce E) := rfl
    rw [hc]
    constructor
    · cases E with
      | nil =>
        have hnil : coalesce ([] : List Event) = [] := rfl
        rw [hnil]
        cases ev <;> simp [consEv]
      | cons ev' E' =>
        rw [List.getLast?_cons_cons, ← ih1]
        have hne : coalesce (ev' :: E') ≠ [] := fun h => by simpa using ih2.mp h
        obtain ⟨x, rest, hx⟩ := List.exists_cons_of_ne_nil hne
        rw [hx]
        cases ev <;> simp only [consEv, List.getLast?_cons_cons]
        cases x <;> simp only [List.getLast?_cons_cons]
        cases rest with
        | nil => simp
        | cons y rest' => simp only [List.getLast?_cons_cons]
    · constructor
      · intro h
        exfalso
        revert h
        cases ev <;> simp only [consEv] <;> try exact List.cons_ne_nil _ _
        split <;> exact List.cons_ne_nil _ _
      · intro h; cases h

theorem SameEvents.last_end {E1 E2 : List Event} (h : SameEvents E1 E2)
    (h2 : E2.getLast? = some Event.onMessageEnd) : E1.getLast? = some Event.onMessageEnd := by
  have := h.coalesce_eq
  rw [← (coalesce_last_aux E1).1, this, (coalesce_last_aux E2).1]
  exact h2

theorem feed_of_message {mem : List Nat} {p q : HttpParser} {n : Nat} {E : List Event}
    (sizes : List Nat) (hwf : WF p) (hrun : Run Safe mem (0 + sizes.sum) p 0 ⟨q, n, E⟩ true)
    (hne : sizes ≠ []) (hlast : sizes.dropLast.sum < n) :
    ∃ r, feed mem 0 sizes p = some r ∧ r.p = q ∧ r.n = n ∧ coalesce r.events = coalesce E ∧
      payload r.events = payload E ∧
      (E.getLast? = some Event.onMessageEnd → r.events.getLast? = some Event.onMessageEnd) := by
  obtain ⟨r, h1, h2, h3, h4⟩ := feed_of_run sizes 0 p _ hwf hrun hne (by simpa using hlast)
  exact ⟨r, h1, h2, by simpa using h3, h4.coalesce_eq, h4.payload_eq, h4.last_end⟩

theorem caseContentChunkSize_hex (p : HttpParser) (i : Nat) {c : Nat}
    (h : isxdigit c = true) :
    caseContentChunkSize p i c =
      (⟨{ p with _contentLength := p._contentLength * 16 + hexDigit c,
                 _bytesReceived := p._bytesReceived + 1 }, i + 1, []⟩, false) := by
  simp only [isxdigit, Bool.or_eq_true, Bool.and_eq_true, decide_eq_true_eq] at h
  have hcr : c ≠ 13 := by omega
  simp only [caseContentChunkSize, hexDigit, advance, HttpParser.nextChar, CR, hcr, if_false]
  by_cases h1 : 48 ≤ c ∧ c ≤ 57
  · simp only [h1, and_self, if_true]
    congr 3
    omega
  · by_cases h2 : 97 ≤ c ∧ c ≤ 102
    · simp only [h1, h2, and_self, if_true, if_false]
      congr 3
      omega
    · have h3 : 65 ≤ c ∧ c ≤ 70 := by omega
      simp only [h1, h2, h3, and_self, if_true, if_false]
      congr 3
      omega

theorem walk_CHUNK_SIZE (mem : List Nat) (e : Nat) : ∀ (xs : List Nat)
    (p : HttpParser) (i : Nat), p._state = HttpParserState.CONTENT_CHUNK_SIZE →
    At mem i xs → (∀ c ∈ xs, isxdigit c = true) → i + xs.length ≤ e →
    Walk Safe mem e p i []
      { p with _contentLength := hexVal p._contentLength xs,
               _bytesReceived := p._bytesReceived + xs.length } (i + xs.length) := by
  intro xs
  induction xs with
  | nil => intro p i _ _ _ _; exact Walk.refl _ _
  | cons c xs ih =>
    intro p i hs hat hok hle
    obtain ⟨hc, hat'⟩ := hat.head
    have h1 := hok c (by simp)
    simp only [List.length_cons] at hle ⊢
    have hstep : step mem e p i =
        (⟨{ p with _contentLength := p._contentLength * 16 + hexDigit c,
                   _bytesReceived := p._bytesReceived + 1 }, i + 1, []⟩, false) := by
      simp only [step, hs, hc]
      rw [caseContentChunkSize_hex p i h1]
      simp [hs]
    have hw := Walk.next (by omega) (safe_of_state (by simp [hs])) hstep
      (ih _ (i + 1) hs hat' (fun c hc => hok c (by simp [hc])) (by omega))
    refine hw.cast ?_ (by omega) rfl
    simp only [HttpParser.mk.injEq, View.mk.injEq, true_and, and_true, hexVal]
    omega

theorem walk_chunk_size (mem : List Nat) (e : Nat) {p : HttpParser} {i : Nat} {xs : List Nat}
    (hr : ChunkReady p) (hx : HexStr xs) (hat : At mem i xs) (hle : i + xs.length ≤ e) :
    Walk Safe mem e p i []
      { p with _state := HttpParserState.CONTENT_CHUNK_SIZE,
               _contentLength := hexVal 0 xs,
               _bytesReceived := p._bytesReceived + xs.length } (i + xs.length) := by
  obtain ⟨hne, hok⟩ := hx
  obtain ⟨c, cs, rfl⟩ := List.exists_cons_of_ne_nil hne
  obtain ⟨hc, hat'⟩ := hat.head
  have h1 := hok c (by simp)
  simp only [List.length_cons] at hle ⊢
  have hstep : step mem e p i =
      (⟨{ p with _state := HttpParserState.CONTENT_CHUNK_SIZE,
                 _contentLength := 0 * 16 + hexDigit c,
                 _bytesReceived := p._bytesReceived + 1 }, i + 1, []⟩, false) := by
    rcases hr with hs | ⟨hs, hl⟩
    · simp only [step, hs, hc, h1, Bool.not_true, Bool.false_eq_true, if_false]
      exact caseContentChunkSize_hex _ i h1
    · simp only [step, hs, hc]
      rw [caseContentChunkSize_hex p i h1, hl]
      congr 2
      cases p
      simp_all
  have hsafe : Safe p := by
    rcases hr with hs | ⟨hs, _⟩ <;> exact safe_of_state (by simp [hs])
  have hw := Walk.next (by omega) hsafe hstep
    (walk_CHUNK_SIZE mem e cs _ (i + 1) (by rfl) hat' (fun c hc => hok c (by simp [hc]))
      (by omega))
  refine hw.cast ?_ (by omega) rfl
  simp only [HttpParser.mk.injEq, View.mk.injEq, true_and, and_true, hexVal]
  omega

theorem walk_chunk (mem : List Nat) (e : Nat) {p : HttpParser} {i : Nat}
    (c : List Nat × List Nat) {rest : List Nat} (hr : ChunkReady p) (hc : ChunkOk c)
    (hat : At mem i (chunkText c ++ rest)) (hle : i + (chunkText c).length ≤ e) :
    ∃ q, Walk Safe mem e p i [Event.onMessageContent c.2] q (i + (chunkText c).length) ∧
      ChunkReady q ∧ At mem (i + (chunkText c).length) rest := by
  obtain ⟨hx, hval, hdne⟩ := hc
  have hlen : (chunkText c).length = c.1.length + 1 + 1 + c.2.length + 1 + 1 := by
    simp [chunkText]; omega
  rw [hlen] at hle ⊢
  have hat' : At mem i (c.1 ++ CR :: LF :: (c.2 ++ CR :: LF :: rest)) := by
    simpa [chunkText] using hat
  have hdpos : 0 < c.2.length := List.length_pos.mpr hdne
  obtain ⟨hathex, hat1⟩ := hat'.split
  obtain ⟨hcr, hat2⟩ := hat1.head
  obtain ⟨hlf, hat3⟩ := hat2.head
  obtain ⟨hatd, hat4⟩ := hat3.split
  obtain ⟨hcr2, hat5⟩ := hat4.head
  obtain ⟨hlf2, hat6⟩ := hat5.head
  have w1 := walk_chunk_size mem e hr hx hathex (by omega)
  have w2 := w1.concat (walk_CHUNK_SIZE_cr mem e (by rfl) hcr (by omega))
  dsimp only at w2
  have w3 := w2.concat (walk_CHUNK_LF1_body mem e (by rfl) hlf
    (by show hexVal 0 c.1 ≠ 0; omega) (by omega))
  dsimp only at w3
  have hk : c.2.length = min (toSizeT (hexVal 0 c.1)) (e - (i + c.1.length + 1 + 1)) := by
    have hts := toSizeT_of_nonneg (x := hexVal 0 c.1) (by omega)
    omega
  have hstep := @step_CHUNK_BODY mem e
    { p with _state := HttpParserState.CONTENT_CHUNK_BODY,
             _contentLength := hexVal 0 c.1,
             _bytesReceived := p._bytesReceived + c.1.length + 1 + 1 }
    (i + c.1.length + 1 + 1) rfl (by show hexVal 0 c.1 ≠ 0; omega) c.2.length hk
  rw [hatd.read_eq] at hstep
  have w4 := w3.concat (walk_one (by omega) (safe_of_state (by simp)) hstep)
  dsimp only at w4
  have w5 := w4.concat (walk_CHUNK_BODY_cr mem e (by rfl) hcr2
    (by show hexVal 0 c.1 - (c.2.length : Int) = 0; omega) (by omega))
  dsimp only at w5
  have w6 := w5.concat (@walk_proto_char mem e _ _ 10 HttpParserState.CONTENT_CHUNK_SIZE
    (by rfl) hlf2 (by omega))
  dsimp only at w6
  refine ⟨_, w6.cast rfl (by omega) (by simp), Or.inr ⟨rfl, ?_⟩, hat6.at_pos (by omega)⟩
  show hexVal 0 c.1 - (c.2.length : Int) = 0
  omega

theorem walk_chunks (mem : List Nat) (e : Nat) : ∀ (cs : List (List Nat × List Nat))
    (p : HttpParser) (i : Nat) (rest : List Nat), ChunkReady p → (∀ c ∈ cs, ChunkOk c) →
    At mem i (chunksText cs ++ rest) → i + (chunksText cs).length ≤ e →
    ∃ q, Walk Safe mem e p i (cs.map (fun c => Event.onMessageContent c.2)) q
        (i + (chunksText cs).length) ∧
      ChunkReady q ∧ At mem (i + (chunksText cs).length) rest := by
  intro cs
  induction cs with
  | nil =>
    intro p i rest hr _ hat _
    exact ⟨p, Walk.refl _ _, hr, by simpa [chunksText] using hat⟩
  | cons c cs ih =>
    intro p i rest hr hok hat hle
    simp only [chunksText, List.length_append, List.append_assoc] at hle hat ⊢
    obtain ⟨q1, w1, hr1, hat1⟩ := walk_chunk mem e c hr (hok c (by simp)) hat (by omega)
    obtain ⟨q2, w2, hr2, hat2⟩ :=
      ih q1 _ rest hr1 (fun c' hc' => hok c' (by simp [hc'])) hat1 (by omega)
    exact ⟨q2, (w1.concat w2).cast rfl (by omega) rfl, hr2, hat2.at_pos (by omega)⟩

theorem step_CHUNK_LF3 (mem : List Nat) (e : Nat) {p : HttpParser} {i : Nat}
    (hs : p._state = HttpParserState.CONTENT_CHUNK_LF3) (hc : mem.getD i 0 = 10) :
    step mem e p i =
      (⟨{ p with _state := HttpParserState.MESSAGE_BEGIN,
                 _bytesReceived := p._bytesReceived + 1 }, i + 1, [Event.onMessageEnd]⟩,
        true) := by
  simp only [step, hs, hc, HttpParser.nextChar]
  simp [LF]

theorem run_last_chunk (mem : List Nat) (e : Nat) {p : HttpParser} {i : Nat} {rest : List Nat}
    (hr : ChunkReady p) (hat : At mem i (lastChunk ++ rest)) (hle : i + 5 ≤ e) :
    ∃ q, Run Safe mem e p i ⟨q, i + 5, [Event.onMessageEnd]⟩ true ∧
      q._state = HttpParserState.MESSAGE_BEGIN := by
  have hat' : At mem i ([48] ++ CR :: LF :: CR :: LF :: rest) := by
    simpa [lastChunk] using hat
  obtain ⟨hat0, hat1⟩ := hat'.split
  obtain ⟨hcr, hat2⟩ := hat1.head
  obtain ⟨hlf, hat3⟩ := hat2.head
  obtain ⟨hcr2, hat4⟩ := hat3.head
  obtain ⟨hlf2, _⟩ := hat4.head
  simp only [List.length_singleton] at *
  have w1 := @walk_chunk_size mem e _ _ [48] hr (by decide) hat0 (by simp; omega)
  have w2 := w1.concat (walk_CHUNK_SIZE_cr mem e (by rfl) hcr (by simp; omega))
  dsimp only at w2
  have w3 := w2.concat (walk_CHUNK_LF1_last mem e (by rfl) hlf (by rfl) (by simp; omega))
  dsimp only at w3
  have w4 := w3.concat (@walk_proto_char mem e _ _ 13 HttpParserState.CONTENT_CHUNK_LF3
    (by rfl) hcr2 (by simp; omega))
  dsimp only at w4
  have hstep := step_CHUNK_LF3 mem e
    (p := { p with _state := HttpParserState.CONTENT_CHUNK_LF3,
                   _contentLength := hexVal 0 [48],
                   _bytesReceived := p._bytesReceived + [48].length + 1 + 1 + 1 })
    (i := i + 1 + 1 + 1 + 1) rfl hlf2
  have hrun := w4.run (Run.done (by simp; omega) (safe_of_state (by simp)) hstep)
  exact ⟨_, hrun.recast (by simp) (by simp), rfl⟩

theorem iequals_length {a b : List Nat} (h : iequals a b = true) : a.length = b.length := by
  unfold iequals at h
  by_contra hne
  simp [hne] at h

theorem blockFraming_chunked (pre post : List (List Nat × List Nat)) (n v : List Nat)
    (c : Bool) (l : Int) (hpre : ∀ h ∈ pre, OtherHeader h) (hpost : ∀ h ∈ post, OtherHeader h)
    (hn : iequals n strTransferEncoding = true) (hv : iequals v strChunked = true) :
    blockFraming (pre ++ (n, v) :: post) c l = (true, l) := by
  have hcl : iequals n strContentLength = false := by
    have h17 := iequals_length hn
    cases hcl : iequals n strContentLength
    · rfl
    · have h14 := iequals_length hcl
      rw [h14] at h17
      cases h17
  rw [blockFraming_append, blockFraming_other pre c l hpre]
  simp only [blockFraming, headerFraming, hn, hv, hcl, if_true, if_false, Bool.false_eq_true]
  exact blockFraming_other post _ _ hpost

theorem blockEvents_chunked (pre post : List (List Nat × List Nat)) (n v : List Nat)
    (hpre : ∀ h ∈ pre, OtherHeader h) (hpost : ∀ h ∈ post, OtherHeader h)
    (hn : iequals n strTransferEncoding = true) (hv : iequals v strChunked = true) :
    blockEvents (pre ++ (n, v) :: post) =
      (pre ++ post).map (fun h => Event.onMessageHeader h.1 h.2) := by
  have hcl : iequals n strContentLength = false := by
    have h17 := iequals_length hn
    cases hcl : iequals n strContentLength
    · rfl
    · have h14 := iequals_length hcl
      rw [h14] at h17
      cases h17
  rw [blockEvents_append, blockEvents_other pre hpre]
  simp only [blockEvents, headerEvents, hn, hv, hcl, if_true, if_false, Bool.false_eq_true,
    blockEvents_other post hpost, List.map_append, List.nil_append]

theorem payload_chunks : ∀ (cs : List (List Nat × List Nat)),
    payload (cs.map (fun c => Event.onMessageContent c.2)) = chunksData cs := by
  intro cs
  induction cs with
  | nil => rfl
  | cons c cs ih => simp only [List.map_cons, payload, chunksData, ih]

theorem run_chunked_message (mem : List Nat) (e : Nat) {p : HttpParser} {i : Nat}
    (st : StartLine) (pre post : List (List Nat × List Nat)) (n v : List Nat)
    (chunks : List (List Nat × List Nat)) (rest : List Nat)
    (hst : p._state = HttpParserState.MESSAGE_BEGIN) (hm : p._mode = st.mode)
    (hv : st.Valid)
    (hpre : ∀ h ∈ pre, OtherHeader h) (hpost : ∀ h ∈ post, OtherHeader h)
    (hn : TokenStr n ∧ iequals n strTransferEncoding = true)
    (hc : ValueStr v ∧ iequals v strChunked = true) (hok : ∀ c ∈ chunks, ChunkOk c)
    (hat : At mem i (messageHead st (pre ++ (n, v) :: post) ++ (chunkedBody chunks ++ rest)))
    (hle : i + (messageHead st (pre ++ (n, v) :: post)).length + (chunkedBody chunks).length
      ≤ e) :
    ∃ q, Run Safe mem e p i
        ⟨q, i + (messageHead st (pre ++ (n, v) :: post)).length + (chunkedBody chunks).length,
          st.events ++ ((pre ++ post).map (fun h => Event.onMessageHeader h.1 h.2) ++
            (Event.onMessageHeaderEnd ::
              (chunks.map (fun c => Event.onMessageContent c.2) ++ [Event.onMessageEnd])))⟩
        true ∧
      q._state = HttpParserState.MESSAGE_BEGIN := by
  have hh : ∀ h ∈ pre ++ (n, v) :: post, TokenStr h.1 ∧ ValueStr h.2 := by
    intro h hmem
    simp only [List.mem_append, List.mem_cons] at hmem
    rcases hmem with h1 | h1 | h1
    · exact ⟨(hpre h h1).1, (hpre h h1).2.1⟩
    · subst h1; exact ⟨hn.1, hc.1⟩
    · exact ⟨(hpost h h1).1, (hpost h h1).2.1⟩
  have hfr := blockFraming_chunked pre post n v p._chunked (-1) hpre hpost hn.2 hc.2
  have hlen : (chunkedBody chunks).length = (chunksText chunks).length + 5 := by
    simp [chunkedBody, lastChunk]
  rw [hlen] at hle ⊢
  obtain ⟨q1, w1, hq1, hm1, hch1, hcl1, hat1⟩ :=
    walk_head mem e st (pre ++ (n, v) :: post) hst hm hv hh (by rw [hfr]; exact Or.inr rfl) hat
      (by omega)
  rw [hfr] at hch1 hcl1
  simp only at hch1 hcl1
  have hsafe : Safe q1 := by
    intro hsc
    have := hsc.2.2.1
    rw [hch1] at this
    cases this
  have w2 := w1.concat (walk_CONTENT_BEGIN_chunked mem e hq1 hch1 hsafe (by omega))
  have hat2 : At mem (i + (messageHead st (pre ++ (n, v) :: post)).length)
      (chunksText chunks ++ (lastChunk ++ rest)) := by
    simpa [chunkedBody] using hat1
  obtain ⟨q3, w3, hr3, hat3⟩ := walk_chunks mem e chunks
    { q1 with _state := HttpParserState.CONTENT_CHUNK_SIZE_BEGIN } _ _ (Or.inl rfl) hok hat2
    (by omega)
  obtain ⟨q4, hrun, hq4⟩ := run_last_chunk mem e hr3 hat3 (by omega)
  have hr := (w2.concat w3).run hrun
  simp only [headEvents, blockEvents_chunked pre post n v hpre hpost hn.2 hc.2] at hr
  exact ⟨_, hr.recast (by omega) (by simp), hq4⟩

/-! ## The first line: errors, unknown versions, the log before the announcement -/

set_option maxHeartbeats 4000000 in
theorem step_startLine {mem : List Nat} {e : Nat} {p : HttpParser} {i : Nat} {l : Cursor}
    {d : Bool} (hin : inStartLine p._state = true) (hm : p._mode ≠ HttpParseMode.MESSAGE)
    (hstep : step mem e p i = (l, d)) :
    (l.out = [] ∧ inStartLine l.p._state = true ∧ l.p._mode ≠ HttpParseMode.MESSAGE ∧
      d = false) ∨
    (l.out = [Event.onProtocolError] ∧ l.p._state = HttpParserState.PROTOCOL_ERROR ∧
      d = false) ∨
    (∃ ev rest, l.out = ev :: rest ∧ isStartEvent ev = true) := by
  have hl : l = (step mem e p i).1 := by rw [hstep]
  have hd : d = (step mem e p i).2 := by rw [hstep]
  subst hl hd
  clear hstep
  cases hs : p._state <;> simp only [hs, inStartLine] at hin <;>
    simp only [step, hs, protocolError, advance, expectChar, caseStatusCode] <;>
    (repeat' split) <;> simp_all [HttpParser.nextChar, inStartLine, isStartEvent]

theorem parse_of_walk_error {mem : List Nat} {b s : Nat} {p q : HttpParser} {j : Nat}
    {E : List Event} (hwf : WF p) (hw : Walk Safe mem (b + s) p b E q j)
    (hq : q._state = HttpParserState.PROTOCOL_ERROR) :
    parseFragment mem ⟨b, s⟩ p = some ⟨q, E, j - b⟩ := by
  have hsafe : Safe q := safe_of_state (by simp [hq])
  by_cases hj : j = b + s
  · subst hj
    have hr := hw.run (Run.exit q hsafe)
    rw [parseFragment_of_run hwf hr]
    simp [resultOf, afterLoop_of_safe hsafe]
  · have hr := hw.run (Run.done hj hsafe (step_PROTOCOL_ERROR hq))
    rw [parseFragment_of_run hwf hr]
    simp [resultOf]

theorem parse_of_walk_exit {mem : List Nat} {b s : Nat} {p q : HttpParser}
    {E : List Event} (hwf : WF p) (hw : Walk Safe mem (b + s) p b E q (b + s))
    (hq : q._state ≠ HttpParserState.CONTENT_BEGIN) :
    parseFragment mem ⟨b, s⟩ p = some ⟨q, E, s⟩ := by
  have hsafe : Safe q := safe_of_state hq
  have hr := hw.run (Run.exit q hsafe)
  rw [parseFragment_of_run hwf hr]
  simp [resultOf, afterLoop_of_safe hsafe]

theorem startEvent_append {E : List Event} (F : List Event)
    (h : ∃ ev rest, E = ev :: rest ∧ isStartEvent ev = true) :
    ∃ ev rest, E ++ F = ev :: rest ∧ isStartEvent ev = true := by
  obtain ⟨ev, rest, h1, h2⟩ := h
  exact ⟨ev, rest ++ F, by simp [h1], h2⟩

theorem Run.startLog {S : HttpParser → Prop} {mem : List Nat} {e : Nat} {p : HttpParser}
    {i : Nat} {l : Cursor} {d : Bool} (h : Run S mem e p i l d)
    (hin : inStartLine p._state = true) (hm : p._mode ≠ HttpParseMode.MESSAGE) :
    StartLog l.out l.p := by
  induction h with
  | exit p _ => exact Or.inl ⟨rfl, hin, hm⟩
  | @done p i l _ _ hstep =>
    rcases step_startLine hin hm hstep with ⟨_, _, _, h⟩ | ⟨_, _, h⟩ | h
    · cases h
    · cases h
    · exact Or.inr (Or.inr h)
  | @next p i l l' d _ _ hstep hrest ih =>
    rcases step_startLine hin hm hstep with ⟨h1, h2, h3, _⟩ | ⟨h1, h2, _⟩ | h
    · have := ih h2 h3
      simpa [h1] using this
    · obtain ⟨ho', hp'⟩ := hrest.of_PROTOCOL_ERROR h2
      refine Or.inr (Or.inl ⟨?_, ?_⟩)
      · simp [h1, ho']
      · simp only [hp', h2]
    · exact Or.inr (Or.inr (startEvent_append _ h))

theorem inStartLine_ne_CONTENT_BEGIN {q : HttpParser} (h : inStartLine q._state = true) :
    q._state ≠ HttpParserState.CONTENT_BEGIN := by
  intro hs
  rw [hs] at h
  cases h

theorem parseFragment_startLog (mem : List Nat) (chunk : View) {p : HttpParser} (hwf : WF p)
    (hin : inStartLine p._state = true) (hm : p._mode ≠ HttpParseMode.MESSAGE) :
    ∃ r, parseFragment mem chunk p = some r ∧ WF r.p ∧ StartLog r.events r.p := by
  obtain ⟨l, d, hrun, hpf⟩ := parseFragment_run mem (b := chunk.data) (s := chunk.size) hwf
  have hsl := hrun.startLog hin hm
  have hwf' := parseFragment_WF hwf hpf
  refine ⟨_, hpf, hwf', ?_⟩
  cases d with
  | true => simpa [resultOf] using hsl
  | false =>
    rcases hsl with ⟨h1, h2, h3⟩ | ⟨h1, h2⟩ | h
    · have hsafe : Safe l.p := safe_of_state (inStartLine_ne_CONTENT_BEGIN h2)
      simp only [resultOf, afterLoop_of_safe hsafe, Bool.false_eq_true, if_false]
      exact Or.inl ⟨by simp [h1], h2, h3⟩
    · have hsafe : Safe l.p := safe_of_state (by simp [h2])
      simp only [resultOf, afterLoop_of_safe hsafe, Bool.false_eq_true, if_false]
      exact Or.inr (Or.inl ⟨by simp [h1], h2⟩)
    · simp only [resultOf, Bool.false_eq_true, if_false]
      exact Or.inr (Or.inr (startEvent_append _ h))

theorem parseAll_PROTOCOL_ERROR : ∀ (calls : List (List Nat × View)) (p : HttpParser),
    p._state = HttpParserState.PROTOCOL_ERROR → parseAll calls p = some ⟨p, [], 0⟩ := by
  intro calls
  induction calls with
  | nil => intro p _; rfl
  | cons c rest ih =>
    intro p hp
    obtain ⟨mem, chunk⟩ := c
    simp only [parseAll, parseFragment_PROTOCOL_ERROR mem chunk p hp, ih p hp]
    rfl

theorem parseAll_startLog : ∀ (calls : List (List Nat × View)) (p : HttpParser), WF p →
    inStartLine p._state = true → p._mode ≠ HttpParseMode.MESSAGE →
    ∃ r, parseAll calls p = some r ∧ StartLog r.events r.p := by
  intro calls
  induction calls with
  | nil => intro p _ hin hm; exact ⟨_, rfl, Or.inl ⟨rfl, hin, hm⟩⟩
  | cons c rest ih =>
    intro p hwf hin hm
    obtain ⟨mem, chunk⟩ := c
    obtain ⟨r1, hr1, hwf1, h1⟩ := parseFragment_startLog mem chunk hwf hin hm
    rcases h1 with ⟨h1, h2, h3⟩ | ⟨h1, h2⟩ | h
    · obtain ⟨r2, hr2, hs2⟩ := ih r1.p hwf1 h2 h3
      refine ⟨⟨r2.p, r1.events ++ r2.events, r1.n + r2.n⟩, by simp only [parseAll, hr1, hr2],
        ?_⟩
      simpa [h1] using hs2
    · have hr2 := parseAll_PROTOCOL_ERROR rest r1.p h2
      refine ⟨⟨r1.p, r1.events ++ [], r1.n + 0⟩, by simp only [parseAll, hr1, hr2], ?_⟩
      exact Or.inr (Or.inl ⟨by simp [h1], h2⟩)
    · obtain ⟨r2, hr2, _⟩ := parseAll_errorLast rest r1.p hwf1
      refine ⟨⟨r2.p, r1.events ++ r2.events, r1.n + r2.n⟩, by simp only [parseAll, hr1, hr2],
        ?_⟩
      exact Or.inr (Or.inr (startEvent_append _ h))

theorem walk_REQUEST_METHOD_bad (mem : List Nat) (e : Nat) {p : HttpParser} {i : Nat} {c : Nat}
    (hs : p._state = HttpParserState.REQUEST_METHOD) (hc : mem.getD i 0 = c)
    (h1 : c ≠ 32) (h2 : isToken c = false) (hlt : i < e) :
    Walk Safe mem e p i [Event.onProtocolError]
      { p with _state := HttpParserState.PROTOCOL_ERROR } i := by
  refine walk_one (by omega) (safe_of_state (by simp [hs])) ?_
  simp only [step, hs, hc, protocolError]
  simp [SP, h1, h2]

theorem walk_request_to_major (mem : List Nat) (e : Nat) {p : HttpParser} {i : Nat}
    {m en rest : List Nat} (hs : p._state = HttpParserState.MESSAGE_BEGIN)
    (hm : p._mode = HttpParseMode.REQUEST) (hmt : TokenStr m) (het : EntityStr en)
    (hat : At mem i (m ++ SP :: (en ++ SP :: (strHTTP ++ rest))))
    (hle : i + m.length + 1 + en.length + 1 + 5 ≤ e) :
    ∃ q, Walk Safe mem e p i [] q (i + m.length + 1 + en.length + 1 + 5) ∧
      q._state = HttpParserState.REQUEST_PROTOCOL_VERSION_MAJOR ∧
      q._versionMajor = 0 ∧ q._versionMinor = 0 ∧
      q._method.read mem = m ∧ q._entity.read mem = en ∧
      At mem (i + m.length + 1 + en.length + 1 + 5) rest := by
  obtain ⟨hatm, hat1⟩ := hat.split
  obtain ⟨_, hat2⟩ := hat1.head
  obtain ⟨haten, _⟩ := hat2.split
  obtain ⟨q, w, hq, hqmode, hqch, hqcl, hqmaj, hqmin, hqm, hqe, hat3⟩ :=
    walk_request_start mem e hs hm hmt het hat (by omega)
  obtain ⟨hsp, hat4⟩ := hat3.head
  obtain ⟨hathttp, hat5⟩ := hat4.split
  have h5 : strHTTP.length = 5 := rfl
  rw [h5] at hat5
  have w2 := w.concat (walk_REQUEST_ENTITY_sp mem e hq hsp (by omega))
  have w3 := w2.concat (walk_proto mem e strHTTP _ _
    HttpParserState.REQUEST_PROTOCOL_VERSION_MAJOR (by rfl) hathttp (by rw [h5]; omega))
  dsimp only at w3
  rw [h5] at w3
  refine ⟨_, w3.cast rfl (by omega) rfl, rfl, hqmaj, hqmin, ?_, ?_, hat5.at_pos (by omega)⟩
  · show View.read mem q._method = m
    rw [hqm]; exact hatm.read_eq
  · show View.read mem q._entity = en
    rw [hqe]; exact haten.read_eq

theorem walk_VERSION_MAJOR_bad (mem : List Nat) (e : Nat) {p : HttpParser} {i : Nat} {c : Nat}
    (hs : p._state = HttpParserState.REQUEST_PROTOCOL_VERSION_MAJOR) (hc : mem.getD i 0 = c)
    (h1 : c ≠ 46) (h2 : isdigit c = false) (hlt : i < e) :
    Walk Safe mem e p i [Event.onProtocolError]
      { p with _state := HttpParserState.PROTOCOL_ERROR } i := by
  refine walk_one (by omega) (safe_of_state (by simp [hs])) ?_
  simp only [step, hs, hc, protocolError]
  simp [h1, h2]

theorem walk_VERSION_MINOR_bad (mem : List Nat) (e : Nat) {p : HttpParser} {i : Nat} {c : Nat}
    (hs : p._state = HttpParserState.REQUEST_PROTOCOL_VERSION_MINOR) (hc : mem.getD i 0 = c)
    (h1 : c ≠ 13) (h2 : isdigit c = false) (hlt : i < e) :
    Walk Safe mem e p i [Event.onProtocolError]
      { p with _state := HttpParserState.PROTOCOL_ERROR } i := by
  refine walk_one (by omega) (safe_of_state (by simp [hs])) ?_
  simp only [step, hs, hc, protocolError]
  simp [CR, h1, h2]

theorem walk_REQUEST_LINE_LF_unknown (mem : List Nat) (e : Nat) {p : HttpParser} {i : Nat}
    (hs : p._state = HttpParserState.REQUEST_LINE_LF) (hc : mem.getD i 0 = 10)
    (hv : makeHttpVersion p._versionMajor p._versionMinor = HttpVersion.UNKNOWN) (hlt : i < e) :
    Walk Safe mem e p i [Event.onProtocolError]
      { p with _state := HttpParserState.PROTOCOL_ERROR,
               _bytesReceived := p._bytesReceived + 1 } (i + 1) := by
  refine walk_one (by omega) (safe_of_state (by simp [hs])) ?_
  simp only [step, hs, hc, HttpParser.nextChar]
  simp [LF, hv]

theorem walk_STATUS_MESSAGE_LF_unknown (mem : List Nat) (e : Nat) {p : HttpParser} {i : Nat}
    (hs : p._state = HttpParserState.STATUS_MESSAGE_LF) (hc : mem.getD i 0 = 10)
    (hv : makeHttpVersion p._versionMajor p._versionMinor = HttpVersion.UNKNOWN) (hlt : i < e) :
    Walk Safe mem e p i [Event.onProtocolError]
      { p with _state := HttpParserState.PROTOCOL_ERROR,
               _bytesReceived := p._bytesReceived + 1 } (i + 1) := by
  refine walk_one (by omega) (safe_of_state (by simp [hs])) ?_
  simp only [step, hs, hc, HttpParser.nextChar]
  simp [LF, hv]

theorem walk_request_to_version (mem : List Nat) (e : Nat) {p : HttpParser} {i : Nat}
    {m en maj rest : List Nat} (min : Option (List Nat))
    (hs : p._state = HttpParserState.MESSAGE_BEGIN)
    (hm : p._mode = HttpParseMode.REQUEST) (hmt : TokenStr m) (het : EntityStr en)
    (hmaj : DigitStr maj) (hmin : ∀ mn, min = some mn → DigitStr mn)
    (hat : At mem i (m ++ SP :: (en ++ SP :: (strHTTP ++ (versionText maj min ++ rest)))))
    (hle : i + m.length + 1 + en.length + 1 + 5 + (versionText maj min).length ≤ e) :
    ∃ q, Walk Safe mem e p i [] q
        (i + m.length + 1 + en.length + 1 + 5 + (versionText maj min).length) ∧
      q._state = (if min.isSome then HttpParserState.REQUEST_PROTOCOL_VERSION_MINOR
        else HttpParserState.REQUEST_PROTOCOL_VERSION_MAJOR) ∧
      q._versionMajor = digitsVal 0 maj ∧
      q._versionMinor = digitsVal 0 (min.getD []) ∧
      q._method.read mem = m ∧ q._entity.read mem = en ∧
      At mem (i + m.length + 1 + en.length + 1 + 5 + (versionText maj min).length) rest := by
  cases min with
  | none =>
    simp only [versionText] at hat hle ⊢
    obtain ⟨q, w, hq, hqmaj, hqmin, hqm, hqe, hat1⟩ :=
      walk_request_to_major mem e hs hm hmt het hat (by omega)
    obtain ⟨hatmaj, hat2⟩ := hat1.split
    have w2 := w.concat (walk_REQUEST_VERSION_MAJOR mem e maj _ _ hq hatmaj hmaj (by omega))
    refine ⟨_, w2.cast rfl rfl rfl, hq, ?_, ?_, hqm, hqe, hat2⟩
    · show digitsVal q._versionMajor maj = _
      rw [hqmaj]
    · show q._versionMinor = _
      rw [hqmin]; rfl
  | some mn =>
    have hmn := hmin mn rfl
    have hlen : (versionText maj (some mn)).length = maj.length + 1 + mn.length := by
      simp [versionText]; omega
    rw [hlen] at hle ⊢
    have hat' : At mem i (m ++ SP :: (en ++ SP :: (strHTTP ++ (maj ++ 46 :: (mn ++ rest))))) := by
      simpa [versionText] using hat
    obtain ⟨q, w, hq, hqmaj, hqmin, hqm, hqe, hat1⟩ :=
      walk_request_to_major mem e hs hm hmt het hat' (by omega)
    obtain ⟨hatmaj, hat2⟩ := hat1.split
    obtain ⟨hdot, hat3⟩ := hat2.head
    obtain ⟨hatmin, hat4⟩ := hat3.split
    have w2 := w.concat (walk_REQUEST_VERSION_MAJOR mem e maj _ _ hq hatmaj hmaj (by omega))
    have w3 := w2.concat (walk_REQUEST_VERSION_MAJOR_dot mem e (by exact hq) hdot (by omega))
    dsimp only at w3
    have w4 := w3.concat (walk_REQUEST_VERSION_MINOR mem e mn _ _ (by rfl) hatmin hmn
      (by omega))
    dsimp only at w4
    refine ⟨_, w4.cast rfl (by omega) rfl, rfl, ?_, ?_, hqm, hqe, hat4.at_pos (by omega)⟩
    · show digitsVal q._versionMajor maj = _
      rw [hqmaj]
    · show digitsVal q._versionMinor mn = _
      rw [hqmin]; rfl

theorem walk_status_line_unknown (mem : List Nat) (e : Nat) {p : HttpParser} {i : Nat}
    {maj min code reason rest : List Nat} (hs : p._state = HttpParserState.MESSAGE_BEGIN)
    (hm : p._mode = HttpParseMode.RESPONSE) (hmaj : DigitStr maj) (hmin : DigitStr min)
    (hcode : code ≠ [] ∧ DigitStr code) (hreason : ReasonStr reason)
    (hv : makeHttpVersion (digitsVal 0 maj) (digitsVal 0 min) = HttpVersion.UNKNOWN)
    (hat : At mem i (statusLine maj min code reason ++ rest))
    (hle : i + (statusLine maj min code reason).length ≤ e) :
    ∃ q, Walk Safe mem e p i [Event.onProtocolError] q
        (i + (statusLine maj min code reason).length) ∧
      q._state = HttpParserState.PROTOCOL_ERROR := by
  rw [statusLine_length] at hle ⊢
  have hat' : At mem i (strHTTP ++ (maj ++ 46 :: (min ++ SP :: (code ++ SP :: (reason ++
      CR :: LF :: rest))))) := by
    simpa [statusLine] using hat
  obtain ⟨hcne, hcdig⟩ := hcode
  obtain ⟨hrne, hrtext⟩ := hreason
  obtain ⟨c0, ct, rfl⟩ := List.exists_cons_of_ne_nil hcne
  obtain ⟨r0, rt, rfl⟩ := List.exists_cons_of_ne_nil hrne
  obtain ⟨hathttp, hat1⟩ := hat'.split
  obtain ⟨hatmaj, hat2⟩ := hat1.split
  obtain ⟨hdot, hat3⟩ := hat2.head
  obtain ⟨hatmin, hat4⟩ := hat3.split
  obtain ⟨hsp, hat5⟩ := hat4.head
  obtain ⟨hatcode, hat6⟩ := hat5.split
  obtain ⟨hc0, hatct⟩ := hatcode.head
  obtain ⟨hsp2, hat7⟩ := hat6.head
  obtain ⟨hatr, hat8⟩ := hat7.split
  obtain ⟨hr0, hatrt⟩ := hatr.head
  obtain ⟨hcr, hat9⟩ := hat8.head
  obtain ⟨hlf, hat10⟩ := hat9.head
  simp only [List.length_cons, show strHTTP.length = 5 from rfl] at *
  have h5 : strHTTP.length = 5 := rfl
  have w1 := walk_MESSAGE_BEGIN_response mem e (i := i) hs hm (by omega)
  have w2 := w1.concat (walk_proto mem e strHTTP _ _
    HttpParserState.STATUS_PROTOCOL_VERSION_MAJOR (by rfl) hathttp (by rw [h5]; omega))
  dsimp only at w2
  rw [h5] at w2
  have w3 := w2.concat (walk_STATUS_VERSION_MAJOR mem e maj _ _ (by rfl) hatmaj hmaj (by omega))
  dsimp only at w3
  have w4 := w3.concat (walk_STATUS_VERSION_MAJOR_dot mem e (by rfl) hdot (by omega))
  dsimp only at w4
  have w5 := w4.concat (walk_STATUS_VERSION_MINOR mem e min _ _ (by rfl) hatmin hmin (by omega))
  dsimp only at w5
  have w6 := w5.concat (walk_STATUS_VERSION_MINOR_sp mem e (by rfl) hsp (by omega))
  dsimp only at w6
  have w7 := w6.concat (walk_STATUS_CODE_BEGIN mem e (by rfl) hc0 (hcdig c0 (by simp))
    (by omega))
  dsimp only at w7
  have w8 := w7.concat (walk_STATUS_CODE mem e ct _ _ (by rfl) hatct
    (fun c hc => hcdig c (by simp [hc])) (by omega))
  dsimp only at w8
  have w9 := w8.concat (walk_STATUS_CODE_sp mem e (by rfl) (getD_cast hsp2 (by omega))
    (by omega))
  dsimp only at w9
  have w10 := w9.concat (walk_STATUS_MESSAGE_BEGIN mem e (by rfl) (getD_cast hr0 (by omega))
    (hrtext r0 (by simp)) (by omega))
  dsimp only at w10
  have w11 := w10.concat (walk_STATUS_MESSAGE mem e rt _ _ (by rfl) (hatrt.at_pos (by omega))
    (fun c hc => hrtext c (by simp [hc])) (by omega))
  dsimp only at w11
  have w12 := w11.concat (walk_STATUS_MESSAGE_cr mem e (by rfl) (getD_cast hcr (by omega))
    (by omega))
  dsimp only at w12
  have w13 := w12.concat (walk_STATUS_MESSAGE_LF_unknown mem e (by rfl)
    (getD_cast hlf (by omega)) (by simpa using hv) (by omega))
  dsimp only at w13
  exact ⟨_, w13.cast rfl (by omega) (by simp), rfl⟩

theorem walk_request_line_unknown (mem : List Nat) (e : Nat) {p : HttpParser} {i : Nat}
    {m en maj min rest : List Nat} (hs : p._state = HttpParserState.MESSAGE_BEGIN)
    (hm : p._mode = HttpParseMode.REQUEST) (hmt : TokenStr m) (het : EntityStr en)
    (hmaj : DigitStr maj) (hmin : DigitStr min)
    (hv : makeHttpVersion (digitsVal 0 maj) (digitsVal 0 min) = HttpVersion.UNKNOWN)
    (hat : At mem i (requestLine m en maj min ++ rest))
    (hle : i + (requestLine m en maj min).length ≤ e) :
    ∃ q, Walk Safe mem e p i [Event.onProtocolError] q
        (i + (requestLine m en maj min).length) ∧
      q._state = HttpParserState.PROTOCOL_ERROR := by
  rw [requestLine_length] at hle ⊢
  have hlen : (versionText maj (some min)).length = maj.length + 1 + min.length := by
    simp [versionText]; omega
  have hat' : At mem i (m ++ SP :: (en ++ SP :: (strHTTP ++ (versionText maj (some min) ++
      CR :: LF :: rest)))) := by
    simpa [requestLine, versionText] using hat
  obtain ⟨q, w, hq, hqmaj, hqmin, _, _, hat1⟩ := walk_request_to_version mem e (some min)
    hs hm hmt het hmaj (fun mn h => by cases h; exact hmin) hat' (by rw [hlen]; omega)
  rw [hlen] at w hat1
  simp only [Option.isSome_some, if_true, Option.getD_some] at hq hqmin
  obtain ⟨hcr, hat2⟩ := hat1.head
  obtain ⟨hlf, _⟩ := hat2.head
  have w2 := w.concat (walk_REQUEST_VERSION_MINOR_cr mem e hq hcr (by omega))
  have w3 := w2.concat (walk_REQUEST_LINE_LF_unknown mem e (by rfl) hlf
    (by show makeHttpVersion q._versionMajor q._versionMinor = _; rw [hqmaj, hqmin]; exact hv)
    (by omega))
  dsimp only at w3
  exact ⟨_, w3.cast rfl (by omega) (by simp), rfl⟩

theorem iequalsLoop_iff : ∀ (a b : List Nat), a.length = b.length →
    (iequalsLoop a b = true ↔ a.map tolower = b.map tolower) := by
  intro a
  induction a with
  | nil =>
    intro b hb
    cases b with
    | nil => simp [iequalsLoop]
    | cons y ys => simp at hb
  | cons x xs ih =>
    intro b hb
    cases b with
    | nil => simp at hb
    | cons y ys =>
      simp only [List.length_cons, Nat.add_right_cancel_iff] at hb
      simp only [iequalsLoop, List.map_cons, List.cons.injEq]
      by_cases hxy : tolower x = tolower y
      · simp [hxy, ih ys hb]
      · simp [hxy]

theorem iequals_iff (a b : List Nat) : iequals a b = true ↔ sameIgnoringCase a b := by
  unfold iequals sameIgnoringCase
  by_cases hl : a.length = b.length
  · simp only [hl, ne_eq, not_true_eq_false, if_false]
    exact iequalsLoop_iff a b hl
  · simp only [ne_eq, hl, not_false_eq_true, if_true, Bool.false_eq_true, false_iff]
    intro h
    apply hl
    have := congrArg List.length h
    simpa using this

theorem parseIntLoop_digits : ∀ (v : List Nat) (acc : Int), DigitStr v →
    parseIntLoop acc v = v.foldl (fun (acc : Int) (c : Nat) => acc * 10 + ((c : Int) - 48)) acc := by
  intro v
  induction v with
  | nil => intro acc _; rfl
  | cons c cs ih =>
    intro acc hd
    have hc := hd c (by simp)
    simp only [parseIntLoop, hc, if_true, List.foldl_cons]
    rw [ih _ (fun c' hc' => hd c' (by simp [hc']))]
    have hr : acc * 10 + (c : Int) - 48 = acc * 10 + ((c : Int) - 48) := by ring
    rw [hr]

theorem walk_HEADER_NAME_bad (mem : List Nat) (e : Nat) {p : HttpParser} {i : Nat} {c : Nat}
    (hs : p._state = HttpParserState.HEADER_NAME) (hc : mem.getD i 0 = c)
    (h1 : c = 32 ∨ c = 9) (hlt : i < e) :
    Walk Safe mem e p i [Event.onProtocolError]
      { p with _state := HttpParserState.PROTOCOL_ERROR } i := by
  refine walk_one (by omega) (safe_of_state (by simp [hs])) ?_
  simp only [step, hs, hc, protocolError]
  rcases h1 with h | h <;> subst h <;> simp [isToken, isChar, isControl, isSeparator, SP, HT, CR]

theorem walk_HEADER_NAME_cr (mem : List Nat) (e : Nat) {p : HttpParser} {i : Nat}
    (hs : p._state = HttpParserState.HEADER_NAME) (hc : mem.getD i 0 = 13) (hlt : i < e) :
    Walk Safe mem e p i []
      { p with _state := HttpParserState.LWS_LF, _lwsNext := HttpParserState.HEADER_COLON,
               _lwsNull := HttpParserState.PROTOCOL_ERROR,
               _bytesReceived := p._bytesReceived + 1 } (i + 1) := by
  refine walk_one (by omega) (safe_of_state (by simp [hs])) ?_
  simp only [step, hs, hc, advance, HttpParser.nextChar]
  simp [isToken, isChar, isControl, isSeparator, SP, HT, CR]

theorem walk_LWS_SP_HT_BEGIN_error (mem : List Nat) (e : Nat) {p : HttpParser} {i : Nat}
    {c : Nat} (hs : p._state = HttpParserState.LWS_SP_HT_BEGIN) (hc : mem.getD i 0 = c)
    (h1 : c ≠ 32) (h2 : c ≠ 9) (hn : p._lwsNull = HttpParserState.PROTOCOL_ERROR)
    (hlt : i < e) :
    Walk Safe mem e p i [Event.onProtocolError]
      { p with _state := HttpParserState.PROTOCOL_ERROR } i := by
  refine walk_one (by omega) (safe_of_state (by simp [hs])) ?_
  simp only [step, hs, hc]
  simp [SP, HT, h1, h2, hn]

theorem wf_of_state {p : HttpParser}
    (hp : p._state = HttpParserState.HEADER_NAME_BEGIN ∨
      p._state = HttpParserState.MESSAGE_BEGIN) : WF p := by
  rcases hp with h | h <;> simp [WF, inLws, inCounted, h]

theorem walk_lines (mem : List Nat) (e : Nat) {p : HttpParser} {i : Nat} (st : StartLine)
    (pre : List (List Nat × List Nat)) {c' : Nat} {rest : List Nat}
    (hst : p._state = HttpParserState.MESSAGE_BEGIN) (hm : p._mode = st.mode)
    (hv : st.Valid) (hh : ∀ h ∈ pre, TokenStr h.1 ∧ ValueStr h.2)
    (hat : At mem i (st.text ++ (headerBlock pre ++ c' :: rest)))
    (hc1 : c' ≠ 32) (hc2 : c' ≠ 9)
    (hle : i + st.text.length + (headerBlock pre).length < e) :
    ∃ q, Walk Safe mem e p i (st.events ++ blockEvents pre) q
        (i + st.text.length + (headerBlock pre).length) ∧
      q._state = HttpParserState.HEADER_NAME_BEGIN ∧ q._mode = p._mode ∧
      q._chunked = (blockFraming pre p._chunked (-1)).1 ∧
      q._contentLength = (blockFraming pre p._chunked (-1)).2 ∧
      At mem (i + st.text.length + (headerBlock pre).length) (c' :: rest) := by
  obtain ⟨q1, w1, hq1, hm1, hch1, hcl1, hat2⟩ :=
    walk_start_line mem e st hst hm hv hat (by omega)
  obtain ⟨q2, w2, hq2, hm2, hch2, hcl2, hat3⟩ :=
    walk_header_block mem e pre q1 _ c' rest hq1 hh hat2 hc1 hc2 (by omega)
  rw [hch1, hcl1] at hch2 hcl2
  exact ⟨q2, w1.concat w2, hq2, hm2.trans hm1, hch2, hcl2, hat3⟩

theorem walk_name_space (mem : List Nat) (e : Nat) {p : HttpParser} {i : Nat}
    {N rest : List Nat} {c : Nat} (hs : p._state = HttpParserState.HEADER_NAME_BEGIN)
    (hN : TokenStr N) (hc : c = 32 ∨ c = 9) (hat : At mem i (N ++ c :: rest))
    (hle : i + N.length < e) :
    ∃ q, Walk Safe mem e p i [Event.onProtocolError] q (i + N.length) ∧
      q._state = HttpParserState.PROTOCOL_ERROR := by
  obtain ⟨hne, htok⟩ := hN
  obtain ⟨n0, nt, rfl⟩ := List.exists_cons_of_ne_nil hne
  obtain ⟨hatn, hat1⟩ := hat.split
  obtain ⟨hn0, hatnt⟩ := hatn.head
  obtain ⟨hcc, _⟩ := hat1.head
  simp only [List.length_cons] at hle hcc ⊢
  have w1 := walk_HEADER_NAME_BEGIN mem e hs hn0 (htok n0 (by simp)) (by omega)
  have w2 := w1.concat (walk_HEADER_NAME mem e nt _ _ (by rfl) hatnt
    (fun c hc => htok c (by simp [hc])) (by omega))
  dsimp only at w2
  have w3 := w2.concat (walk_HEADER_NAME_bad mem e (by rfl) (getD_cast hcc (by omega))
    hc (by omega))
  dsimp only at w3
  exact ⟨_, w3.cast rfl (by omega) rfl, rfl⟩

theorem walk_name_crlf (mem : List Nat) (e : Nat) {p : HttpParser} {i : Nat}
    {N rest : List Nat} {c : Nat} (hs : p._state = HttpParserState.HEADER_NAME_BEGIN)
    (hN : TokenStr N) (hc : c ≠ 32 ∧ c ≠ 9) (hat : At mem i (N ++ CR :: LF :: c :: rest))
    (hle : i + N.length + 2 < e) :
    ∃ q, Walk Safe mem e p i [Event.onProtocolError] q (i + N.length + 2) ∧
      q._state = HttpParserState.PROTOCOL_ERROR := by
  obtain ⟨hne, htok⟩ := hN
  obtain ⟨n0, nt, rfl⟩ := List.exists_cons_of_ne_nil hne
  obtain ⟨hatn, hat1⟩ := hat.split
  obtain ⟨hn0, hatnt⟩ := hatn.head
  obtain ⟨hcr, hat2⟩ := hat1.head
  obtain ⟨hlf, hat3⟩ := hat2.head
  obtain ⟨hcc, _⟩ := hat3.head
  simp only [List.length_cons] at hle hcr hlf hcc ⊢
  have w1 := walk_HEADER_NAME_BEGIN mem e hs hn0 (htok n0 (by simp)) (by omega)
  have w2 := w1.concat (walk_HEADER_NAME mem e nt _ _ (by rfl) hatnt
    (fun c hc => htok c (by simp [hc])) (by omega))
  dsimp only at w2
  have w3 := w2.concat (walk_HEADER_NAME_cr mem e (by rfl) (getD_cast hcr (by omega))
    (by omega))
  dsimp only at w3
  have w4 := w3.concat (walk_LWS_LF mem e (by rfl) (getD_cast hlf (by omega)) (by omega))
  dsimp only at w4
  have w5 := w4.concat (walk_LWS_SP_HT_BEGIN_error mem e (by rfl)
    (getD_cast hcc (by omega)) hc.1 hc.2 (by rfl) (by omega))
  dsimp only at w5
  exact ⟨_, w5.cast rfl (by omega) rfl, rfl⟩

theorem tokenStr_head {N : List Nat} (hN : TokenStr N) (tail : List Nat) :
    ∃ c0 rest0, N ++ tail = c0 :: rest0 ∧ c0 ≠ 32 ∧ c0 ≠ 9 := by
  obtain ⟨hne, htok⟩ := hN
  obtain ⟨n0, nt, rfl⟩ := List.exists_cons_of_ne_nil hne
  have hf := isToken_facts (htok n0 (by simp))
  exact ⟨n0, nt ++ tail, rfl, hf.1, hf.2.1⟩

theorem walk_CHUNK_BODY_bad (mem : List Nat) (e : Nat) {p : HttpParser} {i : Nat} {c : Nat}
    (hs : p._state = HttpParserState.CONTENT_CHUNK_BODY) (hc : mem.getD i 0 = c)
    (h1 : c ≠ 13) (hl : p._contentLength = 0) (hlt : i < e) :
    Walk Safe mem e p i [Event.onProtocolError]
      { p with _state := HttpParserState.PROTOCOL_ERROR } i := by
  refine walk_one (by omega) (safe_of_state (by simp [hs])) ?_
  simp only [step, hs, hc, protocolError]
  simp [CR, h1, hl]

theorem walk_chunk_bad (mem : List Nat) (e : Nat) {p : HttpParser} {i : Nat}
    {hex data rest : List Nat} {c : Nat} (hr : ChunkReady p) (hc : ChunkOk (hex, data))
    (hcr : c ≠ 13) (hat : At mem i (hex ++ CR :: LF :: (data ++ c :: rest)))
    (hle : i + hex.length + 2 + data.length < e) :
    ∃ q, Walk Safe mem e p i [Event.onMessageContent data, Event.onProtocolError] q
        (i + hex.length + 2 + data.length) ∧
      q._state = HttpParserState.PROTOCOL_ERROR := by
  obtain ⟨hx, hval, hdne⟩ := hc
  simp only at hx hval hdne
  have hdpos : 0 < data.length := List.length_pos.mpr hdne
  obtain ⟨hathex, hat1⟩ := hat.split
  obtain ⟨hcr1, hat2⟩ := hat1.head
  obtain ⟨hlf, hat3⟩ := hat2.head
  obtain ⟨hatd, hat4⟩ := hat3.split
  obtain ⟨hcc, _⟩ := hat4.head
  have w1 := walk_chunk_size mem e hr hx hathex (by omega)
  have w2 := w1.concat (walk_CHUNK_SIZE_cr mem e (by rfl) hcr1 (by omega))
  dsimp only at w2
  have w3 := w2.concat (walk_CHUNK_LF1_body mem e (by rfl) hlf
    (by show hexVal 0 hex ≠ 0; omega) (by omega))
  dsimp only at w3
  have hk : data.length = min (toSizeT (hexVal 0 hex)) (e - (i + hex.length + 1 + 1)) := by
    have hts := toSizeT_of_nonneg (x := hexVal 0 hex) (by omega)
    omega
  have hstep := @step_CHUNK_BODY mem e
    { p with _state := HttpParserState.CONTENT_CHUNK_BODY,
             _contentLength := hexVal 0 hex,
             _bytesReceived := p._bytesReceived + hex.length + 1 + 1 }
    (i + hex.length + 1 + 1) rfl (by show hexVal 0 hex ≠ 0; omega) data.length hk
  rw [hatd.read_eq] at hstep
  have w4 := w3.concat (walk_one (by omega) (safe_of_state (by simp)) hstep)
  dsimp only at w4
  have w5 := w4.concat (walk_CHUNK_BODY_bad mem e (by rfl) hcc hcr
    (by show hexVal 0 hex - (data.length : Int) = 0; omega) (by omega))
  dsimp only at w5
  exact ⟨_, w5.cast rfl (by omega) (by simp), rfl⟩

set_option maxHeartbeats 4000000 in
theorem step_bytes (mem : List Nat) (e : Nat) (p : HttpParser) (i : Nat) :
    p._bytesReceived ≤ (step mem e p i).1.p._bytesReceived ∧
    (step mem e p i).1.p._bytesReceived + i = p._bytesReceived + (step mem e p i).1.i := by
  cases hs : p._state <;>
    simp only [step, hs, protocolError, advance, expectChar, caseStatusCode,
      caseContentChunkSize, caseHeaderValueEnd, HttpParser.nextChar] <;>
    (repeat' split) <;> simp <;> omega

theorem Run.counted {S : HttpParser → Prop} {mem : List Nat} {e : Nat} {p : HttpParser}
    {i : Nat} {l : Cursor} {d : Bool} (h : Run S mem e p i l d) :
    p._bytesReceived ≤ l.p._bytesReceived ∧
    l.p._bytesReceived + i = p._bytesReceived + l.i := by
  induction h with
  | exit p _ => exact ⟨le_refl _, rfl⟩
  | @done p i l _ _ hstep =>
    have h := step_bytes mem e p i
    rw [hstep] at h
    exact h
  | @next p i l l' d _ _ hstep _ ih =>
    have h := step_bytes mem e p i
    rw [hstep] at h
    dsimp only at ih h ⊢
    omega

theorem afterLoop_bytes (p : HttpParser) : (afterLoop p).1._bytesReceived = p._bytesReceived := by
  unfold afterLoop
  split_ifs <;> rfl

theorem parseFragment_bytes (mem : List Nat) (chunk : View) {p : HttpParser} (hwf : WF p) :
    ∃ r, parseFragment mem chunk p = some r ∧ WF r.p ∧
      r.p._bytesReceived = p._bytesReceived + r.n := by
  obtain ⟨l, d, hrun, hpf⟩ := parseFragment_run mem (b := chunk.data) (s := chunk.size) hwf
  refine ⟨_, hpf, resultOf_WF (hrun.wf_final hwf), ?_⟩
  have hb := hrun.counted
  cases d
  · simp only [resultOf, Bool.false_eq_true, if_false, afterLoop_bytes]
    omega
  · simp only [resultOf, if_true]
    omega

theorem parseAll_bytes : ∀ (calls : List (List Nat × View)) (p : HttpParser), WF p →
    ∃ r, parseAll calls p = some r ∧ r.p._bytesReceived = p._bytesReceived + r.n := by
  intro calls
  induction calls with
  | nil => intro p _; exact ⟨⟨p, [], 0⟩, rfl, rfl⟩
  | cons c calls ih =>
    intro p hwf
    obtain ⟨r1, h1, hwf1, hb1⟩ := parseFragment_bytes c.1 c.2 hwf
    obtain ⟨r2, h2, hb2⟩ := ih r1.p hwf1
    refine ⟨⟨r2.p, r1.events ++ r2.events, r1.n + r2.n⟩, ?_, ?_⟩
    · obtain ⟨mem, chunk⟩ := c
      simp only [parseAll, h1, h2]
    · show r2.p._bytesReceived = p._bytesReceived + (r1.n + r2.n)
      omega

theorem phaseRun_append : ∀ (E F : List Event) (ph : Phase),
    phaseRun ph (E ++ F) = (phaseRun ph E).bind (fun ph' => phaseRun ph' F) := by
  intro E
  induction E with
  | nil => intro F ph; rfl
  | cons ev E ih =>
    intro F ph
    simp only [List.cons_append, phaseRun]
    cases phaseStep ph ev with
    | none => rfl
    | some ph' => exact ih F ph'

theorem phaseRun_trans {E F : List Event} {a b c : Phase} (h1 : phaseRun a E = some b)
    (h2 : phaseRun b F = some c) : phaseRun a (E ++ F) = some c := by
  rw [phaseRun_append, h1]
  exact h2

set_option maxHeartbeats 4000000 in
theorem step_phase (mem : List Nat) (e : Nat) {p : HttpParser} (i : Nat) (hwf : WF p) :
    phaseRun (phaseOf p._state) (step mem e p i).1.out =
      some (phaseOf (step mem e p i).1.p._state) := by
  obtain ⟨h1, _⟩ := hwf
  cases hs : p._state <;> simp only [hs, inLws] at h1 <;>
    simp only [step, hs, protocolError, advance, expectChar, caseStatusCode,
      caseContentChunkSize, caseHeaderValueEnd] <;>
    (repeat' split) <;>
    simp_all [HttpParser.nextChar, lwsOk, phaseRun, phaseStep, phaseOf,
      HttpParser.isContentExpected]
  all_goals first
    | (obtain ⟨h | h | h, _⟩ := h1 <;> simp [h, phaseOf])
    | (rename_i ha hb
       rcases ha with ha | ⟨ha, hm⟩ <;> rcases hb with ⟨⟨hb1, _⟩, hb2 | hb2⟩ <;>
         first | omega | exact absurd hb2 hm)

theorem Run.phase {S : HttpParser → Prop} {mem : List Nat} {e : Nat} {p : HttpParser}
    {i : Nat} {l : Cursor} {d : Bool} (h : Run S mem e p i l d) (hwf : WF p) :
    phaseRun (phaseOf p._state) l.out = some (phaseOf l.p._state) := by
  induction h with
  | exit p _ => rfl
  | @done p i l _ _ hstep =>
    have h := step_phase mem e i hwf
    rw [hstep] at h
    exact h
  | @next p i l l' d _ _ hstep _ ih =>
    have h := step_phase mem e i hwf
    rw [hstep] at h
    exact phaseRun_trans h (ih (step_WF hwf hstep))

theorem afterLoop_phase (p : HttpParser) :
    phaseRun (phaseOf p._state) (afterLoop p).2 = some (phaseOf (afterLoop p).1._state) := by
  unfold afterLoop
  split_ifs with h1 h2
  · simp [h1, phaseOf, phaseRun, phaseStep]
  · rfl
  · rfl

theorem parseFragment_phase (mem : List Nat) (chunk : View) {p : HttpParser} (hwf : WF p) :
    ∃ r, parseFragment mem chunk p = some r ∧ WF r.p ∧
      phaseRun (phaseOf p._state) r.events = some (phaseOf r.p._state) := by
  obtain ⟨l, d, hrun, hpf⟩ := parseFragment_run mem (b := chunk.data) (s := chunk.size) hwf
  refine ⟨_, hpf, resultOf_WF (hrun.wf_final hwf), ?_⟩
  have hph := hrun.phase hwf
  cases d
  · simp only [resultOf, Bool.false_eq_true, if_false]
    exact phaseRun_trans hph (afterLoop_phase l.p)
  · simpa [resultOf] using hph

theorem parseAll_phase : ∀ (calls : List (List Nat × View)) (p : HttpParser), WF p →
    ∃ r, parseAll calls p = some r ∧
      phaseRun (phaseOf p._state) r.events = some (phaseOf r.p._state) := by
  intro calls
  induction calls with
  | nil => intro p _; exact ⟨⟨p, [], 0⟩, rfl, rfl⟩
  | cons c calls ih =>
    intro p hwf
    obtain ⟨mem, chunk⟩ := c
    obtain ⟨r1, h1, hwf1, hp1⟩ := parseFragment_phase mem chunk hwf
    obtain ⟨r2, h2, hp2⟩ := ih r1.p hwf1
    exact ⟨⟨r2.p, r1.events ++ r2.events, r1.n + r2.n⟩, by simp only [parseAll, h1, h2],
      phaseRun_trans hp1 hp2⟩

theorem completeGroup_example :
    CompleteGroup [Event.onMessageBegin, Event.onMessageHeaderEnd, Event.onMessageEnd] :=
  ⟨Event.onMessageBegin, [], [], rfl, by simp, by simp, rfl⟩

theorem shape_step {ph ph' : Phase} {E : List Event} {ev : Event} (h : Shape ph E)
    (hstep : phaseStep ph ev = some ph') : Shape ph' (E ++ [ev]) := by
  obtain ⟨gs, hgs, h⟩ := h
  cases ph with
  | dead => simp [phaseStep] at hstep
  | idle =>
    simp only at h
    subst h
    cases ev <;> simp [phaseStep] at hstep <;> subst hstep
    · exact ⟨gs, hgs, Event.onMessageBeginRequest _ _ _, [], rfl, by simp, rfl⟩
    · exact ⟨gs, hgs, Event.onMessageBeginResponse _ _ _, [], rfl, by simp, rfl⟩
    · exact ⟨gs, hgs, Event.onMessageBegin, [], rfl, by simp, rfl⟩
    · exact ⟨gs, hgs, [], ⟨_, completeGroup_example, List.nil_prefix⟩, rfl⟩
  | headers =>
    obtain ⟨s, hs, h1, h2, rfl⟩ := h
    cases ev <;> simp [phaseStep] at hstep <;> subst hstep
    · rename_i n v
      refine ⟨gs, hgs, s, hs ++ [Event.onMessageHeader n v], h1, ?_, by simp⟩
      intro h hh
      simp only [List.mem_append, List.mem_singleton] at hh
      rcases hh with hh | rfl
      · exact h2 h hh
      · rfl
    · exact ⟨gs, hgs, s, hs, [], h1, h2, by simp, by simp⟩
    · refine ⟨gs, hgs, s :: hs, ⟨_, ⟨s, hs, [], h1, h2, by simp, rfl⟩, ?_⟩, by simp⟩
      exact ⟨[Event.onMessageHeaderEnd, Event.onMessageEnd], by simp⟩
  | body =>
    obtain ⟨s, hs, cs, h1, h2, h3, rfl⟩ := h
    cases ev <;> simp [phaseStep] at hstep <;> subst hstep
    · rename_i c
      refine ⟨gs, hgs, s, hs, cs ++ [Event.onMessageContent c], h1, h2, ?_, by simp⟩
      intro c' hc'
      simp only [List.mem_append, List.mem_singleton] at hc'
      rcases hc' with hc' | rfl
      · exact h3 c' hc'
      · rfl
    · refine ⟨gs ++ [s :: (hs ++ Event.onMessageHeaderEnd :: (cs ++ [Event.onMessageEnd]))],
        ?_, by simp⟩
      intro g hg
      simp only [List.mem_append, List.mem_singleton] at hg
      rcases hg with hg | rfl
      · exact hgs g hg
      · exact ⟨s, hs, cs, h1, h2, h3, rfl⟩
    · refine ⟨gs, hgs, s :: (hs ++ Event.onMessageHeaderEnd :: cs),
        ⟨_, ⟨s, hs, cs, h1, h2, h3, rfl⟩, ?_⟩, by simp⟩
      exact ⟨[Event.onMessageEnd], by simp⟩

theorem shape_of_phaseRun : ∀ (E : List Event) (ph : Phase),
    phaseRun Phase.idle E = some ph → Shape ph E := by
  intro E
  induction E using List.reverseRecOn with
  | nil =>
    intro ph h
    simp only [phaseRun, Option.some.injEq] at h
    subst h
    exact ⟨[], by simp, rfl⟩
  | append_singleton E ev ih =>
    intro ph h
    rw [phaseRun_append] at h
    cases hE : phaseRun Phase.idle E with
    | none => simp [hE] at h
    | some ph1 =>
      simp only [hE, Option.some_bind, phaseRun] at h
      cases hst : phaseStep ph1 ev with
      | none => simp [hst] at h
      | some ph2 =>
        simp only [hst, Option.some.injEq] at h
        subst h
        exact shape_step (ih ph1 hE) hst

theorem groupedLog_of_shape {ph : Phase} {E : List Event} (h : Shape ph E) : GroupedLog E := by
  obtain ⟨gs, hgs, h⟩ := h
  cases ph with
  | idle =>
    simp only at h
    exact ⟨gs, [], false, hgs, ⟨_, completeGroup_example, List.nil_prefix⟩, by simp [h]⟩
  | headers =>
    obtain ⟨s, hs, h1, h2, rfl⟩ := h
    refine ⟨gs, s :: hs, false, hgs, ⟨_, ⟨s, hs, [], h1, h2, by simp, rfl⟩, ?_⟩, by simp⟩
    exact ⟨[Event.onMessageHeaderEnd, Event.onMessageEnd], by simp⟩
  | body =>
    obtain ⟨s, hs, cs, h1, h2, h3, rfl⟩ := h
    refine ⟨gs, s :: (hs ++ Event.onMessageHeaderEnd :: cs), false, hgs,
      ⟨_, ⟨s, hs, cs, h1, h2, h3, rfl⟩, ?_⟩, by simp⟩
    exact ⟨[Event.onMessageEnd], by simp⟩
  | dead =>
    obtain ⟨last, hl, rfl⟩ := h
    exact ⟨gs, last, true, hgs, hl, by simp⟩

theorem Walk.relax {S T : HttpParser → Prop} {mem : List Nat} {e : Nat} {p q : HttpParser}
    {i j : Nat} {E : List Event} (hST : ∀ q, S q → T q) (h : Walk S mem e p i E q j) :
    Walk T mem e p i E q j := by
  induction h with
  | refl p i => exact Walk.refl p i
  | next hi hS hstep _ ih => exact Walk.next hi (hST _ hS) hstep ih

theorem parse_after_headers {mem : List Nat} {b s : Nat} {p q : HttpParser} {j : Nat}
    {E : List Event} {rest : List Nat} (hwf : WF p)
    (hw : Walk Safe mem (b + s) p b E q j) (hq : q._state = HttpParserState.HEADER_NAME_BEGIN)
    (hch : q._chunked = false) (hcl : q._contentLength = -1)
    (hat : At mem j (CR :: LF :: rest)) (hbj : b ≤ j) (hle : j + 2 ≤ b + s) :
    ∃ r, parseFragment mem ⟨b, s⟩ p = some r ∧
      r.events = E ++ Event.onMessageHeaderEnd :: bodyTail q._mode mem (j + 2) (b + s) ∧
      r.n = (if q._mode = HttpParseMode.REQUEST then j + 2 - b else s) := by
  have hbl := walk_blank_line mem (b + s) hq hat hle
  by_cases hm : q._mode = HttpParseMode.REQUEST
  · have hce : q.isContentExpected = false := by
      simp [HttpParser.isContentExpected, hch, hcl, hm]
    have hr := hw.run (hbl.1 hce)
    refine ⟨_, parseFragment_of_run hwf hr, ?_, ?_⟩
    · simp [resultOf, bodyTail, hm]
    · simp [resultOf, hm]
  · have hce : q.isContentExpected = true := by
      simp [HttpParser.isContentExpected, hch, hcl, hm]
    have hw2 := (hw.concat (hbl.2 hce)).relax (T := fun _ => True) (fun _ _ => trivial)
    by_cases hj : j + 1 + 1 = b + s
    · rw [hj] at hw2
      have hr := hw2.run
        (show Run (fun _ => True) mem (b + s) _ (b + s) _ false from Run.exit _ trivial)
      refine ⟨_, parseFragment_of_run hwf hr, ?_, ?_⟩
      · have hj' : j + 2 = b + s := by omega
        by_cases hmm : q._mode = HttpParseMode.MESSAGE <;>
          simp [resultOf, bodyTail, hm, hj', afterLoop, hch, hcl, hmm]
      · simp only [resultOf, Bool.false_eq_true, if_false, hm]
        omega
    · have hs1 : step mem (b + s)
          { q with _state := HttpParserState.CONTENT_BEGIN,
                   _bytesReceived := q._bytesReceived + 1 + 1 } (j + 1 + 1) =
          (⟨{ q with _state := HttpParserState.CONTENT_ENDLESS,
                     _bytesReceived := q._bytesReceived + 1 + 1 }, j + 1 + 1, []⟩, false) := by
        simp [step, hch, hcl]
      have hs2 := @step_ENDLESS mem (b + s)
        { q with _state := HttpParserState.CONTENT_ENDLESS,
                 _bytesReceived := q._bytesReceived + 1 + 1 } (j + 1 + 1) rfl
      have he : j + 1 + 1 + (b + s - (j + 1 + 1)) = b + s := by omega
      rw [he] at hs2
      have hr1 : Run (fun _ => True) mem (b + s)
          { q with _state := HttpParserState.CONTENT_ENDLESS,
                   _bytesReceived := q._bytesReceived + 1 + 1 } (j + 1 + 1) _ false :=
        Run.next hj trivial hs2 (Run.exit _ trivial)
      have hr2 := Run.next hj trivial hs1 hr1
      have hr := hw2.run hr2
      refine ⟨_, parseFragment_of_run hwf hr, ?_, ?_⟩
      · have hj' : ¬ j + 2 = b + s := by omega
        simp [resultOf, bodyTail, hm, hj', afterLoop]
      · simp only [resultOf, Bool.false_eq_true, if_false, hm]
        omega

theorem headersOf_append : ∀ (A B : List Event),
    headersOf (A ++ B) = headersOf A ++ headersOf B := by
  intro A
  induction A with
  | nil => intro B; rfl
  | cons ev A ih =>
    intro B
    cases ev <;> simp [headersOf, ih]

theorem headersOf_map (hs : List (List Nat × List Nat)) :
    headersOf (hs.map (fun h => Event.onMessageHeader h.1 h.2)) = hs := by
  induction hs with
  | nil => rfl
  | cons h hs ih => simp [headersOf, ih]

theorem headersOf_start (st : StartLine) : headersOf st.events = [] := by
  cases st <;> rfl

theorem headersOf_bodyTail (mode : HttpParseMode) (mem : List Nat) (j e : Nat) :
    headersOf (bodyTail mode mem j e) = [] := by
  unfold bodyTail
  split_ifs <;> rfl

theorem walk_LWS_SP_HT_BEGIN_fold (mem : List Nat) (e : Nat) {p : HttpParser} {i : Nat}
    {c : Nat} (hs : p._state = HttpParserState.LWS_SP_HT_BEGIN) (hc : mem.getD i 0 = c)
    (h1 : c = 32 ∨ c = 9) (hv : p._value.size ≠ 0) (hlt : i < e) :
    Walk Safe mem e p i []
      { p with _value := ⟨p._value.data, p._value.size + 3⟩,
               _state := HttpParserState.LWS_SP_HT,
               _bytesReceived := p._bytesReceived + 1 } (i + 1) := by
  refine walk_one (by omega) (safe_of_state (by simp [hs])) ?_
  simp only [step, hs, hc, advance, HttpParser.nextChar]
  rcases h1 with h | h <;> subst h <;> simp [SP, HT, View.empty, hv]

theorem walk_LWS_SP_HT_sp (mem : List Nat) (e : Nat) {p : HttpParser} {i : Nat}
    {c : Nat} (hs : p._state = HttpParserState.LWS_SP_HT) (hc : mem.getD i 0 = c)
    (h1 : c = 32 ∨ c = 9) (hv : p._value.size ≠ 0) (hlt : i < e) :
    Walk Safe mem e p i []
      { p with _value := ⟨p._value.data, p._value.size + 1⟩,
               _bytesReceived := p._bytesReceived + 1 } (i + 1) := by
  refine walk_one (by omega) (safe_of_state (by simp [hs])) ?_
  simp only [step, hs, hc, advance, HttpParser.nextChar]
  rcases h1 with h | h <;> subst h <;> simp [SP, HT, View.empty, hv]

theorem walk_fold_tail (mem : List Nat) (e : Nat) : ∀ (xs : List Nat) (p : HttpParser)
    (i : Nat) (rest : List Nat), p._state = HttpParserState.LWS_SP_HT →
    p._lwsNext = HttpParserState.HEADER_VALUE → p._value.size ≠ 0 →
    At mem i (xs ++ 13 :: rest) → (∀ c ∈ xs, isText c = true) → i + xs.length < e →
    Walk Safe mem e p i []
      { p with _state := HttpParserState.HEADER_VALUE,
               _value := ⟨p._value.data, p._value.size + xs.length⟩,
               _bytesReceived := p._bytesReceived + xs.length } (i + xs.length) := by
  intro xs
  induction xs with
  | nil =>
    intro p i rest hs hn _ hat _ hle
    obtain ⟨hc, _⟩ := hat.head
    have w := walk_LWS_SP_HT_next mem e hs hc (by decide) (by decide) (by simpa using hle)
    refine w.cast ?_ rfl rfl
    cases p
    simp_all
  | cons c xs ih =>
    intro p i rest hs hn hv hat htxt hle
    obtain ⟨hc, hat'⟩ := hat.head
    simp only [List.length_cons] at hle ⊢
    by_cases hsp : c = 32 ∨ c = 9
    · have w1 := walk_LWS_SP_HT_sp mem e hs hc hsp hv (by omega)
      have w2 := ih { p with _value := ⟨p._value.data, p._value.size + 1⟩,
                             _bytesReceived := p._bytesReceived + 1 } (i + 1) rest hs hn
        (by show p._value.size + 1 ≠ 0; omega) hat' (fun c hc => htxt c (by simp [hc]))
        (by omega)
      refine (w1.concat w2).cast ?_ (by omega) rfl
      simp only [HttpParser.mk.injEq, View.mk.injEq, true_and, and_true]
      omega
    · have hsp' : c ≠ 32 ∧ c ≠ 9 := by
        constructor <;> intro h <;> exact hsp (by simp [h])
      have w1 := walk_LWS_SP_HT_next mem e hs hc hsp'.1 hsp'.2 (by omega)
      have hat0 : At mem i (c :: xs) :=
        (show At mem i ((c :: xs) ++ 13 :: rest) from hat).split.1
      have w2 := walk_HEADER_VALUE mem e (c :: xs)
        { p with _state := p._lwsNext } i hn hat0 htxt
        (by simp only [List.length_cons]; omega)
      refine (w1.concat w2).cast ?_ (by simp only [List.length_cons]) rfl
      simp [hn]

theorem parseIntLoop_cr : ∀ (xs : List Nat) (acc : Int) (ys : List Nat),
    parseIntLoop acc (xs ++ 13 :: ys) = -1 := by
  intro xs
  induction xs with
  | nil => intro acc ys; simp [parseIntLoop, isdigit]
  | cons c xs ih =>
    intro acc ys
    simp only [List.cons_append, parseIntLoop]
    split
    · exact ih _ ys
    · rfl

theorem iequals_chunked_no_cr {v : List Nat} (h : iequals v strChunked = true) : 13 ∉ v := by
  intro hmem
  have hl := iequals_length h
  have h' := (iequalsLoop_iff v strChunked hl).mp (by
    unfold iequals at h
    simpa [hl] using h)
  have : tolower 13 ∈ v.map tolower := List.mem_map_of_mem _ hmem
  rw [h'] at this
  revert this
  decide

theorem headerEvents_folded (n a w b : List Nat) :
    headerEvents n (foldedValue a w b) = [Event.onMessageHeader n (foldedValue a w b)] := by
  have hc : iequals (foldedValue a w b) strChunked = false := by
    cases h : iequals (foldedValue a w b) strChunked with
    | false => rfl
    | true => exact absurd (by simp [foldedValue]) (iequals_chunked_no_cr h)
  simp only [headerEvents, hc]
  split_ifs <;> first | rfl | contradiction

theorem headerFraming_folded (n a w b : List Nat) (chunked : Bool) :
    headerFraming n (foldedValue a w b) chunked (-1) = (chunked, -1) := by
  have hc : iequals (foldedValue a w b) strChunked = false := by
    cases h : iequals (foldedValue a w b) strChunked with
    | false => rfl
    | true => exact absurd (by simp [foldedValue]) (iequals_chunked_no_cr h)
  have hp : parseInt (foldedValue a w b) = -1 := by
    unfold parseInt foldedValue
    exact parseIntLoop_cr a 0 _
  simp only [headerFraming, hc, hp]
  split_ifs <;> first | rfl | contradiction

theorem walk_folded_line (mem : List Nat) (e : Nat) {p : HttpParser} {i : Nat}
    {n a w b rest : List Nat} {c' : Nat} (hs : p._state = HttpParserState.HEADER_NAME_BEGIN)
    (hn : TokenStr n) (ha : ValueStr a) (hw : BlankStr w) (hb : TextStr b)
    (hat : At mem i (foldedLine n a w b ++ c' :: rest))
    (hc1 : c' ≠ 32) (hc2 : c' ≠ 9) (hle : i + (foldedLine n a w b).length < e) :
    ∃ q, Walk Safe mem e p i [Event.onMessageHeader n (foldedValue a w b)] q
        (i + (foldedLine n a w b).length) ∧
      q._state = HttpParserState.HEADER_NAME_BEGIN ∧ q._mode = p._mode ∧
      q._chunked = (headerFraming n (foldedValue a w b) p._chunked p._contentLength).1 ∧
      q._contentLength = (headerFraming n (foldedValue a w b) p._chunked p._contentLength).2 ∧
      At mem (i + (foldedLine n a w b).length) (c' :: rest) := by
  have hlen : (foldedLine n a w b).length =
      n.length + 1 + 1 + a.length + 1 + 1 + w.length + b.length + 1 + 1 := by
    simp [foldedLine]; omega
  rw [hlen] at hle ⊢
  have hat' : At mem i
      (n ++ 58 :: SP :: (a ++ CR :: LF :: (w ++ (b ++ CR :: LF :: c' :: rest)))) := by
    simpa [foldedLine] using hat
  obtain ⟨hnne, hntok⟩ := hn
  obtain ⟨hane, hatext, ha1, ha2⟩ := ha
  obtain ⟨hwne, hwsp⟩ := hw
  obtain ⟨_, hbtext⟩ := hb
  obtain ⟨n0, nt, rfl⟩ := List.exists_cons_of_ne_nil hnne
  obtain ⟨a0, at', rfl⟩ := List.exists_cons_of_ne_nil hane
  obtain ⟨w0, wt, rfl⟩ := List.exists_cons_of_ne_nil hwne
  simp only [List.head?_cons, ne_eq, Option.some.injEq, SP, HT] at ha1 ha2
  obtain ⟨hatn, hat1⟩ := hat'.split
  obtain ⟨hn0, hatnt⟩ := hatn.head
  obtain ⟨hcolon, hat2⟩ := hat1.head
  obtain ⟨hsp, hat3⟩ := hat2.head
  obtain ⟨hatv, hat4⟩ := hat3.split
  obtain ⟨hv0, hatvt⟩ := hatv.head
  obtain ⟨hcr, hat5⟩ := hat4.head
  obtain ⟨hlf, hat6⟩ := hat5.head
  obtain ⟨hw0, hat7⟩ := (show At mem _ (w0 :: (wt ++ (b ++ CR :: LF :: c' :: rest))) from
    hat6).head
  have hat8 : At mem (i + (n0 :: nt).length + 1 + 1 + (a0 :: at').length + 1 + 1 + 1)
      ((wt ++ b) ++ 13 :: LF :: c' :: rest) := by
    simpa using hat7
  obtain ⟨_, hat9⟩ := hat8.split
  obtain ⟨hcr2, hat10⟩ := hat9.head
  obtain ⟨hlf2, hat11⟩ := hat10.head
  obtain ⟨hnext, _⟩ := hat11.head
  have hw0sp : w0 = 32 ∨ w0 = 9 := hwsp w0 (by simp)
  have htail : ∀ c ∈ wt ++ b, isText c = true := by
    intro c hc
    simp only [List.mem_append] at hc
    rcases hc with hc | hc
    · rcases hwsp c (by simp [hc]) with h | h <;> subst h <;> decide
    · exact hbtext c hc
  simp only [List.length_cons, List.length_append] at *
  have w1 := walk_HEADER_NAME_BEGIN mem e hs hn0 (hntok n0 (by simp)) (by omega)
  have w2 := w1.concat (walk_HEADER_NAME mem e nt _ _ (by rfl) hatnt
    (fun c hc => hntok c (by simp [hc])) (by omega))
  dsimp only at w2
  have w3 := w2.concat (walk_HEADER_NAME_colon mem e (by rfl) (getD_cast hcolon (by omega))
    (by omega))
  dsimp only at w3
  have w4 := w3.concat (walk_LWS_BEGIN_sp mem e (by rfl) (getD_cast hsp (by omega)) (by omega))
  dsimp only at w4
  have w5 := w4.concat (walk_LWS_SP_HT_next mem e (by rfl) (getD_cast hv0 (by omega)) ha1 ha2
    (by omega))
  dsimp only at w5
  have w6 := w5.concat (walk_HEADER_VALUE_BEGIN mem e (by rfl) (getD_cast hv0 (by omega))
    (hatext a0 (by simp)) (by omega))
  dsimp only at w6
  have w7 := w6.concat (walk_HEADER_VALUE mem e at' _ _ (by rfl) (hatvt.at_pos (by omega))
    (fun c hc => hatext c (by simp [hc])) (by omega))
  dsimp only at w7
  have w8 := w7.concat (walk_HEADER_VALUE_cr mem e (by rfl) (getD_cast hcr (by omega))
    (by omega))
  dsimp only at w8
  have w9 := w8.concat (walk_LWS_LF mem e (by rfl) (getD_cast hlf (by omega)) (by omega))
  dsimp only at w9
  have w10 := w9.concat (walk_LWS_SP_HT_BEGIN_fold mem e (by rfl) (getD_cast hw0 (by omega))
    hw0sp (by show 1 + at'.length ≠ 0; omega) (by omega))
  dsimp only at w10
  have w11 := w10.concat (walk_fold_tail mem e (wt ++ b) _ _ (LF :: c' :: rest) (by rfl)
    (by rfl) (by show 1 + at'.length + 3 ≠ 0; omega) (hat8.at_pos (by omega)) htail
    (by simp only [List.length_append]; omega))
  dsimp only at w11
  have w12 := w11.concat (walk_HEADER_VALUE_cr mem e (by rfl)
    (getD_cast hcr2 (by simp only [List.length_append]; omega))
    (by simp only [List.length_append]; omega))
  dsimp only at w12
  have w13 := w12.concat (walk_LWS_LF mem e (by rfl)
    (getD_cast hlf2 (by simp only [List.length_append]; omega))
    (by simp only [List.length_append]; omega))
  dsimp only at w13
  have w14 := w13.concat (walk_LWS_SP_HT_BEGIN_null mem e (by rfl)
    (getD_cast hnext (by simp only [List.length_append]; omega)) hc1 hc2 (by rfl)
    (by simp only [List.length_append]; omega))
  dsimp only at w14
  have hrn : View.read mem ⟨i, 1 + nt.length⟩ = n0 :: nt := by
    have := hatn.read_eq
    simp only [List.length_cons] at this
    rw [← this]; congr 1; simp only [View.mk.injEq, true_and]; omega
  have hatval : At mem (i + (nt.length + 1) + 1 + 1)
      (foldedValue (a0 :: at') (w0 :: wt) b) := by
    have h0 : At mem (i + (nt.length + 1) + 1 + 1)
        (foldedValue (a0 :: at') (w0 :: wt) b ++ CR :: LF :: c' :: rest) := by
      simpa [foldedValue] using hat3
    exact h0.split.1
  have hrv : View.read mem ⟨i + 1 + nt.length + 1 + 1,
      1 + at'.length + 3 + (wt ++ b).length⟩ = foldedValue (a0 :: at') (w0 :: wt) b := by
    have := hatval.read_eq
    rw [← this]; congr 1
    simp only [View.mk.injEq, foldedValue, List.length_append, List.length_cons]
    omega
  have w := w14.concat (walk_HEADER_VALUE_END mem e (n := n0 :: nt)
    (v := foldedValue (a0 :: at') (w0 :: wt) b) (by rfl) hrn hrv
    (by simp only [List.length_append]; omega))
  dsimp only at w
  rw [headerEvents_folded] at w
  refine ⟨_, w.cast rfl (by simp only [List.length_append]; omega) (by simp), rfl, rfl, rfl,
    rfl, hat11.at_pos (by omega)⟩

theorem parseIntLoop_nonneg : ∀ (v : List Nat) (acc : Int), DigitStr v → 0 ≤ acc →
    0 ≤ parseIntLoop acc v := by
  intro v
  induction v with
  | nil => intro acc _ h; exact h
  | cons c cs ih =>
    intro acc hd hacc
    have hc := hd c (by simp)
    simp only [parseIntLoop, hc, if_true]
    refine ih _ (fun c' hc' => hd c' (by simp [hc'])) ?_
    simp only [isdigit, Bool.and_eq_true, decide_eq_true_eq] at hc
    omega

theorem parseIntLoop_bad : ∀ (v : List Nat) (acc : Int), ¬ DigitStr v →
    parseIntLoop acc v = -1 := by
  intro v
  induction v with
  | nil => intro acc h; exact absurd (fun c hc => by simp at hc) h
  | cons c cs ih =>
    intro acc h
    simp only [parseIntLoop]
    split
    · rename_i hc
      refine ih _ (fun hcs => h ?_)
      intro c' hc'
      simp only [List.mem_cons] at hc'
      rcases hc' with rfl | hc'
      · exact hc
      · exact hcs c' hc'
    · rfl

theorem tokenStr_of_contentLength {n : List Nat} (hn : sameIgnoringCase n strContentLength) :
    TokenStr n := by
  unfold sameIgnoringCase at hn
  constructor
  · intro h
    subst h
    revert hn
    decide
  · intro c hc
    have hmem : tolower c ∈ strContentLength.map tolower := by
      rw [← hn]
      exact List.mem_map_of_mem _ hc
    have hsmall : ∀ x, x ∈ strContentLength.map tolower → x ≤ 122 := by decide
    have hle : c ≤ tolower c := by
      unfold tolower
      split_ifs <;> omega
    have hc128 : c < 128 := by
      have := hsmall _ hmem
      omega
    have hall : ∀ x < 128, tolower x ∈ strContentLength.map tolower → isToken x = true := by
      decide
    exact hall c hc128 hmem

theorem step_done_state {mem : List Nat} {e : Nat} {p : HttpParser} {i : Nat} {l : Cursor}
    (hstep : step mem e p i = (l, true)) :
    l.p._state ≠ HttpParserState.CONTENT_BEGIN := by
  have hl : l = (step mem e p i).1 := by rw [hstep]
  have hd : (step mem e p i).2 = true := by rw [hstep]
  subst hl
  clear hstep
  revert hd
  cases hs : p._state <;>
    simp only [step, hs, protocolError, advance, expectChar, caseStatusCode,
      caseContentChunkSize, caseHeaderValueEnd] <;>
    (repeat' split) <;> simp_all [HttpParser.nextChar, HttpParser.isContentExpected]
  rename_i ha hb
  rcases ha with ha | ⟨ha, hm⟩ <;> rcases hb with ⟨⟨hb1, _⟩, hb2 | hb2⟩ <;>
    first | omega | exact absurd hb2 hm

theorem afterLoop_safe (p : HttpParser) : Safe (afterLoop p).1 := by
  unfold afterLoop
  split_ifs with h1 h2
  · exact safe_of_state (by simp)
  · intro hs
    have hc : p._chunked = false := hs.2.2.1
    exact h2 ⟨hs.2.1, by rw [hc]; rfl, hs.2.2.2⟩
  · exact safe_of_state h1

theorem Run.done_state {S : HttpParser → Prop} {mem : List Nat} {e : Nat} {p : HttpParser}
    {i : Nat} {l : Cursor} (h : Run S mem e p i l true) :
    l.p._state ≠ HttpParserState.CONTENT_BEGIN := by
  generalize hd : true = d at h
  induction h with
  | exit p _ => cases hd
  | done _ _ hstep => exact step_done_state hstep
  | next _ _ _ _ ih => exact ih hd

theorem parseFragment_safe {mem : List Nat} {chunk : View} {p : HttpParser} {r : ParseResult}
    (hwf : WF p) (h : parseFragment mem chunk p = some r) : Safe r.p := by
  obtain ⟨l, d, hrun, hpf⟩ := parseFragment_run mem (b := chunk.data) (s := chunk.size) hwf
  rw [h] at hpf
  cases hpf
  cases d
  · simp only [resultOf, Bool.false_eq_true, if_false]
    exact afterLoop_safe l.p
  · simp only [resultOf, if_true]
    exact safe_of_state hrun.done_state

theorem Reachable.safe {p : HttpParser} (h : Reachable p) : Safe p := by
  cases h with
  | new mode => exact safe_of_state (by simp [HttpParser.new])
  | parse mem chunk r hp hpf => exact parseFragment_safe hp.invariant hpf
  | reset _ => exact safe_of_state (by simp [HttpParser.reset])

set_option maxHeartbeats 4000000 in
theorem step_content (mem : List Nat) (e : Nat) (p : HttpParser) (i : Nat) (c : List Nat)
    (hc : Event.onMessageContent c ∈ (step mem e p i).1.out) :
    ∃ k, i + k = (step mem e p i).1.i ∧ c = View.read mem ⟨i, k⟩ := by
  revert hc
  cases hs : p._state <;>
    simp only [step, hs, protocolError, advance, expectChar, caseStatusCode,
      caseContentChunkSize, caseHeaderValueEnd, HttpParser.nextChar, substr, substrFrom] <;>
    (repeat' split) <;> simp

theorem Run.content_within {S : HttpParser → Prop} {mem : List Nat} {e : Nat} {p : HttpParser}
    {i : Nat} {l : Cursor} {d : Bool} (h : Run S mem e p i l d) (hwf : WF p) (hie : i ≤ e) :
    ContentWithin mem i l.i l.out := by
  induction h with
  | exit p _ => intro c hc; simp at hc
  | @done p i l hi _ hstep =>
    intro c hc
    have h := step_content mem e p i c (by rw [hstep]; exact hc)
    rw [hstep] at h
    dsimp only at h
    obtain ⟨k, hk, hck⟩ := h
    exact ⟨i, k, le_refl _, by omega, hck⟩
  | @next p i l l' d hi _ hstep hrest ih =>
    obtain ⟨h1, h2, _⟩ := step_progress hwf hi hie hstep
    have hwf' := step_WF hwf hstep
    have hb := hrest.bounds hwf' h2
    intro c hc
    simp only [List.mem_append] at hc
    rcases hc with hc | hc
    · have h := step_content mem e p i c (by rw [hstep]; exact hc)
      rw [hstep] at h
      dsimp only at h
      obtain ⟨k, hk, hck⟩ := h
      exact ⟨i, k, le_refl _, by show i + k ≤ l'.i; omega, hck⟩
    · obtain ⟨j, k, hj, hjk, hck⟩ := ih hwf' h2 c hc
      exact ⟨j, k, by omega, hjk, hck⟩

theorem afterLoop_no_content (p : HttpParser) (c : List Nat) :
    Event.onMessageContent c ∉ (afterLoop p).2 := by
  unfold afterLoop
  split_ifs <;> simp

theorem parseFragment_within (mem : List Nat) (chunk : View) {p : HttpParser} (hwf : WF p) :
    ∃ r, parseFragment mem chunk p = some r ∧ r.n ≤ chunk.size ∧
      ContentWithin mem chunk.data (chunk.data + r.n) r.events := by
  obtain ⟨l, d, hrun, hpf⟩ := parseFragment_run mem (b := chunk.data) (s := chunk.size) hwf
  have hb := hrun.bounds hwf (Nat.le_add_right _ _)
  have hcw := hrun.content_within hwf (Nat.le_add_right _ _)
  refine ⟨_, hpf, ?_, ?_⟩
  · cases d <;> simp only [resultOf, Bool.false_eq_true, if_false, if_true] <;> omega
  · have hn : chunk.data + (resultOf chunk.data l d).n = l.i := by
      cases d <;> simp only [resultOf, Bool.false_eq_true, if_false, if_true] <;> omega
    rw [hn]
    intro c hc
    apply hcw c
    cases d
    · simp only [resultOf, Bool.false_eq_true, if_false, List.mem_append] at hc
      rcases hc with hc | hc
      · exact hc
      · exact absurd hc (afterLoop_no_content l.p c)
    · simpa [resultOf] using hc

theorem iterate_mono (mem : List Nat) (e : Nat) : ∀ (n : Nat) (p : HttpParser) (i : Nat)
    (q : HttpParser) (j : Nat), WF p → i ≤ e → iterate mem e n p i = some (q, j) →
    i ≤ j ∧ j ≤ e := by
  intro n
  induction n with
  | zero =>
    intro p i q j _ hie h
    simp only [iterate, Option.some.injEq, Prod.mk.injEq] at h
    omega
  | succ n ih =>
    intro p i q j hwf hie h
    unfold iterate at h
    by_cases hi : i = e
    · simp [hi] at h
    · simp only [hi, if_false] at h
      rcases hstep : step mem e p i with ⟨l, d⟩
      rw [hstep] at h
      cases d with
      | true => simp at h
      | false =>
        simp only at h
        obtain ⟨h1, h2, _⟩ := step_progress hwf hi hie hstep
        obtain ⟨h3, h4⟩ := ih l.p l.i q j (step_WF hwf hstep) h2 h
        omega

theorem iterate_stall (mem : List Nat) (e : Nat) : ∀ (n : Nat) (p : HttpParser) (i : Nat)
    (q : HttpParser), WF p → i ≤ e → iterate mem e n p i = some (q, i) →
    n + rank q ≤ rank p := by
  intro n
  induction n with
  | zero =>
    intro p i q _ _ h
    simp only [iterate, Option.some.injEq, Prod.mk.injEq] at h
    rw [h.1]
    omega
  | succ n ih =>
    intro p i q hwf hie h
    unfold iterate at h
    by_cases hi : i = e
    · simp [hi] at h
    · simp only [hi, if_false] at h
      rcases hstep : step mem e p i with ⟨l, d⟩
      rw [hstep] at h
      cases d with
      | true => simp at h
      | false =>
        simp only at h
        obtain ⟨h1, h2, h3⟩ := step_progress hwf hi hie hstep
        have hwf' := step_WF hwf hstep
        obtain ⟨h4, _⟩ := iterate_mono mem e n l.p l.i q i hwf' h2 h
        have hli : l.i = i := by omega
        rw [hli] at h h3
        have := ih l.p i q hwf' hie h
        have := h3 rfl
        omega

theorem rank_state {p q : HttpParser} (h : rank q < rank p) : q._state ≠ p._state := by
  intro hs
  unfold rank at h
  rw [hs] at h
  omega

theorem step_kinds (mem : List Nat) (e : Nat) {p : HttpParser} {i : Nat} (hwf : WF p)
    (hlt : i < e) :
    i < (step mem e p i).1.i ∨ (step mem e p i).2 = true ∨
      ((step mem e p i).1.i = i ∧ (step mem e p i).1.p._state ≠ p._state) := by
  rcases hstep : step mem e p i with ⟨l, d⟩
  obtain ⟨h1, h2, h3⟩ := step_progress hwf (by omega) (by omega) hstep
  dsimp only
  cases d with
  | true => exact Or.inr (Or.inl rfl)
  | false =>
    by_cases hli : i < l.i
    · exact Or.inl hli
    · have hli' : l.i = i := by omega
      have := h3 rfl
      exact Or.inr (Or.inr ⟨hli', rank_state (by rw [hli'] at this; omega)⟩)

set_option maxHeartbeats 4000000 in
theorem step_line_shape {mem : List Nat} {e : Nat} {p : HttpParser} {i : Nat}
    (hin : inStartLine p._state = true) (hm : p._mode ≠ HttpParseMode.MESSAGE) :
    ((step mem e p i).1.out = [] ∧ (step mem e p i).2 = false ∧
      (step mem e p i).1.p._mode = p._mode ∧ inStartLine (step mem e p i).1.p._state = true ∧
      lfState p._state = false ∧
      (((step mem e p i).1.i = i ∧ lfState (step mem e p i).1.p._state = false) ∨
        ((step mem e p i).1.i = i + 1 ∧ mem.getD i 0 ≠ LF ∧
          (mem.getD i 0 = CR ↔ lfState (step mem e p i).1.p._state = true)))) ∨
    ((step mem e p i).1.out = [Event.onProtocolError] ∧
      (step mem e p i).1.p._state = HttpParserState.PROTOCOL_ERROR ∧
      (step mem e p i).2 = false) ∨
    (lfState p._state = true ∧ mem.getD i 0 = LF ∧ i ≤ (step mem e p i).1.i ∧
      ∃ ev rest, (step mem e p i).1.out = ev :: rest ∧ isStartEvent ev = true) := by
  have hT : ∀ c, isToken c = true → c ≠ 13 ∧ c ≠ 10 := fun c h =>
    ⟨(isToken_facts h).2.2.1, (isToken_facts h).2.2.2.1⟩
  have hX : ∀ c, isText c = true → c ≠ 13 ∧ c ≠ 10 := fun c h => isText_facts h
  have hP : ∀ c, isprint c = true → c ≠ 13 ∧ c ≠ 10 := by
    intro c h
    simp only [isprint, Bool.and_eq_true, decide_eq_true_eq] at h
    omega
  have hD : ∀ c, isdigit c = true → c ≠ 13 ∧ c ≠ 10 := by
    intro c h
    simp only [isdigit, Bool.and_eq_true, decide_eq_true_eq] at h
    omega
  cases hs : p._state <;> simp only [hs, inStartLine] at hin <;>
    simp only [step, hs, protocolError, advance, expectChar, caseStatusCode] <;>
    generalize mem.getD i 0 = c <;>
    have hT' := hT c <;> have hX' := hX c <;> have hP' := hP c <;> have hD' := hD c <;>
    clear hT hX hP hD <;>
    (repeat' split) <;>
    simp_all [HttpParser.nextChar, inStartLine, isStartEvent, lfState, SP, CR, LF]

theorem step_firstLine {mem : List Nat} {e b : Nat} {p : HttpParser} {i : Nat}
    (hinv : InFirstLine mem b p i) :
    ((step mem e p i).1.out = [] ∧ (step mem e p i).2 = false ∧
      InFirstLine mem b (step mem e p i).1.p (step mem e p i).1.i) ∨
    ((step mem e p i).1.out = [Event.onProtocolError] ∧
      (step mem e p i).1.p._state = HttpParserState.PROTOCOL_ERROR ∧
      (step mem e p i).2 = false) ∨
    (FirstLineEnds mem b i ∧ i ≤ (step mem e p i).1.i ∧
      ∃ ev rest, (step mem e p i).1.out = ev :: rest ∧ isStartEvent ev = true) := by
  obtain ⟨hb, hin, hm, hpre, hlast, hlf⟩ := hinv
  rcases @step_line_shape mem e p i hin hm with
    ⟨h1, h2, h3, h4, h5, h6⟩ | h | ⟨h1, h2, h3, h4⟩
  · refine Or.inl ⟨h1, h2, ?_⟩
    rcases h6 with ⟨hi, hl⟩ | ⟨hi, hc, hl⟩
    · rw [hi]
      refine ⟨hb, h4, by rw [h3]; exact hm, hpre, ?_, ?_⟩
      · intro hbi
        obtain ⟨ha, hiff⟩ := hlast hbi
        refine ⟨ha, ?_⟩
        rw [hl, ← h5]
        exact hiff
      · intro h; rw [hl] at h; cases h
    · rw [hi]
      refine ⟨by omega, h4, by rw [h3]; exact hm, ?_, ?_, fun _ => by omega⟩
      · intro j hj1 hj2
        by_cases hji : j + 1 < i
        · exact hpre j hj1 hji
        · have hj : j = i - 1 := by omega
          have hbi : b < i := by omega
          obtain ⟨ha, hiff⟩ := hlast hbi
          rw [hj]
          refine ⟨fun hcr => ?_, ha⟩
          have := hiff.1 hcr
          rw [h5] at this
          cases this
      · intro _
        have hsub : i + 1 - 1 = i := by omega
        rw [hsub]
        exact ⟨hc, hl⟩
  · exact Or.inr (Or.inl h)
  · have hbi := hlf h1
    refine Or.inr (Or.inr ⟨⟨hbi, (hlast hbi).2.2 h1, h2, hpre⟩, h3, h4⟩)

theorem Run.firstLine {S : HttpParser → Prop} {mem : List Nat} {e b : Nat} {p : HttpParser}
    {i : Nat} {l : Cursor} {d : Bool} (h : Run S mem e p i l d) (hwf : WF p) (hie : i ≤ e)
    (hinv : InFirstLine mem b p i) :
    (l.out = [] ∧ d = false ∧ l.i = e ∧ InFirstLine mem b l.p l.i) ∨
    (l.out = [Event.onProtocolError] ∧ l.p._state = HttpParserState.PROTOCOL_ERROR) ∨
    (∃ k, FirstLineEnds mem b k ∧ k ≤ l.i ∧ k < e ∧
      ∃ ev rest, l.out = ev :: rest ∧ isStartEvent ev = true) := by
  induction h with
  | exit p _ => exact Or.inl ⟨rfl, rfl, rfl, hinv⟩
  | @done p i l hi _ hstep =>
    have hs := step_firstLine (e := e) hinv
    rw [hstep] at hs
    dsimp only at hs
    rcases hs with ⟨_, h, _⟩ | ⟨_, _, h⟩ | ⟨h1, h2, h3⟩
    · cases h
    · cases h
    · exact Or.inr (Or.inr ⟨i, h1, h2, by omega, h3⟩)
  | @next p i l l' d hi _ hstep hrest ih =>
    have hs := step_firstLine (e := e) hinv
    rw [hstep] at hs
    dsimp only at hs
    obtain ⟨hp1, hp2, _⟩ := step_progress hwf hi hie hstep
    have hwf' := step_WF hwf hstep
    rcases hs with ⟨h1, _, h3⟩ | ⟨h1, h2, _⟩ | ⟨h1, h2, ev, rest, h3, h4⟩
    · rcases ih hwf' hp2 h3 with h | h | h
      · exact Or.inl (by simpa [h1] using h)
      · exact Or.inr (Or.inl (by simpa [h1] using h))
      · exact Or.inr (Or.inr (by simpa [h1] using h))
    · obtain ⟨ho', hp'⟩ := hrest.of_PROTOCOL_ERROR h2
      refine Or.inr (Or.inl ⟨?_, ?_⟩)
      · simp [h1, ho']
      · simp only [hp', h2]
    · have hb := hrest.bounds hwf' hp2
      refine Or.inr (Or.inr ⟨i, h1, ?_, by omega, ev, rest ++ l'.out, ?_, h4⟩)
      · show i ≤ l'.i
        omega
      · simp [h3]

theorem parseFragment_firstLine (mem : List Nat) (b0 s : Nat) {b : Nat} {p : HttpParser}
    (hwf : WF p) (hinv : InFirstLine mem b p b0) :
    ∃ r, parseFragment mem ⟨b0, s⟩ p = some r ∧ WF r.p ∧
      ((r.events = [] ∧ r.n = s ∧ InFirstLine mem b r.p (b0 + s)) ∨
       (r.events = [Event.onProtocolError] ∧ r.p._state = HttpParserState.PROTOCOL_ERROR) ∨
       (∃ k, FirstLineEnds mem b k ∧ k ≤ b0 + r.n ∧ k < b0 + s ∧
         ∃ ev rest, r.events = ev :: rest ∧ isStartEvent ev = true)) := by
  obtain ⟨l, d, hrun, hpf⟩ := parseFragment_run mem (b := b0) (s := s) hwf
  have hwf' := parseFragment_WF hwf hpf
  refine ⟨_, hpf, hwf', ?_⟩
  have hbd := hrun.bounds hwf (Nat.le_add_right b0 s)
  rcases hrun.firstLine hwf (Nat.le_add_right b0 s) hinv with
    ⟨h1, h2, h3, h4⟩ | ⟨h1, h2⟩ | ⟨k, h1, h2, h3, ev, rest, h4, h5⟩
  · subst h2
    have hsafe : Safe l.p := safe_of_state (inStartLine_ne_CONTENT_BEGIN h4.2.1)
    refine Or.inl ⟨?_, ?_, ?_⟩
    · simp [resultOf, afterLoop_of_safe hsafe, h1]
    · simp [resultOf, h3]
    · rw [h3] at h4
      simpa [resultOf, afterLoop_of_safe hsafe] using h4
  · have hsafe : Safe l.p := safe_of_state (by rw [h2]; decide)
    refine Or.inr (Or.inl ?_)
    cases d
    · simp [resultOf, afterLoop_of_safe hsafe, h1, h2]
    · simp [resultOf, h1, h2]
  · refine Or.inr (Or.inr ⟨k, h1, ?_, h3, ?_⟩)
    · have hn : (resultOf b0 l d).n = l.i - b0 := by
        cases d <;> simp [resultOf]
      rw [hn]
      omega
    · cases d
      · exact ⟨ev, rest ++ (afterLoop l.p).2, by simp [resultOf, h4], h5⟩
      · exact ⟨ev, rest, by simp [resultOf, h4], h5⟩

theorem feed_total (mem : List Nat) : ∀ (sizes : List Nat) (b : Nat) (p : HttpParser),
    WF p → ∃ r, feed mem b sizes p = some r := by
  intro sizes
  induction sizes with
  | nil => intro b p _; exact ⟨_, rfl⟩
  | cons s ss ih =>
    intro b p hwf
    obtain ⟨l, d, _, hpf⟩ := parseFragment_run mem (b := b) (s := s) hwf
    obtain ⟨r2, h2⟩ := ih (b + s) _ (parseFragment_WF hwf hpf)
    exact ⟨⟨r2.p, (resultOf b l d).events ++ r2.events, (resultOf b l d).n + r2.n⟩,
      by simp only [feed, hpf, h2]⟩

theorem feed_PROTOCOL_ERROR (mem : List Nat) : ∀ (sizes : List Nat) (b : Nat) (p : HttpParser),
    p._state = HttpParserState.PROTOCOL_ERROR → feed mem b sizes p = some ⟨p, [], 0⟩ := by
  intro sizes
  induction sizes with
  | nil => intro b p _; rfl
  | cons s ss ih =>
    intro b p h
    simp only [feed, parseFragment_PROTOCOL_ERROR mem ⟨b, s⟩ p h, ih (b + s) p h]
    rfl

theorem feed_firstLine (mem : List Nat) (b : Nat) : ∀ (sizes : List Nat) (b0 : Nat)
    (p : HttpParser), WF p → InFirstLine mem b p b0 →
    ∃ r, feed mem b0 sizes p = some r ∧
      ((r.events = [] ∧ r.n = sizes.sum ∧ InFirstLine mem b r.p (b0 + sizes.sum)) ∨
       (r.events = [Event.onProtocolError] ∧ r.p._state = HttpParserState.PROTOCOL_ERROR) ∨
       (∃ k, FirstLineEnds mem b k ∧ k ≤ b0 + r.n ∧ k < b0 + sizes.sum ∧
         ∃ ev rest, r.events = ev :: rest ∧ isStartEvent ev = true)) := by
  intro sizes
  induction sizes with
  | nil =>
    intro b0 p _ hinv
    exact ⟨_, rfl, Or.inl ⟨rfl, rfl, by simpa using hinv⟩⟩
  | cons s ss ih =>
    intro b0 p hwf hinv
    obtain ⟨r1, hpf, hwf1, hr1⟩ := parseFragment_firstLine mem b0 s hwf hinv
    rcases hr1 with ⟨h1, h2, h3⟩ | ⟨h1, h2⟩ | ⟨k, h1, h2, h3, ev, rest, h4, h5⟩
    · obtain ⟨r2, hf, hr2⟩ := ih (b0 + s) r1.p hwf1 h3
      refine ⟨⟨r2.p, r1.events ++ r2.events, r1.n + r2.n⟩, by simp only [feed, hpf, hf], ?_⟩
      rcases hr2 with ⟨g1, g2, g3⟩ | ⟨g1, g2⟩ | ⟨k, g1, g2, g3, g4⟩
      · refine Or.inl ⟨by simp [h1, g1], by simp [h2, g2], ?_⟩
        simpa [Nat.add_assoc] using g3
      · exact Or.inr (Or.inl ⟨by simp [h1, g1], g2⟩)
      · refine Or.inr (Or.inr ⟨k, g1, ?_, ?_, ?_⟩)
        · show k ≤ b0 + (r1.n + r2.n)
          omega
        · simp only [List.sum_cons]
          omega
        · simpa [h1] using g4
    · refine ⟨⟨r1.p, r1.events ++ [], r1.n + 0⟩,
        by simp only [feed, hpf, feed_PROTOCOL_ERROR mem ss (b0 + s) r1.p h2], ?_⟩
      exact Or.inr (Or.inl ⟨by simp [h1], h2⟩)
    · obtain ⟨r2, hf⟩ := feed_total mem ss (b0 + s) r1.p hwf1
      refine ⟨⟨r2.p, r1.events ++ r2.events, r1.n + r2.n⟩, by simp only [feed, hpf, hf], ?_⟩
      refine Or.inr (Or.inr ⟨k, h1, ?_, ?_, ev, rest ++ r2.events, by simp [h4], h5⟩)
      · show k ≤ b0 + (r1.n + r2.n)
        omega
      · simp only [List.sum_cons]
        omega

theorem new_inFirstLine (mem : List Nat) (b : Nat) {mode : HttpParseMode}
    (hm : mode ≠ HttpParseMode.MESSAGE) : InFirstLine mem b (HttpParser.new mode) b := by
  refine ⟨le_refl _, rfl, hm, ?_, ?_, ?_⟩
  · intro j h1 h2; omega
  · intro h; omega
  · intro h; cases h

theorem foldl_digits_bounds : ∀ (v : List Nat) (acc : Int), DigitStr v → 0 ≤ acc →
    0 ≤ v.foldl (fun (acc : Int) (c : Nat) => acc * 10 + ((c : Int) - 48)) acc ∧
    v.foldl (fun (acc : Int) (c : Nat) => acc * 10 + ((c : Int) - 48)) acc <
      (acc + 1) * 10 ^ v.length := by
  intro v
  induction v with
  | nil => intro acc _ h; simp [h]
  | cons c cs ih =>
    intro acc hd hacc
    have hc := hd c (by simp)
    simp only [isdigit, Bool.and_eq_true, decide_eq_true_eq] at hc
    obtain ⟨h1, h2⟩ := ih (acc * 10 + ((c : Int) - 48)) (fun c' hc' => hd c' (by simp [hc']))
      (by omega)
    refine ⟨by simpa using h1, ?_⟩
    simp only [List.foldl_cons, List.length_cons]
    have hpow : (0 : Int) < 10 ^ cs.length := by positivity
    have hle : (acc * 10 + ((c : Int) - 48) + 1) * 10 ^ cs.length ≤
        (acc * 10 + 10) * 10 ^ cs.length :=
      mul_le_mul_of_nonneg_right (by omega) (le_of_lt hpow)
    calc _ < (acc * 10 + ((c : Int) - 48) + 1) * 10 ^ cs.length := h2
      _ ≤ (acc * 10 + 10) * 10 ^ cs.length := hle
      _ = (acc + 1) * 10 ^ (cs.length + 1) := by ring

theorem decimalValue_bounds {v : List Nat} (hd : DigitStr v) :
    0 ≤ decimalValue v ∧ decimalValue v < 10 ^ v.length := by
  have h := foldl_digits_bounds v 0 hd (le_refl _)
  simpa [decimalValue] using h

theorem parseInt_digits {v : List Nat} (hd : DigitStr v) : parseInt v = decimalValue v :=
  parseIntLoop_digits v 0 hd

theorem parseIntLoop_append : ∀ (u : List Nat) (w : List Nat) (acc : Int), DigitStr u →
    parseIntLoop acc (u ++ w) = parseIntLoop (parseIntLoop acc u) w := by
  intro u
  induction u with
  | nil => intro w acc _; rfl
  | cons c cs ih =>
    intro w acc hd
    have hc := hd c (by simp)
    simp only [List.cons_append, parseIntLoop, hc, if_true]
    exact ih w _ (fun c' hc' => hd c' (by simp [hc']))

theorem parseInt_in_range {v u w : List Nat} {c : Nat} (hd : DigitStr v)
    (hlen : v.length ≤ 18) (hv : v = u ++ c :: w) :
    parseInt v = parseIntLoop (parseInt u * 10 + (c : Int) - 48) w ∧
    0 ≤ parseInt u ∧ parseInt u * 10 + (c : Int) < 2 ^ 63 ∧
    0 ≤ parseInt u * 10 + (c : Int) - 48 := by
  subst hv
  have hu : DigitStr u := fun x hx => hd x (by simp [hx])
  have hc := hd c (by simp)
  have hb := decimalValue_bounds hu
  rw [← parseInt_digits hu] at hb
  have hul : u.length ≤ 17 := by
    simp only [List.length_append, List.length_cons] at hlen
    omega
  have hpow : (10 : Int) ^ u.length ≤ 10 ^ 17 := pow_le_pow_right₀ (by norm_num) hul
  refine ⟨?_, hb.1, ?_, ?_⟩
  · unfold parseInt
    rw [parseIntLoop_append u (c :: w) 0 hu]
    simp only [parseIntLoop, hc, if_true]
  · simp only [isdigit, Bool.and_eq_true, decide_eq_true_eq] at hc
    have h63 : (2 : Int) ^ 63 = 9223372036854775808 := by norm_num
    have h17 : (10 : Int) ^ 17 = 100000000000000000 := by norm_num
    omega
  · simp only [isdigit, Bool.and_eq_true, decide_eq_true_eq] at hc
    omega

/-! # The claims -/

/-- **C1**, counterexample.  In `MESSAGE` mode the message `"Content-Length: 2\r\n\r\nab"`
fed as the fragments of sizes 22 and 1 gives two `onMessageContent` hooks where the single call
gives one; in `RESPONSE` mode `"HTTP/1.0 200 OK\r\n\r\nhello"` cut after the blank line ends the
message at the cut and then reports a protocol error, where the single call delivers the body:
the two logs differ even after merging adjacent content hooks. -/
theorem c1_counterexample :
    (feed bufLength2 0 [22, 1] (HttpParser.new HttpParseMode.MESSAGE)).map (fun r => r.events) ≠
      (parseFragment bufLength2 ⟨0, 23⟩ (HttpParser.new HttpParseMode.MESSAGE)).map
        (fun r => r.events) ∧
    (feed bufResponseHello 0 [19, 5] (HttpParser.new HttpParseMode.RESPONSE)).map
        (fun r => coalesce r.events) ≠
      (parseFragment bufResponseHello ⟨0, 24⟩ (HttpParser.new HttpParseMode.RESPONSE)).map
        (fun r => coalesce r.events) := by
  decide

/-- **C1** (amended).  For every reachable parser and every way of cutting a chunk into
consecutive fragments of one buffer such that no call but the last emits `onMessageEnd`,
feeding the fragments in order and feeding the chunk in a single call both return, leave the
same parser, consume the same number of bytes in total, and invoke the same hooks in the same
order once adjacent `onMessageContent` invocations are merged. -/
theorem c1_fragments_agree_up_to_content_merging (mem : List Nat) (b : Nat) (sizes : List Nat)
    (p : HttpParser) (hp : Reachable p) (hne : sizes ≠ [])
    (hq : quietBeforeLast mem b sizes p = true) :
    ∃ r r', parseFragment mem ⟨b, sizes.sum⟩ p = some r ∧ feed mem b sizes p = some r' ∧
      r'.p = r.p ∧ r'.n = r.n ∧ coalesce r'.events = coalesce r.events := by
  obtain ⟨r, r', h1, h2, h3, h4, h5⟩ := feed_eq_single sizes b p hp.invariant hne hq
  exact ⟨r, r', h1, h2, h3, h4, h5.coalesce_eq⟩

theorem c1_witness :
    Reachable (HttpParser.new HttpParseMode.MESSAGE) ∧ [22, 1] ≠ ([] : List Nat) ∧
    quietBeforeLast bufLength2 0 [22, 1] (HttpParser.new HttpParseMode.MESSAGE) = true ∧
    ∃ r r', parseFragment bufLength2 ⟨0, [22, 1].sum⟩ (HttpParser.new HttpParseMode.MESSAGE)
        = some r ∧
      feed bufLength2 0 [22, 1] (HttpParser.new HttpParseMode.MESSAGE) = some r' ∧
      r'.p = r.p ∧ r'.n = r.n ∧ coalesce r'.events = coalesce r.events :=
  ⟨Reachable.new _, by decide, by decide,
    c1_fragments_agree_up_to_content_merging bufLength2 0 [22, 1] _ (Reachable.new _)
      (by decide) (by decide)⟩

/-- **C2**, the code at the failing input.  A fresh `REQUEST` parser fed the seven bytes
`"GET /\r\n"` invokes `onMessageEnd` and returns 6, one less than the length of the message
through its CR LF: `REQUEST_0_9_LF` leaves by `goto done` without `nextChar()` and without
leaving the state, so a second call on the remaining line feed invokes the three hooks again
and consumes nothing. -/
theorem c2_simple_request_leaves_line_feed :
    (parseFragment bufSimpleGet ⟨0, 7⟩ (HttpParser.new HttpParseMode.REQUEST)).map
        (fun r => (r.n, r.events, r.p._state)) =
      some (6, [Event.onMessageBeginRequest (bytes "GET") (bytes "/") HttpVersion.VERSION_0_9,
        Event.onMessageHeaderEnd, Event.onMessageEnd], HttpParserState.REQUEST_0_9_LF) ∧
    (thenParse bufSimpleGet ⟨6, 1⟩ false
        (parseFragment bufSimpleGet ⟨0, 7⟩ (HttpParser.new HttpParseMode.REQUEST))).map
        (fun r => (r.n, r.events, r.p._state)) =
      some (0, [Event.onMessageBeginRequest (bytes "GET") (bytes "/") HttpVersion.VERSION_0_9,
        Event.onMessageHeaderEnd, Event.onMessageEnd], HttpParserState.REQUEST_0_9_LF) := by
  decide

/-- **C3**.  A message of any of the three modes whose header lines hold one `Content-Length`
header with a decimal value `L > 0`, next to headers that are neither `Content-Length` nor
`Transfer-Encoding: chunked`, followed by `L` body bytes and by any further bytes `rest`:
however the buffer is cut into consecutive fragments up to the one that holds the last body
byte, a new parser fed the fragments in order returns from every call, the payloads of its
`onMessageContent` hooks concatenated in call order are exactly the `L` body bytes, the log
with adjacent `onMessageContent` hooks merged is the announcement, the headers,
`onMessageHeaderEnd`, one `onMessageContent` with the body and `onMessageEnd` right after it,
`onMessageEnd` is the last hook invoked, and the returned counts add up to the length of the message, so that no byte of `rest` is
consumed or delivered. -/
theorem c3_fixed_length_body (st : StartLine) (pre post : List (List Nat × List Nat))
    (n v body rest : List Nat) (sizes : List Nat) (hst : st.Valid)
    (hpre : ∀ h ∈ pre, OtherHeader h) (hpost : ∀ h ∈ post, OtherHeader h)
    (hn : TokenStr n ∧ iequals n strContentLength = true) (hv : v ≠ [] ∧ DigitStr v)
    (hL : 0 < parseInt v) (hbody : (body.length : Int) = parseInt v) (hne : sizes ≠ [])
    (hlast : sizes.dropLast.sum < (fixedMessage st pre n v post body).length)
    (hsum : (fixedMessage st pre n v post body).length ≤ sizes.sum) :
    ∃ r, feed (fixedMessage st pre n v post body ++ rest) 0 sizes (HttpParser.new st.mode)
        = some r ∧
      payload r.events = body ∧
      coalesce r.events = st.events ++
        ((pre ++ (n, v) :: post).map (fun h => Event.onMessageHeader h.1 h.2) ++
          [Event.onMessageHeaderEnd, Event.onMessageContent body, Event.onMessageEnd]) ∧
      r.events.getLast? = some Event.onMessageEnd ∧
      r.n = (fixedMessage st pre n v post body).length ∧
      r.p._state = HttpParserState.MESSAGE_BEGIN := by
  have hlen : (fixedMessage st pre n v post body).length =
      (messageHead st (pre ++ (n, v) :: post)).length + body.length := by
    simp [fixedMessage]
  obtain ⟨q, hrun, hq⟩ := run_fixed_message (fixedMessage st pre n v post body ++ rest)
    (0 + sizes.sum) (p := HttpParser.new st.mode) (i := 0) st pre post n v body rest rfl rfl rfl
    hst hpre hpost hn hv hL hbody ⟨[], by simp [fixedMessage]⟩ (by omega)
  obtain ⟨r, h1, h2, h3, h4, h5, h6⟩ := feed_of_message sizes (new_WF _) hrun hne (by omega)
  have hend : (st.events ++
      ((pre ++ (n, v) :: post).map (fun h => Event.onMessageHeader h.1 h.2) ++
        ([Event.onMessageHeaderEnd, Event.onMessageContent body] ++
          [Event.onMessageEnd]))).getLast? = some Event.onMessageEnd := by
    rw [← List.append_assoc, ← List.append_assoc]
    exact List.getLast?_concat _
  refine ⟨r, h1, ?_, ?_, h6 hend, by omega, by rw [h2]; exact hq⟩
  · rw [h5, payload_append, payload_append, payload_notContent _ (notContent_start st),
      payload_notContent _ (notContent_headers _)]
    simp [payload]
  · rw [h4, coalesce, List.foldr_append, List.foldr_append,
      foldr_consEv_notContent _ _ (notContent_headers _),
      foldr_consEv_notContent _ _ (notContent_start st)]
    rfl

theorem c3_witness :
    exResponse.Valid ∧ (∀ h ∈ exFoo, OtherHeader h) ∧
    (∀ h ∈ ([] : List (List Nat × List Nat)), OtherHeader h) ∧
    (TokenStr (bytes "Content-Length") ∧
      iequals (bytes "Content-Length") strContentLength = true) ∧
    (bytes "6" ≠ [] ∧ DigitStr (bytes "6")) ∧ 0 < parseInt (bytes "6") ∧
    ((bytes "123456").length : Int) = parseInt (bytes "6") ∧ [30, 22, 3, 5] ≠ [] ∧
    [30, 22, 3, 5].dropLast.sum <
      (fixedMessage exResponse exFoo (bytes "Content-Length") (bytes "6") []
        (bytes "123456")).length ∧
    (fixedMessage exResponse exFoo (bytes "Content-Length") (bytes "6") []
        (bytes "123456")).length ≤ [30, 22, 3, 5].sum ∧
    ∃ r, feed (fixedMessage exResponse exFoo (bytes "Content-Length") (bytes "6") []
          (bytes "123456") ++ bytes "XY") 0 [30, 22, 3, 5] (HttpParser.new exResponse.mode)
        = some r ∧
      payload r.events = bytes "123456" ∧
      coalesce r.events = exResponse.events ++
        ((exFoo ++ (bytes "Content-Length", bytes "6") :: []).map
            (fun h => Event.onMessageHeader h.1 h.2) ++
          [Event.onMessageHeaderEnd, Event.onMessageContent (bytes "123456"),
            Event.onMessageEnd]) ∧
      r.events.getLast? = some Event.onMessageEnd ∧
      r.n = (fixedMessage exResponse exFoo (bytes "Content-Length") (bytes "6") []
        (bytes "123456")).length ∧
      r.p._state = HttpParserState.MESSAGE_BEGIN :=
  ⟨by decide, by decide, by decide, by decide, by decide, by decide, by decide, by decide,
    by decide, by decide,
    c3_fixed_length_body exResponse exFoo [] (bytes "Content-Length") (bytes "6")
      (bytes "123456") (bytes "XY") [30, 22, 3, 5] (by decide) (by decide) (by decide)
      (by decide) (by decide) (by decide) (by decide) (by decide) (by decide) (by decide)⟩

/-- **C4**.  A request with a supported version whose header lines hold one
`Transfer-Encoding: chunked` header, next to headers that are neither `Content-Length` nor
`Transfer-Encoding: chunked`, and whose body is a sequence of `k ≥ 0` chunks, each a non-zero
size in hexadecimal digits of either case, CR LF, that many data bytes, CR LF, followed by
the terminal `"0" CR LF CR LF` and by any further bytes `rest`: however the buffer is cut into
consecutive fragments up to the one that holds the terminal line feed, a new `REQUEST` parser
fed the fragments in order returns from every call, the payloads of its `onMessageContent`
hooks concatenated in call order are exactly the data bytes of the chunks, the log equals, up
to the merging of adjacent `onMessageContent` hooks, the announcement, the other headers,
`onMessageHeaderEnd`, one `onMessageContent` per chunk and `onMessageEnd`; `onMessageEnd` is
the last hook invoked and the returned counts add up to the length of the message through the
terminal CR LF. -/
theorem c4_chunked_body (m en : List Nat) (ver : HttpVersion)
    (pre post : List (List Nat × List Nat)) (n v : List Nat)
    (chunks : List (List Nat × List Nat)) (rest : List Nat) (sizes : List Nat)
    (hst : (StartLine.request m en ver).Valid)
    (hpre : ∀ h ∈ pre, OtherHeader h) (hpost : ∀ h ∈ post, OtherHeader h)
    (hn : TokenStr n ∧ iequals n strTransferEncoding = true)
    (hv : ValueStr v ∧ iequals v strChunked = true) (hok : ∀ c ∈ chunks, ChunkOk c)
    (hne : sizes ≠ [])
    (hlast : sizes.dropLast.sum < (chunkedRequest m en ver pre n v post chunks).length)
    (hsum : (chunkedRequest m en ver pre n v post chunks).length ≤ sizes.sum) :
    ∃ r, feed (chunkedRequest m en ver pre n v post chunks ++ rest) 0 sizes
        (HttpParser.new HttpParseMode.REQUEST) = some r ∧
      payload r.events = chunksData chunks ∧
      coalesce r.events = coalesce (Event.onMessageBeginRequest m en ver ::
        ((pre ++ post).map (fun h => Event.onMessageHeader h.1 h.2) ++
          (Event.onMessageHeaderEnd ::
            (chunks.map (fun c => Event.onMessageContent c.2) ++ [Event.onMessageEnd])))) ∧
      r.events.getLast? = some Event.onMessageEnd ∧
      r.n = (chunkedRequest m en ver pre n v post chunks).length ∧
      r.p._state = HttpParserState.MESSAGE_BEGIN := by
  have hlen : (chunkedRequest m en ver pre n v post chunks).length =
      (messageHead (StartLine.request m en ver) (pre ++ (n, v) :: post)).length +
        (chunkedBody chunks).length := by
    simp [chunkedRequest]
  obtain ⟨q, hrun, hq⟩ := run_chunked_message
    (chunkedRequest m en ver pre n v post chunks ++ rest) (0 + sizes.sum)
    (p := HttpParser.new HttpParseMode.REQUEST) (i := 0) (StartLine.request m en ver)
    pre post n v chunks rest rfl rfl hst hpre hpost hn hv hok
    ⟨[], by simp [chunkedRequest]⟩ (by omega)
  obtain ⟨r, h1, h2, h3, h4, h5, h6⟩ := feed_of_message sizes (new_WF _) hrun hne (by omega)
  have hend : ((StartLine.request m en ver).events ++
      ((pre ++ post).map (fun h => Event.onMessageHeader h.1 h.2) ++
        ((Event.onMessageHeaderEnd :: chunks.map (fun c => Event.onMessageContent c.2)) ++
          [Event.onMessageEnd]))).getLast? = some Event.onMessageEnd := by
    rw [← List.append_assoc, ← List.append_assoc]
    exact List.getLast?_concat _
  refine ⟨r, h1, ?_, h4, h6 hend, by omega, by rw [h2]; exact hq⟩
  rw [h5, payload_append, payload_append, payload_notContent _ (notContent_start _),
    payload_notContent _ (notContent_headers _)]
  simp [payload, payload_append, payload_chunks]

theorem c4_witness :
    (StartLine.request (bytes "GET") (bytes "/") HttpVersion.VERSION_1_1).Valid ∧
    (∀ h ∈ exFoo, OtherHeader h) ∧
    (∀ h ∈ ([] : List (List Nat × List Nat)), OtherHeader h) ∧
    (TokenStr (bytes "Transfer-Encoding") ∧
      iequals (bytes "Transfer-Encoding") strTransferEncoding = true) ∧
    (ValueStr (bytes "Chunked") ∧ iequals (bytes "Chunked") strChunked = true) ∧
    (∀ c ∈ exChunks, ChunkOk c) ∧ [40, 0, 30, 23] ≠ [] ∧
    [40, 0, 30, 23].dropLast.sum <
      (chunkedRequest (bytes "GET") (bytes "/") HttpVersion.VERSION_1_1 exFoo
        (bytes "Transfer-Encoding") (bytes "Chunked") [] exChunks).length ∧
    (chunkedRequest (bytes "GET") (bytes "/") HttpVersion.VERSION_1_1 exFoo
        (bytes "Transfer-Encoding") (bytes "Chunked") [] exChunks).length ≤
      [40, 0, 30, 23].sum ∧
    ∃ r, feed (chunkedRequest (bytes "GET") (bytes "/") HttpVersion.VERSION_1_1 exFoo
          (bytes "Transfer-Encoding") (bytes "Chunked") [] exChunks ++ bytes "XY") 0
        [40, 0, 30, 23] (HttpParser.new HttpParseMode.REQUEST) = some r ∧
      payload r.events = chunksData exChunks ∧
      coalesce r.events = coalesce
        (Event.onMessageBeginRequest (bytes "GET") (bytes "/") HttpVersion.VERSION_1_1 ::
          ((exFoo ++ ([] : List (List Nat × List Nat))).map
              (fun h => Event.onMessageHeader h.1 h.2) ++
            (Event.onMessageHeaderEnd ::
              (exChunks.map (fun c => Event.onMessageContent c.2) ++
                [Event.onMessageEnd])))) ∧
      r.events.getLast? = some Event.onMessageEnd ∧
      r.n = (chunkedRequest (bytes "GET") (bytes "/") HttpVersion.VERSION_1_1 exFoo
        (bytes "Transfer-Encoding") (bytes "Chunked") [] exChunks).length ∧
      r.p._state = HttpParserState.MESSAGE_BEGIN :=
  ⟨by decide, by decide, by decide, by decide, by decide, by decide, by decide, by decide,
    by decide,
    c4_chunked_body (bytes "GET") (bytes "/") HttpVersion.VERSION_1_1 exFoo []
      (bytes "Transfer-Encoding") (bytes "Chunked") exChunks (bytes "XY") [40, 0, 30, 23]
      (by decide) (by decide) (by decide) (by decide) (by decide) (by decide) (by decide)
      (by decide) (by decide)⟩

/-- **C5**.  Two bodyless requests back to back in one buffer, each a request line with an
explicit supported version, headers other than `Content-Length` and `Transfer-Encoding`, and
the blank line: the first call on the whole buffer stops at the boundary, returns the length
of the first message and emits only its hooks, ending with `onMessageEnd`; the second call, on
the rest of the buffer, emits the hooks of the second message, with its own method, entity and
version, and the two returned counts add up to the buffer length. -/
theorem c5_pipelined_requests (m1 e1 m2 e2 : List Nat) (v1 v2 : HttpVersion)
    (hs1 hs2 : List (List Nat × List Nat))
    (hm1 : TokenStr m1) (he1 : EntityStr e1) (hv1 : v1 ≠ HttpVersion.UNKNOWN)
    (hh1 : ∀ h ∈ hs1, PlainHeader h)
    (hm2 : TokenStr m2) (he2 : EntityStr e2) (hv2 : v2 ≠ HttpVersion.UNKNOWN)
    (hh2 : ∀ h ∈ hs2, PlainHeader h) :
    ∃ r1 r2,
      parseFragment (requestMessage m1 e1 v1 hs1 ++ requestMessage m2 e2 v2 hs2)
        ⟨0, (requestMessage m1 e1 v1 hs1 ++ requestMessage m2 e2 v2 hs2).length⟩
        (HttpParser.new HttpParseMode.REQUEST) = some r1 ∧
      r1.n = (requestMessage m1 e1 v1 hs1).length ∧
      r1.events = Event.onMessageBeginRequest m1 e1 v1 ::
        (hs1.map (fun h => Event.onMessageHeader h.1 h.2) ++
          [Event.onMessageHeaderEnd, Event.onMessageEnd]) ∧
      parseFragment (requestMessage m1 e1 v1 hs1 ++ requestMessage m2 e2 v2 hs2)
        ⟨r1.n, (requestMessage m1 e1 v1 hs1 ++ requestMessage m2 e2 v2 hs2).length - r1.n⟩
        r1.p = some r2 ∧
      r2.events = Event.onMessageBeginRequest m2 e2 v2 ::
        (hs2.map (fun h => Event.onMessageHeader h.1 h.2) ++
          [Event.onMessageHeaderEnd, Event.onMessageEnd]) ∧
      r1.n + r2.n = (requestMessage m1 e1 v1 hs1 ++ requestMessage m2 e2 v2 hs2).length := by
  obtain ⟨q1, h1, hwf1, hq1, hqm1, hqc1⟩ := parse_request_message
    (requestMessage m1 e1 v1 hs1 ++ requestMessage m2 e2 v2 hs2)
    (HttpParser.new HttpParseMode.REQUEST) 0
    (requestMessage m1 e1 v1 hs1 ++ requestMessage m2 e2 v2 hs2).length
    m1 e1 (requestMessage m2 e2 v2 hs2) v1 hs1
    (new_WF _) rfl rfl rfl hm1 he1 hv1 hh1 ⟨[], by simp⟩ (by simp)
  obtain ⟨q2, h2, _⟩ := parse_request_message
    (requestMessage m1 e1 v1 hs1 ++ requestMessage m2 e2 v2 hs2)
    q1 (requestMessage m1 e1 v1 hs1).length
    (requestMessage m2 e2 v2 hs2).length m2 e2 [] v2 hs2
    hwf1 hq1 hqm1 hqc1 hm2 he2 hv2 hh2 ⟨[], by simp⟩ (le_refl _)
  refine ⟨_, ⟨q2, Event.onMessageBeginRequest m2 e2 v2 ::
      (hs2.map (fun h => Event.onMessageHeader h.1 h.2) ++
        [Event.onMessageHeaderEnd, Event.onMessageEnd]),
      (requestMessage m2 e2 v2 hs2).length⟩, h1, rfl, rfl, ?_, rfl, ?_⟩
  · simp only [List.length_append, Nat.add_sub_cancel_left]
    exact h2
  · simp

theorem c5_witness :
    TokenStr (bytes "GET") ∧ EntityStr (bytes "/foo") ∧
    HttpVersion.VERSION_1_1 ≠ HttpVersion.UNKNOWN ∧
    (∀ h ∈ ([] : List (List Nat × List Nat)), PlainHeader h) ∧
    TokenStr (bytes "HEAD") ∧ EntityStr (bytes "/bar") ∧
    HttpVersion.VERSION_0_9 ≠ HttpVersion.UNKNOWN ∧
    (∀ h ∈ [(bytes "Host", bytes "x")], PlainHeader h) ∧
    ∃ r1 r2,
      parseFragment (requestMessage (bytes "GET") (bytes "/foo") HttpVersion.VERSION_1_1 [] ++
          requestMessage (bytes "HEAD") (bytes "/bar") HttpVersion.VERSION_0_9
            [(bytes "Host", bytes "x")])
        ⟨0, (requestMessage (bytes "GET") (bytes "/foo") HttpVersion.VERSION_1_1 [] ++
          requestMessage (bytes "HEAD") (bytes "/bar") HttpVersion.VERSION_0_9
            [(bytes "Host", bytes "x")]).length⟩
        (HttpParser.new HttpParseMode.REQUEST) = some r1 ∧
      r1.n = (requestMessage (bytes "GET") (bytes "/foo") HttpVersion.VERSION_1_1 []).length ∧
      r1.events = Event.onMessageBeginRequest (bytes "GET") (bytes "/foo")
          HttpVersion.VERSION_1_1 ::
        (([] : List (List Nat × List Nat)).map (fun h => Event.onMessageHeader h.1 h.2) ++
          [Event.onMessageHeaderEnd, Event.onMessageEnd]) ∧
      parseFragment (requestMessage (bytes "GET") (bytes "/foo") HttpVersion.VERSION_1_1 [] ++
          requestMessage (bytes "HEAD") (bytes "/bar") HttpVersion.VERSION_0_9
            [(bytes "Host", bytes "x")])
        ⟨r1.n, (requestMessage (bytes "GET") (bytes "/foo") HttpVersion.VERSION_1_1 [] ++
          requestMessage (bytes "HEAD") (bytes "/bar") HttpVersion.VERSION_0_9
            [(bytes "Host", bytes "x")]).length - r1.n⟩
        r1.p = some r2 ∧
      r2.events = Event.onMessageBeginRequest (bytes "HEAD") (bytes "/bar")
          HttpVersion.VERSION_0_9 ::
        ([(bytes "Host", bytes "x")].map (fun h => Event.onMessageHeader h.1 h.2) ++
          [Event.onMessageHeaderEnd, Event.onMessageEnd]) ∧
      r1.n + r2.n =
        (requestMessage (bytes "GET") (bytes "/foo") HttpVersion.VERSION_1_1 [] ++
          requestMessage (bytes "HEAD") (bytes "/bar") HttpVersion.VERSION_0_9
            [(bytes "Host", bytes "x")]).length :=
  ⟨by decide, by decide, by decide, by decide, by decide, by decide, by decide, by decide,
    c5_pipelined_requests _ _ _ _ _ _ _ _ (by decide) (by decide) (by decide) (by decide)
      (by decide) (by decide) (by decide) (by decide)⟩

/-- **C6**, the code at the failing input.  A `REQUEST` parser that has parsed a chunked
request is back in `MESSAGE_BEGIN` with `_chunked` set; `reset()` does not clear it, and the
bodyless request `"GET / HTTP/1.1\r\n\r\n"` fed next gets no `onMessageEnd`, where a freshly
constructed parser invokes it. -/
theorem c6_reset_keeps_chunked :
    (parseFragment bufChunkedThenPlain ⟨0, 51⟩ (HttpParser.new HttpParseMode.REQUEST)).map
        (fun r => (r.n, r.p._state, r.p.reset._chunked)) =
      some (51, HttpParserState.MESSAGE_BEGIN, true) ∧
    (thenParse bufChunkedThenPlain ⟨51, 18⟩ true
        (parseFragment bufChunkedThenPlain ⟨0, 51⟩ (HttpParser.new HttpParseMode.REQUEST))).map
        (fun r => (r.n, r.events)) =
      some (18, [Event.onMessageBeginRequest (bytes "GET") (bytes "/") HttpVersion.VERSION_1_1,
        Event.onMessageHeaderEnd]) ∧
    (parseFragment bufChunkedThenPlain ⟨51, 18⟩ (HttpParser.new HttpParseMode.REQUEST)).map
        (fun r => (r.n, r.events)) =
      some (18, [Event.onMessageBeginRequest (bytes "GET") (bytes "/") HttpVersion.VERSION_1_1,
        Event.onMessageHeaderEnd, Event.onMessageEnd]) := by
  decide

/-- **C7**, the code at the failing inputs.  After the `onMessageEnd` of a chunked request
the parser is in `MESSAGE_BEGIN` with `_chunked` still set, and the bodyless request that
follows gets no `onMessageEnd`, where a fresh parser invokes it; after the `onMessageEnd` of
the response `404 Not Found` the response `"HTTP/1.1 200\r\n..."` that follows is announced
with the reason `Not Found`, where a fresh parser announces the empty reason. -/
theorem c7_fields_survive_message_end :
    ((parseFragment bufChunkedThenPlain ⟨0, 69⟩ (HttpParser.new HttpParseMode.REQUEST)).map
        (fun r => (r.n, r.events.getLast?, r.p._state, r.p._chunked)) =
      some (51, some Event.onMessageEnd, HttpParserState.MESSAGE_BEGIN, true) ∧
    (thenParse bufChunkedThenPlain ⟨51, 18⟩ false
        (parseFragment bufChunkedThenPlain ⟨0, 69⟩ (HttpParser.new HttpParseMode.REQUEST))).map
        (fun r => r.events) =
      some [Event.onMessageBeginRequest (bytes "GET") (bytes "/") HttpVersion.VERSION_1_1,
        Event.onMessageHeaderEnd] ∧
    (parseFragment bufChunkedThenPlain ⟨51, 18⟩ (HttpParser.new HttpParseMode.REQUEST)).map
        (fun r => r.events) =
      some [Event.onMessageBeginRequest (bytes "GET") (bytes "/") HttpVersion.VERSION_1_1,
        Event.onMessageHeaderEnd, Event.onMessageEnd]) ∧
    ((parseFragment bufTwoResponses ⟨0, 80⟩ (HttpParser.new HttpParseMode.RESPONSE)).map
        (fun r => (r.n, r.events.getLast?, r.p._state)) =
      some (45, some Event.onMessageEnd, HttpParserState.MESSAGE_BEGIN) ∧
    (thenParse bufTwoResponses ⟨45, 35⟩ false
        (parseFragment bufTwoResponses ⟨0, 80⟩ (HttpParser.new HttpParseMode.RESPONSE))).map
        (fun r => r.events.head?) =
      some (some (Event.onMessageBeginResponse HttpVersion.VERSION_1_1 200
        (bytes "Not Found"))) ∧
    (parseFragment bufTwoResponses ⟨45, 35⟩ (HttpParser.new HttpParseMode.RESPONSE)).map
        (fun r => r.events.head?) =
      some (some (Event.onMessageBeginResponse HttpVersion.VERSION_1_1 200 []))) := by
  decide

/-- **C8**.  `PROTOCOL_ERROR` is absorbing: for every parser in that state and every chunk
(empty or not, in any memory) `parseFragment` returns 0, invokes no hook and leaves every
member as it was, `_state` and `_bytesReceived` included; `reset()` leaves the state. -/
theorem c8_protocol_error_absorbing (mem : List Nat) (chunk : View) (p : HttpParser)
    (h : p._state = HttpParserState.PROTOCOL_ERROR) :
    parseFragment mem chunk p = some ⟨p, [], 0⟩ ∧
      p.reset._state = HttpParserState.MESSAGE_BEGIN :=
  ⟨parseFragment_PROTOCOL_ERROR mem chunk p h, rfl⟩

theorem c8_witness :
    ({ HttpParser.new HttpParseMode.REQUEST with
        _state := HttpParserState.PROTOCOL_ERROR })._state = HttpParserState.PROTOCOL_ERROR ∧
    parseFragment (bytes "GET /") ⟨0, 5⟩
        { HttpParser.new HttpParseMode.REQUEST with _state := HttpParserState.PROTOCOL_ERROR } =
      some ⟨{ HttpParser.new HttpParseMode.REQUEST with
              _state := HttpParserState.PROTOCOL_ERROR }, [], 0⟩ ∧
    ({ HttpParser.new HttpParseMode.REQUEST with
        _state := HttpParserState.PROTOCOL_ERROR } : HttpParser).reset._state =
      HttpParserState.MESSAGE_BEGIN :=
  ⟨rfl, c8_protocol_error_absorbing _ _ _ rfl⟩

/-- **C9**.  For every reachable parser, every call of `parseFragment` returns, its hooks
contain `onProtocolError` at most once and then as the last one, and the state after the call
is `PROTOCOL_ERROR` exactly when `onProtocolError` was invoked in the call or the state was
`PROTOCOL_ERROR` before; over any sequence of calls without `reset()` in between,
`onProtocolError` is invoked at most once and no hook follows it. -/
theorem c9_protocol_error_at_most_once_and_last (p : HttpParser) (hp : Reachable p) :
    (∀ (mem : List Nat) (chunk : View), ∃ r, parseFragment mem chunk p = some r ∧
      r.events.count Event.onProtocolError ≤ 1 ∧
      (Event.onProtocolError ∈ r.events → r.events.getLast? = some Event.onProtocolError) ∧
      (r.p._state = HttpParserState.PROTOCOL_ERROR ↔
        (Event.onProtocolError ∈ r.events ∨ p._state = HttpParserState.PROTOCOL_ERROR))) ∧
    (∀ calls : List (List Nat × View), ∃ r, parseAll calls p = some r ∧
      r.events.count Event.onProtocolError ≤ 1 ∧
      (Event.onProtocolError ∈ r.events → r.events.getLast? = some Event.onProtocolError)) := by
  constructor
  · intro mem chunk
    obtain ⟨r, hr, _, h⟩ := parseFragment_errorLast mem chunk hp.invariant
    refine ⟨r, hr, h.count_last.1, h.count_last.2, h.state_iff (fun hs => ?_)⟩
    rw [parseFragment_PROTOCOL_ERROR mem chunk p hs] at hr
    cases hr
    exact hs
  · intro calls
    obtain ⟨r, hr, h⟩ := parseAll_errorLast calls p hp.invariant
    exact ⟨r, hr, h.count_last.1, h.count_last.2⟩

theorem c9_witness :
    Reachable (HttpParser.new HttpParseMode.REQUEST) ∧
    ((∀ (mem : List Nat) (chunk : View), ∃ r,
      parseFragment mem chunk (HttpParser.new HttpParseMode.REQUEST) = some r ∧
      r.events.count Event.onProtocolError ≤ 1 ∧
      (Event.onProtocolError ∈ r.events → r.events.getLast? = some Event.onProtocolError) ∧
      (r.p._state = HttpParserState.PROTOCOL_ERROR ↔
        (Event.onProtocolError ∈ r.events ∨
          (HttpParser.new HttpParseMode.REQUEST)._state = HttpParserState.PROTOCOL_ERROR))) ∧
    (∀ calls : List (List Nat × View), ∃ r,
      parseAll calls (HttpParser.new HttpParseMode.REQUEST) = some r ∧
      r.events.count Event.onProtocolError ≤ 1 ∧
      (Event.onProtocolError ∈ r.events → r.events.getLast? = some Event.onProtocolError))) :=
  ⟨Reachable.new _, c9_protocol_error_at_most_once_and_last _ (Reachable.new _)⟩

/-- **C10**.  For every non-empty token string `m` and every non-empty string `en` of printable
characters without SP, a new `REQUEST` parser fed `m SP en CR LF` returns and invokes exactly
`onMessageBegin(m, en, VERSION_0_9)`, `onMessageHeaderEnd`, `onMessageEnd`, in that order: no
header hook and no content hook. -/
theorem c10_simple_request_events (m en : List Nat) (hm : TokenStr m) (he : EntityStr en) :
    ∃ r, parseFragment (simpleRequest m en) ⟨0, (simpleRequest m en).length⟩
        (HttpParser.new HttpParseMode.REQUEST) = some r ∧
      r.events = [Event.onMessageBeginRequest m en HttpVersion.VERSION_0_9,
        Event.onMessageHeaderEnd, Event.onMessageEnd] := by
  have hlen : (simpleRequest m en).length = m.length + 1 + en.length + 2 := by
    simp [simpleRequest]; omega
  have hat : At (simpleRequest m en) 0 (simpleRequest m en ++ []) := ⟨[], by simp⟩
  obtain ⟨q, hrun, _⟩ := run_simple_request (simpleRequest m en)
    (0 + (simpleRequest m en).length) (p := HttpParser.new HttpParseMode.REQUEST) (i := 0)
    rfl rfl hm he hat (by rw [hlen]; omega)
  exact ⟨_, parseFragment_of_run (new_WF _) hrun, rfl⟩

theorem c10_witness :
    TokenStr (bytes "GET") ∧ EntityStr (bytes "/") ∧
    ∃ r, parseFragment (simpleRequest (bytes "GET") (bytes "/"))
        ⟨0, (simpleRequest (bytes "GET") (bytes "/")).length⟩
        (HttpParser.new HttpParseMode.REQUEST) = some r ∧
      r.events = [Event.onMessageBeginRequest (bytes "GET") (bytes "/") HttpVersion.VERSION_0_9,
        Event.onMessageHeaderEnd, Event.onMessageEnd] :=
  ⟨by decide, by decide, c10_simple_request_events _ _ (by decide) (by decide)⟩

/-- **C11**.  For every non-empty token string `m`, every non-empty string `en` of printable
characters without SP and every supported version `v` (written `0.9`, `1.0` or `1.1`), a new
`REQUEST` parser fed `m SP en SP "HTTP/" maj "." min CR LF CR LF` in one call returns the
length of the input and invokes exactly `onMessageBegin(m, en, v)`, `onMessageHeaderEnd`,
`onMessageEnd`, in that order: no header hook and no content hook. -/
theorem c11_request_line_with_version (m en : List Nat) (v : HttpVersion) (hm : TokenStr m)
    (he : EntityStr en) (hv : v ≠ HttpVersion.UNKNOWN) :
    ∃ r, parseFragment (requestLine m en (versionDigits v).1 (versionDigits v).2 ++ [CR, LF])
        ⟨0, (requestLine m en (versionDigits v).1 (versionDigits v).2 ++ [CR, LF]).length⟩
        (HttpParser.new HttpParseMode.REQUEST) = some r ∧
      r.events = [Event.onMessageBeginRequest m en v, Event.onMessageHeaderEnd,
        Event.onMessageEnd] ∧
      r.n = (requestLine m en (versionDigits v).1 (versionDigits v).2 ++ [CR, LF]).length := by
  have hmsg : requestMessage m en v [] =
      requestLine m en (versionDigits v).1 (versionDigits v).2 ++ [CR, LF] := rfl
  obtain ⟨q, h, _⟩ := parse_request_message (requestMessage m en v [])
    (HttpParser.new HttpParseMode.REQUEST) 0 (requestMessage m en v []).length m en [] v []
    (new_WF _) rfl rfl rfl hm he hv (by simp) ⟨[], by simp⟩ (le_refl _)
  rw [hmsg] at h
  exact ⟨_, h, rfl, rfl⟩

theorem c11_witness :
    TokenStr (bytes "HEAD") ∧ EntityStr (bytes "/foo?bar") ∧
    HttpVersion.VERSION_1_0 ≠ HttpVersion.UNKNOWN ∧
    ∃ r, parseFragment (requestLine (bytes "HEAD") (bytes "/foo?bar")
          (versionDigits HttpVersion.VERSION_1_0).1 (versionDigits HttpVersion.VERSION_1_0).2 ++
          [CR, LF])
        ⟨0, (requestLine (bytes "HEAD") (bytes "/foo?bar")
          (versionDigits HttpVersion.VERSION_1_0).1 (versionDigits HttpVersion.VERSION_1_0).2 ++
          [CR, LF]).length⟩
        (HttpParser.new HttpParseMode.REQUEST) = some r ∧
      r.events = [Event.onMessageBeginRequest (bytes "HEAD") (bytes "/foo?bar")
        HttpVersion.VERSION_1_0, Event.onMessageHeaderEnd, Event.onMessageEnd] ∧
      r.n = (requestLine (bytes "HEAD") (bytes "/foo?bar")
          (versionDigits HttpVersion.VERSION_1_0).1 (versionDigits HttpVersion.VERSION_1_0).2 ++
          [CR, LF]).length :=
  ⟨by decide, by decide, by decide,
    c11_request_line_with_version _ _ _ (by decide) (by decide) (by decide)⟩

/-- **C12**.  `makeHttpVersion(major, minor)` is `VERSION_0_9` exactly for `(0, 9)`,
`VERSION_1_0` exactly for `(1, 0)`, `VERSION_1_1` exactly for `(1, 1)`, and `UNKNOWN` exactly
for every other pair of integers. -/
theorem c12_makeHttpVersion_table (major minor : Int) :
    (makeHttpVersion major minor = HttpVersion.VERSION_0_9 ↔ major = 0 ∧ minor = 9) ∧
    (makeHttpVersion major minor = HttpVersion.VERSION_1_0 ↔ major = 1 ∧ minor = 0) ∧
    (makeHttpVersion major minor = HttpVersion.VERSION_1_1 ↔ major = 1 ∧ minor = 1) ∧
    (makeHttpVersion major minor = HttpVersion.UNKNOWN ↔
      ¬ (major = 0 ∧ minor = 9) ∧ ¬ (major = 1 ∧ minor = 0) ∧ ¬ (major = 1 ∧ minor = 1)) := by
  unfold makeHttpVersion
  split_ifs <;> simp_all

/-- **C13**.  For every request line (`REQUEST` mode) and every status line (`RESPONSE` mode)
that follows the grammar of the line and whose version numbers `makeHttpVersion` resolves to
`UNKNOWN` (such as `HTTP/1.2` or `HTTP/2.0`), a new parser of that mode fed the line, with
anything after it, reports `onProtocolError` as its only hook, with no announcement of the
message, and is left in `PROTOCOL_ERROR`; the line is consumed up to and including its LF. -/
theorem c13_unknown_version_rejected (l : RawLine) (rest : List Nat) (s : Nat)
    (hwf : l.WellFormed) (hu : l.version = HttpVersion.UNKNOWN) (hs : l.text.length ≤ s) :
    ∃ r, parseFragment (l.text ++ rest) ⟨0, s⟩ (HttpParser.new l.mode) = some r ∧
      r.events = [Event.onProtocolError] ∧ r.p._state = HttpParserState.PROTOCOL_ERROR ∧
      r.n = l.text.length := by
  cases l with
  | request m en maj min =>
    obtain ⟨hm, he, hmaj, _, hmin, _⟩ := hwf
    obtain ⟨q, w, hq⟩ := walk_request_line_unknown (requestLine m en maj min ++ rest) (0 + s)
      (p := HttpParser.new HttpParseMode.REQUEST) (i := 0) rfl rfl hm he hmaj hmin hu
      (show At _ 0 (requestLine m en maj min ++ rest) from ⟨[], by simp⟩)
      (by simpa [RawLine.text] using hs)
    exact ⟨_, parse_of_walk_error (new_WF _) w hq, rfl, hq, by simp [RawLine.text]⟩
  | response maj min code reason =>
    obtain ⟨hmaj, _, hmin, _, hcne, hcd, _, hr⟩ := hwf
    obtain ⟨q, w, hq⟩ := walk_status_line_unknown (statusLine maj min code reason ++ rest)
      (0 + s) (p := HttpParser.new HttpParseMode.RESPONSE) (i := 0) rfl rfl hmaj hmin
      ⟨hcne, hcd⟩ hr hu (show At _ 0 (statusLine maj min code reason ++ rest) from ⟨[], by simp⟩)
      (by simpa [RawLine.text] using hs)
    exact ⟨_, parse_of_walk_error (new_WF _) w hq, rfl, hq, by simp [RawLine.text]⟩

theorem c13_witness :
    (RawLine.request (bytes "GET") (bytes "/") (bytes "1") (bytes "2")).WellFormed ∧
    (RawLine.request (bytes "GET") (bytes "/") (bytes "1") (bytes "2")).version =
      HttpVersion.UNKNOWN ∧
    (RawLine.request (bytes "GET") (bytes "/") (bytes "1") (bytes "2")).text.length ≤ 18 ∧
    ∃ r, parseFragment
        ((RawLine.request (bytes "GET") (bytes "/") (bytes "1") (bytes "2")).text ++
          bytes "\r\n") ⟨0, 18⟩
        (HttpParser.new (RawLine.request (bytes "GET") (bytes "/") (bytes "1")
          (bytes "2")).mode) = some r ∧
      r.events = [Event.onProtocolError] ∧ r.p._state = HttpParserState.PROTOCOL_ERROR ∧
      r.n = (RawLine.request (bytes "GET") (bytes "/") (bytes "1") (bytes "2")).text.length :=
  ⟨by decide, by decide, by decide,
    c13_unknown_version_rejected _ _ _ (by decide) (by decide) (by decide)⟩

/-- **C14**, counterexample.  The resolver gives `VERSION_0_9` for major 0 and minor 9, and a
new `REQUEST` parser fed `"GET / HTTP/0.9\r\n\r\n"` announces the request with version 0.9
(as the test `requestLine1` expects). -/
theorem c14_counterexample :
    makeHttpVersion 0 9 = HttpVersion.VERSION_0_9 ∧
    (parseFragment bufGetVersion09 ⟨0, 18⟩ (HttpParser.new HttpParseMode.REQUEST)).map
        (fun r => r.events) =
      some [Event.onMessageBeginRequest (bytes "GET") (bytes "/") HttpVersion.VERSION_0_9,
        Event.onMessageHeaderEnd, Event.onMessageEnd] := by
  decide

/-- **C14** (amended).  HTTP/0.9 is recognised through both paths: the resolver gives
`VERSION_0_9` exactly for major 0 and minor 9, a request line that carries the explicit
version `HTTP/0.9` is announced with version 0.9, and so is the simple request line without a
version. -/
theorem c14_version_0_9_on_both_paths (m en : List Nat) (hm : TokenStr m)
    (he : EntityStr en) :
    (∀ major minor : Int,
      makeHttpVersion major minor = HttpVersion.VERSION_0_9 ↔ major = 0 ∧ minor = 9) ∧
    (∃ r, parseFragment (requestLine m en [48] [57] ++ [CR, LF])
        ⟨0, (requestLine m en [48] [57] ++ [CR, LF]).length⟩
        (HttpParser.new HttpParseMode.REQUEST) = some r ∧
      r.events.head? = some (Event.onMessageBeginRequest m en HttpVersion.VERSION_0_9)) ∧
    (∃ r, parseFragment (simpleRequest m en) ⟨0, (simpleRequest m en).length⟩
        (HttpParser.new HttpParseMode.REQUEST) = some r ∧
      r.events.head? = some (Event.onMessageBeginRequest m en HttpVersion.VERSION_0_9)) := by
  refine ⟨?_, ?_, ?_⟩
  · intro major minor
    unfold makeHttpVersion
    split_ifs <;> simp_all
  · have hmsg : requestMessage m en HttpVersion.VERSION_0_9 [] =
        requestLine m en [48] [57] ++ [CR, LF] := rfl
    obtain ⟨q, h, _⟩ := parse_request_message (requestMessage m en HttpVersion.VERSION_0_9 [])
      (HttpParser.new HttpParseMode.REQUEST) 0
      (requestMessage m en HttpVersion.VERSION_0_9 []).length m en []
      HttpVersion.VERSION_0_9 [] (new_WF _) rfl rfl rfl hm he (by decide) (by simp)
      ⟨[], by simp⟩ (le_refl _)
    rw [hmsg] at h
    exact ⟨_, h, rfl⟩
  · have hlen : (simpleRequest m en).length = m.length + 1 + en.length + 2 := by
      simp [simpleRequest]; omega
    have hat : At (simpleRequest m en) 0 (simpleRequest m en ++ []) := ⟨[], by simp⟩
    obtain ⟨q, hrun, _⟩ := run_simple_request (simpleRequest m en)
      (0 + (simpleRequest m en).length) (p := HttpParser.new HttpParseMode.REQUEST) (i := 0)
      rfl rfl hm he hat (by rw [hlen]; omega)
    exact ⟨_, parseFragment_of_run (new_WF _) hrun, rfl⟩

theorem c14_witness :
    TokenStr (bytes "GET") ∧ EntityStr (bytes "/") ∧
    ((∀ major minor : Int,
      makeHttpVersion major minor = HttpVersion.VERSION_0_9 ↔ major = 0 ∧ minor = 9) ∧
    (∃ r, parseFragment (requestLine (bytes "GET") (bytes "/") [48] [57] ++ [CR, LF])
        ⟨0, (requestLine (bytes "GET") (bytes "/") [48] [57] ++ [CR, LF]).length⟩
        (HttpParser.new HttpParseMode.REQUEST) = some r ∧
      r.events.head? =
        some (Event.onMessageBeginRequest (bytes "GET") (bytes "/") HttpVersion.VERSION_0_9)) ∧
    (∃ r, parseFragment (simpleRequest (bytes "GET") (bytes "/"))
        ⟨0, (simpleRequest (bytes "GET") (bytes "/")).length⟩
        (HttpParser.new HttpParseMode.REQUEST) = some r ∧
      r.events.head? =
        some (Event.onMessageBeginRequest (bytes "GET") (bytes "/")
          HttpVersion.VERSION_0_9))) :=
  ⟨by decide, by decide, c14_version_0_9_on_both_paths _ _ (by decide) (by decide)⟩

/-- **C15**.  A new `REQUEST` or `RESPONSE` parser is fed the bytes that stand in a buffer
from address `b` on, cut into consecutive fragments of any sizes.  (1) Every call returns, and
the log of all calls is empty (the parser is still in a state of the first line and has
consumed every byte), or consists of `onProtocolError` alone (the parser is in
`PROTOCOL_ERROR`), or begins with `onMessageBeginRequest` or `onMessageBeginResponse`, and
then the first line is complete: at some address `k` inside the input the parser has read the
LF of a CR LF before which the input has no CR and no LF.  (2) So whenever `onProtocolError`
is in the log and the parser has not read the end of the first line, `onProtocolError` is the
only hook invoked.  (3) In a single iteration from a state of the first line the parser
invokes no hook, or `onProtocolError` alone, or it announces the message, and this only in
one of the three states that wait for the LF ending the first line, when the byte read is LF.
(4) For example, of the request `"GET / HTTP/1.1\r\n\r\n"` the first 15 bytes, up to the CR of
the first line, give no hook and the 16th, its LF, gives `onMessageBeginRequest`; with
`HTTX` for `HTTP` the log is `onProtocolError` alone.  (5) For calls on separate buffers the
log is likewise empty, `onProtocolError` alone, or begins with the announcement.  (6) In
particular a method token directly followed by CR, as in `"GET\r\n\r\n"`, gives
`onProtocolError` and nothing else. -/
theorem c15_error_before_first_line_is_alone (mode : HttpParseMode) (mem : List Nat) (b : Nat)
    (sizes : List Nat) (calls : List (List Nat × View)) (m rest : List Nat) (s : Nat)
    (hmode : mode ≠ HttpParseMode.MESSAGE) (hm : TokenStr m) (hs : m.length < s) :
    (∃ r, feed mem b sizes (HttpParser.new mode) = some r ∧
      ((r.events = [] ∧ inStartLine r.p._state = true ∧ r.n = sizes.sum) ∨
       (r.events = [Event.onProtocolError] ∧ r.p._state = HttpParserState.PROTOCOL_ERROR) ∨
       (∃ k ev tl, r.events = ev :: tl ∧ isStartEvent ev = true ∧ FirstLineEnds mem b k ∧
         k ≤ b + r.n ∧ k < b + sizes.sum)) ∧
      (Event.onProtocolError ∈ r.events → (¬ ∃ k, FirstLineEnds mem b k ∧ k ≤ b + r.n) →
        r.events = [Event.onProtocolError])) ∧
    (∀ (e : Nat) (p : HttpParser) (i : Nat), inStartLine p._state = true →
      p._mode ≠ HttpParseMode.MESSAGE →
      (step mem e p i).1.out = [] ∨
      ((step mem e p i).1.out = [Event.onProtocolError] ∧
        (step mem e p i).1.p._state = HttpParserState.PROTOCOL_ERROR) ∨
      (lfState p._state = true ∧ mem.getD i 0 = LF ∧
        ∃ ev tl, (step mem e p i).1.out = ev :: tl ∧ isStartEvent ev = true)) ∧
    (feed (bytes "GET / HTTP/1.1\r\n\r\n") 0 [5, 10] (HttpParser.new HttpParseMode.REQUEST)).map
        (fun r => (r.events, r.n)) = some ([], 15) ∧
    (feed (bytes "GET / HTTP/1.1\r\n\r\n") 0 [5, 11] (HttpParser.new HttpParseMode.REQUEST)).map
        (fun r => (r.events, r.n)) =
      some ([Event.onMessageBeginRequest (bytes "GET") (bytes "/") HttpVersion.VERSION_1_1],
        16) ∧
    (feed (bytes "GET / HTTX/1.1\r\n\r\n") 0 [5, 13] (HttpParser.new HttpParseMode.REQUEST)).map
        (fun r => (r.events, r.p._state)) =
      some ([Event.onProtocolError], HttpParserState.PROTOCOL_ERROR) ∧
    (∃ r, parseAll calls (HttpParser.new mode) = some r ∧ StartLog r.events r.p) ∧
    (∃ r, parseFragment (m ++ CR :: rest) ⟨0, s⟩ (HttpParser.new HttpParseMode.REQUEST)
        = some r ∧
      r.events = [Event.onProtocolError] ∧ r.p._state = HttpParserState.PROTOCOL_ERROR) := by
  refine ⟨?_, ?_, by decide, by decide, by decide,
    parseAll_startLog calls _ (new_WF _) rfl hmode, ?_⟩
  · obtain ⟨r, hf, hr⟩ := feed_firstLine mem b sizes b _ (new_WF mode)
      (new_inFirstLine mem b hmode)
    refine ⟨r, hf, ?_, ?_⟩
    · rcases hr with ⟨h1, h2, h3⟩ | h | ⟨k, h1, h2, h3, ev, tl, h4, h5⟩
      · exact Or.inl ⟨h1, h3.2.1, h2⟩
      · exact Or.inr (Or.inl h)
      · exact Or.inr (Or.inr ⟨k, ev, tl, h4, h5, h1, h2, h3⟩)
    · intro hin hno
      rcases hr with ⟨h1, _, _⟩ | h | ⟨k, h1, h2, _⟩
      · rw [h1] at hin
        cases hin
      · exact h.1
      · exact absurd ⟨k, h1, h2⟩ hno
  · intro e p i hin hmd
    rcases @step_line_shape mem e p i hin hmd with h | h | h
    · exact Or.inl h.1
    · exact Or.inr (Or.inl ⟨h.1, h.2.1⟩)
    · exact Or.inr (Or.inr ⟨h.1, h.2.1, h.2.2.2⟩)
  · obtain ⟨hne, htok⟩ := hm
    obtain ⟨m0, mt, rfl⟩ := List.exists_cons_of_ne_nil hne
    have hat : At (m0 :: mt ++ CR :: rest) 0 ((m0 :: mt) ++ CR :: rest) := ⟨[], by simp⟩
    obtain ⟨hatm, hat1⟩ := hat.split
    obtain ⟨hc0, hatmt⟩ := hatm.head
    obtain ⟨hcr, _⟩ := hat1.head
    simp only [List.length_cons] at hs hcr hat1
    have w1 := walk_MESSAGE_BEGIN_request (m0 :: mt ++ CR :: rest) (0 + s)
      (p := HttpParser.new HttpParseMode.REQUEST) (i := 0) rfl rfl (by omega)
    have w2 := w1.concat (walk_REQUEST_LINE_BEGIN _ _ (by rfl) hc0 (htok m0 (by simp))
      (by omega))
    dsimp only at w2
    have w3 := w2.concat (walk_REQUEST_METHOD _ _ mt _ _ (by rfl) hatmt
      (fun c hc => htok c (by simp [hc])) (by omega))
    dsimp only at w3
    have w4 := w3.concat (walk_REQUEST_METHOD_bad _ _ (by rfl) (getD_cast hcr (by omega))
      (by decide) (by decide) (by omega))
    dsimp only at w4
    exact ⟨_, parse_of_walk_error (new_WF _) w4 rfl, by simp, rfl⟩

theorem c15_error_alone_witness :
    HttpParseMode.REQUEST ≠ HttpParseMode.MESSAGE ∧ TokenStr (bytes "GET") ∧
    (bytes "GET").length < 7 ∧
    ((∃ r, feed (bytes "GET\r\n\r\n") 0 [2, 5] (HttpParser.new HttpParseMode.REQUEST) = some r ∧
      ((r.events = [] ∧ inStartLine r.p._state = true ∧ r.n = [2, 5].sum) ∨
       (r.events = [Event.onProtocolError] ∧ r.p._state = HttpParserState.PROTOCOL_ERROR) ∨
       (∃ k ev tl, r.events = ev :: tl ∧ isStartEvent ev = true ∧
         FirstLineEnds (bytes "GET\r\n\r\n") 0 k ∧ k ≤ 0 + r.n ∧ k < 0 + [2, 5].sum)) ∧
      (Event.onProtocolError ∈ r.events →
        (¬ ∃ k, FirstLineEnds (bytes "GET\r\n\r\n") 0 k ∧ k ≤ 0 + r.n) →
        r.events = [Event.onProtocolError])) ∧
    (∀ (e : Nat) (p : HttpParser) (i : Nat), inStartLine p._state = true →
      p._mode ≠ HttpParseMode.MESSAGE →
      (step (bytes "GET\r\n\r\n") e p i).1.out = [] ∨
      ((step (bytes "GET\r\n\r\n") e p i).1.out = [Event.onProtocolError] ∧
        (step (bytes "GET\r\n\r\n") e p i).1.p._state = HttpParserState.PROTOCOL_ERROR) ∨
      (lfState p._state = true ∧ (bytes "GET\r\n\r\n").getD i 0 = LF ∧
        ∃ ev tl, (step (bytes "GET\r\n\r\n") e p i).1.out = ev :: tl ∧
          isStartEvent ev = true)) ∧
    (feed (bytes "GET / HTTP/1.1\r\n\r\n") 0 [5, 10] (HttpParser.new HttpParseMode.REQUEST)).map
        (fun r => (r.events, r.n)) = some ([], 15) ∧
    (feed (bytes "GET / HTTP/1.1\r\n\r\n") 0 [5, 11] (HttpParser.new HttpParseMode.REQUEST)).map
        (fun r => (r.events, r.n)) =
      some ([Event.onMessageBeginRequest (bytes "GET") (bytes "/") HttpVersion.VERSION_1_1],
        16) ∧
    (feed (bytes "GET / HTTX/1.1\r\n\r\n") 0 [5, 13] (HttpParser.new HttpParseMode.REQUEST)).map
        (fun r => (r.events, r.p._state)) =
      some ([Event.onProtocolError], HttpParserState.PROTOCOL_ERROR) ∧
    (∃ r, parseAll [(bytes "GET\r\n\r\n", ⟨0, 7⟩)] (HttpParser.new HttpParseMode.REQUEST)
        = some r ∧ StartLog r.events r.p) ∧
    (∃ r, parseFragment (bytes "GET" ++ CR :: bytes "\n\r\n") ⟨0, 7⟩
        (HttpParser.new HttpParseMode.REQUEST) = some r ∧
      r.events = [Event.onProtocolError] ∧ r.p._state = HttpParserState.PROTOCOL_ERROR)) :=
  ⟨by decide, by decide, by decide,
    c15_error_before_first_line_is_alone _ _ _ _ _ _ _ _ (by decide) (by decide) (by decide)⟩

/-- **C16**.  In `REQUEST` mode, after `m SP en SP "HTTP/"` and the major digits, a byte that is
neither a digit nor the dot, and after the major digits, the dot and the minor digits, a byte
that is neither a digit nor CR, makes the call report `onProtocolError` as its only hook, with
no announcement of the request; the parser is left in `PROTOCOL_ERROR` and the byte is not
consumed.  This covers a version without a dot (`"HTTP/0" CR`), a letter after the version
(`"HTTP/1.1b"`) and a space after the version (`"HTTP/1.1 "`). -/
theorem c16_bad_version_byte (m en maj : List Nat) (min : Option (List Nat)) (c : Nat)
    (rest : List Nat) (s : Nat) (hm : TokenStr m) (he : EntityStr en)
    (hmaj : DigitStr maj ∧ maj.length ≤ 9)
    (hmin : DigitStr (min.getD []) ∧ (min.getD []).length ≤ 9)
    (hc : isdigit c = false ∧ c ≠ (if min.isSome then CR else 46))
    (hs : (m ++ SP :: (en ++ SP :: (strHTTP ++ versionText maj min))).length < s) :
    ∃ r, parseFragment (m ++ SP :: (en ++ SP :: (strHTTP ++ (versionText maj min ++ c :: rest))))
        ⟨0, s⟩ (HttpParser.new HttpParseMode.REQUEST) = some r ∧
      r.events = [Event.onProtocolError] ∧ r.p._state = HttpParserState.PROTOCOL_ERROR ∧
      r.n = (m ++ SP :: (en ++ SP :: (strHTTP ++ versionText maj min))).length := by
  have hlen : (m ++ SP :: (en ++ SP :: (strHTTP ++ versionText maj min))).length =
      0 + m.length + 1 + en.length + 1 + 5 + (versionText maj min).length := by
    simp [strHTTP]; omega
  rw [hlen] at hs ⊢
  obtain ⟨q, w, hq, _, _, _, _, hat1⟩ := walk_request_to_version
    (m ++ SP :: (en ++ SP :: (strHTTP ++ (versionText maj min ++ c :: rest)))) (0 + s)
    (p := HttpParser.new HttpParseMode.REQUEST) (i := 0) min rfl rfl hm he hmaj.1
    (fun mn h => by rw [h] at hmin; exact hmin.1)
    (show At _ 0 (m ++ SP :: (en ++ SP :: (strHTTP ++ (versionText maj min ++ c :: rest))))
      from ⟨[], by simp⟩) (by omega)
  obtain ⟨hcc, _⟩ := hat1.head
  cases min with
  | none =>
    simp only [Option.isSome_none, Bool.false_eq_true, if_false] at hc hq
    have w2 := w.concat (walk_VERSION_MAJOR_bad _ _ hq hcc hc.2 hc.1 (by omega))
    exact ⟨_, parse_of_walk_error (new_WF _) w2 rfl, by simp, rfl, by simp⟩
  | some mn =>
    simp only [Option.isSome_some, if_true] at hc hq
    have w2 := w.concat (walk_VERSION_MINOR_bad _ _ hq hcc hc.2 hc.1 (by omega))
    exact ⟨_, parse_of_walk_error (new_WF _) w2 rfl, by simp, rfl, by simp⟩

theorem c16_witness :
    TokenStr (bytes "GET") ∧ EntityStr (bytes "/") ∧
    (DigitStr (bytes "1") ∧ (bytes "1").length ≤ 9) ∧
    (DigitStr ((some (bytes "1")).getD []) ∧ ((some (bytes "1")).getD []).length ≤ 9) ∧
    (isdigit 98 = false ∧ 98 ≠ (if (some (bytes "1")).isSome then CR else 46)) ∧
    (bytes "GET" ++ SP :: (bytes "/" ++ SP :: (strHTTP ++
      versionText (bytes "1") (some (bytes "1"))))).length < 19 ∧
    ∃ r, parseFragment (bytes "GET" ++ SP :: (bytes "/" ++ SP :: (strHTTP ++
          (versionText (bytes "1") (some (bytes "1")) ++ 98 :: bytes "\r\n\r\n"))))
        ⟨0, 19⟩ (HttpParser.new HttpParseMode.REQUEST) = some r ∧
      r.events = [Event.onProtocolError] ∧ r.p._state = HttpParserState.PROTOCOL_ERROR ∧
      r.n = (bytes "GET" ++ SP :: (bytes "/" ++ SP :: (strHTTP ++
        versionText (bytes "1") (some (bytes "1"))))).length :=
  ⟨by decide, by decide, by decide, by decide, by decide, by decide,
    c16_bad_version_byte _ _ _ _ _ _ _ (by decide) (by decide) (by decide) (by decide)
      (by decide) (by decide)⟩

/-- **C17**.  For every supported version `v`, every status code of three digits `a b c` and
every non-empty reason phrase of text octets (which excludes CR and LF), a new `RESPONSE`
parser fed `"HTTP/" maj "." min SP a b c SP reason CR LF` in one call returns the length of the
line, invokes exactly one hook, `onMessageBegin(v, 100 a + 10 b + c, reason)` with the digits
read as numbers, and is left in `HEADER_NAME_BEGIN`. -/
theorem c17_status_line_event (v : HttpVersion) (a b c : Nat) (reason : List Nat)
    (hv : v ≠ HttpVersion.UNKNOWN) (hc : DigitStr [a, b, c]) (hr : ReasonStr reason) :
    ∃ r, parseFragment (statusLine (versionDigits v).1 (versionDigits v).2 [a, b, c] reason)
        ⟨0, (statusLine (versionDigits v).1 (versionDigits v).2 [a, b, c] reason).length⟩
        (HttpParser.new HttpParseMode.RESPONSE) = some r ∧
      r.events = [Event.onMessageBeginResponse v
        (((a : Int) - 48) * 100 + ((b : Int) - 48) * 10 + ((c : Int) - 48)) reason] ∧
      r.p._state = HttpParserState.HEADER_NAME_BEGIN ∧
      r.n = (statusLine (versionDigits v).1 (versionDigits v).2 [a, b, c] reason).length := by
  obtain ⟨hd1, hd2, hmk⟩ := versionDigits_ok hv
  obtain ⟨q, w, hq, _⟩ := walk_status_line
    (statusLine (versionDigits v).1 (versionDigits v).2 [a, b, c] reason)
    (0 + (statusLine (versionDigits v).1 (versionDigits v).2 [a, b, c] reason).length)
    (p := HttpParser.new HttpParseMode.RESPONSE) (i := 0) rfl rfl hd1 hd2
    ⟨by simp, hc⟩ hr (by rw [hmk]; exact hv)
    (show At _ 0 (statusLine (versionDigits v).1 (versionDigits v).2 [a, b, c] reason ++ [])
      from ⟨[], by simp⟩) (le_refl _)
  rw [hmk] at w
  have hval : digitsVal 0 [a, b, c] =
      ((a : Int) - 48) * 100 + ((b : Int) - 48) * 10 + ((c : Int) - 48) := by
    simp only [digitsVal]; ring
  rw [hval] at w
  have h := parse_of_walk_exit (new_WF _) w (by simp [hq])
  exact ⟨_, h, rfl, hq, rfl⟩

theorem c17_witness :
    HttpVersion.VERSION_1_1 ≠ HttpVersion.UNKNOWN ∧ DigitStr [50, 48, 48] ∧
    ReasonStr (bytes "OK") ∧
    ∃ r, parseFragment (statusLine (versionDigits HttpVersion.VERSION_1_1).1
          (versionDigits HttpVersion.VERSION_1_1).2 [50, 48, 48] (bytes "OK"))
        ⟨0, (statusLine (versionDigits HttpVersion.VERSION_1_1).1
          (versionDigits HttpVersion.VERSION_1_1).2 [50, 48, 48] (bytes "OK")).length⟩
        (HttpParser.new HttpParseMode.RESPONSE) = some r ∧
      r.events = [Event.onMessageBeginResponse HttpVersion.VERSION_1_1
        ((((50 : Nat) : Int) - 48) * 100 + (((48 : Nat) : Int) - 48) * 10 +
          (((48 : Nat) : Int) - 48)) (bytes "OK")] ∧
      r.p._state = HttpParserState.HEADER_NAME_BEGIN ∧
      r.n = (statusLine (versionDigits HttpVersion.VERSION_1_1).1
          (versionDigits HttpVersion.VERSION_1_1).2 [50, 48, 48] (bytes "OK")).length :=
  ⟨by decide, by decide, by decide, c17_status_line_event _ _ _ _ _ (by decide) (by decide)
    (by decide)⟩

/-- **C18**, the code at the failing input.  A `RESPONSE` parser that has parsed the response
`"HTTP/1.0 500 Oops"` (ended by `Content-Length: 0` and the blank line) and is then fed the
status line `"HTTP/1.0 200\r\n"`, where CR directly follows the code, announces the second
response with the reason `Oops`, not with the empty reason: `_message` is only assigned by
`STATUS_MESSAGE_BEGIN` and `MESSAGE_BEGIN` does not clear it.  A new parser fed the same status
line announces the empty reason. -/
theorem c18_stale_reason_after_earlier_response :
    (parseFragment bufReasonThenNone ⟨0, 54⟩ (HttpParser.new HttpParseMode.RESPONSE)).map
        (fun r => (r.n, r.events.getLast?, r.p._state)) =
      some (40, some Event.onMessageEnd, HttpParserState.MESSAGE_BEGIN) ∧
    (thenParse bufReasonThenNone ⟨40, 14⟩ false
        (parseFragment bufReasonThenNone ⟨0, 54⟩ (HttpParser.new HttpParseMode.RESPONSE))).map
        (fun r => r.events) =
      some [Event.onMessageBeginResponse HttpVersion.VERSION_1_0 200 (bytes "Oops")] ∧
    (parseFragment bufReasonThenNone ⟨40, 14⟩ (HttpParser.new HttpParseMode.RESPONSE)).map
        (fun r => r.events) =
      some [Event.onMessageBeginResponse HttpVersion.VERSION_1_0 200 []] := by
  decide

/-- **C19**, the code at the failing inputs.  A new `RESPONSE` parser fed the status line
`"HTTP/1.1 20 OK\r\n"`, whose code has two digits, announces the response with code 20, and
fed `"HTTP/1.1 2000 OK\r\n"`, whose code has four digits, announces it with code 2000; in both
cases no protocol error is reported and the parser goes on to the headers: `STATUS_CODE`
accepts any number of digits. -/
theorem c19_status_code_length_unchecked :
    (parseFragment bufShortLongCode ⟨0, 16⟩ (HttpParser.new HttpParseMode.RESPONSE)).map
        (fun r => (r.events, r.p._state)) =
      some ([Event.onMessageBeginResponse HttpVersion.VERSION_1_1 20 (bytes "OK")],
        HttpParserState.HEADER_NAME_BEGIN) ∧
    (parseFragment bufShortLongCode ⟨16, 18⟩ (HttpParser.new HttpParseMode.RESPONSE)).map
        (fun r => (r.events, r.p._state)) =
      some ([Event.onMessageBeginResponse HttpVersion.VERSION_1_1 2000 (bytes "OK")],
        HttpParserState.HEADER_NAME_BEGIN) := by
  decide

/-- **C20**.  `isContentExpected()` holds exactly when `_contentLength > 0`, or `_chunked` is
set, or `_contentLength < 0` and the mode is not `REQUEST`.  The iteration that reads the LF
of the blank line (state `HEADER_END_LF`) consumes it and invokes `onMessageHeaderEnd`; when
`isContentExpected()` is false it then invokes `onMessageEnd`, leaves the parser in
`MESSAGE_BEGIN` and leaves the loop, otherwise it invokes nothing else and leaves the parser in
`CONTENT_BEGIN`.  The call as a whole does not keep to this in `RESPONSE` mode when the
fragment ends with the blank line.  After the first 18 bytes of `"HTTP/1.1 200 OK\r\n\r\n"`
the parser waits in `HEADER_END_LF` for the last LF and `isContentExpected()` is true; the
iteration on that LF invokes `onMessageHeaderEnd` alone and moves to `CONTENT_BEGIN`; yet the
call on all 19 bytes (the head of `bufResponseBody`) invokes `onMessageEnd` right after
`onMessageHeaderEnd` and leaves the parser in `MESSAGE_BEGIN`, through the test after the loop
(`_mode != MESSAGE`).  When a body byte follows in the same fragment the call does go on to
the content states and invokes no `onMessageEnd`; in `MESSAGE` mode the call on the head
alone ends in `CONTENT_BEGIN` without `onMessageEnd`; and in `REQUEST` mode, where
`isContentExpected()` is false, `onMessageEnd` follows at once. -/
theorem c20_message_end_although_content_expected :
    (∀ p : HttpParser, p.isContentExpected = true ↔
      (0 < p._contentLength ∨ p._chunked = true ∨
        (p._contentLength < 0 ∧ p._mode ≠ HttpParseMode.REQUEST))) ∧
    (∀ (mem : List Nat) (e : Nat) (p : HttpParser) (i : Nat),
      p._state = HttpParserState.HEADER_END_LF → mem.getD i 0 = LF →
      (p.isContentExpected = false →
        step mem e p i =
          (⟨{ p with _state := HttpParserState.MESSAGE_BEGIN,
                     _bytesReceived := p._bytesReceived + 1 }, i + 1,
            [Event.onMessageHeaderEnd, Event.onMessageEnd]⟩, true)) ∧
      (p.isContentExpected = true →
        step mem e p i =
          (⟨{ p with _state := HttpParserState.CONTENT_BEGIN,
                     _bytesReceived := p._bytesReceived + 1 }, i + 1,
            [Event.onMessageHeaderEnd]⟩, false))) ∧
    (parseFragment bufResponseBody ⟨0, 18⟩ (HttpParser.new HttpParseMode.RESPONSE)).map
        (fun r => (r.p._state, r.p.isContentExpected, r.n,
          (step bufResponseBody 19 r.p 18).1.out, (step bufResponseBody 19 r.p 18).1.p._state,
          (step bufResponseBody 19 r.p 18).2)) =
      some (HttpParserState.HEADER_END_LF, true, 18, [Event.onMessageHeaderEnd],
        HttpParserState.CONTENT_BEGIN, false) ∧
    (parseFragment bufResponseBody ⟨0, 19⟩ (HttpParser.new HttpParseMode.RESPONSE)).map
        (fun r => (r.events, r.n, r.p._state)) =
      some ([Event.onMessageBeginResponse HttpVersion.VERSION_1_1 200 (bytes "OK"),
        Event.onMessageHeaderEnd, Event.onMessageEnd], 19, HttpParserState.MESSAGE_BEGIN) ∧
    (parseFragment bufResponseBody ⟨0, 20⟩ (HttpParser.new HttpParseMode.RESPONSE)).map
        (fun r => (r.events, r.n, r.p._state)) =
      some ([Event.onMessageBeginResponse HttpVersion.VERSION_1_1 200 (bytes "OK"),
        Event.onMessageHeaderEnd, Event.onMessageContent (bytes "b")], 20,
        HttpParserState.CONTENT_ENDLESS) ∧
    (parseFragment bufMessageBody ⟨0, 12⟩ (HttpParser.new HttpParseMode.MESSAGE)).map
        (fun r => (r.events, r.n, r.p._state, r.p.isContentExpected)) =
      some ([Event.onMessageBegin, Event.onMessageHeader (bytes "Foo") (bytes "bar"),
        Event.onMessageHeaderEnd], 12, HttpParserState.CONTENT_BEGIN, true) ∧
    (parseFragment (bytes "GET / HTTP/1.1\r\n\r\n") ⟨0, 17⟩
        (HttpParser.new HttpParseMode.REQUEST)).map
        (fun r => (r.p._state, r.p.isContentExpected)) =
      some (HttpParserState.HEADER_END_LF, false) ∧
    (parseFragment (bytes "GET / HTTP/1.1\r\n\r\n") ⟨0, 18⟩
        (HttpParser.new HttpParseMode.REQUEST)).map (fun r => (r.events, r.n, r.p._state)) =
      some ([Event.onMessageBeginRequest (bytes "GET") (bytes "/") HttpVersion.VERSION_1_1,
        Event.onMessageHeaderEnd, Event.onMessageEnd], 18, HttpParserState.MESSAGE_BEGIN) := by
  refine ⟨fun p => by simp [HttpParser.isContentExpected, or_assoc], ?_, by decide, by decide,
    by decide, by decide, by decide, by decide⟩
  intro mem e p i hs hc
  have hstep := step_HEADER_END_LF mem e hs hc
  constructor
  · intro h
    rw [hstep, h]
    rfl
  · intro h
    rw [hstep, h]
    rfl

/-- **C21**.  When the header that `HEADER_VALUE_END` completes has a name equal to
`Transfer-Encoding` ignoring ASCII case: if its value equals `chunked` ignoring ASCII case, the
iteration sets `_chunked` and invokes no hook; for every other value it invokes exactly
`onMessageHeader(name, value)` with the name and the value as received and leaves `_chunked`
as it was.  In both cases it clears the name and the value and goes back to
`HEADER_NAME_BEGIN` without consuming a byte. -/
theorem c21_transfer_encoding_header (mem : List Nat) (e : Nat) (p : HttpParser) (i : Nat)
    (hs : p._state = HttpParserState.HEADER_VALUE_END)
    (hn : sameIgnoringCase (p._name.read mem) strTransferEncoding) :
    (sameIgnoringCase (p._value.read mem) strChunked →
      step mem e p i =
        (⟨{ p with _chunked := true, _name := ⟨0, 0⟩, _value := ⟨0, 0⟩,
                   _state := HttpParserState.HEADER_NAME_BEGIN }, i, []⟩, false)) ∧
    (¬ sameIgnoringCase (p._value.read mem) strChunked →
      step mem e p i =
        (⟨{ p with _name := ⟨0, 0⟩, _value := ⟨0, 0⟩,
                   _state := HttpParserState.HEADER_NAME_BEGIN }, i,
          [Event.onMessageHeader (p._name.read mem) (p._value.read mem)]⟩, false)) := by
  have hte : iequals (p._name.read mem) strTransferEncoding = true := (iequals_iff _ _).2 hn
  have hcl : iequals (p._name.read mem) strContentLength = false := by
    have h17 := iequals_length hte
    cases hcl : iequals (p._name.read mem) strContentLength
    · rfl
    · have h14 := iequals_length hcl
      rw [h14] at h17
      cases h17
  constructor
  · intro hv
    have hch : iequals (p._value.read mem) strChunked = true := (iequals_iff _ _).2 hv
    simp only [step, hs, caseHeaderValueEnd, hte, hcl, hch, if_true, if_false,
      Bool.false_eq_true]
  · intro hv
    have hch : iequals (p._value.read mem) strChunked = false := by
      cases h : iequals (p._value.read mem) strChunked
      · rfl
      · exact absurd ((iequals_iff _ _).1 h) hv
    simp only [step, hs, caseHeaderValueEnd, hte, hcl, hch, if_true, if_false,
      Bool.false_eq_true]

theorem c21_witness :
    exAtValueEnd._state = HttpParserState.HEADER_VALUE_END ∧
    sameIgnoringCase (exAtValueEnd._name.read bufTransferChunked) strTransferEncoding ∧
    step bufTransferChunked 29 exAtValueEnd 28 =
      (⟨{ exAtValueEnd with _chunked := true, _name := ⟨0, 0⟩, _value := ⟨0, 0⟩,
                            _state := HttpParserState.HEADER_NAME_BEGIN }, 28, []⟩, false) :=
  ⟨rfl, by decide,
    (c21_transfer_encoding_header bufTransferChunked 29 exAtValueEnd 28 rfl (by decide)).1
      (by decide)⟩

/-- **C22**.  When the header that `HEADER_VALUE_END` completes has a name equal to
`Content-Length` ignoring ASCII case, the iteration sets `_contentLength` to `parseInt(value)`
and still invokes exactly `onMessageHeader(name, value)`.  For a value of at most 18 decimal
digits `parseInt(value)` is the number the digits denote, a number below `10 ^ 18`, and the
accumulator stays within the range of a 64-bit `ssize_t` at every digit: with `u` the digits
before a digit `c`, the accumulator holds `parseInt(u)`, and `parseInt(u) * 10`,
`parseInt(u) * 10 + c` and `parseInt(u) * 10 + c - '0'` lie between 0 and `2 ^ 63 - 1`.
(Longer digit strings can leave that range; nothing is stated about them.)  So the `MESSAGE`
input with the headers `Foo: the foo` and `Content-Length: 6` reports two headers, `Foo`
first. -/
theorem c22_content_length_decimal (mem : List Nat) (e : Nat) (p : HttpParser) (i : Nat)
    (hs : p._state = HttpParserState.HEADER_VALUE_END)
    (hn : sameIgnoringCase (p._name.read mem) strContentLength) :
    step mem e p i =
      (⟨{ p with _contentLength := parseInt (p._value.read mem), _name := ⟨0, 0⟩,
                 _value := ⟨0, 0⟩, _state := HttpParserState.HEADER_NAME_BEGIN }, i,
        [Event.onMessageHeader (p._name.read mem) (p._value.read mem)]⟩, false) ∧
    (DigitStr (p._value.read mem) → (p._value.read mem).length ≤ 18 →
      parseInt (p._value.read mem) = decimalValue (p._value.read mem) ∧
      0 ≤ decimalValue (p._value.read mem) ∧ decimalValue (p._value.read mem) < 10 ^ 18 ∧
      ∀ (u : List Nat) (c : Nat) (w : List Nat), p._value.read mem = u ++ c :: w →
        parseInt (p._value.read mem) = parseIntLoop (parseInt u * 10 + (c : Int) - 48) w ∧
        0 ≤ parseInt u ∧ parseInt u * 10 + (c : Int) < 2 ^ 63 ∧
        0 ≤ parseInt u * 10 + (c : Int) - 48) ∧
    (parseFragment (bytes "Foo: the foo\r\nContent-Length: 6\r\n\r\n123456") ⟨0, 41⟩
        (HttpParser.new HttpParseMode.MESSAGE)).map (fun r => r.events) =
      some [Event.onMessageBegin, Event.onMessageHeader (bytes "Foo") (bytes "the foo"),
        Event.onMessageHeader (bytes "Content-Length") (bytes "6"), Event.onMessageHeaderEnd,
        Event.onMessageContent (bytes "123456"), Event.onMessageEnd] := by
  have hcl : iequals (p._name.read mem) strContentLength = true := (iequals_iff _ _).2 hn
  refine ⟨?_, ?_, by decide⟩
  · simp only [step, hs, caseHeaderValueEnd, hcl, if_true]
  · intro hd hlen
    have hb := decimalValue_bounds hd
    have hpow : (10 : Int) ^ (p._value.read mem).length ≤ 10 ^ 18 :=
      pow_le_pow_right₀ (by norm_num) hlen
    exact ⟨parseInt_digits hd, hb.1, lt_of_lt_of_le hb.2 hpow,
      fun u c w hv => parseInt_in_range hd hlen hv⟩

theorem c22_decimal_witness :
    exAtLengthEnd._state = HttpParserState.HEADER_VALUE_END ∧
    sameIgnoringCase (exAtLengthEnd._name.read bufLength42) strContentLength ∧
    DigitStr (exAtLengthEnd._value.read bufLength42) ∧
    (exAtLengthEnd._value.read bufLength42).length ≤ 18 ∧
    step bufLength42 21 exAtLengthEnd 20 =
      (⟨{ exAtLengthEnd with _contentLength := parseInt (exAtLengthEnd._value.read bufLength42),
                             _name := ⟨0, 0⟩, _value := ⟨0, 0⟩,
                             _state := HttpParserState.HEADER_NAME_BEGIN }, 20,
        [Event.onMessageHeader (bytes "content-LENGTH") (bytes "42")]⟩, false) ∧
    parseInt (exAtLengthEnd._value.read bufLength42) =
      decimalValue (exAtLengthEnd._value.read bufLength42) ∧
    decimalValue (exAtLengthEnd._value.read bufLength42) = 42 :=
  ⟨rfl, by decide, by decide, by decide,
    (c22_content_length_decimal bufLength42 21 exAtLengthEnd 20 rfl (by decide)).1,
    ((c22_content_length_decimal bufLength42 21 exAtLengthEnd 20 rfl (by decide)).2.1
      (by decide) (by decide)).1,
    by decide⟩

/-- **C23**.  For every message with a valid first line whose header block is a list `hs` of
lines `Ni ": " Vi CR LF` (each `Ni` a non-empty token other than `Content-Length` and
`Transfer-Encoding`, each `Vi` a non-empty run of text octets that does not start with SP or
HT) followed by the blank line, a call on a fragment that holds at least the head returns and
invokes the hook of the first line, then one `onMessageHeader(Ni, Vi)` per line in the order
of the lines, then `onMessageHeaderEnd`, then the hooks of the body; the `onMessageHeader`
hooks of the call are exactly the pairs `(Ni, Vi)` in order. -/
theorem c23_headers_forwarded_in_order (mem : List Nat) (b s : Nat) (p : HttpParser)
    (st : StartLine) (hs : List (List Nat × List Nat)) (rest : List Nat)
    (hst : p._state = HttpParserState.MESSAGE_BEGIN) (hm : p._mode = st.mode)
    (hch : p._chunked = false) (hv : st.Valid) (hp : ∀ h ∈ hs, PlainHeader h)
    (hat : At mem b (messageHead st hs ++ rest)) (hle : (messageHead st hs).length ≤ s) :
    ∃ r, parseFragment mem ⟨b, s⟩ p = some r ∧
      r.events = st.events ++ (hs.map (fun h => Event.onMessageHeader h.1 h.2) ++
        Event.onMessageHeaderEnd ::
          bodyTail st.mode mem (b + (messageHead st hs).length) (b + s)) ∧
      headersOf r.events = hs := by
  have hlen : (messageHead st hs).length = st.text.length + (headerBlock hs).length + 2 := by
    simp [messageHead]; omega
  have hat1 : At mem b (st.text ++ (headerBlock hs ++ CR :: LF :: rest)) := by
    simpa [messageHead] using hat
  obtain ⟨q, w, hq, hqm, hqc, hql, hat2⟩ :=
    walk_lines mem (b + s) st hs hst hm hv (fun h hh => ⟨(hp h hh).1, (hp h hh).2.1⟩) hat1
      (by decide) (by decide) (by omega)
  rw [blockFraming_plain hs _ _ hp] at hqc hql
  rw [blockEvents_plain hs hp] at w
  obtain ⟨r, hr, hev, _⟩ := parse_after_headers (wf_of_state (Or.inr hst)) w hq
    (hqc.trans hch) hql hat2 (by omega) (by omega)
  have hev' : r.events = st.events ++ (hs.map (fun h => Event.onMessageHeader h.1 h.2) ++
      Event.onMessageHeaderEnd ::
        bodyTail st.mode mem (b + (messageHead st hs).length) (b + s)) := by
    rw [hev, hqm, hm, hlen]
    simp [Nat.add_assoc]
  refine ⟨r, hr, hev', ?_⟩
  rw [hev']
  simp [headersOf_append, headersOf_map, headersOf_start, headersOf, headersOf_bodyTail]

theorem c23_witness :
    (HttpParser.new HttpParseMode.REQUEST)._state = HttpParserState.MESSAGE_BEGIN ∧
    (StartLine.request (bytes "GET") (bytes "/") HttpVersion.VERSION_0_9).Valid ∧
    (∀ h ∈ [(bytes "Foo", bytes "the foo"), (bytes "X-Bar", bytes "the bar")],
      PlainHeader h) ∧
    ∃ r, parseFragment (bytes "GET / HTTP/0.9\r\nFoo: the foo\r\nX-Bar: the bar\r\n\r\n")
        ⟨0, 48⟩ (HttpParser.new HttpParseMode.REQUEST) = some r ∧
      r.events = [Event.onMessageBeginRequest (bytes "GET") (bytes "/") HttpVersion.VERSION_0_9,
        Event.onMessageHeader (bytes "Foo") (bytes "the foo"),
        Event.onMessageHeader (bytes "X-Bar") (bytes "the bar"),
        Event.onMessageHeaderEnd, Event.onMessageEnd] ∧
      headersOf r.events = [(bytes "Foo", bytes "the foo"), (bytes "X-Bar", bytes "the bar")] :=
  ⟨rfl, by decide, by decide,
    c23_headers_forwarded_in_order
      (bytes "GET / HTTP/0.9\r\nFoo: the foo\r\nX-Bar: the bar\r\n\r\n") 0 48
      (HttpParser.new HttpParseMode.REQUEST)
      (StartLine.request (bytes "GET") (bytes "/") HttpVersion.VERSION_0_9)
      [(bytes "Foo", bytes "the foo"), (bytes "X-Bar", bytes "the bar")] []
      rfl rfl rfl (by decide) (by decide) ⟨[], by decide⟩ (by decide)⟩

/-- **C24**, counterexample.  Text octets include SP and HT, and the whitespace that follows
the colon is skipped.  With `a = " x"`, `w = " "`, `b = "y"` the line `N: a CR LF w b CR LF`
of a `MESSAGE` is forwarded with the value `"x\r\n y"`, which is not `a CR LF w b`; with
`a = " "` the parser forwards an empty value for the first line and reports a protocol error
at the continuation line. -/
theorem c24_counterexample :
    (TextStr (bytes " x") ∧ BlankStr (bytes " ") ∧ TextStr (bytes "y") ∧
      (parseFragment (foldedLine (bytes "N") (bytes " x") (bytes " ") (bytes "y") ++ [CR, LF])
          ⟨0, 13⟩ (HttpParser.new HttpParseMode.MESSAGE)).map (fun r => r.events) =
        some [Event.onMessageBegin, Event.onMessageHeader (bytes "N") (bytes "x\r\n y"),
          Event.onMessageHeaderEnd] ∧
      bytes "x\r\n y" ≠ foldedValue (bytes " x") (bytes " ") (bytes "y")) ∧
    (TextStr (bytes " ") ∧
      (parseFragment (foldedLine (bytes "N") (bytes " ") (bytes " ") (bytes "y") ++ [CR, LF])
          ⟨0, 12⟩ (HttpParser.new HttpParseMode.MESSAGE)).map (fun r => r.events) =
        some [Event.onMessageBegin, Event.onMessageHeader (bytes "N") [],
          Event.onProtocolError]) := by
  decide

/-- **C24** (amended).  A folded header value keeps its raw bytes when its first line does not
begin with SP or HT.  For every message with a valid first line, plain header lines `pre`,
the line pair `N ": " a CR LF w b CR LF` (`N` a non-empty token, `a` a non-empty run of text
octets not starting with SP or HT, `w` one or more SP/HT bytes, `b` a non-empty run of text
octets), plain header lines `post` and the blank line, a call on a fragment that holds at
least the head invokes exactly one `onMessageHeader` for the line pair, between those of
`pre` and of `post`, and its value is the byte string `a CR LF w b`. -/
theorem c24_folded_value_keeps_raw_bytes (mem : List Nat) (b s : Nat) (p : HttpParser)
    (st : StartLine) (pre post : List (List Nat × List Nat)) (N a w bb rest : List Nat)
    (hst : p._state = HttpParserState.MESSAGE_BEGIN) (hm : p._mode = st.mode)
    (hch : p._chunked = false) (hv : st.Valid)
    (hpre : ∀ h ∈ pre, PlainHeader h) (hpost : ∀ h ∈ post, PlainHeader h)
    (hN : TokenStr N) (ha : ValueStr a) (hw : BlankStr w) (hb : TextStr bb)
    (hat : At mem b (st.text ++ (headerBlock pre ++ (foldedLine N a w bb ++
      (headerBlock post ++ CR :: LF :: rest)))))
    (hle : st.text.length + (headerBlock pre).length + (foldedLine N a w bb).length +
      (headerBlock post).length + 2 ≤ s) :
    ∃ r, parseFragment mem ⟨b, s⟩ p = some r ∧
      r.events = st.events ++ (pre.map (fun h => Event.onMessageHeader h.1 h.2) ++
        (Event.onMessageHeader N (foldedValue a w bb) ::
          (post.map (fun h => Event.onMessageHeader h.1 h.2) ++
            Event.onMessageHeaderEnd :: bodyTail st.mode mem
              (b + (st.text.length + (headerBlock pre).length + (foldedLine N a w bb).length +
                (headerBlock post).length + 2)) (b + s)))) ∧
      headersOf r.events = pre ++ (N, foldedValue a w bb) :: post := by
  have hplain : ∀ (hs : List (List Nat × List Nat)), (∀ h ∈ hs, PlainHeader h) →
      ∀ h ∈ hs, TokenStr h.1 ∧ ValueStr h.2 :=
    fun hs hp h hh => ⟨(hp h hh).1, (hp h hh).2.1⟩
  obtain ⟨c0, rest0, h0, h01, h02⟩ :=
    tokenStr_head hN (58 :: SP :: (a ++ CR :: LF :: (w ++ (bb ++ [CR, LF]))) ++
      (headerBlock post ++ CR :: LF :: rest))
  have hfl : foldedLine N a w bb ++ (headerBlock post ++ CR :: LF :: rest) = c0 :: rest0 := by
    rw [← h0]; simp [foldedLine]
  rw [hfl] at hat
  obtain ⟨q1, w1, hq1, hm1, hch1, hcl1, hat1⟩ :=
    walk_lines mem (b + s) st pre hst hm hv (hplain pre hpre) hat h01 h02 (by omega)
  rw [blockFraming_plain pre _ _ hpre] at hch1 hcl1
  rw [blockEvents_plain pre hpre] at w1
  rw [← hfl] at hat1
  obtain ⟨c1, rest1, h1, h11, h12⟩ :=
    @headerBlock_head post CR (LF :: rest) (hplain post hpost) (by decide) (by decide)
  rw [h1] at hat1
  obtain ⟨q2, w2, hq2, hm2, hch2, hcl2, hat2⟩ :=
    walk_folded_line mem (b + s) hq1 hN ha hw hb hat1 h11 h12 (by omega)
  rw [hcl1, headerFraming_folded] at hch2 hcl2
  rw [← h1] at hat2
  obtain ⟨q3, w3, hq3, hm3, hch3, hcl3, hat3⟩ :=
    walk_header_block mem (b + s) post q2 _ CR (LF :: rest) hq2 (hplain post hpost) hat2
      (by decide) (by decide) (by omega)
  rw [blockFraming_plain post _ _ hpost] at hch3 hcl3
  rw [blockEvents_plain post hpost] at w3
  obtain ⟨r, hr, hev, _⟩ := parse_after_headers (wf_of_state (Or.inr hst))
    ((w1.concat w2).concat w3) hq3
    (by rw [hch3, hch2, hch1]; exact hch) (by rw [hcl3, hcl2]) hat3 (by omega) (by omega)
  have hev' : r.events = st.events ++ (pre.map (fun h => Event.onMessageHeader h.1 h.2) ++
      (Event.onMessageHeader N (foldedValue a w bb) ::
        (post.map (fun h => Event.onMessageHeader h.1 h.2) ++
          Event.onMessageHeaderEnd :: bodyTail st.mode mem
            (b + (st.text.length + (headerBlock pre).length + (foldedLine N a w bb).length +
              (headerBlock post).length + 2)) (b + s)))) := by
    rw [hev, hm3, hm2, hm1, hm]
    simp [Nat.add_assoc]
  refine ⟨r, hr, hev', ?_⟩
  rw [hev']
  simp [headersOf_append, headersOf_map, headersOf_start, headersOf, headersOf_bodyTail]

theorem c24_witness :
    (HttpParser.new HttpParseMode.MESSAGE)._state = HttpParserState.MESSAGE_BEGIN ∧
    (∀ h ∈ [(bytes "Foo", bytes "the foo")], PlainHeader h) ∧
    TokenStr (bytes "X-Long") ∧ ValueStr (bytes "first part") ∧ BlankStr [SP, HT] ∧
    TextStr (bytes "second part") ∧
    ∃ r, parseFragment
        (bytes "Foo: the foo\r\nX-Long: first part\r\n \tsecond part\r\n\r\nbody") ⟨0, 51⟩
        (HttpParser.new HttpParseMode.MESSAGE) = some r ∧
      r.events = [Event.onMessageBegin, Event.onMessageHeader (bytes "Foo") (bytes "the foo"),
        Event.onMessageHeader (bytes "X-Long") (bytes "first part\r\n \tsecond part"),
        Event.onMessageHeaderEnd] ∧
      headersOf r.events = [(bytes "Foo", bytes "the foo"),
        (bytes "X-Long", bytes "first part\r\n \tsecond part")] :=
  ⟨rfl, by decide, by decide, by decide, by decide, by decide,
    c24_folded_value_keeps_raw_bytes
      (bytes "Foo: the foo\r\nX-Long: first part\r\n \tsecond part\r\n\r\nbody") 0 51
      (HttpParser.new HttpParseMode.MESSAGE) StartLine.message
      [(bytes "Foo", bytes "the foo")] [] (bytes "X-Long") (bytes "first part") [SP, HT]
      (bytes "second part") (bytes "body") rfl rfl rfl trivial (by decide) (by simp)
      (by decide) (by decide) (by decide) (by decide) ⟨[], by decide⟩ (by decide)⟩

/-- **C25**.  Whitespace between a header name and its colon is rejected.  For every non-empty
token `N` followed by SP or HT: (1) a parser in `HEADER_NAME_BEGIN` fed a fragment that begins
with `N` and the whitespace byte reports `onProtocolError` and nothing else, returns the
length of `N` and is left in `PROTOCOL_ERROR`; (2) a parser at the start of a message fed a
fragment holding a valid first line, well-formed header lines `pre`, then `N` and the
whitespace byte, invokes the hooks of the first line and of `pre`, then `onProtocolError`,
and returns the number of bytes before the whitespace byte.  No `onMessageHeader` is invoked
for `N`. -/
theorem c25_space_before_colon_rejected (mem : List Nat) (b s : Nat) (p : HttpParser)
    (N : List Nat) (c : Nat) (rest : List Nat) (hN : TokenStr N) (hc : c = SP ∨ c = HT) :
    (p._state = HttpParserState.HEADER_NAME_BEGIN → At mem b (N ++ c :: rest) →
      N.length < s →
      ∃ r, parseFragment mem ⟨b, s⟩ p = some r ∧ r.events = [Event.onProtocolError] ∧
        r.n = N.length ∧ r.p._state = HttpParserState.PROTOCOL_ERROR) ∧
    (∀ (st : StartLine) (pre : List (List Nat × List Nat)),
      p._state = HttpParserState.MESSAGE_BEGIN → p._mode = st.mode → st.Valid →
      (∀ h ∈ pre, TokenStr h.1 ∧ ValueStr h.2) →
      At mem b (st.text ++ (headerBlock pre ++ (N ++ c :: rest))) →
      st.text.length + (headerBlock pre).length + N.length < s →
      ∃ r, parseFragment mem ⟨b, s⟩ p = some r ∧
        r.events = st.events ++ (blockEvents pre ++ [Event.onProtocolError]) ∧
        r.n = st.text.length + (headerBlock pre).length + N.length ∧
        r.p._state = HttpParserState.PROTOCOL_ERROR) := by
  constructor
  · intro hp hat hs
    obtain ⟨q, w, hq⟩ := walk_name_space mem (b + s) hp hN hc hat (by omega)
    exact ⟨_, parse_of_walk_error (wf_of_state (Or.inl hp)) w hq, rfl,
      by show b + N.length - b = N.length; omega, hq⟩
  · intro st pre hp hm hv hh hat hs
    obtain ⟨c0, rest0, h0, h01, h02⟩ := tokenStr_head hN (c :: rest)
    rw [h0] at hat
    obtain ⟨q1, w1, hq1, _, _, _, hat1⟩ :=
      walk_lines mem (b + s) st pre hp hm hv hh hat h01 h02 (by omega)
    rw [← h0] at hat1
    obtain ⟨q, w, hq⟩ := walk_name_space mem (b + s) hq1 hN hc hat1 (by omega)
    refine ⟨_, parse_of_walk_error (wf_of_state (Or.inr hp)) (w1.concat w) hq,
      by simp, ?_, hq⟩
    show b + st.text.length + (headerBlock pre).length + N.length - b = _
    omega

theorem c25_witness :
    TokenStr (bytes "Foo") ∧ (SP = SP ∨ SP = HT) ∧
    ∃ r, parseFragment (bytes "Foo : the foo\r\n\r\n") ⟨0, 17⟩
        (HttpParser.new HttpParseMode.MESSAGE) = some r ∧
      r.events = [Event.onMessageBegin, Event.onProtocolError] ∧ r.n = 3 ∧
      r.p._state = HttpParserState.PROTOCOL_ERROR :=
  ⟨by decide, by decide,
    (c25_space_before_colon_rejected (bytes "Foo : the foo\r\n\r\n") 0 17
      (HttpParser.new HttpParseMode.MESSAGE) (bytes "Foo") SP (bytes ": the foo\r\n\r\n")
      (by decide) (by decide)).2 StartLine.message [] rfl rfl trivial (by simp)
      ⟨[], by decide⟩ (by decide)⟩

/-- **C26**.  A header name with no colon is rejected.  For every non-empty token `N` followed
by CR LF and a byte that is neither SP nor HT: (1) a parser in `HEADER_NAME_BEGIN` fed a
fragment that begins with these bytes reports `onProtocolError` and nothing else, returns the
length of `N` plus 2 (the name and the CR LF, not the following byte) and is left in
`PROTOCOL_ERROR`; (2) a parser at the start of a message fed a fragment holding a valid first
line, well-formed header lines `pre`, then these bytes, invokes the hooks of the first line
and of `pre`, then `onProtocolError`, and returns the number of bytes up to and including
the CR LF.  No `onMessageHeader` is invoked for `N`. -/
theorem c26_name_without_colon_rejected (mem : List Nat) (b s : Nat) (p : HttpParser)
    (N : List Nat) (c : Nat) (rest : List Nat) (hN : TokenStr N) (hc : c ≠ SP ∧ c ≠ HT) :
    (p._state = HttpParserState.HEADER_NAME_BEGIN → At mem b (N ++ CR :: LF :: c :: rest) →
      N.length + 2 < s →
      ∃ r, parseFragment mem ⟨b, s⟩ p = some r ∧ r.events = [Event.onProtocolError] ∧
        r.n = N.length + 2 ∧ r.p._state = HttpParserState.PROTOCOL_ERROR) ∧
    (∀ (st : StartLine) (pre : List (List Nat × List Nat)),
      p._state = HttpParserState.MESSAGE_BEGIN → p._mode = st.mode → st.Valid →
      (∀ h ∈ pre, TokenStr h.1 ∧ ValueStr h.2) →
      At mem b (st.text ++ (headerBlock pre ++ (N ++ CR :: LF :: c :: rest))) →
      st.text.length + (headerBlock pre).length + N.length + 2 < s →
      ∃ r, parseFragment mem ⟨b, s⟩ p = some r ∧
        r.events = st.events ++ (blockEvents pre ++ [Event.onProtocolError]) ∧
        r.n = st.text.length + (headerBlock pre).length + N.length + 2 ∧
        r.p._state = HttpParserState.PROTOCOL_ERROR) := by
  constructor
  · intro hp hat hs
    obtain ⟨q, w, hq⟩ := walk_name_crlf mem (b + s) hp hN hc hat (by omega)
    exact ⟨_, parse_of_walk_error (wf_of_state (Or.inl hp)) w hq, rfl,
      by show b + N.length + 2 - b = N.length + 2; omega, hq⟩
  · intro st pre hp hm hv hh hat hs
    obtain ⟨c0, rest0, h0, h01, h02⟩ := tokenStr_head hN (CR :: LF :: c :: rest)
    rw [h0] at hat
    obtain ⟨q1, w1, hq1, _, _, _, hat1⟩ :=
      walk_lines mem (b + s) st pre hp hm hv hh hat h01 h02 (by omega)
    rw [← h0] at hat1
    obtain ⟨q, w, hq⟩ := walk_name_crlf mem (b + s) hq1 hN hc hat1 (by omega)
    refine ⟨_, parse_of_walk_error (wf_of_state (Or.inr hp)) (w1.concat w) hq,
      by simp, ?_, hq⟩
    show b + st.text.length + (headerBlock pre).length + N.length + 2 - b = _
    omega

theorem c26_witness :
    TokenStr (bytes "Foo") ∧ (CR ≠ SP ∧ CR ≠ HT) ∧
    ∃ r, parseFragment (bytes "Foo\r\n\r\n") ⟨0, 7⟩
        (HttpParser.new HttpParseMode.MESSAGE) = some r ∧
      r.events = [Event.onMessageBegin, Event.onProtocolError] ∧ r.n = 5 ∧
      r.p._state = HttpParserState.PROTOCOL_ERROR :=
  ⟨by decide, by decide,
    (c26_name_without_colon_rejected (bytes "Foo\r\n\r\n") 0 7
      (HttpParser.new HttpParseMode.MESSAGE) (bytes "Foo") CR [LF]
      (by decide) (by decide)).2 StartLine.message [] rfl rfl trivial (by simp)
      ⟨[], by decide⟩ (by decide)⟩

/-- **C27**.  In a chunked body the data of a chunk must be followed by CR LF.  For every
message with a valid first line and a `Transfer-Encoding: chunked` header, followed by
well-formed chunks `chunks` and then by a chunk `hex CR LF data` of declared size
`data.length > 0` whose data is followed by a byte other than CR: one call on a fragment
that holds at least that byte invokes the hooks of the head and of the chunks, then
`onMessageContent(data)`, then `onProtocolError`, nothing after it; the returned count ends
exactly after the data bytes and the parser is left in `PROTOCOL_ERROR`. -/
theorem c27_chunk_data_needs_crlf (mem : List Nat) (b s : Nat) (p : HttpParser)
    (st : StartLine) (pre post : List (List Nat × List Nat)) (n v : List Nat)
    (chunks : List (List Nat × List Nat)) (hex data : List Nat) (c : Nat) (rest : List Nat)
    (hst : p._state = HttpParserState.MESSAGE_BEGIN) (hm : p._mode = st.mode)
    (hv : st.Valid)
    (hpre : ∀ h ∈ pre, OtherHeader h) (hpost : ∀ h ∈ post, OtherHeader h)
    (hn : TokenStr n ∧ iequals n strTransferEncoding = true)
    (hc : ValueStr v ∧ iequals v strChunked = true) (hok : ∀ c ∈ chunks, ChunkOk c)
    (hbad : ChunkOk (hex, data)) (hcr : c ≠ CR)
    (hat : At mem b (messageHead st (pre ++ (n, v) :: post) ++
      (chunksText chunks ++ (hex ++ CR :: LF :: (data ++ c :: rest)))))
    (hs : (messageHead st (pre ++ (n, v) :: post)).length + (chunksText chunks).length +
      hex.length + 2 + data.length < s) :
    ∃ r, parseFragment mem ⟨b, s⟩ p = some r ∧
      r.events = st.events ++ ((pre ++ post).map (fun h => Event.onMessageHeader h.1 h.2) ++
        (Event.onMessageHeaderEnd :: (chunks.map (fun c => Event.onMessageContent c.2) ++
          [Event.onMessageContent data, Event.onProtocolError]))) ∧
      r.n = (messageHead st (pre ++ (n, v) :: post)).length + (chunksText chunks).length +
        hex.length + 2 + data.length ∧
      r.p._state = HttpParserState.PROTOCOL_ERROR := by
  have hh : ∀ h ∈ pre ++ (n, v) :: post, TokenStr h.1 ∧ ValueStr h.2 := by
    intro h hmem
    simp only [List.mem_append, List.mem_cons] at hmem
    rcases hmem with h1 | h1 | h1
    · exact ⟨(hpre h h1).1, (hpre h h1).2.1⟩
    · subst h1; exact ⟨hn.1, hc.1⟩
    · exact ⟨(hpost h h1).1, (hpost h h1).2.1⟩
  have hfr := blockFraming_chunked pre post n v p._chunked (-1) hpre hpost hn.2 hc.2
  obtain ⟨q1, w1, hq1, hm1, hch1, hcl1, hat1⟩ :=
    walk_head mem (b + s) st (pre ++ (n, v) :: post) hst hm hv hh
      (by rw [hfr]; exact Or.inr rfl) hat (by omega)
  rw [hfr] at hch1 hcl1
  simp only at hch1 hcl1
  have hsafe : Safe q1 := by
    intro hsc
    have := hsc.2.2.1
    rw [hch1] at this
    cases this
  have w2 := w1.concat (walk_CONTENT_BEGIN_chunked mem (b + s) hq1 hch1 hsafe (by omega))
  obtain ⟨q3, w3, hr3, hat3⟩ := walk_chunks mem (b + s) chunks
    { q1 with _state := HttpParserState.CONTENT_CHUNK_SIZE_BEGIN } _ _ (Or.inl rfl) hok hat1
    (by omega)
  obtain ⟨q4, w4, hq4⟩ := walk_chunk_bad mem (b + s) hr3 hbad hcr hat3 (by omega)
  have hw := (w2.concat w3).concat w4
  simp only [headEvents, blockEvents_chunked pre post n v hpre hpost hn.2 hc.2] at hw
  have hwf : WF p := wf_of_state (Or.inr hst)
  refine ⟨_, parse_of_walk_error hwf hw hq4, by simp, ?_, hq4⟩
  show b + (messageHead st (pre ++ (n, v) :: post)).length + (chunksText chunks).length +
    hex.length + 2 + data.length - b = _
  omega

theorem c27_witness :
    (HttpParser.new HttpParseMode.REQUEST)._state = HttpParserState.MESSAGE_BEGIN ∧
    (StartLine.request (bytes "GET") (bytes "/") HttpVersion.VERSION_0_9).Valid ∧
    (TokenStr (bytes "Transfer-Encoding") ∧
      iequals (bytes "Transfer-Encoding") strTransferEncoding = true) ∧
    (ValueStr (bytes "chunked") ∧ iequals (bytes "chunked") strChunked = true) ∧
    ChunkOk (bytes "6", bytes "123456") ∧ 48 ≠ CR ∧
    ∃ r, parseFragment
        (bytes "GET / HTTP/0.9\r\nTransfer-Encoding: chunked\r\n\r\n6\r\n1234560\r\n\r\n")
        ⟨0, 60⟩ (HttpParser.new HttpParseMode.REQUEST) = some r ∧
      r.events = [Event.onMessageBeginRequest (bytes "GET") (bytes "/") HttpVersion.VERSION_0_9,
        Event.onMessageHeaderEnd, Event.onMessageContent (bytes "123456"),
        Event.onProtocolError] ∧
      r.n = 55 ∧ r.p._state = HttpParserState.PROTOCOL_ERROR :=
  ⟨rfl, by decide, by decide, by decide, by decide, by decide,
    c27_chunk_data_needs_crlf
      (bytes "GET / HTTP/0.9\r\nTransfer-Encoding: chunked\r\n\r\n6\r\n1234560\r\n\r\n") 0 60
      (HttpParser.new HttpParseMode.REQUEST)
      (StartLine.request (bytes "GET") (bytes "/") HttpVersion.VERSION_0_9) [] []
      (bytes "Transfer-Encoding") (bytes "chunked") [] (bytes "6") (bytes "123456") 48
      (bytes "\r\n\r\n") rfl rfl (by decide) (by simp) (by simp) (by decide) (by decide)
      (by simp) (by decide) (by decide) ⟨[], by decide⟩ (by decide)⟩

/-- **C28**, the code at the failing input.  In `RESPONSE` mode the response
`"HTTP/1.1 200 OK\r\n\r\nbody"` fed as the fragments of 19 and 4 bytes ends at the cut: the
first call invokes `onMessageEnd` after `onMessageHeaderEnd` (the test after the loop is
`_mode != MESSAGE`, which holds for `RESPONSE`), and the second call, on the body bytes,
reports `onProtocolError` and returns 0.  The same bytes in a single call are handed over as
one `onMessageContent` with no `onMessageEnd`; in `MESSAGE` mode the cut makes no
difference and the body fragment is delivered whole. -/
theorem c28_response_ends_at_fragment_boundary :
    (parseFragment bufResponseBody ⟨0, 19⟩ (HttpParser.new HttpParseMode.RESPONSE)).map
        (fun r => (r.events, r.n, r.p._state)) =
      some ([Event.onMessageBeginResponse HttpVersion.VERSION_1_1 200 (bytes "OK"),
        Event.onMessageHeaderEnd, Event.onMessageEnd], 19, HttpParserState.MESSAGE_BEGIN) ∧
    (feed bufResponseBody 0 [19, 4] (HttpParser.new HttpParseMode.RESPONSE)).map
        (fun r => (r.events, r.n, r.p._state)) =
      some ([Event.onMessageBeginResponse HttpVersion.VERSION_1_1 200 (bytes "OK"),
        Event.onMessageHeaderEnd, Event.onMessageEnd, Event.onProtocolError], 19,
        HttpParserState.PROTOCOL_ERROR) ∧
    (parseFragment bufResponseBody ⟨0, 23⟩ (HttpParser.new HttpParseMode.RESPONSE)).map
        (fun r => (r.events, r.n, r.p._state)) =
      some ([Event.onMessageBeginResponse HttpVersion.VERSION_1_1 200 (bytes "OK"),
        Event.onMessageHeaderEnd, Event.onMessageContent (bytes "body")], 23,
        HttpParserState.CONTENT_ENDLESS) ∧
    (feed bufMessageBody 0 [12, 4] (HttpParser.new HttpParseMode.MESSAGE)).map
        (fun r => (r.events, r.n, r.p._state)) =
      some ([Event.onMessageBegin, Event.onMessageHeader (bytes "Foo") (bytes "bar"),
        Event.onMessageHeaderEnd, Event.onMessageContent (bytes "body")], 16,
        HttpParserState.CONTENT_ENDLESS) := by
  decide

/-- **C29**.  For every parser a caller can hold: (1) a `parseFragment` call returns and
leaves `bytesReceived` increased by exactly the returned count; (2) so does every sequence of
calls, for the sum of the returned counts, whatever message boundaries lie in between;
(3) `reset()` sets the counter to 0, the only operation that can lower it; (4) hence after
`reset()`, and (5) after construction, the counter equals the sum of the values returned since
then.  (The `size_t` counter is modelled without wrap-around.) -/
theorem c29_bytes_received_counts_returns (p : HttpParser) (hp : Reachable p)
    (mem : List Nat) (chunk : View) (calls : List (List Nat × View)) (mode : HttpParseMode) :
    (∃ r, parseFragment mem chunk p = some r ∧
      r.p._bytesReceived = p._bytesReceived + r.n) ∧
    (∃ r, parseAll calls p = some r ∧ r.p._bytesReceived = p._bytesReceived + r.n) ∧
    p.reset._bytesReceived = 0 ∧
    (∃ r, parseAll calls p.reset = some r ∧ r.p._bytesReceived = r.n) ∧
    (∃ r, parseAll calls (HttpParser.new mode) = some r ∧ r.p._bytesReceived = r.n) := by
  have hwf := hp.invariant
  refine ⟨?_, parseAll_bytes calls p hwf, rfl, ?_, ?_⟩
  · obtain ⟨r, h1, _, h2⟩ := parseFragment_bytes mem chunk hwf
    exact ⟨r, h1, h2⟩
  · obtain ⟨r, h1, h2⟩ := parseAll_bytes calls p.reset (Reachable.reset hp).invariant
    refine ⟨r, h1, ?_⟩
    rw [h2]
    show 0 + r.n = r.n
    omega
  · obtain ⟨r, h1, h2⟩ := parseAll_bytes calls (HttpParser.new mode) (new_WF mode)
    refine ⟨r, h1, ?_⟩
    rw [h2]
    show 0 + r.n = r.n
    omega

theorem c29_witness :
    Reachable (HttpParser.new HttpParseMode.REQUEST) ∧
    ∃ r, parseAll [(bytes "GET / HT", ⟨0, 8⟩), (bytes "TP/1.1\r\n\r\nGET", ⟨0, 13⟩)]
        (HttpParser.new HttpParseMode.REQUEST) = some r ∧
      r.p._bytesReceived = (HttpParser.new HttpParseMode.REQUEST)._bytesReceived + r.n :=
  ⟨Reachable.new _,
    (c29_bytes_received_counts_returns (HttpParser.new HttpParseMode.REQUEST)
      (Reachable.new _) [] ⟨0, 0⟩
      [(bytes "GET / HT", ⟨0, 8⟩), (bytes "TP/1.1\r\n\r\nGET", ⟨0, 13⟩)]
      HttpParseMode.REQUEST).2.1⟩

/-- **C30**.  For every mode and every sequence of `parseFragment` calls on a new parser, the
calls all return and the hooks invoked, in order, form a concatenation of complete groups
(one start event, header events, one `onMessageHeaderEnd`, content events, one
`onMessageEnd`) followed by one last group that may be cut short at any point and that alone
may end with `onProtocolError`.  The log is moreover accepted by the automaton `phaseRun`,
which admits a header event only between a start event and the header-end, a content event
and `onMessageEnd` only after the header-end of the same group, and nothing after
`onProtocolError`; the phase it ends in is the phase of the state the parser is left in. -/
theorem c30_events_form_message_groups (mode : HttpParseMode)
    (calls : List (List Nat × View)) :
    ∃ r, parseAll calls (HttpParser.new mode) = some r ∧ GroupedLog r.events ∧
      phaseRun Phase.idle r.events = some (phaseOf r.p._state) := by
  obtain ⟨r, hr, hph⟩ := parseAll_phase calls (HttpParser.new mode) (new_WF mode)
  have hph' : phaseRun Phase.idle r.events = some (phaseOf r.p._state) := hph
  exact ⟨r, hr, groupedLog_of_shape (shape_of_phaseRun _ _ hph'), hph'⟩

/-- **C31**, the code at the failing input.  `REQUEST_ENTITY_BEGIN` accepts any printable
character as the first byte of the entity, SP included (`std::isprint(' ')` holds).  The
request line `"GET  / HTTP/1.1"` with two spaces after the method is announced with the
entity `" /"`, and `"GET   HTTP/1.1"` with three spaces with the entity `" "`: both entities
hold an SP byte. -/
theorem c31_entity_may_start_with_space :
    (parseFragment bufTwoSpaces ⟨0, 19⟩ (HttpParser.new HttpParseMode.REQUEST)).map
        (fun r => r.events) =
      some [Event.onMessageBeginRequest (bytes "GET") (bytes " /") HttpVersion.VERSION_1_1,
        Event.onMessageHeaderEnd, Event.onMessageEnd] ∧
    (parseFragment bufThreeSpaces ⟨0, 18⟩ (HttpParser.new HttpParseMode.REQUEST)).map
        (fun r => r.events) =
      some [Event.onMessageBeginRequest (bytes "GET") (bytes " ") HttpVersion.VERSION_1_1,
        Event.onMessageHeaderEnd, Event.onMessageEnd] ∧
    SP ∈ bytes " /" ∧ SP ∈ bytes " " := by
  decide

/-- **C32**.  A `Content-Length` header (name in any case) whose value holds a byte that is not
a decimal digit: (1) `parseInt` gives `-1`, the value `_contentLength` has when no length is
set; (2) the iteration that completes the header stores `-1`, invokes exactly
`onMessageHeader(name, value)`, no `onProtocolError`, and goes on with the next header line;
(3) a message with a valid first line that carries this header among headers that do not
frame the body is read like a message without `Content-Length`: every header is forwarded,
`onMessageHeaderEnd` follows, and then the hooks of a message with no length set, which for
a request is `onMessageEnd` at once (no body). -/
theorem c32_malformed_content_length_is_unset (n v : List Nat)
    (hn : sameIgnoringCase n strContentLength) (hv : ¬ DigitStr v) :
    (parseInt v = -1 ∧ ∀ mode, (HttpParser.new mode)._contentLength = -1) ∧
    (∀ (mem : List Nat) (e : Nat) (p : HttpParser) (i : Nat),
      p._state = HttpParserState.HEADER_VALUE_END → p._name.read mem = n →
      p._value.read mem = v →
      step mem e p i =
        (⟨{ p with _contentLength := -1, _name := ⟨0, 0⟩, _value := ⟨0, 0⟩,
                   _state := HttpParserState.HEADER_NAME_BEGIN }, i,
          [Event.onMessageHeader n v]⟩, false)) ∧
    (∀ (mem : List Nat) (b s : Nat) (p : HttpParser) (st : StartLine)
      (pre post : List (List Nat × List Nat)) (rest : List Nat),
      p._state = HttpParserState.MESSAGE_BEGIN → p._mode = st.mode → p._chunked = false →
      st.Valid → (∀ h ∈ pre, OtherHeader h) → (∀ h ∈ post, OtherHeader h) → ValueStr v →
      At mem b (messageHead st (pre ++ (n, v) :: post) ++ rest) →
      (messageHead st (pre ++ (n, v) :: post)).length ≤ s →
      ∃ r, parseFragment mem ⟨b, s⟩ p = some r ∧
        r.events = st.events ++
          ((pre ++ (n, v) :: post).map (fun h => Event.onMessageHeader h.1 h.2) ++
            Event.onMessageHeaderEnd ::
              bodyTail st.mode mem (b + (messageHead st (pre ++ (n, v) :: post)).length)
                (b + s)) ∧
        r.n = (if st.mode = HttpParseMode.REQUEST
          then (messageHead st (pre ++ (n, v) :: post)).length else s)) := by
  have hpi : parseInt v = -1 := parseIntLoop_bad v 0 hv
  have hcl : iequals n strContentLength = true := (iequals_iff _ _).2 hn
  refine ⟨⟨hpi, fun _ => rfl⟩, ?_, ?_⟩
  · intro mem e p i hs hrn hrv
    simp only [step, hs, caseHeaderValueEnd, hrn, hrv, hcl, hpi, if_true]
  · intro mem b s p st pre post rest hst hm hch hval hpre hpost hvs hat hle
    have hh : ∀ h ∈ pre ++ (n, v) :: post, TokenStr h.1 ∧ ValueStr h.2 := by
      intro h hmem
      simp only [List.mem_append, List.mem_cons] at hmem
      rcases hmem with h1 | h1 | h1
      · exact ⟨(hpre h h1).1, (hpre h h1).2.1⟩
      · subst h1; exact ⟨tokenStr_of_contentLength hn, hvs⟩
      · exact ⟨(hpost h h1).1, (hpost h h1).2.1⟩
    have hlen : (messageHead st (pre ++ (n, v) :: post)).length =
        st.text.length + (headerBlock (pre ++ (n, v) :: post)).length + 2 := by
      simp [messageHead]; omega
    have hat1 : At mem b (st.text ++ (headerBlock (pre ++ (n, v) :: post) ++
        CR :: LF :: rest)) := by
      simpa [messageHead] using hat
    obtain ⟨q, w, hq, hqm, hqc, hql, hat2⟩ :=
      walk_lines mem (b + s) st (pre ++ (n, v) :: post) hst hm hval hh hat1
        (by decide) (by decide) (by omega)
    rw [blockFraming_length pre post n v _ _ hpre hpost hcl] at hqc hql
    rw [blockEvents_length pre post n v hpre hpost hcl] at w
    obtain ⟨r, hr, hev, hrn⟩ := parse_after_headers (wf_of_state (Or.inr hst)) w hq
      (hqc.trans hch) (hql.trans hpi) hat2 (by omega) (by omega)
    refine ⟨r, hr, ?_, ?_⟩
    · rw [hev, hqm, hm, hlen]
      simp [Nat.add_assoc]
    · rw [hrn, hqm, hm, hlen]
      split_ifs
      · omega
      · rfl

theorem c32_witness :
    sameIgnoringCase (bytes "Content-length") strContentLength ∧ ¬ DigitStr (bytes "12x") ∧
    ∃ r, parseFragment (bytes "POST /up HTTP/1.1\r\nContent-length: 12x\r\n\r\nabc") ⟨0, 45⟩
        (HttpParser.new HttpParseMode.REQUEST) = some r ∧
      r.events = [Event.onMessageBeginRequest (bytes "POST") (bytes "/up")
          HttpVersion.VERSION_1_1,
        Event.onMessageHeader (bytes "Content-length") (bytes "12x"),
        Event.onMessageHeaderEnd, Event.onMessageEnd] ∧
      r.n = 42 :=
  ⟨by decide, by decide,
    (c32_malformed_content_length_is_unset (bytes "Content-length") (bytes "12x")
      (by decide) (by decide)).2.2
      (bytes "POST /up HTTP/1.1\r\nContent-length: 12x\r\n\r\nabc") 0 45
      (HttpParser.new HttpParseMode.REQUEST)
      (StartLine.request (bytes "POST") (bytes "/up") HttpVersion.VERSION_1_1) [] []
      (bytes "abc") rfl rfl rfl (by decide) (by simp) (by simp) (by decide)
      ⟨[], by decide⟩ (by decide)⟩

/-- **C33**.  `parseInt(s)` is the decimal value of `s` when every byte of `s` is an ASCII
digit and `-1` otherwise, that is as soon as `s` holds a byte that is not a digit; the result
is `-1` or not negative.  The empty string gives 0, leading zeros are allowed, and a sign, a
leading space or a trailing blank give `-1`.  (`ssize_t` is modelled without overflow.) -/
theorem c33_parseInt_decimal_or_invalid (s : List Nat) :
    parseInt s = (if DigitStr s then decimalValue s else -1) ∧
    (parseInt s = -1 ∨ 0 ≤ parseInt s) ∧
    parseInt [] = 0 ∧ parseInt (bytes "007") = 7 ∧ parseInt (bytes "1234567890") = 1234567890 ∧
    parseInt (bytes "-5") = -1 ∧ parseInt (bytes "+5") = -1 ∧ parseInt (bytes " 5") = -1 ∧
    parseInt (bytes "5 ") = -1 ∧ parseInt (bytes "5\t") = -1 ∧ parseInt (bytes "1x2") = -1 := by
  refine ⟨?_, ?_, by decide, by decide, by decide, by decide, by decide, by decide, by decide,
    by decide, by decide⟩
  · by_cases h : DigitStr s
    · simp only [h, if_true]
      exact parseIntLoop_digits s 0 h
    · simp only [h, if_false]
      exact parseIntLoop_bad s 0 h
  · by_cases h : DigitStr s
    · exact Or.inr (parseIntLoop_nonneg s 0 h (le_refl _))
    · exact Or.inl (parseIntLoop_bad s 0 h)

/-- **C34**.  `isToken(c)` holds exactly when `c` is a 7-bit character (at most 127) that is
not a control character (`0..31` or 127) and not one of the 19 separators; no octet from 128
on is a token character. -/
theorem c34_isToken_characterised (c : Nat) :
    (isToken c = true ↔ (c ≤ 127 ∧ ¬ (c ≤ 31 ∨ c = 127) ∧ c ∉ separators)) ∧
    separators.length = 19 ∧ separators.Nodup ∧ isToken (128 + c) = false := by
  refine ⟨?_, by decide, by decide, ?_⟩
  · simp only [isToken, isChar, isControl, isSeparator, separators, SP, HT, Bool.and_eq_true,
      Bool.not_eq_true', Bool.or_eq_false_iff, decide_eq_true_eq, decide_eq_false_iff_not,
      beq_eq_false_iff_ne, ne_eq, List.mem_cons, List.mem_singleton, not_or, Bool.or_eq_true,
      beq_iff_eq, List.not_mem_nil, or_false]
    constructor
    · rintro ⟨h1, h2, h3⟩
      refine ⟨h1, ?_, ?_⟩ <;> simp_all
    · rintro ⟨h1, h2, h3⟩
      refine ⟨h1, ?_, ?_⟩ <;> simp_all
  · have h : ¬ 128 + c ≤ 127 := by omega
    simp [isToken, isChar, h]

/-- **C35**.  `isText(c)` holds exactly when `c` is not a control character (`0..31` or 127)
or is SP or HT: CR and LF are not text, HT and SP are, and every octet from 128 on is. -/
theorem c35_isText_characterised (c : Nat) :
    (isText c = true ↔ (¬ (c ≤ 31 ∨ c = 127) ∨ c = SP ∨ c = HT)) ∧
    isText CR = false ∧ isText LF = false ∧ isText HT = true ∧ isText SP = true ∧
    isText (128 + c) = true := by
  refine ⟨?_, by decide, by decide, by decide, by decide, ?_⟩
  · simp [isText, isControl, SP, HT, or_assoc]
  · simp [isText, isControl]
    omega

/-- **C36**, the code at the failing input.  `REQUEST_PROTOCOL_VERSION_MAJOR` accepts the dot
and `REQUEST_PROTOCOL_VERSION_MINOR` accepts the CR without having read a digit, and the
missing number counts as 0.  The request line `"GET / HTTP/1."` is announced as version 1.0 and
`"GET / HTTP/.9"` as version 0.9, with no `onProtocolError`. -/
theorem c36_empty_version_part_accepted :
    (parseFragment bufEmptyVersionPart ⟨0, 17⟩ (HttpParser.new HttpParseMode.REQUEST)).map
        (fun r => (r.events, r.n)) =
      some ([Event.onMessageBeginRequest (bytes "GET") (bytes "/") HttpVersion.VERSION_1_0,
        Event.onMessageHeaderEnd, Event.onMessageEnd], 17) ∧
    (parseFragment bufEmptyVersionPart ⟨17, 17⟩ (HttpParser.new HttpParseMode.REQUEST)).map
        (fun r => (r.events, r.n)) =
      some ([Event.onMessageBeginRequest (bytes "GET") (bytes "/") HttpVersion.VERSION_0_9,
        Event.onMessageHeaderEnd, Event.onMessageEnd], 17) := by
  decide

/-- **C37**.  For every parser a caller can hold and every fragment, `parseFragment` returns a
count that is at most the size of the fragment, and every payload handed to
`onMessageContent` during the call is the content of a range of the fragment that ends at or
before the returned count.  Inside the loop, for every parser that satisfies the invariant
`WF` (every parser met there does), an iteration started before the end of the fragment
leaves the scan pointer at or after where it was and at or before the end of the fragment. -/
theorem c37_count_and_content_within_fragment (p : HttpParser) (hp : Reachable p)
    (mem : List Nat) (chunk : View) :
    (∃ r, parseFragment mem chunk p = some r ∧ r.n ≤ chunk.size ∧
      ∀ c, Event.onMessageContent c ∈ r.events →
        ∃ off len, off + len ≤ r.n ∧ c = View.read mem ⟨chunk.data + off, len⟩) ∧
    (∀ (q : HttpParser) (i : Nat), WF q → chunk.data ≤ i → i < chunk.data + chunk.size →
      i ≤ (step mem (chunk.data + chunk.size) q i).1.i ∧
        (step mem (chunk.data + chunk.size) q i).1.i ≤ chunk.data + chunk.size) := by
  constructor
  · obtain ⟨r, hr, hn, hcw⟩ := parseFragment_within mem chunk hp.invariant
    refine ⟨r, hr, hn, ?_⟩
    intro c hc
    obtain ⟨j, k, hj, hjk, hck⟩ := hcw c hc
    refine ⟨j - chunk.data, k, by omega, ?_⟩
    rw [hck]
    congr 2
    omega
  · intro q i hwf _ hlt
    rcases hstep : step mem (chunk.data + chunk.size) q i with ⟨l, d⟩
    obtain ⟨h1, h2, _⟩ := step_progress hwf (by omega) (by omega) hstep
    exact ⟨h1, h2⟩

theorem c37_witness :
    Reachable (HttpParser.new HttpParseMode.MESSAGE) ∧
    ∃ r, parseFragment bufLength2 ⟨0, 23⟩ (HttpParser.new HttpParseMode.MESSAGE) = some r ∧
      r.n ≤ 23 ∧
      ∀ c, Event.onMessageContent c ∈ r.events →
        ∃ off len, off + len ≤ r.n ∧ c = View.read bufLength2 ⟨0 + off, len⟩ :=
  ⟨Reachable.new _,
    (c37_count_and_content_within_fragment (HttpParser.new HttpParseMode.MESSAGE)
      (Reachable.new _) bufLength2 ⟨0, 23⟩).1⟩

/-- **C38**.  For every parser a caller can hold and every fragment, `parseFragment` returns:
its loop ends within `4 * size + 4` iterations.  Inside the loop, for every parser that
satisfies the invariant `WF` (every parser met there does) and every pointer `i` up to the
end `e` of the fragment: an iteration consumes at least one byte, or leaves the loop, or
changes the state without consuming; iterations in a row that neither consume nor leave are
at most three; and the loop ends within `4 * (e - i) + 4` iterations. -/
theorem c38_parseFragment_terminates (p : HttpParser) (hp : Reachable p) (mem : List Nat)
    (chunk : View) :
    (∃ r, parseFragment mem chunk p = some r) ∧
    (∃ r, loop mem (chunk.data + chunk.size) (4 * chunk.size + 4) p chunk.data = some r) ∧
    (∀ (q : HttpParser) (i e : Nat), WF q → i ≤ e →
      (i ≠ e → i < (step mem e q i).1.i ∨ (step mem e q i).2 = true ∨
        ((step mem e q i).1.i = i ∧ (step mem e q i).1.p._state ≠ q._state)) ∧
      (∀ (n : Nat) (q' : HttpParser), iterate mem e n q i = some (q', i) → n ≤ 3) ∧
      (∃ r, loop mem e (4 * (e - i) + 4) q i = some r)) := by
  have hwf := hp.invariant
  refine ⟨?_, ?_, ?_⟩
  · obtain ⟨l, d, _, hpf⟩ := parseFragment_run mem (b := chunk.data) (s := chunk.size) hwf
    exact ⟨_, hpf⟩
  · exact loop_total mem _ p chunk.data hwf (Nat.le_add_right _ _)
      (by have := rank_le p; omega)
  · intro q i e hq hie
    refine ⟨fun hne => step_kinds mem e hq (by omega), ?_, ?_⟩
    · intro n q' h
      have h1 := iterate_stall mem e n q i q' hq hie h
      have h2 := rank_le q
      omega
    · exact loop_total mem _ q i hq hie (by have := rank_le q; omega)

theorem c38_witness :
    Reachable (HttpParser.new HttpParseMode.REQUEST) ∧
    (∃ r, parseFragment bufSimpleGet ⟨0, 7⟩ (HttpParser.new HttpParseMode.REQUEST) = some r) ∧
    (iterate [58] 1 3 exAtFoldStart 0).map (fun r => (r.1._state, r.2)) =
      some (HttpParserState.PROTOCOL_ERROR, 0) ∧
    iterate [58] 1 4 exAtFoldStart 0 = none :=
  ⟨Reachable.new _,
    (c38_parseFragment_terminates (HttpParser.new HttpParseMode.REQUEST) (Reachable.new _)
      bufSimpleGet ⟨0, 7⟩).1,
    by decide, by decide⟩

/-- **C39**.  For every parser obtained from a new one by `parseFragment` and `reset()` calls,
`parseFragment` on the empty fragment returns 0, invokes no hook and leaves every field of
the parser as it was.  Such a parser never rests in `CONTENT_BEGIN` with the conditions of
the test after the loop met (no length, not chunked, mode other than `MESSAGE`), so that test
does not fire on an empty fragment. -/
theorem c39_empty_fragment_is_no_op (p : HttpParser) (hp : Reachable p) (mem : List Nat)
    (b : Nat) :
    parseFragment mem ⟨b, 0⟩ p = some ⟨p, [], 0⟩ ∧ ¬ shortcut p := by
  have hsafe := hp.safe
  refine ⟨?_, hsafe⟩
  have hrun : Run Safe mem (b + 0) p b ⟨p, b, []⟩ false := Run.exit p hsafe
  rw [parseFragment_of_run hp.invariant hrun]
  simp [resultOf, afterLoop_of_safe hsafe]

theorem c39_witness :
    Reachable exRestingAtBody ∧ exRestingAtBody._state = HttpParserState.CONTENT_BEGIN ∧
    parseFragment [] ⟨0, 0⟩ exRestingAtBody = some ⟨exRestingAtBody, [], 0⟩ :=
  ⟨Reachable.parse bufMessageBody ⟨0, 12⟩
      ⟨exRestingAtBody, [Event.onMessageBegin,
        Event.onMessageHeader (bytes "Foo") (bytes "bar"), Event.onMessageHeaderEnd], 12⟩
      (Reachable.new HttpParseMode.MESSAGE) (by decide),
    by decide,
    (c39_empty_fragment_is_no_op exRestingAtBody
      (Reachable.parse bufMessageBody ⟨0, 12⟩
        ⟨exRestingAtBody, [Event.onMessageBegin,
          Event.onMessageHeader (bytes "Foo") (bytes "bar"), Event.onMessageHeaderEnd], 12⟩
        (Reachable.new HttpParseMode.MESSAGE) (by decide)) [] 0).1⟩

/-- **C40**, the code at the failing input.  `CONTENT_CHUNK_LF2` continues in
`CONTENT_CHUNK_SIZE`, not in `CONTENT_CHUNK_SIZE_BEGIN`, with the count at 0, and
`CONTENT_CHUNK_SIZE` accepts a CR at once.  After the chunk `6 CR LF 123456 CR LF` the empty
size line `CR LF` followed by `CR LF` ends the message with `onMessageEnd` and no
`onProtocolError`, all 61 bytes consumed.  In front of the first chunk the same empty size
line is rejected: `onProtocolError` at the CR, 46 bytes consumed. -/
theorem c40_empty_size_line_ends_later_chunk :
    (parseFragment bufEmptySizeLater ⟨0, 61⟩ (HttpParser.new HttpParseMode.REQUEST)).map
        (fun r => (r.events, r.n, r.p._state)) =
      some ([Event.onMessageBeginRequest (bytes "GET") (bytes "/") HttpVersion.VERSION_1_1,
        Event.onMessageHeaderEnd, Event.onMessageContent (bytes "123456"),
        Event.onMessageEnd], 61, HttpParserState.MESSAGE_BEGIN) ∧
    (parseFragment bufEmptySizeFirst ⟨0, 50⟩ (HttpParser.new HttpParseMode.REQUEST)).map
        (fun r => (r.events, r.n, r.p._state)) =
      some ([Event.onMessageBeginRequest (bytes "GET") (bytes "/") HttpVersion.VERSION_1_1,
        Event.onMessageHeaderEnd, Event.onProtocolError], 46,
        HttpParserState.PROTOCOL_ERROR) := by
  decide

end HttpMessageParser
